import Mathlib

/-!
Red-black tree map: a pointer-level model of `internal/rbtree/RB_tree_map.go`, and the
properties of its public operations.

The Go program stores nodes on the heap and links them by pointers (with parent
back-references and one shared sentinel node).  The model keeps that structure:

* a pointer is a heap address, a natural number; `0` is Go's `nil`;
* the heap is a total function from pointers to nodes, together with a bump
  allocation counter (`&Node{...}` returns the next unused address);
* every field access goes through `getX` / `setX`, which fault on `nil`;
* every `for` loop is a recursive function with an iteration budget (`fuel`);
  running out of budget is reported as `Res.timeout`, never as a result;
* keys are of a type on which Go's `==` is an equality (integers, strings); a floating-point
  NaN, which `==` tells apart from itself, is outside the model;
* `size` is Go's `int`, modelled without wrap-around: it counts the stored nodes.

The heap is related to trees that carry their addresses (`Rep`, `Shape`, `Inv`); every
operation is shown to compute, on the heap, a function on such trees (`insertT`, `removeT`,
`getT`, `boundT`), and the properties of the operations are read off these functions.

For the statements about single iterations, the loops of `fixInsert` and `fixDelete` are
also given one pass at a time (`fixInsertBody`, `fixDeleteBody`, from which the loops and the
step functions `fixInsertStep`, `fixDeleteStep` are both obtained).  For the behaviour with a
missing ordering predicate, `NewWithCompare`, `Insert` and `Get` are given once more with
the predicate as a func value that may be nil (`RBTreeMapN`, `callCompare`).
-/

namespace RB

/-- Source: `type color bool` with `BLACK = false`, `RED = true`. -/
inductive color where
  | BLACK
  | RED
deriving DecidableEq

open color

/-- Source: `type Node[K, V] struct`. -/
structure Node (K V : Type) where
  key : K
  value : V
  color : RB.color
  parent : Nat
  left : Nat
  right : Nat

/-- Source: `type RBTreeMap[K, V] struct`, together with the heap it points into
(`mem`, `next`).  `size` is Go's `int`. -/
structure RBTreeMap (K V : Type) where
  mem : Nat → Node K V
  next : Nat
  root : Nat
  sentinel : Nat
  size : Int
  compare : K → K → Bool

/-- Outcome of running a piece of the program: a value, a nil-pointer dereference,
or an exhausted loop budget. -/
inductive Res (α : Type) where
  | ok (a : α)
  | fault
  | timeout
deriving DecidableEq

/-- Sequencing of outcomes. -/
def Res.bind {α β : Type} : Res α → (α → Res β) → Res β
  | .ok a, f => f a
  | .fault, _ => .fault
  | .timeout, _ => .timeout

instance : Monad Res where
  pure := Res.ok
  bind := Res.bind

/-- Whether a run produced a value. -/
def Res.isOk {α : Type} : Res α → Bool
  | .ok _ => true
  | _ => false

/-- The produced value, or a fallback. -/
def Res.getD {α : Type} : Res α → α → α
  | .ok a, _ => a
  | _, d => d

/-- Heap update at one address. -/
def upd {K V : Type} (m : Nat → Node K V) (a : Nat) (n : Node K V) : Nat → Node K V :=
  fun p => if p = a then n else m p

variable {K V : Type}

/-- Source: `func less[K cmp.Ordered](a, b K) bool { return a < b }`. -/
def less [LinearOrder K] (a b : K) : Bool := decide (a < b)

/-- A zero-valued node (`Node[K, V]{}`): zero key and value, colour `false`, nil links. -/
def zeroNode [Inhabited K] [Inhabited V] : Node K V :=
  { key := default, value := default, color := BLACK, parent := 0, left := 0, right := 0 }

/-- Allocation `&Node{...}`: the node is stored at the next unused address. -/
def alloc (r : RBTreeMap K V) (n : Node K V) : Nat × RBTreeMap K V :=
  (r.next, { r with mem := upd r.mem r.next n, next := r.next + 1 })

namespace RBTreeMap

/-- Read of `p.key`. -/
def getKey (r : RBTreeMap K V) (p : Nat) : Res K :=
  if p = 0 then .fault else .ok (r.mem p).key

/-- Read of `p.value`. -/
def getValue (r : RBTreeMap K V) (p : Nat) : Res V :=
  if p = 0 then .fault else .ok (r.mem p).value

/-- Read of `p.color`. -/
def getColor (r : RBTreeMap K V) (p : Nat) : Res RB.color :=
  if p = 0 then .fault else .ok (r.mem p).color

/-- Read of `p.parent`. -/
def getParent (r : RBTreeMap K V) (p : Nat) : Res Nat :=
  if p = 0 then .fault else .ok (r.mem p).parent

/-- Read of `p.left`. -/
def getLeft (r : RBTreeMap K V) (p : Nat) : Res Nat :=
  if p = 0 then .fault else .ok (r.mem p).left

/-- Read of `p.right`. -/
def getRight (r : RBTreeMap K V) (p : Nat) : Res Nat :=
  if p = 0 then .fault else .ok (r.mem p).right

/-- Write `p.value = v`. -/
def setValue (r : RBTreeMap K V) (p : Nat) (v : V) : Res (RBTreeMap K V) :=
  if p = 0 then .fault else .ok { r with mem := upd r.mem p { r.mem p with value := v } }

/-- Write `p.color = c`. -/
def setColor (r : RBTreeMap K V) (p : Nat) (c : RB.color) : Res (RBTreeMap K V) :=
  if p = 0 then .fault else .ok { r with mem := upd r.mem p { r.mem p with color := c } }

/-- Write `p.parent = q`. -/
def setParent (r : RBTreeMap K V) (p q : Nat) : Res (RBTreeMap K V) :=
  if p = 0 then .fault else .ok { r with mem := upd r.mem p { r.mem p with parent := q } }

/-- Write `p.left = q`. -/
def setLeft (r : RBTreeMap K V) (p q : Nat) : Res (RBTreeMap K V) :=
  if p = 0 then .fault else .ok { r with mem := upd r.mem p { r.mem p with left := q } }

/-- Write `p.right = q`. -/
def setRight (r : RBTreeMap K V) (p q : Nat) : Res (RBTreeMap K V) :=
  if p = 0 then .fault else .ok { r with mem := upd r.mem p { r.mem p with right := q } }

end RBTreeMap

/-- Source: `NewWithCompare`.  The sentinel is a fresh zero-valued node coloured BLACK;
the tree starts with `root = sentinel` and `size = 0`. -/
def NewWithCompare [Inhabited K] [Inhabited V] (compare : K → K → Bool) : RBTreeMap K V :=
  let nilNode : Node K V := { (zeroNode : Node K V) with color := BLACK }
  { mem := upd (fun _ => zeroNode) 1 nilNode
    next := 2
    root := 1
    sentinel := 1
    size := 0
    compare := compare }

/-- Source: `New`; the ordering is `less`. -/
def New [LinearOrder K] [Inhabited K] [Inhabited V] : RBTreeMap K V :=
  NewWithCompare less

/-- Source: `Size`. -/
def Size (r : RBTreeMap K V) : Int := r.size

/-- The loop of `search`: `for current != r.sentinel { ... }`. -/
def searchLoop [DecidableEq K] (r : RBTreeMap K V) (key : K) : Nat → Nat → Res Nat
  | 0, _ => .timeout
  | fuel + 1, current =>
    if current ≠ r.sentinel then do
      let ck ← r.getKey current
      if key = ck then
        pure current
      else if r.compare key ck then do
        let l ← r.getLeft current
        searchLoop r key fuel l
      else do
        let rt ← r.getRight current
        searchLoop r key fuel rt
    else
      pure r.sentinel

/-- Source: `search`. -/
def search [DecidableEq K] (fuel : Nat) (r : RBTreeMap K V) (key : K) : Res Nat :=
  searchLoop r key fuel r.root

/-- Source: `rotateLeft`. -/
def rotateLeft (r : RBTreeMap K V) (x : Nat) : Res (RBTreeMap K V) := do
  let y ← r.getRight x
  let yl ← r.getLeft y
  let r ← r.setRight x yl
  let yl ← r.getLeft y
  let r ← (if yl ≠ r.sentinel then r.setParent yl x else pure r)
  let xp ← r.getParent x
  let r ← r.setParent y xp
  let xp ← r.getParent x
  let r ← (if xp = r.sentinel then
      pure { r with root := y }
    else do
      let xpl ← r.getLeft xp
      if x = xpl then r.setLeft xp y else r.setRight xp y)
  let r ← r.setLeft y x
  r.setParent x y

/-- Source: `rotateRight`. -/
def rotateRight (r : RBTreeMap K V) (y : Nat) : Res (RBTreeMap K V) := do
  let x ← r.getLeft y
  let xr ← r.getRight x
  let r ← r.setLeft y xr
  let xr ← r.getRight x
  let r ← (if xr ≠ r.sentinel then r.setParent xr y else pure r)
  let yp ← r.getParent y
  let r ← r.setParent x yp
  let yp ← r.getParent y
  let r ← (if yp = r.sentinel then
      pure { r with root := x }
    else do
      let ypl ← r.getLeft yp
      if y = ypl then r.setLeft yp x else r.setRight yp x)
  let r ← r.setRight x y
  r.setParent y x

/-- Source: `fixInsert`; one unit of `fuel` per iteration of `for node.parent.color == RED`. -/
def fixInsert : Nat → RBTreeMap K V → Nat → Res (RBTreeMap K V)
  | 0, _, _ => .timeout
  | fuel + 1, r, node => do
    let p ← r.getParent node
    let pc ← r.getColor p
    if pc = RED then do
      let pp ← r.getParent p
      let ppl ← r.getLeft pp
      if p = ppl then do
        let uncle ← r.getRight pp
        let uc ← r.getColor uncle
        if uc = RED then do
          let r ← r.setColor p BLACK
          let r ← r.setColor uncle BLACK
          let p ← r.getParent node
          let pp ← r.getParent p
          let r ← r.setColor pp RED
          let p ← r.getParent node
          let pp ← r.getParent p
          fixInsert fuel r pp
        else do
          let pr ← r.getRight p
          let (r, node) ← (if node = pr then do
              let r ← rotateLeft r p
              pure (r, p)
            else pure (r, node))
          let p ← r.getParent node
          let r ← r.setColor p BLACK
          let p ← r.getParent node
          let pp ← r.getParent p
          let r ← r.setColor pp RED
          let p ← r.getParent node
          let pp ← r.getParent p
          let r ← rotateRight r pp
          fixInsert fuel r node
      else do
        let uncle ← r.getLeft pp
        let uc ← r.getColor uncle
        if uc = RED then do
          let r ← r.setColor p BLACK
          let r ← r.setColor uncle BLACK
          let p ← r.getParent node
          let pp ← r.getParent p
          let r ← r.setColor pp RED
          let p ← r.getParent node
          let pp ← r.getParent p
          fixInsert fuel r pp
        else do
          let pl ← r.getLeft p
          let (r, node) ← (if node = pl then do
              let r ← rotateRight r p
              pure (r, p)
            else pure (r, node))
          let p ← r.getParent node
          let r ← r.setColor p BLACK
          let p ← r.getParent node
          let pp ← r.getParent p
          let r ← r.setColor pp RED
          let p ← r.getParent node
          let pp ← r.getParent p
          let r ← rotateLeft r pp
          fixInsert fuel r node
    else
      r.setColor r.root BLACK

/-- The descent loop of `Insert`.  It either returns early after overwriting the value of
a node with an equal key (`Sum.inl`), or ends at the sentinel and hands the last visited
node (`parent`) to the rest of `Insert` (`Sum.inr`). -/
def insertLoop [DecidableEq K] (r : RBTreeMap K V) (key : K) (value : V) :
    Nat → Nat → Nat → Res (RBTreeMap K V ⊕ Nat)
  | 0, _, _ => .timeout
  | fuel + 1, parent, current =>
    if current ≠ r.sentinel then do
      let ck ← r.getKey current
      if key = ck then do
        let r ← r.setValue current value
        pure (Sum.inl r)
      else if r.compare key ck then do
        let l ← r.getLeft current
        insertLoop r key value fuel current l
      else do
        let rt ← r.getRight current
        insertLoop r key value fuel current rt
    else
      pure (Sum.inr parent)

/-- Source: `Insert`. -/
def Insert [DecidableEq K] (fuel : Nat) (key : K) (value : V) (r : RBTreeMap K V) :
    Res (RBTreeMap K V) := do
  match ← insertLoop r key value fuel r.sentinel r.root with
  | Sum.inl r => pure r
  | Sum.inr parent =>
    let (newNode, r) := alloc r
      { key := key, value := value, color := RED, parent := parent,
        left := r.sentinel, right := r.sentinel }
    let r ← (if parent = r.sentinel then
        pure { r with root := newNode }
      else do
        let nk ← r.getKey newNode
        let pk ← r.getKey parent
        if r.compare nk pk then r.setLeft parent newNode else r.setRight parent newNode)
    let r := { r with size := r.size + 1 }
    fixInsert fuel r newNode

/-- Source: `Get`. -/
def Get [DecidableEq K] [Inhabited V] (fuel : Nat) (key : K) (r : RBTreeMap K V) :
    Res (V × Bool) := do
  let node ← search fuel r key
  if node ≠ r.sentinel then do
    let v ← r.getValue node
    pure (v, true)
  else
    pure (default, false)

/-- Source: `ContainsKey`. -/
def ContainsKey [DecidableEq K] (fuel : Nat) (key : K) (r : RBTreeMap K V) : Res Bool := do
  let node ← search fuel r key
  pure (decide (node ≠ r.sentinel))

/-- Source: `minimum`; the loop is `for node.left != r.sentinel`. -/
def minimum (r : RBTreeMap K V) : Nat → Nat → Res Nat
  | 0, _ => .timeout
  | fuel + 1, node => do
    let l ← r.getLeft node
    if l ≠ r.sentinel then minimum r fuel l else pure node

/-- Source: `transplant`. -/
def transplant (r : RBTreeMap K V) (u v : Nat) : Res (RBTreeMap K V) := do
  let up ← r.getParent u
  let r ← (if up = r.sentinel then
      pure { r with root := v }
    else do
      let upl ← r.getLeft up
      if u = upl then r.setLeft up v else r.setRight up v)
  let up ← r.getParent u
  r.setParent v up

/-- Source: `fixDelete`; one unit of `fuel` per iteration of
`for x != r.root && x.color == BLACK`. -/
def fixDelete : Nat → RBTreeMap K V → Nat → Res (RBTreeMap K V)
  | 0, _, _ => .timeout
  | fuel + 1, r, x => do
    let goOn ← (if x ≠ r.root then do
        let xc ← r.getColor x
        pure (decide (xc = BLACK))
      else pure false)
    if goOn then do
      let xp ← r.getParent x
      let xpl ← r.getLeft xp
      if x = xpl then do
        let sibling ← r.getRight xp
        let sc ← r.getColor sibling
        let (r, sibling) ← (if sc = RED then do
            let r ← r.setColor sibling BLACK
            let xp ← r.getParent x
            let r ← r.setColor xp RED
            let xp ← r.getParent x
            let r ← rotateLeft r xp
            let xp ← r.getParent x
            let sibling ← r.getRight xp
            pure (r, sibling)
          else pure (r, sibling))
        let sl ← r.getLeft sibling
        let slc ← r.getColor sl
        let bothBlack ← (if slc = BLACK then do
            let sr ← r.getRight sibling
            let src ← r.getColor sr
            pure (decide (src = BLACK))
          else pure false)
        if bothBlack then do
          let r ← r.setColor sibling RED
          let xp ← r.getParent x
          fixDelete fuel r xp
        else do
          let sr ← r.getRight sibling
          let src ← r.getColor sr
          let (r, sibling) ← (if src = BLACK then do
              let sl ← r.getLeft sibling
              let r ← r.setColor sl BLACK
              let r ← r.setColor sibling RED
              let r ← rotateRight r sibling
              let xp ← r.getParent x
              let sibling ← r.getRight xp
              pure (r, sibling)
            else pure (r, sibling))
          let xp ← r.getParent x
          let xpc ← r.getColor xp
          let r ← r.setColor sibling xpc
          let xp ← r.getParent x
          let r ← r.setColor xp BLACK
          let sr ← r.getRight sibling
          let r ← r.setColor sr BLACK
          let xp ← r.getParent x
          let r ← rotateLeft r xp
          fixDelete fuel r r.root
      else do
        let sibling ← r.getLeft xp
        let sc ← r.getColor sibling
        let (r, sibling) ← (if sc = RED then do
            let r ← r.setColor sibling BLACK
            let xp ← r.getParent x
            let r ← r.setColor xp RED
            let xp ← r.getParent x
            let r ← rotateRight r xp
            let xp ← r.getParent x
            let sibling ← r.getLeft xp
            pure (r, sibling)
          else pure (r, sibling))
        let sr ← r.getRight sibling
        let src ← r.getColor sr
        let bothBlack ← (if src = BLACK then do
            let sl ← r.getLeft sibling
            let slc ← r.getColor sl
            pure (decide (slc = BLACK))
          else pure false)
        if bothBlack then do
          let r ← r.setColor sibling RED
          let xp ← r.getParent x
          fixDelete fuel r xp
        else do
          let sl ← r.getLeft sibling
          let slc ← r.getColor sl
          let (r, sibling) ← (if slc = BLACK then do
              let sr ← r.getRight sibling
              let r ← r.setColor sr BLACK
              let r ← r.setColor sibling RED
              let r ← rotateLeft r sibling
              let xp ← r.getParent x
              let sibling ← r.getLeft xp
              pure (r, sibling)
            else pure (r, sibling))
          let xp ← r.getParent x
          let xpc ← r.getColor xp
          let r ← r.setColor sibling xpc
          let xp ← r.getParent x
          let r ← r.setColor xp BLACK
          let sl ← r.getLeft sibling
          let r ← r.setColor sl BLACK
          let xp ← r.getParent x
          let r ← rotateRight r xp
          fixDelete fuel r r.root
    else
      r.setColor x BLACK

/-- Source: `Remove`. -/
def Remove [DecidableEq K] (fuel : Nat) (key : K) (r : RBTreeMap K V) :
    Res (RBTreeMap K V) := do
  let z ← search fuel r key
  if z = r.sentinel then
    pure r
  else do
    let r := { r with size := r.size - 1 }
    let y := z
    let yOriginalColor ← r.getColor y
    let zl ← r.getLeft z
    let (r, x, yOriginalColor) ← (if zl = r.sentinel then do
        let x ← r.getRight z
        let zr ← r.getRight z
        let r ← transplant r z zr
        pure (r, x, yOriginalColor)
      else do
        let zr ← r.getRight z
        if zr = r.sentinel then do
          let x ← r.getLeft z
          let zl ← r.getLeft z
          let r ← transplant r z zl
          pure (r, x, yOriginalColor)
        else do
          let zr ← r.getRight z
          let y ← minimum r fuel zr
          let yOriginalColor ← r.getColor y
          let x ← r.getRight y
          let yp ← r.getParent y
          let r ← (if yp = z then
              r.setParent x y
            else do
              let yr ← r.getRight y
              let r ← transplant r y yr
              let zr ← r.getRight z
              let r ← r.setRight y zr
              let yr ← r.getRight y
              r.setParent yr y)
          let r ← transplant r z y
          let zl ← r.getLeft z
          let r ← r.setLeft y zl
          let yl ← r.getLeft y
          let r ← r.setParent yl y
          let zc ← r.getColor z
          let r ← r.setColor y zc
          pure (r, x, yOriginalColor))
    if yOriginalColor = BLACK then fixDelete fuel r x else pure r

/-- The inner loop of `InOrder`: `for current != r.sentinel { push current; current = current.left }`.
The stack is a list whose head is the top of the stack. -/
def pushLeft (r : RBTreeMap K V) : Nat → List Nat → Nat → Res (List Nat)
  | 0, _, _ => .timeout
  | fuel + 1, stack, current =>
    if current ≠ r.sentinel then do
      let l ← r.getLeft current
      pushLeft r fuel (current :: stack) l
    else
      pure stack

/-- The outer loop of `InOrder`.  The consumer `yield` carries its own state `σ` (the Go
callback is a closure) and answers whether the traversal should go on. -/
def inOrderLoop {σ : Type} (r : RBTreeMap K V) (yield : σ → K → V → σ × Bool) (fuel : Nat) :
    Nat → List Nat → Nat → σ → Res σ
  | 0, _, _, _ => .timeout
  | n + 1, stack, current, acc => do
    let stack ← pushLeft r fuel stack current
    match stack with
    | [] => pure acc
    | node :: stack => do
      let k ← r.getKey node
      let v ← r.getValue node
      let (acc, goOn) := yield acc k v
      if !goOn then
        pure acc
      else do
        let rt ← r.getRight node
        inOrderLoop r yield fuel n stack rt acc

/-- Source: `InOrder`, run against a consumer `yield` with initial state `init`. -/
def InOrder {σ : Type} (fuel : Nat) (r : RBTreeMap K V) (yield : σ → K → V → σ × Bool)
    (init : σ) : Res σ :=
  inOrderLoop r yield fuel fuel [] r.root init

/-- A full `for k, v := range tree.InOrder()` loop that collects every pair. -/
def InOrderAll (fuel : Nat) (r : RBTreeMap K V) : Res (List (K × V)) :=
  InOrder fuel r (fun acc k v => (acc ++ [(k, v)], true)) []

/-- The loop shared in shape by `LowerBound` and `UpperBound`; `goLeft ck` is the test
made at a node with key `ck` (`!compare(ck, key)` resp. `compare(key, ck)`). -/
def boundLoop (r : RBTreeMap K V) (goLeft : K → Bool) : Nat → Nat → Nat → Res Nat
  | 0, _, _ => .timeout
  | fuel + 1, result, current =>
    if current ≠ r.sentinel then do
      let ck ← r.getKey current
      if goLeft ck then do
        let l ← r.getLeft current
        boundLoop r goLeft fuel current l
      else do
        let rt ← r.getRight current
        boundLoop r goLeft fuel result rt
    else
      pure result

/-- The common tail of `LowerBound` and `UpperBound`. -/
def boundResult [Inhabited K] [Inhabited V] (r : RBTreeMap K V) (result : Nat) :
    Res (K × V × Bool) :=
  if result ≠ r.sentinel then do
    let k ← r.getKey result
    let v ← r.getValue result
    pure (k, v, true)
  else
    pure (default, default, false)

/-- Source: `LowerBound`. -/
def LowerBound [Inhabited K] [Inhabited V] (fuel : Nat) (key : K) (r : RBTreeMap K V) :
    Res (K × V × Bool) := do
  let result ← boundLoop r (fun ck => !r.compare ck key) fuel r.sentinel r.root
  boundResult r result

/-- Source: `UpperBound`. -/
def UpperBound [Inhabited K] [Inhabited V] (fuel : Nat) (key : K) (r : RBTreeMap K V) :
    Res (K × V × Bool) := do
  let result ← boundLoop r (fun ck => r.compare key ck) fuel r.sentinel r.root
  boundResult r result

/-! ## The tree a heap represents -/

/-- A binary tree whose nodes carry the heap address at which they are stored. -/
inductive Tree (K V : Type) where
  | nil
  | node (a : Nat) (c : RB.color) (l : Tree K V) (k : K) (v : V) (r : Tree K V)

/-- One step of a path from a node up to the root: the node above (address, colour, key,
value) and the sibling subtree; `L` when the path comes from the left child. -/
inductive Frame (K V : Type) where
  | L (a : Nat) (c : RB.color) (k : K) (v : V) (r : Tree K V)
  | R (a : Nat) (c : RB.color) (l : Tree K V) (k : K) (v : V)

namespace Tree

/-- In-order listing of the nodes, each mapped through `f`. -/
def flat {β : Type} (f : Nat → K → V → β) : Tree K V → List β
  | nil => []
  | node a _ l k v r => flat f l ++ f a k v :: flat f r

/-- Addresses of the nodes, in order. -/
abbrev addrs (t : Tree K V) : List Nat := t.flat (fun a _ _ => a)

/-- The (key, value) pairs, in order. -/
abbrev toList (t : Tree K V) : List (K × V) := t.flat (fun _ k v => (k, v))

/-- The keys, in order. -/
abbrev keys (t : Tree K V) : List K := t.flat (fun _ k _ => k)

/-- Number of nodes. -/
def size : Tree K V → Nat
  | nil => 0
  | node _ _ l _ _ r => size l + 1 + size r

/-- Largest number of nodes on a path from the root down to a leaf position. -/
def height : Tree K V → Nat
  | nil => 0
  | node _ _ l _ _ r => max (height l) (height r) + 1

/-- Colour of the root; the empty tree stands for the (BLACK) sentinel. -/
def rootColor : Tree K V → RB.color
  | nil => BLACK
  | node _ c _ _ _ _ => c

/-- Pointer to the root of the tree: the node's address, or the sentinel. -/
def ptr (sent : Nat) : Tree K V → Nat
  | nil => sent
  | node a _ _ _ _ _ => a

/-- Number of BLACK nodes on the leftmost path. -/
def bh : Tree K V → Nat
  | nil => 0
  | node _ c l _ _ _ => bh l + (if c = BLACK then 1 else 0)

/-- At every node the two subtrees have the same black height. -/
def Bal : Tree K V → Prop
  | nil => True
  | node _ _ l _ _ r => Bal l ∧ Bal r ∧ bh l = bh r

/-- No RED node has a RED child. -/
def NoRR : Tree K V → Prop
  | nil => True
  | node _ c l _ _ r =>
    (c = RED → rootColor l = BLACK ∧ rootColor r = BLACK) ∧ NoRR l ∧ NoRR r

/-- The BLACK-node counts of all paths from the root of `t` down to the sentinel
(the sentinel itself is not counted). -/
def pathBlacks : Tree K V → List Nat
  | nil => [0]
  | node _ c l _ _ r =>
    (pathBlacks l ++ pathBlacks r).map (fun n => n + (if c = BLACK then 1 else 0))

/-- The subtrees of `t` (one for every node, and the empty ones). -/
def subtrees : Tree K V → List (Tree K V)
  | nil => [nil]
  | node a c l k v r => node a c l k v r :: (subtrees l ++ subtrees r)

/-- Binary-search-tree ordering at every node, for the ordering predicate `cmp`. -/
def BST (cmp : K → K → Bool) : Tree K V → Prop
  | nil => True
  | node _ _ l k _ r =>
    (∀ x ∈ keys l, cmp x k = true) ∧ (∀ x ∈ keys r, cmp k x = true) ∧ BST cmp l ∧ BST cmp r

/-- The red-black colouring invariants. -/
def RBInv (t : Tree K V) : Prop := rootColor t = BLACK ∧ NoRR t ∧ Bal t

end Tree

/-- Put a subtree back under a frame. -/
def Frame.fill : Frame K V → Tree K V → Tree K V
  | .L a c k v r, t => .node a c t k v r
  | .R a c l k v, t => .node a c l k v t

/-- Address of the node a frame stands for. -/
def Frame.addr : Frame K V → Nat
  | .L a _ _ _ _ => a
  | .R a _ _ _ _ => a

/-- Colour of the node a frame stands for. -/
def Frame.col : Frame K V → RB.color
  | .L _ c _ _ _ => c
  | .R _ c _ _ _ => c

/-- Rebuild the whole tree from a path (innermost frame first) and the subtree at its end. -/
def plug : List (Frame K V) → Tree K V → Tree K V
  | [], t => t
  | f :: rest, t => plug rest (f.fill t)

/-- The heap `m` holds the tree `t` below a node (or root slot) `par`: every node of `t`
is stored at its address with the recorded key, value and colour, its child pointers lead
to the roots of its subtrees (the sentinel for empty ones) and its parent pointer leads
back up. -/
def Rep (m : Nat → Node K V) (sent : Nat) : Nat → Tree K V → Prop
  | _, .nil => True
  | par, .node a c l k v r =>
    a ≠ 0 ∧ a ≠ sent ∧ (m a).key = k ∧ (m a).value = v ∧ (m a).color = c ∧
    (m a).parent = par ∧ (m a).left = l.ptr sent ∧ (m a).right = r.ptr sent ∧
    Rep m sent a l ∧ Rep m sent a r

/-- The map's root pointer leads to a heap representation of `t` (the root's parent
pointer is the sentinel). -/
def RepTree (s : RBTreeMap K V) (t : Tree K V) : Prop :=
  s.root = t.ptr s.sentinel ∧ Rep s.mem s.sentinel s.sentinel t

/-- Read the tree back out of the heap (at most `fuel` levels deep). -/
def toTree (m : Nat → Node K V) (sent : Nat) : Nat → Nat → Tree K V
  | 0, _ => .nil
  | fuel + 1, p =>
    if p = sent ∨ p = 0 then .nil
    else .node p (m p).color (toTree m sent fuel (m p).left) (m p).key (m p).value
      (toTree m sent fuel (m p).right)

/-! ## Sequences of public calls -/

/-- A mutating public call. -/
inductive Op (K V : Type) where
  | insert (k : K) (v : V)
  | remove (k : K)

/-- Run one call with the given loop budget. -/
def Op.run [DecidableEq K] (fuel : Nat) : Op K V → RBTreeMap K V → Res (RBTreeMap K V)
  | .insert k v, s => Insert fuel k v s
  | .remove k, s => Remove fuel k s

/-- The map `s` is the result of the calls `ops` (oldest first) on a fresh map
`NewWithCompare cmp`, each call having completed.  A call on the map `s` is run with a loop
budget of at least `s.next`, the number of addresses handed out so far; no loop of the
program needs more (`Op.run_ok`). -/
inductive Reach [DecidableEq K] [Inhabited K] [Inhabited V] (cmp : K → K → Bool) :
    List (Op K V) → RBTreeMap K V → Prop where
  | new : Reach cmp [] (NewWithCompare cmp)
  | step {ops : List (Op K V)} {s s' : RBTreeMap K V} (fuel : Nat) (op : Op K V) :
      Reach cmp ops s → s.next ≤ fuel → op.run fuel s = .ok s' → Reach cmp (ops ++ [op]) s'

/-- The ordering predicate is a strict total order. -/
structure StrictTotal (cmp : K → K → Bool) : Prop where
  irrefl : ∀ a, cmp a a = false
  trans : ∀ a b c, cmp a b = true → cmp b c = true → cmp a c = true
  total : ∀ a b, a ≠ b → cmp a b = true ∨ cmp b a = true

/-- Two heaps agree on a list of addresses. -/
def EqOn (m' m : Nat → Node K V) (l : List Nat) : Prop := ∀ a ∈ l, m' a = m a

/-- Nodes to the left of the hole of a path, in order. -/
def ctxLeft {β : Type} (f : Nat → K → V → β) : List (Frame K V) → List β
  | [] => []
  | .L _ _ _ _ _ :: rest => ctxLeft f rest
  | .R a _ l k v :: rest => ctxLeft f rest ++ (l.flat f ++ [f a k v])

/-- Nodes to the right of the hole of a path, in order. -/
def ctxRight {β : Type} (f : Nat → K → V → β) : List (Frame K V) → List β
  | [] => []
  | .L a _ k v r :: rest => f a k v :: r.flat f ++ ctxRight f rest
  | .R _ _ _ _ _ :: rest => ctxRight f rest

/-- All addresses on a path: the nodes above the hole and their other subtrees. -/
def ctxAddrs : List (Frame K V) → List Nat
  | [] => []
  | .L a _ _ _ r :: rest => a :: (r.addrs ++ ctxAddrs rest)
  | .R a _ l _ _ :: rest => a :: (l.addrs ++ ctxAddrs rest)

/-- Pointer to the node directly above the hole of a path (the sentinel at the root). -/
def ctxPar (sent : Nat) : List (Frame K V) → Nat
  | [] => sent
  | f :: _ => f.addr

/-- The heap holds the path `C` from the hole pointer `p` up to the root slot `root`. -/
def RepCtx (m : Nat → Node K V) (sent root : Nat) : List (Frame K V) → Nat → Prop
  | [], p => root = p
  | .L a c k v r :: rest, p =>
    a ≠ 0 ∧ a ≠ sent ∧ (m a).key = k ∧ (m a).value = v ∧ (m a).color = c ∧
    (m a).parent = ctxPar sent rest ∧ (m a).left = p ∧ (m a).right = r.ptr sent ∧
    Rep m sent a r ∧ RepCtx m sent root rest a
  | .R a c l k v :: rest, p =>
    a ≠ 0 ∧ a ≠ sent ∧ (m a).key = k ∧ (m a).value = v ∧ (m a).color = c ∧
    (m a).parent = ctxPar sent rest ∧ (m a).left = l.ptr sent ∧ (m a).right = p ∧
    Rep m sent a l ∧ RepCtx m sent root rest a

/-- The run produces a value, and the value satisfies `Q`. -/
def Res.Post {α : Type} (x : Res α) (Q : α → Prop) : Prop := ∃ a, x = .ok a ∧ Q a

/-- What an operation leaves alone besides the tree links. -/
structure Same (s s' : RBTreeMap K V) : Prop where
  sentinel : s'.sentinel = s.sentinel
  sentNode : s'.mem s.sentinel = s.mem s.sentinel
  next : s'.next = s.next
  size : s'.size = s.size
  compare : s'.compare = s.compare

/-- The shape shared by the rotations and `transplant`: the slot that pointed to `x` (the
root field, or a child field of `xp`) is made to point to `y`. -/
def relink (r : RBTreeMap K V) (xp x y : Nat) : Res (RBTreeMap K V) :=
  if xp = r.sentinel then
    pure { r with root := y }
  else do
    let xpl ← r.getLeft xp
    if x = xpl then r.setLeft xp y else r.setRight xp y

/-- The heap of `s` holds the tree `T` (without sharing), and the sentinel is in order. -/
structure Shape (s : RBTreeMap K V) (T : Tree K V) : Prop where
  rep : RepTree s T
  nodup : T.addrs.Nodup
  sent_ne : s.sentinel ≠ 0
  sent_black : (s.mem s.sentinel).color = BLACK

/-! ## Insertion fix-up on trees -/

/-- The tree with its root coloured BLACK. -/
def Tree.blacken : Tree K V → Tree K V
  | .nil => .nil
  | .node a _ l k v r => .node a BLACK l k v r

/-- The tree with its root coloured RED. -/
def Tree.redden : Tree K V → Tree K V
  | .nil => .nil
  | .node a _ l k v r => .node a RED l k v r

/-- What `fixInsert` computes, on trees: `C` is the path from the cursor up to the root,
`t` the subtree at the cursor. -/
def fixInsertZ : List (Frame K V) → Tree K V → Tree K V
  | [], t => t.blacken
  | [f], t => (f.fill t).blacken
  | f1 :: f2 :: rest, t =>
    if f1.col = RED then
      match f2 with
      | .L ga _ kg vg u =>
        if u.rootColor = RED then
          fixInsertZ rest (.node ga RED (f1.fill t).blacken kg vg u.blacken)
        else
          match f1, t with
          | .R pa pc la ka va, .node n _ tl k v tr =>
            (plug rest (.node n BLACK (.node pa pc la ka va tl) k v (.node ga RED tr kg vg u))).blacken
          | .L pa _ ka va pr, t =>
            (plug rest (.node pa BLACK t ka va (.node ga RED pr kg vg u))).blacken
          | _, _ => .nil
      | .R ga _ u kg vg =>
        if u.rootColor = RED then
          fixInsertZ rest (.node ga RED u.blacken kg vg (f1.fill t).blacken)
        else
          match f1, t with
          | .L pa pc ka va pr, .node n _ tl k v tr =>
            (plug rest (.node n BLACK (.node ga RED u kg vg tl) k v (.node pa pc tr ka va pr))).blacken
          | .R pa _ pl ka va, t =>
            (plug rest (.node pa BLACK (.node ga RED u kg vg pl) ka va t)).blacken
          | _, _ => .nil
    else (plug (f1 :: f2 :: rest) t).blacken

/-- The root of the whole tree (the last frame of the path) is BLACK. -/
def CtxRootBlack : List (Frame K V) → Prop
  | [] => True
  | [f] => f.col = BLACK
  | _ :: g :: rest => CtxRootBlack (g :: rest)

/-! ## Descent from the root -/

/-- The descent shared by `search` and `Insert`: follow `cmp` from `t` downwards until a node
with a natively equal key or an empty position is reached; the frames passed are pushed on
`C`. -/
def descend [DecidableEq K] (cmp : K → K → Bool) (key : K) :
    List (Frame K V) → Tree K V → List (Frame K V) × Tree K V
  | C, .nil => (C, .nil)
  | C, .node a c l k v r =>
    if key = k then (C, .node a c l k v r)
    else if cmp key k then descend cmp key (.L a c k v r :: C) l
    else descend cmp key (.R a c l k v :: C) r

/-- The side on which the descent left the last node agrees with the ordering test there. -/
def TopDir (cmp : K → K → Bool) (key : K) : List (Frame K V) → Prop
  | [] => True
  | .L _ _ k _ _ :: _ => cmp key k = true
  | .R _ _ _ k _ :: _ => cmp key k = false

/-- What `Insert` computes on trees; `newAddr` is the address given to a new node. -/
def insertT [DecidableEq K] (cmp : K → K → Bool) (key : K) (value : V) (newAddr : Nat)
    (t : Tree K V) : Tree K V :=
  match descend cmp key [] t with
  | (C, .node a c l k _ r) => plug C (.node a c l k value r)
  | (C, .nil) => fixInsertZ C (.node newAddr RED .nil key value .nil)

/-- The part of `Insert` between the descent and the fix-up: allocate the RED node, hang it
below `parent` (or make it the root) and count it. -/
def attach (r : RBTreeMap K V) (parent : Nat) (key : K) (value : V) :
    Res (RBTreeMap K V) :=
  let (newNode, r) := alloc r
    { key := key, value := value, color := RED, parent := parent,
      left := r.sentinel, right := r.sentinel }
  (if parent = r.sentinel then
      pure { r with root := newNode }
    else do
      let nk ← r.getKey newNode
      let pk ← r.getKey parent
      if r.compare nk pk then r.setLeft parent newNode else r.setRight parent newNode) >>=
  fun r => pure { r with size := r.size + 1 }

/-- The sibling subtree kept in a frame. -/
def Frame.sib : Frame K V → Tree K V
  | .L _ _ _ _ r => r
  | .R _ _ l _ _ => l

/-- Colour of the node directly above the hole (BLACK above the root). -/
def topColor : List (Frame K V) → RB.color
  | [] => BLACK
  | f :: _ => f.col

/-- Black-height bookkeeping along a path: a balanced subtree of black height `n` in the hole
makes the whole tree balanced. -/
def CtxBal : List (Frame K V) → Nat → Prop
  | [], _ => True
  | f :: rest, n =>
    f.sib.Bal ∧ f.sib.bh = n ∧ CtxBal rest (n + (if f.col = BLACK then 1 else 0))

/-- No RED node has a RED child, along a path (the hole itself excluded). -/
def CtxNoRR : List (Frame K V) → Prop
  | [] => True
  | f :: rest =>
    f.sib.NoRR ∧ (f.col = RED → f.sib.rootColor = BLACK ∧ topColor rest = BLACK) ∧ CtxNoRR rest

/-- Everything that holds of a map between two public operations, relative to the tree `t`
it stores: the heap holds `t`, allocated addresses lie below the allocation counter, `size`
counts the nodes, and the red-black colouring invariants hold. -/
structure Inv (s : RBTreeMap K V) (t : Tree K V) : Prop where
  shape : Shape s t
  sent_lt : s.sentinel < s.next
  lt_next : ∀ a ∈ t.addrs, a < s.next
  size_eq : s.size = (t.size : Int)
  rb : t.RBInv

/-- What `Remove` leaves alone: like `Same`, except that the sentinel's parent field may have
been written (only its colour is kept track of). -/
structure SameW (s s' : RBTreeMap K V) : Prop where
  sentinel : s'.sentinel = s.sentinel
  sentColor : (s'.mem s.sentinel).color = (s.mem s.sentinel).color
  next : s'.next = s.next
  size : s'.size = s.size
  compare : s'.compare = s.compare

/-- `C` and `t` describe the whole tree and the cursor `x` of `fixDelete`: the heap holds
`plug C t`, and the parent field of `x` (which may be the sentinel) leads to the node above
the hole. -/
structure ShapeX (s : RBTreeMap K V) (C : List (Frame K V)) (t : Tree K V) : Prop where
  shape : Shape s (plug C t)
  parent : (s.mem (t.ptr s.sentinel)).parent = ctxPar s.sentinel C

/-- The end of the two-children case of `Remove`: `y` takes the place, the left subtree and
the colour of `z`. -/
def removeTail (r : RBTreeMap K V) (z y : Nat) : Res (RBTreeMap K V) := do
  let r ← transplant r z y
  let zl ← r.getLeft z
  let r ← r.setLeft y zl
  let yl ← r.getLeft y
  let r ← r.setParent yl y
  let zc ← r.getColor z
  r.setColor y zc

/-- The two-children case of `Remove` when the successor `y` is not the right child of `z`:
`y` is cut out and takes over the right subtree of `z`. -/
def removeDetach (r : RBTreeMap K V) (z y : Nat) : Res (RBTreeMap K V) := do
  let yr ← r.getRight y
  let r ← transplant r y yr
  let zr ← r.getRight z
  let r ← r.setRight y zr
  let yr ← r.getRight y
  r.setParent yr y

/-- The part of `Remove` that unlinks the found node `z`; it yields the new state, the
cursor `x` for the fix-up and the colour that left the tree. -/
def removeSplice (fuel : Nat) (r : RBTreeMap K V) (z : Nat) :
    Res (RBTreeMap K V × Nat × RB.color) := do
  let yOriginalColor ← r.getColor z
  let zl ← r.getLeft z
  if zl = r.sentinel then do
    let x ← r.getRight z
    let zr ← r.getRight z
    let r ← transplant r z zr
    pure (r, x, yOriginalColor)
  else do
    let zr ← r.getRight z
    if zr = r.sentinel then do
      let x ← r.getLeft z
      let zl ← r.getLeft z
      let r ← transplant r z zl
      pure (r, x, yOriginalColor)
    else do
      let zr ← r.getRight z
      let y ← minimum r fuel zr
      let yOriginalColor ← r.getColor y
      let x ← r.getRight y
      let yp ← r.getParent y
      let r ← (if yp = z then r.setParent x y else removeDetach r z y)
      let r ← removeTail r z y
      pure (r, x, yOriginalColor)

/-- The leftmost node of a tree and the path to it (pushed on `C`). -/
def minDescend : List (Frame K V) → Tree K V → List (Frame K V) × Tree K V
  | C, .nil => (C, .nil)
  | C, .node a c l k v r =>
    match l with
    | .nil => (C, .node a c .nil k v r)
    | .node _ _ _ _ _ _ => minDescend (.L a c k v r :: C) l

/-- What unlinking a node does on trees: for the found node (colour `zc`, subtrees `zl`, `zr`)
below `C`, the path to the fix-up cursor, the subtree at the cursor, and the colour that
leaves the tree. -/
def spliceZ (C : List (Frame K V)) (zc : RB.color) (zl zr : Tree K V) :
    List (Frame K V) × Tree K V × RB.color :=
  match zl with
  | .nil => (C, zr, zc)
  | .node _ _ _ _ _ _ =>
    match zr with
    | .nil => (C, zl, zc)
    | .node _ _ _ _ _ _ =>
      match minDescend [] zr with
      | (cy, .node ya yc _ yk yv yr) => (cy ++ .R ya zc zl yk yv :: C, yr, yc)
      | (_, .nil) => (C, .nil, zc)

/-! ## Deletion fix-up on trees -/

/-- Cases 3 and 4 of `fixDelete` when the cursor `t` is the left child of `pa` and the sibling
`sa` (subtrees `sl`, `sr`) has a RED child: the subtree that replaces the one rooted at `pa`. -/
def delCase34L (pa : Nat) (pc : RB.color) (kp : K) (vp : V) (t : Tree K V)
    (sa : Nat) (sl : Tree K V) (sk : K) (sv : V) (sr : Tree K V) : Tree K V :=
  if sr.rootColor = BLACK then
    match sl with
    | .node la _ ll lk lv lr =>
      .node la pc (.node pa BLACK t kp vp ll) lk lv (.node sa BLACK lr sk sv sr)
    | .nil => .nil
  else
    .node sa pc (.node pa BLACK t kp vp sl) sk sv sr.blacken

/-- Mirror image of `delCase34L`: the cursor is the right child of `pa`. -/
def delCase34R (pa : Nat) (pc : RB.color) (kp : K) (vp : V) (t : Tree K V)
    (sa : Nat) (sl : Tree K V) (sk : K) (sv : V) (sr : Tree K V) : Tree K V :=
  if sl.rootColor = BLACK then
    match sr with
    | .node ra _ rl rk rv rr =>
      .node ra pc (.node sa BLACK sl sk sv rl) rk rv (.node pa BLACK rr kp vp t)
    | .nil => .nil
  else
    .node sa pc sl.blacken sk sv (.node pa BLACK sr kp vp t)

/-- One round of `fixDelete` below a BLACK sibling `sa`, cursor on the left: either the
sibling is recoloured and the cursor moves up (`up` says what happens then), or rotations
finish the job and the root is blackened. -/
def delStepL (ctxUp : List (Frame K V)) (up : Tree K V → Tree K V) (pa : Nat) (pc : RB.color)
    (kp : K) (vp : V) (t : Tree K V) (sa : Nat) (sl : Tree K V) (sk : K) (sv : V)
    (sr : Tree K V) : Tree K V :=
  if sl.rootColor = BLACK ∧ sr.rootColor = BLACK then
    up (.node pa pc t kp vp (.node sa RED sl sk sv sr))
  else
    (plug ctxUp (delCase34L pa pc kp vp t sa sl sk sv sr)).blacken

/-- Mirror image of `delStepL`. -/
def delStepR (ctxUp : List (Frame K V)) (up : Tree K V → Tree K V) (pa : Nat) (pc : RB.color)
    (kp : K) (vp : V) (t : Tree K V) (sa : Nat) (sl : Tree K V) (sk : K) (sv : V)
    (sr : Tree K V) : Tree K V :=
  if sr.rootColor = BLACK ∧ sl.rootColor = BLACK then
    up (.node pa pc (.node sa RED sl sk sv sr) kp vp t)
  else
    (plug ctxUp (delCase34R pa pc kp vp t sa sl sk sv sr)).blacken

/-- What `fixDelete` computes, on trees: `C` is the path from the cursor up to the root, `t`
the subtree at the cursor (empty when the cursor is the sentinel). -/
def fixDeleteZ : List (Frame K V) → Tree K V → Tree K V
  | [], t => t.blacken
  | f :: rest, t =>
    if t.rootColor = RED then plug (f :: rest) t.blacken
    else
      match f with
      | .L pa pc kp vp sib =>
        match sib with
        | .nil => .nil
        | .node sa sc sl sk sv sr =>
          if sc = RED then
            match sl with
            | .nil => .nil
            | .node la _ ll lk lv lr =>
              delStepL (.L sa BLACK sk sv sr :: rest)
                (fun u => plug (.L sa BLACK sk sv sr :: rest) u.blacken)
                pa RED kp vp t la ll lk lv lr
          else
            delStepL rest (fun u => fixDeleteZ rest u) pa pc kp vp t sa sl sk sv sr
      | .R pa pc sib kp vp =>
        match sib with
        | .nil => .nil
        | .node sa sc sl sk sv sr =>
          if sc = RED then
            match sr with
            | .nil => .nil
            | .node ra _ rl rk rv rr =>
              delStepR (.R sa BLACK sl sk sv :: rest)
                (fun u => plug (.R sa BLACK sl sk sv :: rest) u.blacken)
                pa RED kp vp t ra rl rk rv rr
          else
            delStepR rest (fun u => fixDeleteZ rest u) pa pc kp vp t sa sl sk sv sr

/-! ## The loop body of `fixDelete`, in pieces -/

/-- Body of `fixDelete` after the sibling-RED case, cursor on the left. -/
def fixDeleteRestL (fuel : Nat) (r : RBTreeMap K V) (x sibling : Nat) :
    Res (RBTreeMap K V) := do
  let sl ← r.getLeft sibling
  let slc ← r.getColor sl
  let bothBlack ← (if slc = BLACK then do
      let sr ← r.getRight sibling
      let src ← r.getColor sr
      pure (decide (src = BLACK))
    else pure false)
  if bothBlack then do
    let r ← r.setColor sibling RED
    let xp ← r.getParent x
    fixDelete fuel r xp
  else do
    let sr ← r.getRight sibling
    let src ← r.getColor sr
    let (r, sibling) ← (if src = BLACK then do
        let sl ← r.getLeft sibling
        let r ← r.setColor sl BLACK
        let r ← r.setColor sibling RED
        let r ← rotateRight r sibling
        let xp ← r.getParent x
        let sibling ← r.getRight xp
        pure (r, sibling)
      else pure (r, sibling))
    let xp ← r.getParent x
    let xpc ← r.getColor xp
    let r ← r.setColor sibling xpc
    let xp ← r.getParent x
    let r ← r.setColor xp BLACK
    let sr ← r.getRight sibling
    let r ← r.setColor sr BLACK
    let xp ← r.getParent x
    let r ← rotateLeft r xp
    fixDelete fuel r r.root

/-- Body of `fixDelete` after the sibling-RED case, cursor on the right. -/
def fixDeleteRestR (fuel : Nat) (r : RBTreeMap K V) (x sibling : Nat) :
    Res (RBTreeMap K V) := do
  let sr ← r.getRight sibling
  let src ← r.getColor sr
  let bothBlack ← (if src = BLACK then do
      let sl ← r.getLeft sibling
      let slc ← r.getColor sl
      pure (decide (slc = BLACK))
    else pure false)
  if bothBlack then do
    let r ← r.setColor sibling RED
    let xp ← r.getParent x
    fixDelete fuel r xp
  else do
    let sl ← r.getLeft sibling
    let slc ← r.getColor sl
    let (r, sibling) ← (if slc = BLACK then do
        let sr ← r.getRight sibling
        let r ← r.setColor sr BLACK
        let r ← r.setColor sibling RED
        let r ← rotateLeft r sibling
        let xp ← r.getParent x
        let sibling ← r.getLeft xp
        pure (r, sibling)
      else pure (r, sibling))
    let xp ← r.getParent x
    let xpc ← r.getColor xp
    let r ← r.setColor sibling xpc
    let xp ← r.getParent x
    let r ← r.setColor xp BLACK
    let sl ← r.getLeft sibling
    let r ← r.setColor sl BLACK
    let xp ← r.getParent x
    let r ← rotateRight r xp
    fixDelete fuel r r.root

/-- What `Remove` computes, on trees. -/
def removeT [DecidableEq K] (cmp : K → K → Bool) (key : K) (T : Tree K V) : Tree K V :=
  match descend cmp key [] T with
  | (_, .nil) => T
  | (C, .node _ zc zl _ _ zr) =>
    if (spliceZ C zc zl zr).2.2 = BLACK then
      fixDeleteZ (spliceZ C zc zl zr).1 (spliceZ C zc zl zr).2.1
    else plug (spliceZ C zc zl zr).1 (spliceZ C zc zl zr).2.1

/-- What `Get` returns, on trees. -/
def getT [DecidableEq K] [Inhabited V] (cmp : K → K → Bool) (key : K) (T : Tree K V) :
    V × Bool :=
  match (descend cmp key [] T).2 with
  | .node _ _ _ _ v _ => (v, true)
  | .nil => (default, false)

/-- The loop of `LowerBound`/`UpperBound`, on trees: `res` is the best candidate so far
(address, key, value), if any. -/
def boundT (goLeft : K → Bool) : Option (Nat × K × V) → Tree K V → Option (Nat × K × V)
  | res, .nil => res
  | res, .node a _ l k v r =>
    if goLeft k then boundT goLeft (some (a, k, v)) l else boundT goLeft res r

/-- Pointer held by the variable `result` of the bound loops. -/
def resPtr (sent : Nat) : Option (Nat × K × V) → Nat
  | none => sent
  | some (a, _, _) => a

/-- What `boundResult` returns for a candidate. -/
def boundOut [Inhabited K] [Inhabited V] : Option (Nat × K × V) → K × V × Bool
  | none => (default, default, false)
  | some (_, k, v) => (k, v, true)

/-- The candidate of the bound loops is a stored node (or none yet). -/
def ResOk (s : RBTreeMap K V) : Option (Nat × K × V) → Prop
  | none => True
  | some (a, k, v) => a ≠ 0 ∧ a ≠ s.sentinel ∧ (s.mem a).key = k ∧ (s.mem a).value = v

/-- Run a consumer over a list of pairs until it asks to stop. -/
def feed {σ : Type} (yield : σ → K → V → σ × Bool) : σ → List (K × V) → σ
  | acc, [] => acc
  | acc, (k, v) :: rest =>
    if (yield acc k v).2 then feed yield (yield acc k v).1 rest else (yield acc k v).1

/-- The stack after the inner loop of `InOrder` ran from the root of `t`. -/
def spine : Tree K V → List (Tree K V) → List (Tree K V)
  | .nil, st => st
  | .node a c l k v r, st => spine l (.node a c l k v r :: st)

/-- The pairs still to be yielded for a stack of nodes (top first). -/
def pending : List (Tree K V) → List (K × V)
  | [] => []
  | .nil :: st => pending st
  | .node _ _ _ k v r :: st => (k, v) :: (r.toList ++ pending st)

/-- The tree `e` is a node of `T`. -/
def IsNodeOf (T e : Tree K V) : Prop :=
  ∃ C a c l k v r, e = .node a c l k v r ∧ plug C e = T

/-- First value paired with `key` in a list of pairs. -/
def lookupL [DecidableEq K] (key : K) : List (K × V) → Option V
  | [] => none
  | (k, v) :: rest => if key = k then some v else lookupL key rest

/-- The listing `M` splits at `key`: `L` holds the pairs ordered before `key`, `R` those
ordered after it, and `mid` the pair stored for `key`, if any. -/
structure SplitAt (cmp : K → K → Bool) (key : K) (M L mid R : List (K × V)) : Prop where
  eq : M = L ++ (mid ++ R)
  left : ∀ p ∈ L, cmp p.1 key = true
  right : ∀ p ∈ R, cmp key p.1 = true
  mid : mid = [] ∨ ∃ v, mid = [(key, v)]

/-- One call on the reference key set: `Insert` adds the key, `Remove` deletes it. -/
def refStep [DecidableEq K] (S : Finset K) : Op K V → Finset K
  | .insert k _ => insert k S
  | .remove k => S.erase k

/-- The reference key set after the calls `ops` (oldest first), starting empty. -/
def refKeys [DecidableEq K] (ops : List (Op K V)) : Finset K :=
  ops.foldl refStep ∅

/-- One call, on trees; `n` is the address a new node gets. -/
def Op.runT [DecidableEq K] (cmp : K → K → Bool) (n : Nat) : Op K V → Tree K V → Tree K V
  | .insert k v, T => insertT cmp k v n T
  | .remove k, T => removeT cmp k T

/-- Run a list of calls, oldest first, each with the budget `fuel`; the run is cut short
when the budget no longer covers the allocation counter. -/
def runOps [DecidableEq K] (fuel : Nat) : List (Op K V) → RBTreeMap K V → Res (RBTreeMap K V)
  | [], s => .ok s
  | op :: rest, s => if s.next ≤ fuel then op.run fuel s >>= runOps fuel rest else .timeout

/-- What `Get` reports for a looked-up value. -/
def optOut [Inhabited V] : Option V → V × Bool
  | some v => (v, true)
  | none => (default, false)

/-- What the bound functions report for the first pair that passes their test. -/
def pairOut [Inhabited K] [Inhabited V] : Option (K × V) → K × V × Bool
  | some p => (p.1, p.2, true)
  | none => (default, default, false)

/-! ## Concrete runs -/

/-- The insertions of the combined scenario. -/
def scenarioInserts : List (Op Int Bool) :=
  [10, 85, 15, 70, 20, 60, 30, 50, 65, 80, 90, 40, 5, 55].map (fun k => Op.insert k true)

/-- The removals of the combined scenario. -/
def scenarioRemoves : List (Op Int Bool) :=
  [85, 10, 5, 50].map (fun k => Op.remove k)

/-- The map after the insertions of the scenario. -/
def insertedMap : RBTreeMap Int Bool :=
  (runOps 32 scenarioInserts New).getD New

/-- The map after the insertions and the removals of the scenario. -/
def scenarioMap : RBTreeMap Int Bool :=
  (runOps 32 (scenarioInserts ++ scenarioRemoves) New).getD New

/-- The calls that build the map of the bounds scenario, keys 10, 20, 30, 50, 60. -/
def boundsOps : List (Op Int Bool) :=
  [10, 20, 30, 50, 60].map (fun k => Op.insert k true)

/-- The map of the bounds scenario. -/
def boundsMap : RBTreeMap Int Bool :=
  (runOps 16 boundsOps New).getD New

/-- The calls that insert the pairs of a list, in its order. -/
def insertAll (kvs : List (K × V)) : List (Op K V) :=
  kvs.map (fun p => Op.insert p.1 p.2)

/-- The calls that remove the keys of a list, in its order. -/
def removeAll (ks : List K) : List (Op K V) :=
  ks.map (fun k => Op.remove k)

/-- A consumer of `InOrder` that records every pair it is handed and answers `false`, to
stop the traversal, on the `n`-th. -/
def stopAfter (n : Nat) (acc : List (K × V)) (k : K) (v : V) : List (K × V) × Bool :=
  (acc ++ [(k, v)], decide (acc.length + 1 < n))

/-- The nodes of a tree with their addresses, keys and values, in order. -/
abbrev Tree.nodes (t : Tree K V) : List (Nat × K × V) := t.flat (fun a k v => (a, k, v))

/-! ## Ordering predicates that are not total -/

/-- A strict weak order: irreflexive, transitive, and being unordered is transitive. -/
structure StrictWeak (cmp : K → K → Bool) : Prop where
  irrefl : ∀ a, cmp a a = false
  trans : ∀ a b c, cmp a b = true → cmp b c = true → cmp a c = true
  incomp : ∀ a b c, cmp a b = false → cmp b a = false → cmp b c = false → cmp c b = false →
    cmp a c = false ∧ cmp c a = false

/-- An ordering predicate on integers that compares the tens only, as in
`NewWithCompare(func(a, b int) bool { return a/10 < b/10 })`; the division of Go truncates
towards zero. -/
def byTens (a b : Int) : Bool := decide (Int.tdiv a 10 < Int.tdiv b 10)

/-- Three insertions of keys with the same tens. -/
def tripleOps : List (Op Int Bool) :=
  [1, 2, 3].map (fun k => Op.insert k true)

/-- The map after the insertions of `tripleOps` into a fresh map ordered by `byTens`. -/
def tripleMap : RBTreeMap Int Bool :=
  (runOps 8 tripleOps (NewWithCompare byTens)).getD (NewWithCompare byTens)

/-! ## The ordering predicate as a func value that may be nil -/

/-- The map of the source with its `compare` field as a Go func value, which may be nil
(`none`).  `body` carries the other fields; the functions below never read `body.compare`. -/
structure RBTreeMapN (K V : Type) where
  body : RBTreeMap K V
  compare : Option (K → K → Bool)

/-- The call `r.compare(a, b)`: calling a nil func is a nil dereference. -/
def callCompare (c : Option (K → K → Bool)) (a b : K) : Res Bool :=
  match c with
  | some f => .ok (f a b)
  | none => .fault

/-- Source: `NewWithCompare`, for any func value; the function has no check of its argument
and no failing statement. -/
def NewWithCompareN [Inhabited K] [Inhabited V] (compare : Option (K → K → Bool)) :
    Res (RBTreeMapN K V) :=
  let nilNode : Node K V := { (zeroNode : Node K V) with color := BLACK }
  pure
    { body :=
        { mem := upd (fun _ => zeroNode) 1 nilNode
          next := 2
          root := 1
          sentinel := 1
          size := 0
          compare := compare.getD (fun _ _ => false) }
      compare := compare }

/-- The loop of `search`, the predicate being a func value. -/
def searchLoopN [DecidableEq K] (r : RBTreeMapN K V) (key : K) : Nat → Nat → Res Nat
  | 0, _ => .timeout
  | fuel + 1, current =>
    if current ≠ r.body.sentinel then do
      let ck ← r.body.getKey current
      if key = ck then
        pure current
      else do
        let lt ← callCompare r.compare key ck
        if lt then do
          let l ← r.body.getLeft current
          searchLoopN r key fuel l
        else do
          let rt ← r.body.getRight current
          searchLoopN r key fuel rt
    else
      pure r.body.sentinel

/-- Source: `Get`, the predicate being a func value. -/
def GetN [DecidableEq K] [Inhabited V] (fuel : Nat) (key : K) (r : RBTreeMapN K V) :
    Res (V × Bool) := do
  let node ← searchLoopN r key fuel r.body.root
  if node ≠ r.body.sentinel then do
    let v ← r.body.getValue node
    pure (v, true)
  else
    pure (default, false)

/-- The descent loop of `Insert`, the predicate being a func value. -/
def insertLoopN [DecidableEq K] (r : RBTreeMapN K V) (key : K) (value : V) :
    Nat → Nat → Nat → Res (RBTreeMapN K V ⊕ Nat)
  | 0, _, _ => .timeout
  | fuel + 1, parent, current =>
    if current ≠ r.body.sentinel then do
      let ck ← r.body.getKey current
      if key = ck then do
        let b ← r.body.setValue current value
        pure (Sum.inl { r with body := b })
      else do
        let lt ← callCompare r.compare key ck
        if lt then do
          let l ← r.body.getLeft current
          insertLoopN r key value fuel current l
        else do
          let rt ← r.body.getRight current
          insertLoopN r key value fuel current rt
    else
      pure (Sum.inr parent)

/-- Source: `Insert`, the predicate being a func value. -/
def InsertN [DecidableEq K] (fuel : Nat) (key : K) (value : V) (r : RBTreeMapN K V) :
    Res (RBTreeMapN K V) := do
  match ← insertLoopN r key value fuel r.body.sentinel r.body.root with
  | Sum.inl r => pure r
  | Sum.inr parent =>
    let (newNode, b) := alloc r.body
      { key := key, value := value, color := RED, parent := parent,
        left := r.body.sentinel, right := r.body.sentinel }
    let b ← (if parent = b.sentinel then
        pure { b with root := newNode }
      else do
        let nk ← b.getKey newNode
        let pk ← b.getKey parent
        let lt ← callCompare r.compare nk pk
        if lt then b.setLeft parent newNode else b.setRight parent newNode)
    let b := { b with size := b.size + 1 }
    let b ← fixInsert fuel b newNode
    pure { r with body := b }

/-! ## The loop of `fixInsert`, one iteration at a time -/

/-- The loop test and body of `fixInsert`, from the source: `loop` stands for the jump back
to the loop test with the current cursor, `done` for leaving the loop. -/
def fixInsertBody {α : Type} (loop : RBTreeMap K V → Nat → Res α)
    (done : RBTreeMap K V → Res α) (r : RBTreeMap K V) (node : Nat) : Res α := do
  let p ← r.getParent node
  let pc ← r.getColor p
  if pc = RED then do
    let pp ← r.getParent p
    let ppl ← r.getLeft pp
    if p = ppl then do
      let uncle ← r.getRight pp
      let uc ← r.getColor uncle
      if uc = RED then do
        let r ← r.setColor p BLACK
        let r ← r.setColor uncle BLACK
        let p ← r.getParent node
        let pp ← r.getParent p
        let r ← r.setColor pp RED
        let p ← r.getParent node
        let pp ← r.getParent p
        loop r pp
      else do
        let pr ← r.getRight p
        let (r, node) ← (if node = pr then do
            let r ← rotateLeft r p
            pure (r, p)
          else pure (r, node))
        let p ← r.getParent node
        let r ← r.setColor p BLACK
        let p ← r.getParent node
        let pp ← r.getParent p
        let r ← r.setColor pp RED
        let p ← r.getParent node
        let pp ← r.getParent p
        let r ← rotateRight r pp
        loop r node
    else do
      let uncle ← r.getLeft pp
      let uc ← r.getColor uncle
      if uc = RED then do
        let r ← r.setColor p BLACK
        let r ← r.setColor uncle BLACK
        let p ← r.getParent node
        let pp ← r.getParent p
        let r ← r.setColor pp RED
        let p ← r.getParent node
        let pp ← r.getParent p
        loop r pp
      else do
        let pl ← r.getLeft p
        let (r, node) ← (if node = pl then do
            let r ← rotateRight r p
            pure (r, p)
          else pure (r, node))
        let p ← r.getParent node
        let r ← r.setColor p BLACK
        let p ← r.getParent node
        let pp ← r.getParent p
        let r ← r.setColor pp RED
        let p ← r.getParent node
        let pp ← r.getParent p
        let r ← rotateLeft r pp
        loop r node
  else
    done r

/-- One pass through the loop of `fixInsert`: `none` when the loop test fails, otherwise the
map and the cursor after the body. -/
def fixInsertStep (r : RBTreeMap K V) (node : Nat) : Res (Option (RBTreeMap K V × Nat)) :=
  fixInsertBody (fun r n => pure (some (r, n))) (fun _ => pure none) r node

/-- The number of times the body of the loop of `fixInsert` is run. -/
def fixInsertIters : Nat → RBTreeMap K V → Nat → Res Nat
  | 0, _, _ => .timeout
  | fuel + 1, r, node => do
    match ← fixInsertStep r node with
    | none => pure 0
    | some (r, node) =>
      let i ← fixInsertIters fuel r node
      pure (i + 1)

/-- The colour of the uncle, as the body of `fixInsert` reads it:
`node.parent.parent.right.color` when the parent is a left child, else
`node.parent.parent.left.color`. -/
def uncleColor (r : RBTreeMap K V) (node : Nat) : Res RB.color := do
  let p ← r.getParent node
  let pp ← r.getParent p
  let ppl ← r.getLeft pp
  if p = ppl then do
    let uncle ← r.getRight pp
    r.getColor uncle
  else do
    let uncle ← r.getLeft pp
    r.getColor uncle

/-- The number of parent links from a node up to the root. -/
def depth (r : RBTreeMap K V) : Nat → Nat → Res Nat
  | 0, _ => .timeout
  | fuel + 1, a =>
    if a = r.root then pure 0
    else do
      let p ← r.getParent a
      let d ← depth r fuel p
      pure (d + 1)

/-- What one run of the body of the loop of `fixInsert` leaves: the heap still holds a tree,
the cursor is a node of it, and the cursor has moved up by two levels when the uncle was RED
and by one level when it was BLACK.  `C` is the path above the cursor before the step. -/
def InsStepPost (s : RBTreeMap K V) (n : Nat) (C : List (Frame K V))
    (o : Option (RBTreeMap K V × Nat)) : Prop :=
  ∃ (s1 : RBTreeMap K V) (n1 : Nat) (C1 : List (Frame K V)) (c1 : RB.color) (l1 : Tree K V)
    (k1 : K) (v1 : V) (r1 : Tree K V),
    o = some (s1, n1) ∧ Shape s1 (plug C1 (.node n1 c1 l1 k1 v1 r1)) ∧ CtxRootBlack C1 ∧
    Same s s1 ∧
    ((uncleColor s n = .ok RED ∧ C1.length + 2 = C.length) ∨
      (uncleColor s n = .ok BLACK ∧ C1.length + 1 = C.length))

/-- The loop heads of a run of the loop of `fixInsert` started on the map `r0` with the
cursor `n0`: after `i` runs of the body the loop test is reached with the map `r` and the
cursor `n`. -/
inductive FixInsertHead (r0 : RBTreeMap K V) (n0 : Nat) :
    Nat → RBTreeMap K V → Nat → Prop where
  | start : FixInsertHead r0 n0 0 r0 n0
  | next {i : Nat} {r r1 : RBTreeMap K V} {n n1 : Nat} :
      FixInsertHead r0 n0 i r n → fixInsertStep r n = .ok (some (r1, n1)) →
      FixInsertHead r0 n0 (i + 1) r1 n1

/-- What holds at every loop head of `fixInsert`: the heap holds a tree with a BLACK root,
the cursor `n` is a node of it, `d` levels below the root. -/
def InsLoopInv (r : RBTreeMap K V) (n : Nat) (d : Nat) : Prop :=
  ∃ (C : List (Frame K V)) (nc : RB.color) (tl : Tree K V) (k : K) (v : V) (tr : Tree K V),
    Shape r (plug C (.node n nc tl k v tr)) ∧ CtxRootBlack C ∧ C.length = d

/-! ## The loop of `fixDelete`, one iteration at a time -/

/-- The body of the loop of `fixDelete` after the sibling-RED case, cursor on the left;
`loop` stands for the jump back to the loop test. -/
def fixDeleteRestLBody {α : Type} (loop : RBTreeMap K V → Nat → Res α) (r : RBTreeMap K V)
    (x sibling : Nat) : Res α := do
  let sl ← r.getLeft sibling
  let slc ← r.getColor sl
  let bothBlack ← (if slc = BLACK then do
      let sr ← r.getRight sibling
      let src ← r.getColor sr
      pure (decide (src = BLACK))
    else pure false)
  if bothBlack then do
    let r ← r.setColor sibling RED
    let xp ← r.getParent x
    loop r xp
  else do
    let sr ← r.getRight sibling
    let src ← r.getColor sr
    let (r, sibling) ← (if src = BLACK then do
        let sl ← r.getLeft sibling
        let r ← r.setColor sl BLACK
        let r ← r.setColor sibling RED
        let r ← rotateRight r sibling
        let xp ← r.getParent x
        let sibling ← r.getRight xp
        pure (r, sibling)
      else pure (r, sibling))
    let xp ← r.getParent x
    let xpc ← r.getColor xp
    let r ← r.setColor sibling xpc
    let xp ← r.getParent x
    let r ← r.setColor xp BLACK
    let sr ← r.getRight sibling
    let r ← r.setColor sr BLACK
    let xp ← r.getParent x
    let r ← rotateLeft r xp
    loop r r.root

/-- The body of the loop of `fixDelete` after the sibling-RED case, cursor on the right;
`loop` stands for the jump back to the loop test. -/
def fixDeleteRestRBody {α : Type} (loop : RBTreeMap K V → Nat → Res α) (r : RBTreeMap K V)
    (x sibling : Nat) : Res α := do
  let sr ← r.getRight sibling
  let src ← r.getColor sr
  let bothBlack ← (if src = BLACK then do
      let sl ← r.getLeft sibling
      let slc ← r.getColor sl
      pure (decide (slc = BLACK))
    else pure false)
  if bothBlack then do
    let r ← r.setColor sibling RED
    let xp ← r.getParent x
    loop r xp
  else do
    let sl ← r.getLeft sibling
    let slc ← r.getColor sl
    let (r, sibling) ← (if slc = BLACK then do
        let sr ← r.getRight sibling
        let r ← r.setColor sr BLACK
        let r ← r.setColor sibling RED
        let r ← rotateLeft r sibling
        let xp ← r.getParent x
        let sibling ← r.getLeft xp
        pure (r, sibling)
      else pure (r, sibling))
    let xp ← r.getParent x
    let xpc ← r.getColor xp
    let r ← r.setColor sibling xpc
    let xp ← r.getParent x
    let r ← r.setColor xp BLACK
    let sl ← r.getLeft sibling
    let r ← r.setColor sl BLACK
    let xp ← r.getParent x
    let r ← rotateRight r xp
    loop r r.root

/-- The loop test and body of `fixDelete`, from the source: `loop` stands for the jump back
to the loop test with the current cursor, `done` for leaving the loop. -/
def fixDeleteBody {α : Type} (loop : RBTreeMap K V → Nat → Res α)
    (done : RBTreeMap K V → Nat → Res α) (r : RBTreeMap K V) (x : Nat) : Res α := do
  let goOn ← (if x ≠ r.root then do
      let xc ← r.getColor x
      pure (decide (xc = BLACK))
    else pure false)
  if goOn then do
    let xp ← r.getParent x
    let xpl ← r.getLeft xp
    if x = xpl then do
      let sibling ← r.getRight xp
      let sc ← r.getColor sibling
      let (r, sibling) ← (if sc = RED then do
          let r ← r.setColor sibling BLACK
          let xp ← r.getParent x
          let r ← r.setColor xp RED
          let xp ← r.getParent x
          let r ← rotateLeft r xp
          let xp ← r.getParent x
          let sibling ← r.getRight xp
          pure (r, sibling)
        else pure (r, sibling))
      fixDeleteRestLBody loop r x sibling
    else do
      let sibling ← r.getLeft xp
      let sc ← r.getColor sibling
      let (r, sibling) ← (if sc = RED then do
          let r ← r.setColor sibling BLACK
          let xp ← r.getParent x
          let r ← r.setColor xp RED
          let xp ← r.getParent x
          let r ← rotateRight r xp
          let xp ← r.getParent x
          let sibling ← r.getLeft xp
          pure (r, sibling)
        else pure (r, sibling))
      fixDeleteRestRBody loop r x sibling
  else
    done r x

/-- One pass through the loop of `fixDelete`: `none` when the loop test fails, otherwise the
map and the cursor after the body. -/
def fixDeleteStep (r : RBTreeMap K V) (x : Nat) : Res (Option (RBTreeMap K V × Nat)) :=
  fixDeleteBody (fun r x => pure (some (r, x))) (fun _ _ => pure none) r x

/-- The number of times the body of the loop of `fixDelete` is run. -/
def fixDeleteIters : Nat → RBTreeMap K V → Nat → Res Nat
  | 0, _, _ => .timeout
  | fuel + 1, r, x => do
    match ← fixDeleteStep r x with
    | none => pure 0
    | some (r, x) =>
      let i ← fixDeleteIters fuel r x
      pure (i + 1)

/-- The start of the body of the loop of `fixDelete`: the sibling of the cursor whose
children the body goes on to read, after the rotation of the sibling-RED case when that
case applies, with the map at that point. -/
def fixDeleteSibling (r : RBTreeMap K V) (x : Nat) : Res (RBTreeMap K V × Nat) := do
  let xp ← r.getParent x
  let xpl ← r.getLeft xp
  if x = xpl then do
    let sibling ← r.getRight xp
    let sc ← r.getColor sibling
    if sc = RED then do
      let r ← r.setColor sibling BLACK
      let xp ← r.getParent x
      let r ← r.setColor xp RED
      let xp ← r.getParent x
      let r ← rotateLeft r xp
      let xp ← r.getParent x
      let sibling ← r.getRight xp
      pure (r, sibling)
    else pure (r, sibling)
  else do
    let sibling ← r.getLeft xp
    let sc ← r.getColor sibling
    if sc = RED then do
      let r ← r.setColor sibling BLACK
      let xp ← r.getParent x
      let r ← r.setColor xp RED
      let xp ← r.getParent x
      let r ← rotateRight r xp
      let xp ← r.getParent x
      let sibling ← r.getLeft xp
      pure (r, sibling)
    else pure (r, sibling)

/-- Whether, at the loop test, the sibling of the cursor and both children of the sibling
are BLACK: `x.parent.right` (or `.left`) and its `.left` and `.right`. -/
def siblingFamilyBlack (r : RBTreeMap K V) (x : Nat) : Res Bool := do
  let xp ← r.getParent x
  let xpl ← r.getLeft xp
  let sibling ← (if x = xpl then r.getRight xp else r.getLeft xp)
  let sc ← r.getColor sibling
  let sl ← r.getLeft sibling
  let slc ← r.getColor sl
  let sr ← r.getRight sibling
  let src ← r.getColor sr
  pure (decide (sc = BLACK ∧ slc = BLACK ∧ src = BLACK))

/-- What one run of the body of the loop of `fixDelete` leaves: the heap still holds a tree
and the cursor `t1` is a place of it; when the sibling and its two children were BLACK the
cursor has moved up by one level and is again one BLACK node short, otherwise the cursor is
the root or RED, so that the next loop test fails.  `C` is the path above the cursor before
the step. -/
def DelStepPost (s : RBTreeMap K V) (x : Nat) (C : List (Frame K V))
    (o : Option (RBTreeMap K V × Nat)) : Prop :=
  ∃ (s1 : RBTreeMap K V) (C1 : List (Frame K V)) (t1 : Tree K V),
    o = some (s1, t1.ptr s1.sentinel) ∧ ShapeX s1 C1 t1 ∧ Same s s1 ∧
    ((siblingFamilyBlack s x = .ok true ∧ C1.length + 1 = C.length ∧
        CtxBal C1 (t1.bh + 1)) ∨
      (siblingFamilyBlack s x = .ok false ∧ (C1 = [] ∨ t1.rootColor = RED)))

/-- The loop heads of a run of the loop of `fixDelete` started on the map `r0` with the
cursor `x0`: after `i` runs of the body the loop test is reached with the map `r` and the
cursor `x`. -/
inductive FixDeleteHead (r0 : RBTreeMap K V) (x0 : Nat) :
    Nat → RBTreeMap K V → Nat → Prop where
  | start : FixDeleteHead r0 x0 0 r0 x0
  | next {i : Nat} {r r1 : RBTreeMap K V} {x x1 : Nat} :
      FixDeleteHead r0 x0 i r x → fixDeleteStep r x = .ok (some (r1, x1)) →
      FixDeleteHead r0 x0 (i + 1) r1 x1

/-- A loop head of `fixDelete` from which the loop may go on: the heap holds a tree, the
cursor `x` is a place of it `d` levels below the root, and the subtree at the cursor is one
BLACK node short. -/
def DelLive (r : RBTreeMap K V) (x : Nat) (d : Nat) : Prop :=
  ∃ (C : List (Frame K V)) (t : Tree K V),
    ShapeX r C t ∧ x = t.ptr r.sentinel ∧ C.length = d ∧ CtxBal C (t.bh + 1)

/-- A loop head of `fixDelete` at which the loop ends: the cursor is the root or RED. -/
def DelLast (r : RBTreeMap K V) (x : Nat) (d : Nat) : Prop :=
  ∃ (C : List (Frame K V)) (t : Tree K V),
    ShapeX r C t ∧ x = t.ptr r.sentinel ∧ C.length = d ∧ (C = [] ∨ t.rootColor = RED)

/-- The colour that a `Remove` takes out of the tree (`yOriginalColor` in the source), or
`none` when the key is not found and nothing is removed. -/
def removedColor [DecidableEq K] (fuel : Nat) (key : K) (r : RBTreeMap K V) :
    Res (Option RB.color) := do
  let z ← search fuel r key
  if z = r.sentinel then
    pure none
  else do
    let (_, _, yOriginalColor) ← removeSplice fuel { r with size := r.size - 1 } z
    pure (some yOriginalColor)

/-- The insertions of the keys 1, 2 and 15, in that order. -/
def tensOps : List (Op Int Bool) :=
  [1, 2, 15].map (fun k => Op.insert k true)

/-- The map after the insertions of `tensOps` into a fresh map ordered by `byTens`. -/
def tensMap : RBTreeMap Int Bool :=
  (runOps 8 tensOps (NewWithCompare byTens)).getD (NewWithCompare byTens)

/-! ## Rotations on a well-formed tree -/

/-- The nodes of a tree in order, each with its address, colour, key and value. -/
def Tree.nodesC : Tree K V → List (Nat × RB.color × K × V)
  | .nil => []
  | .node a c l k v r => l.nodesC ++ (a, c, k, v) :: r.nodesC

/-! ## Parent links -/

/-- The depth of the node with address `x` in a tree: the number of child links from the
root down to it, if it is a node of the tree. -/
def Tree.depthOf (x : Nat) : Tree K V → Option Nat
  | .nil => none
  | .node a _ l _ _ r =>
    if x = a then some 0
    else
      match l.depthOf x with
      | some d => some (d + 1)
      | none => (r.depthOf x).map (fun d => d + 1)

/-- The tree that the map of the bounds scenario holds. -/
def boundsTree : Tree Int Bool :=
  toTree boundsMap.mem boundsMap.sentinel 16 boundsMap.root

/-- A consumer of `InOrder` wrapped so that, next to its own state, it records in order every
pair it is handed; its answers are those of the consumer it wraps. -/
def traced {σ : Type} (yield : σ → K → V → σ × Bool) (st : σ × List (K × V)) (k : K) (v : V) :
    (σ × List (K × V)) × Bool :=
  (((yield st.1 k v).1, st.2 ++ [(k, v)]), (yield st.1 k v).2)

/-- The answers a consumer gives when it is handed every pair of a list in turn, whatever it
answers on the way. -/
def answers {σ : Type} (yield : σ → K → V → σ × Bool) : σ → List (K × V) → List Bool
  | _, [] => []
  | a, (k, v) :: rest => (yield a k v).2 :: answers yield (yield a k v).1 rest

/-! # Theorems -/

/-! ## Outcomes -/

@[simp] theorem Res.ok_bind {α β : Type} (a : α) (f : α → Res β) : (Res.ok a >>= f) = f a := rfl

@[simp] theorem Res.fault_bind {α β : Type} (f : α → Res β) :
    ((Res.fault : Res α) >>= f) = Res.fault := rfl

@[simp] theorem Res.timeout_bind {α β : Type} (f : α → Res β) :
    ((Res.timeout : Res α) >>= f) = Res.timeout := rfl

theorem Res.bind_assoc {α β γ : Type} (x : Res α) (f : α → Res β) (g : β → Res γ) :
    x >>= f >>= g = x >>= fun a => f a >>= g := by
  cases x <;> rfl

@[simp] theorem Res.pure_def {α : Type} (a : α) : (pure a : Res α) = Res.ok a := rfl

theorem Res.eq_ok_getD {α : Type} {x : Res α} (d : α) (h : x.isOk = true) :
    x = Res.ok (x.getD d) := by
  cases x <;> simp_all [Res.isOk, Res.getD]

/-! ## Heap updates -/

@[simp] theorem upd_self (m : Nat → Node K V) (a : Nat) (n : Node K V) : upd m a n a = n := by
  simp [upd]

theorem upd_ne (m : Nat → Node K V) {a p : Nat} (n : Node K V) (h : p ≠ a) :
    upd m a n p = m p := by
  simp [upd, h]

theorem EqOn.refl_on {m : Nat → Node K V} {l : List Nat} : EqOn m m l := fun _ _ => Eq.refl _

theorem EqOn.upd {m' m : Nat → Node K V} {l : List Nat} {x : Nat} (n : Node K V)
    (hx : x ∉ l) (h : EqOn m' m l) : EqOn (upd m' x n) m l := by
  intro a ha
  have : a ≠ x := fun e => hx (e ▸ ha)
  rw [upd_ne _ _ this]
  exact h a ha

theorem EqOn.trans_on {m'' m' m : Nat → Node K V} {l : List Nat}
    (h1 : EqOn m'' m' l) (h2 : EqOn m' m l) : EqOn m'' m l :=
  fun a ha => (h1 a ha).trans (h2 a ha)

theorem EqOn.mono_list {m' m : Nat → Node K V} {l l' : List Nat}
    (h : EqOn m' m l) (hs : ∀ a ∈ l', a ∈ l) : EqOn m' m l' :=
  fun a ha => h a (hs a ha)

theorem EqOn.append_left {m' m : Nat → Node K V} {l l' : List Nat}
    (h : EqOn m' m (l ++ l')) : EqOn m' m l :=
  fun a ha => h a (List.mem_append_left _ ha)

theorem EqOn.append_right {m' m : Nat → Node K V} {l l' : List Nat}
    (h : EqOn m' m (l ++ l')) : EqOn m' m l' :=
  fun a ha => h a (List.mem_append_right _ ha)

/-! ## Trees and paths -/

@[simp] theorem Tree.flat_nil {β : Type} (f : Nat → K → V → β) :
    (Tree.nil : Tree K V).flat f = [] := rfl

@[simp] theorem Tree.flat_node {β : Type} (f : Nat → K → V → β) (a : Nat) (c : RB.color)
    (l : Tree K V) (k : K) (v : V) (r : Tree K V) :
    (Tree.node a c l k v r).flat f = l.flat f ++ f a k v :: r.flat f := rfl

@[simp] theorem Tree.ptr_nil (sent : Nat) : (Tree.nil : Tree K V).ptr sent = sent := rfl

@[simp] theorem Tree.ptr_node (sent a : Nat) (c : RB.color) (l : Tree K V) (k : K) (v : V)
    (r : Tree K V) : (Tree.node a c l k v r).ptr sent = a := rfl

@[simp] theorem plug_nil (t : Tree K V) : plug [] t = t := rfl

@[simp] theorem plug_cons (f : Frame K V) (rest : List (Frame K V)) (t : Tree K V) :
    plug (f :: rest) t = plug rest (f.fill t) := rfl

theorem plug_append (c1 c2 : List (Frame K V)) (t : Tree K V) :
    plug (c1 ++ c2) t = plug c2 (plug c1 t) := by
  induction c1 generalizing t with
  | nil => rfl
  | cons f rest ih => simp [ih]

theorem flat_plug {β : Type} (f : Nat → K → V → β) (C : List (Frame K V)) (t : Tree K V) :
    (plug C t).flat f = ctxLeft f C ++ t.flat f ++ ctxRight f C := by
  induction C generalizing t with
  | nil => simp [ctxLeft, ctxRight]
  | cons fr rest ih =>
    cases fr <;> simp [ih, Frame.fill, ctxLeft, ctxRight]

theorem perm_plug_addrs (C : List (Frame K V)) (t : Tree K V) :
    List.Perm (plug C t).addrs (t.addrs ++ ctxAddrs C) := by
  induction C generalizing t with
  | nil => simp [ctxAddrs]
  | cons fr rest ih =>
    cases fr with
    | L a c k v r =>
      refine (ih _).trans ?_
      simp [Frame.fill, ctxAddrs]
    | R a c l k v =>
      refine (ih _).trans ?_
      simp only [Frame.fill, ctxAddrs, Tree.flat_node]
      have h1 : List.Perm (l.addrs ++ a :: t.addrs) (t.addrs ++ a :: l.addrs) :=
        (List.perm_append_comm).trans (List.perm_middle.symm)
      have h2 := h1.append_right (ctxAddrs rest)
      simpa using h2

theorem mem_plug_addrs (C : List (Frame K V)) (t : Tree K V) (x : Nat) :
    x ∈ (plug C t).addrs ↔ x ∈ t.addrs ∨ x ∈ ctxAddrs C := by
  rw [(perm_plug_addrs C t).mem_iff, List.mem_append]

theorem nodup_plug (C : List (Frame K V)) (t : Tree K V) :
    (plug C t).addrs.Nodup ↔
      t.addrs.Nodup ∧ (ctxAddrs C).Nodup ∧ ∀ x ∈ t.addrs, x ∉ ctxAddrs C := by
  rw [(perm_plug_addrs C t).nodup_iff, List.nodup_append]
  simp only [List.Disjoint]

@[simp] theorem ctxPar_nil (sent : Nat) : ctxPar sent ([] : List (Frame K V)) = sent := rfl

@[simp] theorem ctxPar_cons (sent : Nat) (f : Frame K V) (rest : List (Frame K V)) :
    ctxPar sent (f :: rest) = f.addr := rfl

@[simp] theorem Frame.addr_L (a : Nat) (c : RB.color) (k : K) (v : V) (r : Tree K V) :
    (Frame.L a c k v r).addr = a := rfl

@[simp] theorem Frame.addr_R (a : Nat) (c : RB.color) (l : Tree K V) (k : K) (v : V) :
    (Frame.R a c l k v).addr = a := rfl

theorem rep_plug (m : Nat → Node K V) (sent root : Nat) (C : List (Frame K V))
    (t : Tree K V) :
    (root = (plug C t).ptr sent ∧ Rep m sent sent (plug C t)) ↔
      (RepCtx m sent root C (t.ptr sent) ∧ Rep m sent (ctxPar sent C) t) := by
  induction C generalizing t with
  | nil => simp [RepCtx]
  | cons fr rest ih =>
    cases fr <;> simp only [plug_cons, ih, Frame.fill, RepCtx, Rep, Tree.ptr_node,
      ctxPar_cons, Frame.addr_L, Frame.addr_R] <;> tauto

theorem Rep.congr {m m' : Nat → Node K V} {sent par : Nat} {t : Tree K V}
    (h : Rep m sent par t) (he : EqOn m' m t.addrs) : Rep m' sent par t := by
  induction t generalizing par with
  | nil => trivial
  | node a c l k v r ihl ihr =>
    have ha : m' a = m a := he a (by simp)
    simp only [Rep] at h ⊢
    obtain ⟨h1, h2, h3, h4, h5, h6, h7, h8, h9, h10⟩ := h
    refine ⟨h1, h2, ?_, ?_, ?_, ?_, ?_, ?_, ihl h9 ?_, ihr h10 ?_⟩
    all_goals first
      | (rw [ha]; assumption)
      | (intro x hx; exact he x (by simp [hx]))

theorem RepCtx.ctx_congr {m m' : Nat → Node K V} {sent root p : Nat} {C : List (Frame K V)}
    (h : RepCtx m sent root C p) (he : EqOn m' m (ctxAddrs C)) :
    RepCtx m' sent root C p := by
  induction C generalizing p with
  | nil => exact h
  | cons fr rest ih =>
    cases fr with
    | L a c k v r =>
      have ha : m' a = m a := he a (by simp [ctxAddrs])
      simp only [RepCtx] at h ⊢
      obtain ⟨h1, h2, h3, h4, h5, h6, h7, h8, h9, h10⟩ := h
      refine ⟨h1, h2, ?_, ?_, ?_, ?_, ?_, ?_, h9.congr ?_, ih h10 ?_⟩
      all_goals first
        | (rw [ha]; assumption)
        | (intro x hx; exact he x (by simp [ctxAddrs, hx]))
    | R a c l k v =>
      have ha : m' a = m a := he a (by simp [ctxAddrs])
      simp only [RepCtx] at h ⊢
      obtain ⟨h1, h2, h3, h4, h5, h6, h7, h8, h9, h10⟩ := h
      refine ⟨h1, h2, ?_, ?_, ?_, ?_, ?_, ?_, h9.congr ?_, ih h10 ?_⟩
      all_goals first
        | (rw [ha]; assumption)
        | (intro x hx; exact he x (by simp [ctxAddrs, hx]))

/-- Addresses of a represented tree are neither nil nor the sentinel. -/
theorem Rep.addr_ne {m : Nat → Node K V} {sent par : Nat} {t : Tree K V}
    (h : Rep m sent par t) : ∀ a ∈ t.addrs, a ≠ 0 ∧ a ≠ sent := by
  induction t generalizing par with
  | nil => simp
  | node a c l k v r ihl ihr =>
    simp only [Rep] at h
    intro x hx
    simp only [Tree.flat_node, List.mem_append, List.mem_cons] at hx
    rcases hx with hx | rfl | hx
    · exact ihl h.2.2.2.2.2.2.2.2.1 x hx
    · exact ⟨h.1, h.2.1⟩
    · exact ihr h.2.2.2.2.2.2.2.2.2 x hx

/-- Addresses on a represented path are neither nil nor the sentinel. -/
theorem RepCtx.ctx_addr_ne {m : Nat → Node K V} {sent root p : Nat} {C : List (Frame K V)}
    (h : RepCtx m sent root C p) : ∀ a ∈ ctxAddrs C, a ≠ 0 ∧ a ≠ sent := by
  induction C generalizing p with
  | nil => simp [ctxAddrs]
  | cons fr rest ih =>
    cases fr <;>
    · simp only [RepCtx] at h
      intro x hx
      simp only [ctxAddrs, List.mem_append, List.mem_cons] at hx
      rcases hx with rfl | hx | hx
      · exact ⟨h.1, h.2.1⟩
      · exact h.2.2.2.2.2.2.2.2.1.addr_ne x hx
      · exact ih h.2.2.2.2.2.2.2.2.2 x hx

theorem Tree.ptr_mem_or (sent : Nat) (t : Tree K V) :
    t = .nil ∨ t.ptr sent ∈ t.addrs := by
  cases t <;> simp

theorem ctxPar_mem_or {sent : Nat} (C : List (Frame K V)) :
    C = [] ∨ ctxPar sent C ∈ ctxAddrs C := by
  cases C with
  | nil => simp
  | cons f rest => cases f <;> simp [ctxAddrs]

theorem Rep.left {m : Nat → Node K V} {sent par a : Nat} {c : RB.color} {l r : Tree K V}
    {k : K} {v : V} (h : Rep m sent par (.node a c l k v r)) : Rep m sent a l := by
  simp only [Rep] at h
  exact h.2.2.2.2.2.2.2.2.1

theorem Rep.right {m : Nat → Node K V} {sent par a : Nat} {c : RB.color} {l r : Tree K V}
    {k : K} {v : V} (h : Rep m sent par (.node a c l k v r)) : Rep m sent a r := by
  simp only [Rep] at h
  exact h.2.2.2.2.2.2.2.2.2

/-- If the root of a represented tree is re-parented and nothing else in it changes, it
is represented below the new parent. -/
theorem Rep.reparent {m m' : Nat → Node K V} {sent par par' a : Nat} {c : RB.color}
    {l r : Tree K V} {k : K} {v : V}
    (h : Rep m sent par (.node a c l k v r))
    (ha : m' a = { m a with parent := par' })
    (hl : EqOn m' m l.addrs) (hr : EqOn m' m r.addrs) :
    Rep m' sent par' (.node a c l k v r) := by
  simp only [Rep] at h ⊢
  obtain ⟨h1, h2, h3, h4, h5, h6, h7, h8, h9, h10⟩ := h
  refine ⟨h1, h2, ?_, ?_, ?_, ?_, ?_, ?_, h9.congr hl, h10.congr hr⟩ <;> simp [ha, *]

section NodupNode

variable {a : Nat} {c : RB.color} {l r : Tree K V} {k : K} {v : V}

theorem Tree.nodup_left (h : (Tree.node a c l k v r).addrs.Nodup) : l.addrs.Nodup := by
  simp only [Tree.flat_node, List.nodup_append] at h
  exact h.1

theorem Tree.nodup_right (h : (Tree.node a c l k v r).addrs.Nodup) : r.addrs.Nodup := by
  simp only [Tree.flat_node, List.nodup_append, List.nodup_cons] at h
  exact h.2.1.2

theorem Tree.root_not_mem_left (h : (Tree.node a c l k v r).addrs.Nodup) : a ∉ l.addrs := by
  simp only [Tree.flat_node, List.nodup_append, List.disjoint_left] at h
  exact fun hx => h.2.2 hx (by simp)

theorem Tree.root_not_mem_right (h : (Tree.node a c l k v r).addrs.Nodup) : a ∉ r.addrs := by
  simp only [Tree.flat_node, List.nodup_append, List.nodup_cons] at h
  exact h.2.1.1

theorem Tree.left_ne_right (h : (Tree.node a c l k v r).addrs.Nodup) {x y : Nat}
    (hx : x ∈ l.addrs) (hy : y ∈ r.addrs) : x ≠ y := by
  simp only [Tree.flat_node, List.nodup_append, List.disjoint_left] at h
  rintro rfl
  exact h.2.2 hx (by simp [hy])

end NodupNode

theorem Res.Post.bind {α β : Type} {x : Res α} {f : α → Res β} {P : α → Prop} {Q : β → Prop}
    (hx : x.Post P) (hf : ∀ a, P a → (f a).Post Q) : (x >>= f).Post Q := by
  obtain ⟨a, rfl, ha⟩ := hx
  exact hf a ha

theorem Res.Post.ok {α : Type} {a : α} {Q : α → Prop} (h : Q a) : (Res.ok a).Post Q :=
  ⟨a, rfl, h⟩

theorem Res.Post.mono {α : Type} {x : Res α} {P Q : α → Prop} (hx : x.Post P)
    (h : ∀ a, P a → Q a) : x.Post Q := by
  obtain ⟨a, e, ha⟩ := hx
  exact ⟨a, e, h a ha⟩

@[simp] theorem Res.post_ok {α : Type} {a : α} {Q : α → Prop} : (Res.ok a).Post Q ↔ Q a := by
  simp [Res.Post]

theorem relink_spec (r : RBTreeMap K V) (m : Nat → Node K V) (C : List (Frame K V))
    (x y : Nat)
    (hctx : RepCtx m r.sentinel r.root C x)
    (he : EqOn r.mem m (ctxAddrs C))
    (hnd : (ctxAddrs C).Nodup) (hx : x ∉ ctxAddrs C) (hxs : x ≠ r.sentinel) :
    (relink r (ctxPar r.sentinel C) x y).Post (fun r' =>
      RepCtx r'.mem r'.sentinel r'.root C y ∧
      (∀ p, p ∉ ctxAddrs C → r'.mem p = r.mem p) ∧
      r'.sentinel = r.sentinel ∧ r'.next = r.next ∧ r'.size = r.size ∧
      r'.compare = r.compare) := by
  cases C with
  | nil =>
    refine ⟨{ r with root := y }, ?_, ?_, ?_⟩
    · simp [relink]
    · simp [RepCtx]
    · simp
  | cons fr rest =>
    cases fr with
    | L a c k v sib =>
      have ha : r.mem a = m a := he a (by simp [ctxAddrs])
      simp only [RepCtx] at hctx
      obtain ⟨h1, h2, h3, h4, h5, h6, h7, h8, h9, h10⟩ := hctx
      simp only [ctxAddrs, List.nodup_cons, List.nodup_append, List.mem_append, not_or] at hnd
      obtain ⟨⟨hn1, hn2⟩, hn3, hn4, hn5⟩ := hnd
      refine ⟨{ r with mem := upd r.mem a { r.mem a with left := y } }, ?_, ?_, ?_, rfl, rfl, rfl, rfl⟩
      · simp [relink, h2, RBTreeMap.getLeft, RBTreeMap.setLeft, h1, ha, h7]
      · simp only [RepCtx, upd_self]
        rw [ha]
        refine ⟨h1, h2, h3, h4, h5, h6, trivial, h8, h9.congr ?_, h10.ctx_congr ?_⟩
        · exact EqOn.upd _ hn1 (he.mono_list (by intro p hp; simp [ctxAddrs, hp]))
        · exact EqOn.upd _ hn2 (he.mono_list (by intro p hp; simp [ctxAddrs, hp]))
      · intro p hp
        have : p ≠ a := by rintro rfl; exact hp (by simp [ctxAddrs])
        simp [upd_ne _ _ this]
    | R a c sib k v =>
      have ha : r.mem a = m a := he a (by simp [ctxAddrs])
      simp only [RepCtx] at hctx
      obtain ⟨h1, h2, h3, h4, h5, h6, h7, h8, h9, h10⟩ := hctx
      have hxl : x ≠ sib.ptr r.sentinel := by
        rcases sib.ptr_mem_or r.sentinel with hs | hs
        · subst hs; simpa using hxs
        · rintro rfl; exact hx (by simp [ctxAddrs, hs])
      simp only [ctxAddrs, List.nodup_cons, List.nodup_append, List.mem_append, not_or] at hnd
      obtain ⟨⟨hn1, hn2⟩, hn3, hn4, hn5⟩ := hnd
      refine ⟨{ r with mem := upd r.mem a { r.mem a with right := y } }, ?_, ?_, ?_, rfl, rfl, rfl, rfl⟩
      · simp [relink, h2, RBTreeMap.getLeft, RBTreeMap.setRight, h1, ha, h7, hxl]
      · simp only [RepCtx, upd_self]
        rw [ha]
        refine ⟨h1, h2, h3, h4, h5, h6, h7, trivial, h9.congr ?_, h10.ctx_congr ?_⟩
        · exact EqOn.upd _ hn1 (he.mono_list (by intro p hp; simp [ctxAddrs, hp]))
        · exact EqOn.upd _ hn2 (he.mono_list (by intro p hp; simp [ctxAddrs, hp]))
      · intro p hp
        have : p ≠ a := by rintro rfl; exact hp (by simp [ctxAddrs])
        simp [upd_ne _ _ this]

theorem rotateLeft_unfold (r : RBTreeMap K V) (x : Nat) :
    rotateLeft r x = (do
      let y ← r.getRight x
      let yl ← r.getLeft y
      let r ← r.setRight x yl
      let yl ← r.getLeft y
      let r ← (if yl ≠ r.sentinel then r.setParent yl x else pure r)
      let xp ← r.getParent x
      let r ← r.setParent y xp
      let xp ← r.getParent x
      let r ← relink r xp x y
      let r ← r.setLeft y x
      r.setParent x y) := rfl

theorem EqOn.via {m4 m3 m : Nat → Node K V} {l w : List Nat}
    (h4 : ∀ p, p ∉ w → m4 p = m3 p) (hd : ∀ p ∈ l, p ∉ w) (h : EqOn m3 m l) : EqOn m4 m l :=
  fun p hp => (h4 p (hd p hp)).trans (h p hp)

/-- The guarded write `if t != sentinel { t.parent = par' }` on the root of a subtree. -/
theorem reparent_spec (r : RBTreeMap K V) (sent : Nat) (t : Tree K V) (par par' : Nat)
    (hs : r.sentinel = sent)
    (hrep : Rep r.mem sent par t) (hnd : t.addrs.Nodup) :
    (if t.ptr sent ≠ sent then r.setParent (t.ptr sent) par'
      else pure r).Post (fun r' =>
      Rep r'.mem sent par' t ∧ (∀ p, p ∉ t.addrs → r'.mem p = r.mem p) ∧
      r'.root = r.root ∧ r'.sentinel = sent ∧ r'.next = r.next ∧ r'.size = r.size ∧
      r'.compare = r.compare) := by
  subst hs
  cases t with
  | nil => simp [Rep]
  | node a c tl k v tr =>
    have h := hrep
    simp only [Rep] at h
    simp only [Tree.flat_node, List.nodup_append, List.nodup_cons, List.mem_append,
      List.mem_cons, not_or, List.disjoint_left] at hnd
    have hal : a ∉ tl.addrs := fun h => (hnd.2.2 h).1 rfl
    have har : a ∉ tr.addrs := hnd.2.1.1
    simp only [Tree.ptr_node, ne_eq, h.2.1, not_false_eq_true, if_true, RBTreeMap.setParent, h.1,
      if_false]
    refine Res.Post.ok ⟨hrep.reparent (by simp) (EqOn.upd _ hal EqOn.refl_on)
      (EqOn.upd _ har EqOn.refl_on), ?_, rfl, rfl, rfl, rfl, rfl⟩
    intro p hp
    have : p ≠ a := by rintro rfl; exact hp (by simp)
    simp [upd_ne _ _ this]

theorem rotateLeft_spec (s : RBTreeMap K V) (C : List (Frame K V)) (x y : Nat)
    (c c' : RB.color) (a b g : Tree K V) (k k' : K) (v v' : V)
    (hctx : RepCtx s.mem s.sentinel s.root C x)
    (hrep : Rep s.mem s.sentinel (ctxPar s.sentinel C)
      (.node x c a k v (.node y c' b k' v' g)))
    (hnd : (plug C (.node x c a k v (.node y c' b k' v' g))).addrs.Nodup) :
    (rotateLeft s x).Post (fun s' =>
      RepCtx s'.mem s'.sentinel s'.root C y ∧
      Rep s'.mem s'.sentinel (ctxPar s'.sentinel C)
        (.node y c' (.node x c a k v b) k' v' g) ∧
      Same s s') := by
  rw [nodup_plug] at hnd
  obtain ⟨hnt, hnc, hdisj⟩ := hnd
  simp only [Rep] at hrep
  obtain ⟨hx0, hxs, hxk, hxv, hxc, hxp, hxl, hxr, hRa, hy0, hys, hyk, hyv, hyc, hyp, hyl, hyr,
    hRb, hRg⟩ := hrep
  simp only [Tree.ptr_node] at hxr
  have hxc' : x ∉ ctxAddrs C := hdisj x (by simp)
  have hyc' : y ∉ ctxAddrs C := hdisj y (by simp)
  have hsc : s.sentinel ∉ ctxAddrs C := fun h => (hctx.ctx_addr_ne _ h).2 rfl
  have hac : ∀ p ∈ a.addrs, p ∉ ctxAddrs C := fun p hp => hdisj p (by simp [hp])
  have hbc : ∀ p ∈ b.addrs, p ∉ ctxAddrs C := fun p hp => hdisj p (by simp [hp])
  have hgc : ∀ p ∈ g.addrs, p ∉ ctxAddrs C := fun p hp => hdisj p (by simp [hp])
  have hsa : s.sentinel ∉ a.addrs := fun h => (hRa.addr_ne _ h).2 rfl
  have hsb : s.sentinel ∉ b.addrs := fun h => (hRb.addr_ne _ h).2 rfl
  have hsg : s.sentinel ∉ g.addrs := fun h => (hRg.addr_ne _ h).2 rfl
  simp only [Tree.flat_node, List.nodup_append, List.nodup_cons, List.mem_append,
    List.mem_cons, not_or, List.disjoint_left] at hnt
  obtain ⟨hna, ⟨⟨hxb, hxy, hxg⟩, hnb, ⟨hyg, hng⟩, hdb⟩, hda⟩ := hnt
  have hxa : x ∉ a.addrs := fun h => (hda h).1 rfl
  have hya : y ∉ a.addrs := fun h => (hda h).2.2.1 rfl
  have hyb : y ∉ b.addrs := fun h => (hdb h).1 rfl
  have hab : ∀ p ∈ a.addrs, p ∉ b.addrs := fun p hp => (hda hp).2.1
  have hgb : ∀ p ∈ g.addrs, p ∉ b.addrs := fun p hp hb => (hdb hb).2 hp
  rw [rotateLeft_unfold]
  simp only [RBTreeMap.getRight, RBTreeMap.getLeft, RBTreeMap.setRight, hx0, hy0, hxr, hyl,
    upd_ne _ _ (Ne.symm hxy), if_false, Res.ok_bind]
  refine Res.Post.bind (reparent_spec _ s.sentinel b y x rfl ?_ hnb) ?_
  · exact hRb.congr (EqOn.upd _ hxb EqOn.refl_on)
  rintro r2 ⟨hR2, hm2, hr2, hs2, hn2, hz2, hcmp2⟩
  simp only at hR2 hm2 hr2 hs2 hn2 hz2 hcmp2
  simp only [RBTreeMap.getParent, RBTreeMap.setParent, hx0, hy0, if_false, Res.ok_bind, hm2 _ hxb,
    hm2 _ hyb, upd_self, upd_ne _ _ (Ne.symm hxy), upd_ne _ _ hxy, hxp]
  rw [← hs2]
  refine Res.Post.bind (relink_spec _ s.mem C x y ?_ ?_ hnc hxc' (hs2 ▸ hxs)) ?_
  · simpa only [hs2, hr2] using hctx
  · exact EqOn.upd _ hyc' (EqOn.via hm2 (fun p hp hb => hbc p hb hp) (EqOn.upd _ hxc' EqOn.refl_on))
  · rintro r4 ⟨hc4, hm4, hs4, hn4, hz4, hcmp4⟩
    simp only at hs4 hn4 hz4 hcmp4 hm4
    simp only [RBTreeMap.setParent, RBTreeMap.setLeft, hx0, hy0, if_false, Res.ok_bind,
      Res.post_ok]
    have hs42 : r4.sentinel = s.sentinel := hs4.trans hs2
    refine ⟨?_, ?_, ?_⟩
    · simp only [hs42] at hc4 ⊢
      exact hc4.ctx_congr (EqOn.upd _ hxc' (EqOn.upd _ hyc' EqOn.refl_on))
    · simp only [hs42, Rep, upd_self, upd_ne _ _ (Ne.symm hxy), upd_ne _ _ hxy, hm4 _ hxc',
        hm4 _ hyc', hm2 _ hxb, hm2 _ hyb, Tree.ptr_node]
      refine ⟨hy0, hys, hyk, hyv, hyc, ?_, trivial, hyr, ⟨hx0, hxs, hxk, hxv, hxc, trivial,
        hxl, trivial, ?_, ?_⟩, ?_⟩
      · rw [hs2]
      · exact hRa.congr (EqOn.upd _ hxa (EqOn.upd _ hya (EqOn.via hm4 hac
          (EqOn.upd _ hya (EqOn.via hm2 hab (EqOn.upd _ hxa EqOn.refl_on))))))
      · exact hR2.congr (EqOn.upd _ hxb (EqOn.upd _ hyb (EqOn.via hm4 hbc
          (EqOn.upd _ hyb EqOn.refl_on))))
      · exact hRg.congr (EqOn.upd _ hxg (EqOn.upd _ hyg (EqOn.via hm4 hgc
          (EqOn.upd _ hyg (EqOn.via hm2 hgb (EqOn.upd _ hxg EqOn.refl_on))))))
    · refine ⟨hs42, ?_, hn4.trans hn2, hz4.trans hz2, hcmp4.trans hcmp2⟩
      simp only [upd_ne _ _ hxs.symm, upd_ne _ _ hys.symm, hm4 _ hsc, hm2 _ hsb]

theorem rotateRight_unfold (r : RBTreeMap K V) (y : Nat) :
    rotateRight r y = (do
      let x ← r.getLeft y
      let xr ← r.getRight x
      let r ← r.setLeft y xr
      let xr ← r.getRight x
      let r ← (if xr ≠ r.sentinel then r.setParent xr y else pure r)
      let yp ← r.getParent y
      let r ← r.setParent x yp
      let yp ← r.getParent y
      let r ← relink r yp y x
      let r ← r.setRight x y
      r.setParent y x) := rfl

theorem rotateRight_spec (s : RBTreeMap K V) (C : List (Frame K V)) (x y : Nat)
    (c c' : RB.color) (a b g : Tree K V) (k k' : K) (v v' : V)
    (hctx : RepCtx s.mem s.sentinel s.root C y)
    (hrep : Rep s.mem s.sentinel (ctxPar s.sentinel C)
      (.node y c' (.node x c a k v b) k' v' g))
    (hnd : (plug C (.node y c' (.node x c a k v b) k' v' g)).addrs.Nodup) :
    (rotateRight s y).Post (fun s' =>
      RepCtx s'.mem s'.sentinel s'.root C x ∧
      Rep s'.mem s'.sentinel (ctxPar s'.sentinel C)
        (.node x c a k v (.node y c' b k' v' g)) ∧
      Same s s') := by
  rw [nodup_plug] at hnd
  obtain ⟨hnt, hnc, hdisj⟩ := hnd
  simp only [Rep] at hrep
  obtain ⟨hy0, hys, hyk, hyv, hyc, hyp, hyl, hyr, ⟨hx0, hxs, hxk, hxv, hxc, hxp, hxl, hxr, hRa,
    hRb⟩, hRg⟩ := hrep
  simp only [Tree.ptr_node] at hyl
  have hxc' : x ∉ ctxAddrs C := hdisj x (by simp)
  have hyc' : y ∉ ctxAddrs C := hdisj y (by simp)
  have hsc : s.sentinel ∉ ctxAddrs C := fun h => (hctx.ctx_addr_ne _ h).2 rfl
  have hac : ∀ p ∈ a.addrs, p ∉ ctxAddrs C := fun p hp => hdisj p (by simp [hp])
  have hbc : ∀ p ∈ b.addrs, p ∉ ctxAddrs C := fun p hp => hdisj p (by simp [hp])
  have hgc : ∀ p ∈ g.addrs, p ∉ ctxAddrs C := fun p hp => hdisj p (by simp [hp])
  have hsb : s.sentinel ∉ b.addrs := fun h => (hRb.addr_ne _ h).2 rfl
  simp only [Tree.flat_node, List.nodup_append, List.nodup_cons, List.mem_append,
    List.mem_cons, not_or, List.disjoint_left] at hnt
  obtain ⟨⟨hna, ⟨hxb, hnb⟩, hda⟩, ⟨hyg, hng⟩, hdg⟩ := hnt
  have hxa : x ∉ a.addrs := fun h => (hda h).1 rfl
  have hya : y ∉ a.addrs := fun h => (hdg (Or.inl h)).1 rfl
  have hyb : y ∉ b.addrs := fun h => (hdg (Or.inr (Or.inr h))).1 rfl
  have hxy : x ≠ y := (hdg (Or.inr (Or.inl rfl))).1
  have hxg : x ∉ g.addrs := (hdg (Or.inr (Or.inl rfl))).2
  have hab : ∀ p ∈ a.addrs, p ∉ b.addrs := fun p hp => (hda hp).2
  have hgb : ∀ p ∈ g.addrs, p ∉ b.addrs := fun p hp hb => (hdg (Or.inr (Or.inr hb))).2 hp
  rw [rotateRight_unfold]
  simp only [RBTreeMap.getRight, RBTreeMap.getLeft, RBTreeMap.setLeft, hx0, hy0, hxr, hyl,
    upd_ne _ _ hxy, if_false, Res.ok_bind]
  refine Res.Post.bind (reparent_spec _ s.sentinel b x y rfl ?_ hnb) ?_
  · exact hRb.congr (EqOn.upd _ hyb EqOn.refl_on)
  rintro r2 ⟨hR2, hm2, hr2, hs2, hn2, hz2, hcmp2⟩
  simp only at hR2 hm2 hr2 hs2 hn2 hz2 hcmp2
  simp only [RBTreeMap.getParent, RBTreeMap.setParent, hx0, hy0, if_false, Res.ok_bind, hm2 _ hxb,
    hm2 _ hyb, upd_self, upd_ne _ _ (Ne.symm hxy), upd_ne _ _ hxy, hyp]
  rw [← hs2]
  refine Res.Post.bind (relink_spec _ s.mem C y x ?_ ?_ hnc hyc' (hs2 ▸ hys)) ?_
  · simpa only [hs2, hr2] using hctx
  · exact EqOn.upd _ hxc' (EqOn.via hm2 (fun p hp hb => hbc p hb hp) (EqOn.upd _ hyc' EqOn.refl_on))
  · rintro r4 ⟨hc4, hm4, hs4, hn4, hz4, hcmp4⟩
    simp only at hs4 hn4 hz4 hcmp4 hm4
    simp only [RBTreeMap.setParent, RBTreeMap.setRight, hx0, hy0, if_false, Res.ok_bind,
      Res.post_ok]
    have hs42 : r4.sentinel = s.sentinel := hs4.trans hs2
    refine ⟨?_, ?_, ?_⟩
    · simp only [hs42] at hc4 ⊢
      exact hc4.ctx_congr (EqOn.upd _ hyc' (EqOn.upd _ hxc' EqOn.refl_on))
    · simp only [hs42, Rep, upd_self, upd_ne _ _ (Ne.symm hxy), upd_ne _ _ hxy, hm4 _ hxc',
        hm4 _ hyc', hm2 _ hxb, hm2 _ hyb, Tree.ptr_node]
      refine ⟨hx0, hxs, hxk, hxv, hxc, ?_, hxl, trivial, ?_, ⟨hy0, hys, hyk, hyv, hyc, trivial,
        trivial, hyr, ?_, ?_⟩⟩
      · rw [hs2]
      · exact hRa.congr (EqOn.upd _ hya (EqOn.upd _ hxa (EqOn.via hm4 hac
          (EqOn.upd _ hxa (EqOn.via hm2 hab (EqOn.upd _ hya EqOn.refl_on))))))
      · exact hR2.congr (EqOn.upd _ hyb (EqOn.upd _ hxb (EqOn.via hm4 hbc
          (EqOn.upd _ hxb EqOn.refl_on))))
      · exact hRg.congr (EqOn.upd _ hyg (EqOn.upd _ hxg (EqOn.via hm4 hgc
          (EqOn.upd _ hxg (EqOn.via hm2 hgb (EqOn.upd _ hyg EqOn.refl_on))))))
    · refine ⟨hs42, ?_, hn4.trans hn2, hz4.trans hz2, hcmp4.trans hcmp2⟩
      simp only [upd_ne _ _ hxs.symm, upd_ne _ _ hys.symm, hm4 _ hsc, hm2 _ hsb]

/-! ## Tree-level view of the heap primitives -/

theorem Same.same_refl {s : RBTreeMap K V} : Same s s := ⟨Eq.refl _, Eq.refl _, Eq.refl _, Eq.refl _, Eq.refl _⟩

theorem Same.same_trans {s1 s2 s3 : RBTreeMap K V} (h12 : Same s1 s2) (h23 : Same s2 s3) :
    Same s1 s3 := by
  obtain ⟨a1, a2, a3, a4, a5⟩ := h12
  obtain ⟨b1, b2, b3, b4, b5⟩ := h23
  refine ⟨b1.trans a1, ?_, b3.trans a3, b4.trans a4, b5.trans a5⟩
  rw [← a1, b2, a1, a2]

theorem plug_flat_congr {β : Type} (f : Nat → K → V → β) (C : List (Frame K V))
    {t t' : Tree K V} (h : t.flat f = t'.flat f) : (plug C t).flat f = (plug C t').flat f := by
  rw [flat_plug, flat_plug, h]

section Readers

variable {s : RBTreeMap K V} {C : List (Frame K V)} {a : Nat} {c : RB.color}
  {l r : Tree K V} {k : K} {v : V}

theorem Shape.node_facts (h : Shape s (plug C (.node a c l k v r))) :
    a ≠ 0 ∧ a ≠ s.sentinel ∧ (s.mem a).key = k ∧ (s.mem a).value = v ∧ (s.mem a).color = c ∧
    (s.mem a).parent = ctxPar s.sentinel C ∧ (s.mem a).left = l.ptr s.sentinel ∧
    (s.mem a).right = r.ptr s.sentinel := by
  have h2 := ((rep_plug _ _ _ _ _).1 h.rep).2
  simp only [Rep] at h2
  exact ⟨h2.1, h2.2.1, h2.2.2.1, h2.2.2.2.1, h2.2.2.2.2.1, h2.2.2.2.2.2.1, h2.2.2.2.2.2.2.1,
    h2.2.2.2.2.2.2.2.1⟩

theorem getKey_at (h : Shape s (plug C (.node a c l k v r))) : s.getKey a = .ok k := by
  have := h.node_facts
  simp [RBTreeMap.getKey, this]

theorem getValue_at (h : Shape s (plug C (.node a c l k v r))) : s.getValue a = .ok v := by
  have := h.node_facts
  simp [RBTreeMap.getValue, this]

theorem getColor_at (h : Shape s (plug C (.node a c l k v r))) : s.getColor a = .ok c := by
  have := h.node_facts
  simp [RBTreeMap.getColor, this]

theorem getParent_at (h : Shape s (plug C (.node a c l k v r))) :
    s.getParent a = .ok (ctxPar s.sentinel C) := by
  have := h.node_facts
  simp [RBTreeMap.getParent, this]

theorem getLeft_at (h : Shape s (plug C (.node a c l k v r))) :
    s.getLeft a = .ok (l.ptr s.sentinel) := by
  have := h.node_facts
  simp [RBTreeMap.getLeft, this]

theorem getRight_at (h : Shape s (plug C (.node a c l k v r))) :
    s.getRight a = .ok (r.ptr s.sentinel) := by
  have := h.node_facts
  simp [RBTreeMap.getRight, this]

end Readers

theorem getColor_ptr {s : RBTreeMap K V} {C : List (Frame K V)} {t : Tree K V}
    (h : Shape s (plug C t)) : s.getColor (t.ptr s.sentinel) = .ok t.rootColor := by
  cases t with
  | nil => simp [RBTreeMap.getColor, h.sent_ne, h.sent_black, Tree.rootColor]
  | node a c l k v r => simpa [Tree.rootColor] using getColor_at h

/-- A node pointer differs from the pointer to any tree standing elsewhere. -/
theorem Shape.ptr_ne_sentinel {s : RBTreeMap K V} {C : List (Frame K V)} {a : Nat}
    {c : RB.color} {l r : Tree K V} {k : K} {v : V}
    (h : Shape s (plug C (.node a c l k v r))) : a ≠ s.sentinel := h.node_facts.2.1

theorem Shape.of_same_flat {s : RBTreeMap K V} {T T' : Tree K V} (h : Shape s T)
    {s' : RBTreeMap K V} (hsame : Same s s') (hrep : RepTree s' T')
    (hflat : T'.addrs = T.addrs) : Shape s' T' := by
  refine ⟨hrep, hflat ▸ h.nodup, hsame.sentinel ▸ h.sent_ne, ?_⟩
  rw [hsame.sentinel, hsame.sentNode]
  exact h.sent_black

theorem rotateLeft_at {s : RBTreeMap K V} {C : List (Frame K V)} {x y : Nat}
    {c c' : RB.color} {a b g : Tree K V} {k k' : K} {v v' : V}
    (h : Shape s (plug C (.node x c a k v (.node y c' b k' v' g)))) :
    (rotateLeft s x).Post (fun s' =>
      Shape s' (plug C (.node y c' (.node x c a k v b) k' v' g)) ∧ Same s s') := by
  obtain ⟨hC, hR⟩ := (rep_plug _ _ _ _ _).1 h.rep
  refine (rotateLeft_spec s C x y c c' a b g k k' v v' hC hR h.nodup).mono ?_
  rintro s' ⟨hC', hR', hsame⟩
  refine ⟨h.of_same_flat hsame ((rep_plug _ _ _ _ _).2 ⟨hC', hR'⟩) ?_, hsame⟩
  exact plug_flat_congr _ _ (by simp)

theorem rotateRight_at {s : RBTreeMap K V} {C : List (Frame K V)} {x y : Nat}
    {c c' : RB.color} {a b g : Tree K V} {k k' : K} {v v' : V}
    (h : Shape s (plug C (.node y c' (.node x c a k v b) k' v' g))) :
    (rotateRight s y).Post (fun s' =>
      Shape s' (plug C (.node x c a k v (.node y c' b k' v' g))) ∧ Same s s') := by
  obtain ⟨hC, hR⟩ := (rep_plug _ _ _ _ _).1 h.rep
  refine (rotateRight_spec s C x y c c' a b g k k' v v' hC hR h.nodup).mono ?_
  rintro s' ⟨hC', hR', hsame⟩
  refine ⟨h.of_same_flat hsame ((rep_plug _ _ _ _ _).2 ⟨hC', hR'⟩) ?_, hsame⟩
  exact plug_flat_congr _ _ (by simp)

/-- Overwriting the key-independent payload (colour, value) of the node in focus. -/
theorem setNode_at {s : RBTreeMap K V} {C : List (Frame K V)} {a : Nat}
    {c : RB.color} {l r : Tree K V} {k : K} {v : V} (c' : RB.color) (v' : V)
    (h : Shape s (plug C (.node a c l k v r))) :
    Shape { s with mem := upd s.mem a { s.mem a with color := c', value := v' } }
        (plug C (.node a c' l k v' r)) ∧
      Same s { s with mem := upd s.mem a { s.mem a with color := c', value := v' } } := by
  obtain ⟨hC, hR⟩ := (rep_plug _ _ _ _ _).1 h.rep
  have hnd := h.nodup
  rw [nodup_plug] at hnd
  obtain ⟨hnt, hnc, hdisj⟩ := hnd
  have hac : a ∉ ctxAddrs C := hdisj a (by simp)
  simp only [Tree.flat_node, List.nodup_append, List.nodup_cons, List.mem_append,
    List.mem_cons, not_or, List.disjoint_left] at hnt
  obtain ⟨hnl, ⟨har, hnr⟩, hdl⟩ := hnt
  have hal : a ∉ l.addrs := fun h => (hdl h).1 rfl
  have hf := h.node_facts
  have hsame : Same s { s with mem := upd s.mem a { s.mem a with color := c', value := v' } } :=
    ⟨rfl, by simp [upd_ne _ _ (Ne.symm hf.2.1)], rfl, rfl, rfl⟩
  refine ⟨h.of_same_flat hsame ((rep_plug _ _ _ _ _).2 ⟨?_, ?_⟩) ?_, hsame⟩
  · exact RepCtx.ctx_congr hC (EqOn.upd _ hac EqOn.refl_on)
  · simp only [Rep] at hR ⊢
    obtain ⟨h1, h2, h3, h4, h5, h6, h7, h8, h9, h10⟩ := hR
    simp only [upd_self]
    exact ⟨h1, h2, h3, trivial, trivial, h6, h7, h8, h9.congr (EqOn.upd _ hal EqOn.refl_on),
      h10.congr (EqOn.upd _ har EqOn.refl_on)⟩
  · exact plug_flat_congr _ _ (by simp)

theorem setColor_at {s : RBTreeMap K V} {C : List (Frame K V)} {a : Nat}
    {c : RB.color} {l r : Tree K V} {k : K} {v : V} (c' : RB.color)
    (h : Shape s (plug C (.node a c l k v r))) :
    (s.setColor a c').Post (fun s' => Shape s' (plug C (.node a c' l k v r)) ∧ Same s s') := by
  have hf := h.node_facts
  have := setNode_at c' v h
  simp only [RBTreeMap.setColor, hf.1, if_false, Res.post_ok]
  have e : ({ s.mem a with color := c', value := v } : Node K V) = { s.mem a with color := c' } := by
    rw [← hf.2.2.2.1]
  rw [e] at this
  exact this

theorem setValue_at {s : RBTreeMap K V} {C : List (Frame K V)} {a : Nat}
    {c : RB.color} {l r : Tree K V} {k : K} {v : V} (v' : V)
    (h : Shape s (plug C (.node a c l k v r))) :
    (s.setValue a v').Post (fun s' => Shape s' (plug C (.node a c l k v' r)) ∧ Same s s') := by
  have hf := h.node_facts
  have := setNode_at c v' h
  simp only [RBTreeMap.setValue, hf.1, if_false, Res.post_ok]
  have e : ({ s.mem a with color := c, value := v' } : Node K V) = { s.mem a with value := v' } := by
    rw [← hf.2.2.2.2.1]
  rw [e] at this
  exact this

theorem plug_node_ne_nil (C : List (Frame K V)) (a : Nat) (c : RB.color) (l : Tree K V)
    (k : K) (v : V) (r : Tree K V) :
    ∃ a' c' l' k' v' r', plug C (.node a c l k v r) = .node a' c' l' k' v' r' := by
  induction C generalizing a c l k v r with
  | nil => exact ⟨_, _, _, _, _, _, rfl⟩
  | cons f rest ih => cases f <;> exact ih _ _ _ _ _ _

/-- Colouring the root BLACK, as done at the end of `fixInsert`. -/
theorem setRootBlack {s : RBTreeMap K V} {T : Tree K V} (h : Shape s T) (hT : T ≠ .nil) :
    (s.setColor s.root BLACK).Post (fun s' => Shape s' T.blacken ∧ Same s s') := by
  cases T with
  | nil => exact absurd rfl hT
  | node a c l k v r =>
    have hr : s.root = a := h.rep.1
    rw [hr]
    exact setColor_at (C := []) BLACK h

theorem fixInsert_exit {s : RBTreeMap K V} {C : List (Frame K V)} {n : Nat} {nc : RB.color}
    {tl tr : Tree K V} {k : K} {v : V} (fuel : Nat)
    (h : Shape s (plug C (.node n nc tl k v tr)))
    (hc : ∀ f rest, C = f :: rest → f.col = BLACK) :
    fixInsert (fuel + 1) s n = s.setColor s.root BLACK := by
  cases C with
  | nil =>
    have hp := getParent_at h
    simp only [ctxPar_nil] at hp
    simp [fixInsert, hp, RBTreeMap.getColor, h.sent_ne, h.sent_black]
  | cons f rest =>
    have hp := getParent_at h
    have hcol := hc f rest rfl
    cases f with
    | L pa pc ka va pr =>
      have hpc := getColor_at (C := rest) (a := pa) h
      simp only [Frame.col] at hcol
      simp [fixInsert, hp, hpc, hcol]
    | R pa pc pl ka va =>
      have hpc := getColor_at (C := rest) (a := pa) h
      simp only [Frame.col] at hcol
      simp [fixInsert, hp, hpc, hcol]

theorem Tree.rootColor_red {t : Tree K V} (h : t.rootColor = RED) :
    ∃ a l k v r, t = .node a RED l k v r := by
  cases t with
  | nil => simp [Tree.rootColor] at h
  | node a c l k v r => simp only [Tree.rootColor] at h; subst h; exact ⟨_, _, _, _, _, rfl⟩

theorem Shape.left_ptr_ne_right {s : RBTreeMap K V} {C : List (Frame K V)} {g a : Nat}
    {gc c : RB.color} {l r r' : Tree K V} {kg k : K} {vg v : V}
    (h : Shape s (plug C (.node g gc (.node a c l k v r) kg vg r'))) :
    a ≠ r'.ptr s.sentinel := by
  cases r' with
  | nil => exact (Shape.node_facts (C := .L g gc kg vg .nil :: C) h).2.1
  | node b cb bl bk bv br =>
    have hnd := ((nodup_plug _ _).1 h.nodup).1
    exact Tree.left_ne_right hnd (by simp) (by simp)

theorem Shape.right_ne_left {s : RBTreeMap K V} {C : List (Frame K V)} {g a : Nat}
    {gc c : RB.color} {l r l' : Tree K V} {kg k : K} {vg v : V}
    (h : Shape s (plug C (.node g gc l' kg vg (.node a c l k v r)))) :
    a ≠ l'.ptr s.sentinel := by
  cases l' with
  | nil => exact (Shape.node_facts (C := .R g gc .nil kg vg :: C) h).2.1
  | node b cb bl bk bv br =>
    have hnd := ((nodup_plug _ _).1 h.nodup).1
    exact (Tree.left_ne_right hnd (by simp) (by simp)).symm

theorem CtxRootBlack.tail2 {f1 f2 : Frame K V} {rest : List (Frame K V)}
    (h : CtxRootBlack (f1 :: f2 :: rest)) : CtxRootBlack rest := by
  cases rest with
  | nil => trivial
  | cons g rest' => exact h

/-- `fixInsert` on the heap computes `fixInsertZ` on the represented tree. -/
theorem fixInsert_sim : ∀ (C : List (Frame K V)) (fuel : Nat) (s : RBTreeMap K V) (n : Nat)
    (nc : RB.color) (tl : Tree K V) (k : K) (v : V) (tr : Tree K V),
    Shape s (plug C (.node n nc tl k v tr)) → CtxRootBlack C → C.length + 2 ≤ fuel →
    (fixInsert fuel s n).Post (fun s' =>
      Shape s' (fixInsertZ C (.node n nc tl k v tr)) ∧ Same s s')
  | [], fuel, s, n, nc, tl, k, v, tr, h, _, hf => by
    obtain ⟨f, rfl⟩ : ∃ f, fuel = f + 1 := ⟨fuel - 1, by simp at hf; omega⟩
    rw [fixInsert_exit f h (by simp)]
    exact setRootBlack h (by simp)
  | [fr], fuel, s, n, nc, tl, k, v, tr, h, hb, hf => by
    obtain ⟨f, rfl⟩ : ∃ f, fuel = f + 1 := ⟨fuel - 1, by simp at hf; omega⟩
    rw [fixInsert_exit f h (by intro f' rest' e; simp at e; rw [← e.1]; exact hb)]
    refine setRootBlack h ?_
    cases fr <;> simp [Frame.fill]
  | f1 :: f2 :: rest, fuel, s, n, nc, tl, k, v, tr, h, hb, hf => by
    obtain ⟨f, rfl⟩ : ∃ f, fuel = f + 2 := ⟨fuel - 2, by simp at hf; omega⟩
    have hf' : rest.length + 2 ≤ f + 1 := by simp at hf; omega
    by_cases hc : f1.col = RED
    · cases f2 with
      | L ga gc kg vg u =>
        by_cases hu : u.rootColor = RED
        · obtain ⟨ua, ul, uk, uv, ur, rfl⟩ := Tree.rootColor_red hu
          cases f1 with
          | R pa pc la ka va =>
            simp only [Frame.col] at hc
            subst hc
            simp only [fixInsertZ, Frame.col, if_true, Tree.rootColor, Frame.fill, Tree.blacken]
            rw [fixInsert]
            simp only [getParent_at h, ctxPar_cons, Frame.addr_R, Frame.addr_L, Res.ok_bind,
              getColor_at (C := .L ga gc kg vg _ :: rest) (a := pa) h, if_true,
              getParent_at (C := .L ga gc kg vg _ :: rest) (a := pa) h,
              getLeft_at (C := rest) (a := ga) h, Tree.ptr_node, Frame.fill,
              getRight_at (C := rest) (a := ga) h,
              getColor_at (C := .R ga gc _ kg vg :: rest) (a := ua) h]
            refine Res.Post.bind (setColor_at (C := .L ga gc kg vg _ :: rest) (a := pa) BLACK h) ?_
            rintro s1 ⟨h1, hs1⟩
            refine Res.Post.bind (setColor_at (C := .R ga gc _ kg vg :: rest) (a := ua) BLACK h1) ?_
            rintro s2 ⟨h2, hs2⟩
            simp only [getParent_at (C := .R pa BLACK la ka va :: .L ga gc kg vg _ :: rest) (a := n) h2,
              getParent_at (C := .L ga gc kg vg _ :: rest) (a := pa) h2,
              ctxPar_cons, Frame.addr_R, Frame.addr_L, Res.ok_bind]
            refine Res.Post.bind (setColor_at (C := rest) (a := ga) RED h2) ?_
            rintro s3 ⟨h3, hs3⟩
            simp only [getParent_at (C := .R pa BLACK la ka va :: .L ga RED kg vg _ :: rest) (a := n) h3,
              getParent_at (C := .L ga RED kg vg _ :: rest) (a := pa) h3,
              ctxPar_cons, Frame.addr_R, Frame.addr_L, Res.ok_bind]
            refine (fixInsert_sim rest (f + 1) s3 ga RED _ kg vg _ h3 hb.tail2 hf').mono ?_
            rintro s4 ⟨h4, hs4⟩
            exact ⟨h4, ((hs1.same_trans hs2).same_trans hs3).same_trans hs4⟩
          | L pa pc ka va pr =>
            simp only [Frame.col] at hc
            subst hc
            simp only [fixInsertZ, Frame.col, if_true, Tree.rootColor, Frame.fill, Tree.blacken]
            rw [fixInsert]
            simp only [getParent_at h, ctxPar_cons, Frame.addr_R, Frame.addr_L, Res.ok_bind,
              getColor_at (C := .L ga gc kg vg _ :: rest) (a := pa) h, if_true,
              getParent_at (C := .L ga gc kg vg _ :: rest) (a := pa) h,
              getLeft_at (C := rest) (a := ga) h, Tree.ptr_node, Frame.fill,
              getRight_at (C := rest) (a := ga) h,
              getColor_at (C := .R ga gc _ kg vg :: rest) (a := ua) h]
            refine Res.Post.bind (setColor_at (C := .L ga gc kg vg _ :: rest) (a := pa) BLACK h) ?_
            rintro s1 ⟨h1, hs1⟩
            refine Res.Post.bind (setColor_at (C := .R ga gc _ kg vg :: rest) (a := ua) BLACK h1) ?_
            rintro s2 ⟨h2, hs2⟩
            simp only [getParent_at (C := .L pa BLACK ka va pr :: .L ga gc kg vg _ :: rest) (a := n) h2,
              getParent_at (C := .L ga gc kg vg _ :: rest) (a := pa) h2,
              ctxPar_cons, Frame.addr_R, Frame.addr_L, Res.ok_bind]
            refine Res.Post.bind (setColor_at (C := rest) (a := ga) RED h2) ?_
            rintro s3 ⟨h3, hs3⟩
            simp only [getParent_at (C := .L pa BLACK ka va pr :: .L ga RED kg vg _ :: rest) (a := n) h3,
              getParent_at (C := .L ga RED kg vg _ :: rest) (a := pa) h3,
              ctxPar_cons, Frame.addr_R, Frame.addr_L, Res.ok_bind]
            refine (fixInsert_sim rest (f + 1) s3 ga RED _ kg vg _ h3 hb.tail2 hf').mono ?_
            rintro s4 ⟨h4, hs4⟩
            exact ⟨h4, ((hs1.same_trans hs2).same_trans hs3).same_trans hs4⟩
        · have hucol := getColor_ptr
            (C := .R ga gc (f1.fill (.node n nc tl k v tr)) kg vg :: rest) (t := u) h
          cases f1 with
          | R pa pc la ka va =>
            simp only [Frame.col] at hc
            subst hc
            simp only [fixInsertZ, Frame.col, if_true, hu, if_false]
            rw [fixInsert]
            simp only [getParent_at h, ctxPar_cons, Frame.addr_R, Frame.addr_L, Res.ok_bind,
              getColor_at (C := .L ga gc kg vg u :: rest) (a := pa) h, if_true,
              getParent_at (C := .L ga gc kg vg u :: rest) (a := pa) h,
              getLeft_at (C := rest) (a := ga) h, Tree.ptr_node, Frame.fill,
              getRight_at (C := rest) (a := ga) h, hucol, hu, if_false,
              getRight_at (C := .L ga gc kg vg u :: rest) (a := pa) h, Res.bind_assoc]
            refine Res.Post.bind (rotateLeft_at (C := .L ga gc kg vg u :: rest) h) ?_
            rintro s1 ⟨h1, hs1⟩
            simp only [Res.pure_def, Res.ok_bind]
            simp only [getParent_at (C := .L n nc k v tr :: .L ga gc kg vg u :: rest) (a := pa) h1,
              ctxPar_cons, Frame.addr_R, Frame.addr_L, Res.ok_bind]
            refine Res.Post.bind (setColor_at (C := .L ga gc kg vg u :: rest) BLACK h1) ?_
            rintro s2 ⟨h2, hs2⟩
            simp only [getParent_at (C := .L n BLACK k v tr :: .L ga gc kg vg u :: rest) (a := pa) h2,
              getParent_at (C := .L ga gc kg vg u :: rest) (a := n) h2,
              ctxPar_cons, Frame.addr_R, Frame.addr_L, Res.ok_bind]
            refine Res.Post.bind (setColor_at (C := rest) (a := ga) RED h2) ?_
            rintro s3 ⟨h3, hs3⟩
            simp only [getParent_at (C := .L n BLACK k v tr :: .L ga RED kg vg u :: rest) (a := pa) h3,
              getParent_at (C := .L ga RED kg vg u :: rest) (a := n) h3,
              ctxPar_cons, Frame.addr_R, Frame.addr_L, Res.ok_bind]
            refine Res.Post.bind (rotateRight_at (C := rest) h3) ?_
            rintro s4 ⟨h4, hs4⟩
            rw [fixInsert_exit f (C := .L n BLACK k v (.node ga RED tr kg vg u) :: rest) h4
              (by intro f' rest' e; simp at e; rw [← e.1]; rfl)]
            refine (setRootBlack h4 ?_).mono ?_
            · obtain ⟨a', c', l', k', v', r', e⟩ := plug_node_ne_nil rest n BLACK
                (.node pa RED la ka va tl) k v (.node ga RED tr kg vg u)
              rw [e]; simp
            · rintro s5 ⟨h5, hs5⟩
              exact ⟨h5, ((hs1.same_trans hs2).same_trans hs3).same_trans (hs4.same_trans hs5)⟩
          | L pa pc ka va pr =>
            simp only [Frame.col] at hc
            subst hc
            have hne := Shape.left_ptr_ne_right (C := .L ga gc kg vg u :: rest) h
            simp only [fixInsertZ, Frame.col, if_true, hu, if_false]
            rw [fixInsert]
            simp only [getParent_at h, ctxPar_cons, Frame.addr_R, Frame.addr_L, Res.ok_bind,
              getColor_at (C := .L ga gc kg vg u :: rest) (a := pa) h, if_true,
              getParent_at (C := .L ga gc kg vg u :: rest) (a := pa) h,
              getLeft_at (C := rest) (a := ga) h, Tree.ptr_node, Frame.fill,
              getRight_at (C := rest) (a := ga) h, hucol, hu, if_false,
              getRight_at (C := .L ga gc kg vg u :: rest) (a := pa) h, hne, Res.pure_def]
            refine Res.Post.bind (setColor_at (C := .L ga gc kg vg u :: rest) (a := pa) BLACK h) ?_
            rintro s2 ⟨h2, hs2⟩
            simp only [getParent_at (C := .L pa BLACK ka va pr :: .L ga gc kg vg u :: rest) (a := n) h2,
              getParent_at (C := .L ga gc kg vg u :: rest) (a := pa) h2,
              ctxPar_cons, Frame.addr_R, Frame.addr_L, Res.ok_bind]
            refine Res.Post.bind (setColor_at (C := rest) (a := ga) RED h2) ?_
            rintro s3 ⟨h3, hs3⟩
            simp only [getParent_at (C := .L pa BLACK ka va pr :: .L ga RED kg vg u :: rest) (a := n) h3,
              getParent_at (C := .L ga RED kg vg u :: rest) (a := pa) h3,
              ctxPar_cons, Frame.addr_R, Frame.addr_L, Res.ok_bind]
            refine Res.Post.bind (rotateRight_at (C := rest) h3) ?_
            rintro s4 ⟨h4, hs4⟩
            rw [fixInsert_exit f (C := .L pa BLACK ka va (.node ga RED pr kg vg u) :: rest) h4
              (by intro f' rest' e; simp at e; rw [← e.1]; rfl)]
            refine (setRootBlack h4 ?_).mono ?_
            · obtain ⟨a', c', l', k', v', r', e⟩ := plug_node_ne_nil rest pa BLACK
                (.node n nc tl k v tr) ka va (.node ga RED pr kg vg u)
              rw [e]; simp
            · rintro s5 ⟨h5, hs5⟩
              exact ⟨h5, (hs2.same_trans hs3).same_trans (hs4.same_trans hs5)⟩
      | R ga gc u kg vg =>
        by_cases hu : u.rootColor = RED
        · obtain ⟨ua, ul, uk, uv, ur, rfl⟩ := Tree.rootColor_red hu
          cases f1 with
          | R pa pc pl ka va =>
            simp only [Frame.col] at hc
            subst hc
            have hpu := Shape.right_ne_left (C := rest) h
            simp only [Tree.ptr_node] at hpu
            simp only [fixInsertZ, Frame.col, if_true, Tree.rootColor, Frame.fill, Tree.blacken]
            rw [fixInsert]
            simp only [getParent_at h, ctxPar_cons, Frame.addr_R, Frame.addr_L, Res.ok_bind,
              getColor_at (C := .R ga gc _ kg vg :: rest) (a := pa) h, if_true,
              getParent_at (C := .R ga gc _ kg vg :: rest) (a := pa) h,
              getLeft_at (C := rest) (a := ga) h, Tree.ptr_node, Frame.fill, hpu, if_false,
              getColor_at (C := .L ga gc kg vg _ :: rest) (a := ua) h]
            refine Res.Post.bind (setColor_at (C := .R ga gc _ kg vg :: rest) (a := pa) BLACK h) ?_
            rintro s1 ⟨h1, hs1⟩
            refine Res.Post.bind (setColor_at (C := .L ga gc kg vg _ :: rest) (a := ua) BLACK h1) ?_
            rintro s2 ⟨h2, hs2⟩
            simp only [getParent_at (C := .R pa BLACK pl ka va :: .R ga gc _ kg vg :: rest) (a := n) h2,
              getParent_at (C := .R ga gc _ kg vg :: rest) (a := pa) h2,
              ctxPar_cons, Frame.addr_R, Frame.addr_L, Res.ok_bind]
            refine Res.Post.bind (setColor_at (C := rest) (a := ga) RED h2) ?_
            rintro s3 ⟨h3, hs3⟩
            simp only [getParent_at (C := .R pa BLACK pl ka va :: .R ga RED _ kg vg :: rest) (a := n) h3,
              getParent_at (C := .R ga RED _ kg vg :: rest) (a := pa) h3,
              ctxPar_cons, Frame.addr_R, Frame.addr_L, Res.ok_bind]
            refine (fixInsert_sim rest (f + 1) s3 ga RED _ kg vg _ h3 hb.tail2 hf').mono ?_
            rintro s4 ⟨h4, hs4⟩
            exact ⟨h4, ((hs1.same_trans hs2).same_trans hs3).same_trans hs4⟩
          | L pa pc ka va pr =>
            simp only [Frame.col] at hc
            subst hc
            have hpu := Shape.right_ne_left (C := rest) h
            simp only [Tree.ptr_node] at hpu
            simp only [fixInsertZ, Frame.col, if_true, Tree.rootColor, Frame.fill, Tree.blacken]
            rw [fixInsert]
            simp only [getParent_at h, ctxPar_cons, Frame.addr_R, Frame.addr_L, Res.ok_bind,
              getColor_at (C := .R ga gc _ kg vg :: rest) (a := pa) h, if_true,
              getParent_at (C := .R ga gc _ kg vg :: rest) (a := pa) h,
              getLeft_at (C := rest) (a := ga) h, Tree.ptr_node, Frame.fill, hpu, if_false,
              getColor_at (C := .L ga gc kg vg _ :: rest) (a := ua) h]
            refine Res.Post.bind (setColor_at (C := .R ga gc _ kg vg :: rest) (a := pa) BLACK h) ?_
            rintro s1 ⟨h1, hs1⟩
            refine Res.Post.bind (setColor_at (C := .L ga gc kg vg _ :: rest) (a := ua) BLACK h1) ?_
            rintro s2 ⟨h2, hs2⟩
            simp only [getParent_at (C := .L pa BLACK ka va pr :: .R ga gc _ kg vg :: rest) (a := n) h2,
              getParent_at (C := .R ga gc _ kg vg :: rest) (a := pa) h2,
              ctxPar_cons, Frame.addr_R, Frame.addr_L, Res.ok_bind]
            refine Res.Post.bind (setColor_at (C := rest) (a := ga) RED h2) ?_
            rintro s3 ⟨h3, hs3⟩
            simp only [getParent_at (C := .L pa BLACK ka va pr :: .R ga RED _ kg vg :: rest) (a := n) h3,
              getParent_at (C := .R ga RED _ kg vg :: rest) (a := pa) h3,
              ctxPar_cons, Frame.addr_R, Frame.addr_L, Res.ok_bind]
            refine (fixInsert_sim rest (f + 1) s3 ga RED _ kg vg _ h3 hb.tail2 hf').mono ?_
            rintro s4 ⟨h4, hs4⟩
            exact ⟨h4, ((hs1.same_trans hs2).same_trans hs3).same_trans hs4⟩
        · have hucol := getColor_ptr
            (C := .L ga gc kg vg (f1.fill (.node n nc tl k v tr)) :: rest) (t := u) h
          cases f1 with
          | L pa pc ka va pr =>
            simp only [Frame.col] at hc
            subst hc
            have hpu := Shape.right_ne_left (C := rest) h
            simp only [fixInsertZ, Frame.col, if_true, hu, if_false]
            rw [fixInsert]
            simp only [getParent_at h, ctxPar_cons, Frame.addr_R, Frame.addr_L, Res.ok_bind,
              getColor_at (C := .R ga gc u kg vg :: rest) (a := pa) h, if_true,
              getParent_at (C := .R ga gc u kg vg :: rest) (a := pa) h,
              getLeft_at (C := rest) (a := ga) h, Tree.ptr_node, Frame.fill, hpu,
              hucol, hu, if_false,
              getLeft_at (C := .R ga gc u kg vg :: rest) (a := pa) h, Res.bind_assoc]
            refine Res.Post.bind (rotateRight_at (C := .R ga gc u kg vg :: rest) h) ?_
            rintro s1 ⟨h1, hs1⟩
            simp only [Res.pure_def, Res.ok_bind]
            simp only [getParent_at (C := .R n nc tl k v :: .R ga gc u kg vg :: rest) (a := pa) h1,
              ctxPar_cons, Frame.addr_R, Frame.addr_L, Res.ok_bind]
            refine Res.Post.bind (setColor_at (C := .R ga gc u kg vg :: rest) BLACK h1) ?_
            rintro s2 ⟨h2, hs2⟩
            simp only [getParent_at (C := .R n BLACK tl k v :: .R ga gc u kg vg :: rest) (a := pa) h2,
              getParent_at (C := .R ga gc u kg vg :: rest) (a := n) h2,
              ctxPar_cons, Frame.addr_R, Frame.addr_L, Res.ok_bind]
            refine Res.Post.bind (setColor_at (C := rest) (a := ga) RED h2) ?_
            rintro s3 ⟨h3, hs3⟩
            simp only [getParent_at (C := .R n BLACK tl k v :: .R ga RED u kg vg :: rest) (a := pa) h3,
              getParent_at (C := .R ga RED u kg vg :: rest) (a := n) h3,
              ctxPar_cons, Frame.addr_R, Frame.addr_L, Res.ok_bind]
            refine Res.Post.bind (rotateLeft_at (C := rest) h3) ?_
            rintro s4 ⟨h4, hs4⟩
            rw [fixInsert_exit f (C := .R n BLACK (.node ga RED u kg vg tl) k v :: rest) h4
              (by intro f' rest' e; simp at e; rw [← e.1]; rfl)]
            refine (setRootBlack h4 ?_).mono ?_
            · obtain ⟨a', c', l', k', v', r', e⟩ := plug_node_ne_nil rest n BLACK
                (.node ga RED u kg vg tl) k v (.node pa RED tr ka va pr)
              rw [e]; simp
            · rintro s5 ⟨h5, hs5⟩
              exact ⟨h5, ((hs1.same_trans hs2).same_trans hs3).same_trans (hs4.same_trans hs5)⟩
          | R pa pc pl ka va =>
            simp only [Frame.col] at hc
            subst hc
            have hpu := Shape.right_ne_left (C := rest) h
            have hne := Shape.right_ne_left (C := .R ga gc u kg vg :: rest) h
            simp only [fixInsertZ, Frame.col, if_true, hu, if_false]
            rw [fixInsert]
            simp only [getParent_at h, ctxPar_cons, Frame.addr_R, Frame.addr_L, Res.ok_bind,
              getColor_at (C := .R ga gc u kg vg :: rest) (a := pa) h, if_true,
              getParent_at (C := .R ga gc u kg vg :: rest) (a := pa) h,
              getLeft_at (C := rest) (a := ga) h, Tree.ptr_node, Frame.fill, hpu,
              hucol, hu, if_false,
              getLeft_at (C := .R ga gc u kg vg :: rest) (a := pa) h, hne, Res.pure_def]
            refine Res.Post.bind (setColor_at (C := .R ga gc u kg vg :: rest) (a := pa) BLACK h) ?_
            rintro s2 ⟨h2, hs2⟩
            simp only [getParent_at (C := .R pa BLACK pl ka va :: .R ga gc u kg vg :: rest) (a := n) h2,
              getParent_at (C := .R ga gc u kg vg :: rest) (a := pa) h2,
              ctxPar_cons, Frame.addr_R, Frame.addr_L, Res.ok_bind]
            refine Res.Post.bind (setColor_at (C := rest) (a := ga) RED h2) ?_
            rintro s3 ⟨h3, hs3⟩
            simp only [getParent_at (C := .R pa BLACK pl ka va :: .R ga RED u kg vg :: rest) (a := n) h3,
              getParent_at (C := .R ga RED u kg vg :: rest) (a := pa) h3,
              ctxPar_cons, Frame.addr_R, Frame.addr_L, Res.ok_bind]
            refine Res.Post.bind (rotateLeft_at (C := rest) h3) ?_
            rintro s4 ⟨h4, hs4⟩
            rw [fixInsert_exit f (C := .R pa BLACK (.node ga RED u kg vg pl) ka va :: rest) h4
              (by intro f' rest' e; simp at e; rw [← e.1]; rfl)]
            refine (setRootBlack h4 ?_).mono ?_
            · obtain ⟨a', c', l', k', v', r', e⟩ := plug_node_ne_nil rest pa BLACK
                (.node ga RED u kg vg pl) ka va (.node n nc tl k v tr)
              rw [e]; simp
            · rintro s5 ⟨h5, hs5⟩
              exact ⟨h5, (hs2.same_trans hs3).same_trans (hs4.same_trans hs5)⟩
    · have hfz : fixInsertZ (f1 :: f2 :: rest) (.node n nc tl k v tr) =
          (plug (f1 :: f2 :: rest) (.node n nc tl k v tr)).blacken := by
        simp only [fixInsertZ, hc, if_false]
      rw [hfz, fixInsert_exit (f + 1) h (by
        intro f' rest' e
        simp only [List.cons.injEq] at e
        rw [← e.1]
        cases h' : f1.col
        · rfl
        · exact absurd h' hc)]
      refine setRootBlack h ?_
      obtain ⟨a', c', l', k', v', r', e⟩ := plug_node_ne_nil (f1 :: f2 :: rest) n nc tl k v tr
      rw [e]; simp

theorem plug_descend [DecidableEq K] (cmp : K → K → Bool) (key : K) (C : List (Frame K V))
    (t : Tree K V) :
    plug (descend cmp key C t).1 (descend cmp key C t).2 = plug C t := by
  induction t generalizing C with
  | nil => rfl
  | node a c l k v r ihl ihr =>
    simp only [descend]
    split
    · rfl
    · split
      · rw [ihl]; rfl
      · rw [ihr]; rfl

theorem descend_length [DecidableEq K] (cmp : K → K → Bool) (key : K)
    (C : List (Frame K V)) (t : Tree K V) :
    (descend cmp key C t).1.length + (descend cmp key C t).2.height ≤
      C.length + t.height := by
  induction t generalizing C with
  | nil => simp [descend]
  | node a c l k v r ihl ihr =>
    simp only [descend]
    split
    · exact Nat.le_refl _
    · split
      · have := ihl (.L a c k v r :: C)
        simp only [List.length_cons, Tree.height] at this ⊢
        omega
      · have := ihr (.R a c l k v :: C)
        simp only [List.length_cons, Tree.height] at this ⊢
        omega

/-- The key found by the descent, if any, is the one looked for. -/
theorem descend_key [DecidableEq K] (cmp : K → K → Bool) (key : K) (C : List (Frame K V))
    (t : Tree K V) {C' : List (Frame K V)} {a : Nat} {c : RB.color} {l r : Tree K V}
    {k : K} {v : V} (h : descend cmp key C t = (C', .node a c l k v r)) : k = key := by
  induction t generalizing C with
  | nil => simp [descend] at h
  | node a0 c0 l0 k0 v0 r0 ihl ihr =>
    simp only [descend] at h
    split at h
    · simp only [Prod.mk.injEq, Tree.node.injEq] at h
      rw [← h.2.2.2.2.1]; symm; assumption
    · split at h
      · exact ihl _ h
      · exact ihr _ h

theorem descend_topDir [DecidableEq K] (cmp : K → K → Bool) (key : K)
    (C : List (Frame K V)) (t : Tree K V) (h0 : TopDir cmp key C) :
    TopDir cmp key (descend cmp key C t).1 := by
  induction t generalizing C with
  | nil => exact h0
  | node a c l k v r ihl ihr =>
    simp only [descend]
    split
    · exact h0
    · split
      · exact ihl _ (by simpa [TopDir])
      · exact ihr _ (by simp only [TopDir]; simpa using ‹¬cmp key k = true›)

theorem searchLoop_sim [DecidableEq K] {s : RBTreeMap K V} (key : K) :
    ∀ (t : Tree K V) (C : List (Frame K V)) (fuel : Nat),
      Shape s (plug C t) → t.height < fuel →
      searchLoop s key fuel (t.ptr s.sentinel) =
        .ok ((descend s.compare key C t).2.ptr s.sentinel) := by
  intro t
  induction t with
  | nil =>
    intro C fuel h hf
    obtain ⟨f, rfl⟩ : ∃ f, fuel = f + 1 := ⟨fuel - 1, by omega⟩
    simp [searchLoop, descend]
  | node a c l k v r ihl ihr =>
    intro C fuel h hf
    obtain ⟨f, rfl⟩ : ∃ f, fuel = f + 1 := ⟨fuel - 1, by omega⟩
    simp only [Tree.height] at hf
    have hne := h.node_facts.2.1
    simp only [searchLoop, Tree.ptr_node, ne_eq, hne, not_false_eq_true, if_true, getKey_at h,
      Res.ok_bind, descend, getLeft_at h, getRight_at h]
    by_cases hk : key = k
    · simp [hk]
    · simp only [hk, if_false]
      by_cases hc : s.compare key k = true
      · simp only [hc, if_true]
        exact ihl (.L a c k v r :: C) f h (by omega)
      · simp only [hc]
        exact ihr (.R a c l k v :: C) f h (by omega)

theorem insertLoop_sim [DecidableEq K] {s : RBTreeMap K V} (key : K) (value : V) :
    ∀ (t : Tree K V) (C : List (Frame K V)) (fuel : Nat),
      Shape s (plug C t) → t.height < fuel →
      insertLoop s key value fuel (ctxPar s.sentinel C) (t.ptr s.sentinel) =
        match descend s.compare key C t with
        | (_, .node a _ _ _ _ _) => (s.setValue a value >>= fun r => pure (Sum.inl r))
        | (C', .nil) => .ok (Sum.inr (ctxPar s.sentinel C')) := by
  intro t
  induction t with
  | nil =>
    intro C fuel h hf
    obtain ⟨f, rfl⟩ : ∃ f, fuel = f + 1 := ⟨fuel - 1, by omega⟩
    simp [insertLoop, descend]
  | node a c l k v r ihl ihr =>
    intro C fuel h hf
    obtain ⟨f, rfl⟩ : ∃ f, fuel = f + 1 := ⟨fuel - 1, by omega⟩
    simp only [Tree.height] at hf
    have hne := h.node_facts.2.1
    simp only [insertLoop, Tree.ptr_node, ne_eq, hne, not_false_eq_true, if_true, getKey_at h,
      Res.ok_bind, descend, getLeft_at h, getRight_at h]
    by_cases hk : key = k
    · simp [hk]
    · simp only [hk, if_false]
      by_cases hc : s.compare key k = true
      · simp only [hc, if_true]
        exact ihl (.L a c k v r :: C) f h (by omega)
      · simp only [hc]
        exact ihr (.R a c l k v :: C) f h (by omega)

theorem Insert_unfold [DecidableEq K] (fuel : Nat) (key : K) (value : V) (r : RBTreeMap K V) :
    Insert fuel key value r = (do
      match ← insertLoop r key value fuel r.sentinel r.root with
      | Sum.inl r => pure r
      | Sum.inr parent =>
        let r' ← attach r parent key value
        fixInsert fuel r' r.next) := by
  unfold Insert attach alloc
  congr 1
  funext x
  cases x with
  | inl r => rfl
  | inr p =>
    simp only [Res.bind_assoc, Res.pure_def, Res.ok_bind]

theorem attach_spec {s : RBTreeMap K V} {C : List (Frame K V)} (key : K) (value : V)
    (h : Shape s (plug C .nil)) (hlt : ∀ a ∈ (plug C (.nil : Tree K V)).addrs, a < s.next)
    (hs : s.sentinel < s.next) (hdir : TopDir s.compare key C) :
    (attach s (ctxPar s.sentinel C) key value).Post (fun r' =>
      Shape r' (plug C (.node s.next RED .nil key value .nil)) ∧
      r'.sentinel = s.sentinel ∧ r'.next = s.next + 1 ∧ r'.size = s.size + 1 ∧
      r'.compare = s.compare) := by
  obtain ⟨hC, -⟩ := (rep_plug _ _ _ _ _).1 h.rep
  have hnd := (nodup_plug _ _).1 h.nodup
  have hlt' : ∀ a ∈ ctxAddrs C, a < s.next := fun a ha =>
    hlt a ((mem_plug_addrs _ _ _).2 (Or.inr ha))
  have hnc : s.next ∉ ctxAddrs C := fun hx => Nat.lt_irrefl _ (hlt' _ hx)
  have hn0 : s.next ≠ 0 := Nat.ne_of_gt (Nat.lt_of_le_of_lt (Nat.zero_le _) hs)
  have hns : s.next ≠ s.sentinel := Nat.ne_of_gt hs
  have hshape : ∀ r' : RBTreeMap K V, r'.sentinel = s.sentinel →
      r'.mem s.sentinel = s.mem s.sentinel →
      RepCtx r'.mem s.sentinel r'.root C s.next →
      Rep r'.mem s.sentinel (ctxPar s.sentinel C) (.node s.next RED .nil key value .nil) →
      Shape r' (plug C (.node s.next RED .nil key value .nil)) := by
    intro r' e1 e2 hc hr
    refine ⟨?_, ?_, e1 ▸ h.sent_ne, ?_⟩
    · unfold RepTree; rw [e1]; exact (rep_plug _ _ _ _ _).2 ⟨hc, hr⟩
    · rw [nodup_plug]
      refine ⟨by simp, hnd.2.1, ?_⟩
      intro x hx
      simp only [Tree.flat_node, Tree.flat_nil, List.nil_append, List.mem_singleton] at hx
      subst hx; exact hnc
    · rw [e1, e2]; exact h.sent_black
  cases C with
  | nil =>
    simp only [attach, alloc, ctxPar_nil, if_true, Res.pure_def, Res.ok_bind]
    refine Res.Post.ok ⟨hshape _ rfl ?_ ?_ ?_, rfl, rfl, rfl, rfl⟩
    · simp [upd_ne _ _ (Ne.symm hns)]
    · simp [RepCtx]
    · simp [Rep, hn0, hns]
  | cons fr rest =>
    cases fr with
    | L a c k v sib =>
      simp only [RepCtx] at hC
      obtain ⟨h1, h2, h3, h4, h5, h6, h7, h8, h9, h10⟩ := hC
      have han : a ≠ s.next := fun e => hnc (by simp [ctxAddrs, e])
      simp only [TopDir] at hdir
      rw [← h3] at hdir
      have hnc' := hnd.2.1
      simp only [ctxAddrs, List.nodup_cons, List.nodup_append, List.mem_append, not_or] at hnc'
      simp only [ctxAddrs, List.mem_cons, List.mem_append, not_or] at hnc
      simp only [attach, alloc, ctxPar_cons, Frame.addr_L, h2, if_false, RBTreeMap.getKey, hn0, h1,
        upd_self, upd_ne _ _ han, hdir, if_true, RBTreeMap.setLeft, Res.ok_bind, Res.pure_def]
      refine Res.Post.ok ⟨hshape _ rfl ?_ ?_ ?_, rfl, rfl, rfl, rfl⟩
      · simp [upd_ne _ _ (Ne.symm hns), upd_ne _ _ (Ne.symm h2)]
      · simp only [RepCtx, upd_self, upd_ne _ _ han]
        refine ⟨h1, h2, h3, h4, h5, h6, trivial, h8, h9.congr ?_, h10.ctx_congr ?_⟩
        · exact EqOn.upd _ hnc'.1.1 (EqOn.upd _ hnc.2.1 EqOn.refl_on)
        · exact EqOn.upd _ hnc'.1.2 (EqOn.upd _ hnc.2.2 EqOn.refl_on)
      · simp [Rep, hn0, hns, upd_ne _ _ han.symm]
    | R a c sib k v =>
      simp only [RepCtx] at hC
      obtain ⟨h1, h2, h3, h4, h5, h6, h7, h8, h9, h10⟩ := hC
      have han : a ≠ s.next := fun e => hnc (by simp [ctxAddrs, e])
      simp only [TopDir] at hdir
      rw [← h3] at hdir
      have hnc' := hnd.2.1
      simp only [ctxAddrs, List.nodup_cons, List.nodup_append, List.mem_append, not_or] at hnc'
      simp only [ctxAddrs, List.mem_cons, List.mem_append, not_or] at hnc
      simp only [attach, alloc, ctxPar_cons, Frame.addr_R, h2, if_false, RBTreeMap.getKey, hn0, h1,
        upd_self, upd_ne _ _ han, hdir, Bool.false_eq_true, RBTreeMap.setRight, Res.ok_bind,
        Res.pure_def]
      refine Res.Post.ok ⟨hshape _ rfl ?_ ?_ ?_, rfl, rfl, rfl, rfl⟩
      · simp [upd_ne _ _ (Ne.symm hns), upd_ne _ _ (Ne.symm h2)]
      · simp only [RepCtx, upd_self, upd_ne _ _ han]
        refine ⟨h1, h2, h3, h4, h5, h6, h7, trivial, h9.congr ?_, h10.ctx_congr ?_⟩
        · exact EqOn.upd _ hnc'.1.1 (EqOn.upd _ hnc.2.1 EqOn.refl_on)
        · exact EqOn.upd _ hnc'.1.2 (EqOn.upd _ hnc.2.2 EqOn.refl_on)
      · simp [Rep, hn0, hns, upd_ne _ _ han.symm]

section NodeLemmas

variable (a : Nat) (c : RB.color) (l : Tree K V) (k : K) (v : V) (r : Tree K V)

/-! ## Colour invariants along a path -/

@[simp] theorem Tree.rootColor_nil : (Tree.nil : Tree K V).rootColor = BLACK := rfl

@[simp] theorem Tree.rootColor_node : (Tree.node a c l k v r).rootColor = c := rfl

@[simp] theorem Tree.bh_nil : (Tree.nil : Tree K V).bh = 0 := rfl

@[simp] theorem Tree.bh_node :
    (Tree.node a c l k v r).bh = l.bh + (if c = BLACK then 1 else 0) := rfl

@[simp] theorem Tree.bal_nil : (Tree.nil : Tree K V).Bal ↔ True := Iff.rfl

@[simp] theorem Tree.bal_node :
    (Tree.node a c l k v r).Bal ↔ l.Bal ∧ r.Bal ∧ l.bh = r.bh := Iff.rfl

@[simp] theorem Tree.noRR_nil : (Tree.nil : Tree K V).NoRR ↔ True := Iff.rfl

@[simp] theorem Tree.noRR_node :
    (Tree.node a c l k v r).NoRR ↔
      (c = RED → l.rootColor = BLACK ∧ r.rootColor = BLACK) ∧ l.NoRR ∧ r.NoRR := Iff.rfl

@[simp] theorem Tree.size_nil : (Tree.nil : Tree K V).size = 0 := rfl

@[simp] theorem Tree.size_node : (Tree.node a c l k v r).size = l.size + 1 + r.size := rfl

@[simp] theorem Tree.height_nil : (Tree.nil : Tree K V).height = 0 := rfl

@[simp] theorem Tree.height_node :
    (Tree.node a c l k v r).height = max l.height r.height + 1 := rfl

end NodeLemmas

@[simp] theorem Tree.bh_fill (f : Frame K V) (t : Tree K V) (h : f.sib.bh = t.bh) :
    (f.fill t).bh = t.bh + (if f.col = BLACK then 1 else 0) := by
  cases f <;> simp_all [Frame.fill, Frame.sib, Frame.col]

theorem bal_plug (C : List (Frame K V)) (t : Tree K V) :
    (plug C t).Bal ↔ t.Bal ∧ CtxBal C t.bh := by
  induction C generalizing t with
  | nil => simp [CtxBal]
  | cons f rest ih =>
    rw [plug_cons, ih]
    simp only [CtxBal]
    constructor
    · rintro ⟨h1, h2⟩
      cases f with
      | L a c k v r =>
        simp only [Frame.fill, Tree.Bal] at h1
        simp only [Frame.fill, Tree.bh] at h2
        exact ⟨h1.1, h1.2.1, h1.2.2.symm, h2⟩
      | R a c l k v =>
        simp only [Frame.fill, Tree.Bal] at h1
        simp only [Frame.fill, Tree.bh] at h2
        refine ⟨h1.2.1, h1.1, h1.2.2, ?_⟩
        simp only [Frame.sib, Frame.col]
        rw [← h1.2.2]; exact h2
    · rintro ⟨h1, h2, h3, h4⟩
      rw [Tree.bh_fill f t h3]
      refine ⟨?_, h4⟩
      cases f with
      | L a c k v r => exact ⟨h1, h2, h3.symm⟩
      | R a c l k v => exact ⟨h2, h1, h3⟩

theorem rootColor_fill (f : Frame K V) (t : Tree K V) : (f.fill t).rootColor = f.col := by
  cases f <;> rfl

theorem noRR_plug (C : List (Frame K V)) (t : Tree K V) :
    (plug C t).NoRR ↔ t.NoRR ∧ CtxNoRR C ∧ (topColor C = RED → t.rootColor = BLACK) := by
  induction C generalizing t with
  | nil => simp [CtxNoRR, topColor]
  | cons f rest ih =>
    rw [plug_cons, ih]
    simp only [CtxNoRR, topColor, rootColor_fill]
    cases f with
    | L a c k v r =>
      simp only [Frame.fill, Tree.NoRR, Frame.sib, Frame.col]
      constructor
      · rintro ⟨⟨h1, h2, h3⟩, h4, h5⟩
        exact ⟨h2, ⟨h3, fun hc => ⟨(h1 hc).2, by
          cases hrest : topColor rest
          · exact hrest
          · rw [h5 hrest] at hc; cases hc⟩, h4⟩, fun hc => (h1 hc).1⟩
      · rintro ⟨h1, ⟨h2, h3, h4⟩, h5⟩
        exact ⟨⟨fun hc => ⟨h5 hc, (h3 hc).1⟩, h1, h2⟩, h4, fun hr => by
          cases hc : c
          · rfl
          · rw [(h3 hc).2] at hr; cases hr⟩
    | R a c l k v =>
      simp only [Frame.fill, Tree.NoRR, Frame.sib, Frame.col]
      constructor
      · rintro ⟨⟨h1, h2, h3⟩, h4, h5⟩
        exact ⟨h3, ⟨h2, fun hc => ⟨(h1 hc).1, by
          cases hrest : topColor rest
          · exact hrest
          · rw [h5 hrest] at hc; cases hc⟩, h4⟩, fun hc => (h1 hc).2⟩
      · rintro ⟨h1, ⟨h2, h3, h4⟩, h5⟩
        exact ⟨⟨fun hc => ⟨(h3 hc).1, h5 hc⟩, h2, h1⟩, h4, fun hr => by
          cases hc : c
          · rfl
          · rw [(h3 hc).2] at hr; cases hr⟩

theorem rootColor_plug (C : List (Frame K V)) (t : Tree K V) :
    (plug C t).rootColor = BLACK ↔ (C = [] → t.rootColor = BLACK) ∧ CtxRootBlack C := by
  induction C generalizing t with
  | nil => simp [CtxRootBlack]
  | cons f rest ih =>
    rw [plug_cons, ih]
    cases rest with
    | nil => simp [CtxRootBlack, rootColor_fill]
    | cons g rest' => simp [CtxRootBlack]

@[simp] theorem Tree.blacken_flat {β : Type} (f : Nat → K → V → β) (t : Tree K V) :
    t.blacken.flat f = t.flat f := by
  cases t <;> rfl

@[simp] theorem Tree.blacken_rootColor (t : Tree K V) : t.blacken.rootColor = BLACK := by
  cases t <;> rfl

theorem Tree.blacken_noRR {t : Tree K V} (h : ∀ a c l k v r, t = .node a c l k v r →
    l.NoRR ∧ r.NoRR) : t.blacken.NoRR := by
  cases t with
  | nil => trivial
  | node a c l k v r =>
    obtain ⟨h1, h2⟩ := h a c l k v r rfl
    simp [Tree.blacken, Tree.NoRR, h1, h2]

theorem Tree.blacken_noRR_of {t : Tree K V} (h : t.NoRR) : t.blacken.NoRR := by
  apply Tree.blacken_noRR
  rintro a c l k v r rfl
  exact ⟨h.2.1, h.2.2⟩

theorem Tree.blacken_bal {t : Tree K V} (h : t.Bal) : t.blacken.Bal := by
  cases t with
  | nil => trivial
  | node a c l k v r => exact h

theorem Tree.rootColor_black_of_not_red {t : Tree K V} (h : ¬t.rootColor = RED) :
    t.rootColor = BLACK := by
  cases hc : t.rootColor
  · rfl
  · exact absurd hc h

theorem Tree.rbInv_blacken {t : Tree K V} (h1 : t.NoRR) (h2 : t.Bal) : t.blacken.RBInv :=
  ⟨Tree.blacken_rootColor t, Tree.blacken_noRR_of h1, Tree.blacken_bal h2⟩

@[simp] theorem Frame.col_L (a : Nat) (c : RB.color) (k : K) (v : V) (r : Tree K V) :
    (Frame.L a c k v r).col = c := rfl

@[simp] theorem Frame.col_R (a : Nat) (c : RB.color) (l : Tree K V) (k : K) (v : V) :
    (Frame.R a c l k v).col = c := rfl

@[simp] theorem Frame.sib_L (a : Nat) (c : RB.color) (k : K) (v : V) (r : Tree K V) :
    (Frame.L a c k v r).sib = r := rfl

@[simp] theorem Frame.sib_R (a : Nat) (c : RB.color) (l : Tree K V) (k : K) (v : V) :
    (Frame.R a c l k v).sib = l := rfl

@[simp] theorem topColor_nil : topColor ([] : List (Frame K V)) = BLACK := rfl

@[simp] theorem topColor_cons (f : Frame K V) (rest : List (Frame K V)) :
    topColor (f :: rest) = f.col := rfl

theorem color_eq_black_of_ne_red {c : RB.color} (h : ¬c = RED) : c = BLACK := by
  cases c
  · rfl
  · exact absurd rfl h

/-- `fixInsertZ` keeps the in-order sequence of nodes. -/
theorem fixInsertZ_flat {β : Type} (g : Nat → K → V → β) :
    ∀ (C : List (Frame K V)) (n : Nat) (nc : RB.color) (tl : Tree K V) (k : K) (v : V)
      (tr : Tree K V),
      (fixInsertZ C (.node n nc tl k v tr)).flat g = (plug C (.node n nc tl k v tr)).flat g
  | [], n, nc, tl, k, v, tr => by simp [fixInsertZ]
  | [f], n, nc, tl, k, v, tr => by simp [fixInsertZ]
  | f1 :: f2 :: rest, n, nc, tl, k, v, tr => by
    by_cases hc : f1.col = RED
    · cases f2 with
      | L ga gc kg vg u =>
        by_cases hu : u.rootColor = RED
        · obtain ⟨ua, ul, uk, uv, ur, rfl⟩ := Tree.rootColor_red hu
          cases f1 <;>
          · simp only [Frame.col_L, Frame.col_R] at hc
            subst hc
            simp only [fixInsertZ, Frame.col, if_true, Tree.rootColor, Frame.fill, Tree.blacken]
            rw [fixInsertZ_flat g rest]
            simp [flat_plug, Frame.fill]
        · cases f1 <;>
          · simp only [Frame.col_L, Frame.col_R] at hc
            subst hc
            simp only [fixInsertZ, Frame.col, if_true, hu, if_false]
            simp [flat_plug, Frame.fill]
      | R ga gc u kg vg =>
        by_cases hu : u.rootColor = RED
        · obtain ⟨ua, ul, uk, uv, ur, rfl⟩ := Tree.rootColor_red hu
          cases f1 <;>
          · simp only [Frame.col_L, Frame.col_R] at hc
            subst hc
            simp only [fixInsertZ, Frame.col, if_true, Tree.rootColor, Frame.fill, Tree.blacken]
            rw [fixInsertZ_flat g rest]
            simp [flat_plug, Frame.fill]
        · cases f1 <;>
          · simp only [Frame.col_L, Frame.col_R] at hc
            subst hc
            simp only [fixInsertZ, Frame.col, if_true, hu, if_false]
            simp [flat_plug, Frame.fill]
    · simp only [fixInsertZ, hc, if_false, Tree.blacken_flat]

/-- `fixInsertZ` restores the red-black invariants when the only defect is a RED cursor below a
RED parent. -/
theorem fixInsertZ_rb :
    ∀ (C : List (Frame K V)) (n : Nat) (tl : Tree K V) (k : K) (v : V) (tr : Tree K V),
      tl.rootColor = BLACK → tr.rootColor = BLACK → tl.NoRR → tr.NoRR → tl.Bal → tr.Bal →
      tl.bh = tr.bh → CtxNoRR C → CtxBal C tl.bh →
      (fixInsertZ C (.node n RED tl k v tr)).RBInv
  | [], n, tl, k, v, tr, _, _, h3, h4, h5, h6, h7, _, _ => by
    simp only [fixInsertZ]
    exact Tree.rbInv_blacken ⟨fun _ => ⟨‹_›, ‹_›⟩, h3, h4⟩ ⟨h5, h6, h7⟩
  | [f], n, tl, k, v, tr, h1, h2, h3, h4, h5, h6, h7, h8, h9 => by
    simp only [fixInsertZ]
    simp only [CtxNoRR, CtxBal] at h8 h9
    refine ⟨Tree.blacken_rootColor _, ?_, ?_⟩
    · cases f <;>
      · simp only [Frame.fill, Tree.blacken, Frame.sib_L, Frame.sib_R] at h8 ⊢
        simp [h1, h2, h3, h4, h8.1]
    · cases f <;>
      · simp only [Frame.fill, Tree.blacken, Frame.sib_L, Frame.sib_R] at h9 ⊢
        simp [h5, h6, h7, h9.1, h9.2.1]
  | f1 :: f2 :: rest, n, tl, k, v, tr, h1, h2, h3, h4, h5, h6, h7, h8, h9 => by
    simp only [CtxNoRR, CtxBal, topColor_cons] at h8 h9
    obtain ⟨n1, c1, n2, c2, n3⟩ := h8
    obtain ⟨b1, e1, b2, e2, b3⟩ := h9
    by_cases hc : f1.col = RED
    · obtain ⟨c1a, c1b⟩ := c1 hc
      simp only [hc, c1b, if_true, Nat.add_zero, reduceCtorEq, if_false] at e2 b3
      cases f2 with
      | L ga gc kg vg u =>
        simp only [Frame.col_L] at c1b
        subst c1b
        simp only [Frame.sib_L, Frame.col_L] at n2 b2 e2 c2
        by_cases hu : u.rootColor = RED
        · obtain ⟨ua, ul, uk, uv, ur, rfl⟩ := Tree.rootColor_red hu
          simp only [Tree.noRR_node, Tree.bal_node, Tree.bh_node, reduceCtorEq, if_false,
            Nat.add_zero, forall_true_left] at n2 b2 e2
          cases f1 with
          | R pa pc la ka va =>
            simp only [Frame.col_R] at hc
            subst hc
            simp only [Frame.sib_R] at n1 c1a b1 e1
            simp only [fixInsertZ, Frame.col, if_true, Tree.rootColor, Frame.fill, Tree.blacken]
            refine fixInsertZ_rb rest ga _ kg vg _ rfl rfl ?_ ?_ ?_ ?_ ?_ n3 ?_
            · simp [h1, h2, h3, h4, h5, h6, n1, n2, b1, b2, c1a] <;> omega
            · simp [h1, h2, h3, h4, h5, h6, n1, n2, b1, b2, c1a] <;> omega
            · simp [h1, h2, h3, h4, h5, h6, n1, n2, b1, b2, c1a] <;> omega
            · simp [h1, h2, h3, h4, h5, h6, n1, n2, b1, b2, c1a] <;> omega
            · simp [h1, h2, h3, h4, h5, h6, n1, n2, b1, b2, c1a] <;> omega
            · simpa [h7, e1, e2] using b3
          | L pa pc ka va pr =>
            simp only [Frame.col_L] at hc
            subst hc
            simp only [Frame.sib_L] at n1 c1a b1 e1
            simp only [fixInsertZ, Frame.col, if_true, Tree.rootColor, Frame.fill, Tree.blacken]
            refine fixInsertZ_rb rest ga _ kg vg _ rfl rfl ?_ ?_ ?_ ?_ ?_ n3 ?_
            · simp [h1, h2, h3, h4, h5, h6, n1, n2, b1, b2, c1a] <;> omega
            · simp [h1, h2, h3, h4, h5, h6, n1, n2, b1, b2, c1a] <;> omega
            · simp [h1, h2, h3, h4, h5, h6, n1, n2, b1, b2, c1a] <;> omega
            · simp [h1, h2, h3, h4, h5, h6, n1, n2, b1, b2, c1a] <;> omega
            · simp [h1, h2, h3, h4, h5, h6, n1, n2, b1, b2, c1a] <;> omega
            · simpa [h7, e1, e2] using b3
        · have hu' := Tree.rootColor_black_of_not_red hu
          cases f1 with
          | R pa pc la ka va =>
            simp only [Frame.col_R] at hc
            subst hc
            simp only [Frame.sib_R] at n1 c1a b1 e1
            simp only [fixInsertZ, Frame.col, if_true, hu, if_false]
            refine Tree.rbInv_blacken ?_ ?_
            · rw [noRR_plug]
              refine ⟨?_, n3, fun _ => rfl⟩
              simp [h1, h2, h3, h4, n1, n2, c1a, hu']
            · rw [bal_plug]
              refine ⟨?_, ?_⟩
              · simp [h5, h6, b1, b2] <;> omega
              · simpa [h7, e1, e2] using b3
          | L pa pc ka va pr =>
            simp only [Frame.col_L] at hc
            subst hc
            simp only [Frame.sib_L] at n1 c1a b1 e1
            simp only [fixInsertZ, Frame.col, if_true, hu, if_false]
            refine Tree.rbInv_blacken ?_ ?_
            · rw [noRR_plug]
              refine ⟨?_, n3, fun _ => rfl⟩
              simp [h1, h2, h3, h4, n1, n2, c1a, hu']
            · rw [bal_plug]
              refine ⟨?_, ?_⟩
              · simp [h5, h6, b1, b2] <;> omega
              · simpa [h7, e1, e2] using b3
      | R ga gc u kg vg =>
        simp only [Frame.col_R] at c1b
        subst c1b
        simp only [Frame.sib_R, Frame.col_R] at n2 b2 e2 c2
        by_cases hu : u.rootColor = RED
        · obtain ⟨ua, ul, uk, uv, ur, rfl⟩ := Tree.rootColor_red hu
          simp only [Tree.noRR_node, Tree.bal_node, Tree.bh_node, reduceCtorEq, if_false,
            Nat.add_zero, forall_true_left] at n2 b2 e2
          cases f1 with
          | R pa pc la ka va =>
            simp only [Frame.col_R] at hc
            subst hc
            simp only [Frame.sib_R] at n1 c1a b1 e1
            simp only [fixInsertZ, Frame.col, if_true, Tree.rootColor, Frame.fill, Tree.blacken]
            refine fixInsertZ_rb rest ga _ kg vg _ rfl rfl ?_ ?_ ?_ ?_ ?_ n3 ?_
            · simp [h1, h2, h3, h4, h5, h6, n1, n2, b1, b2, c1a] <;> omega
            · simp [h1, h2, h3, h4, h5, h6, n1, n2, b1, b2, c1a] <;> omega
            · simp [h1, h2, h3, h4, h5, h6, n1, n2, b1, b2, c1a] <;> omega
            · simp [h1, h2, h3, h4, h5, h6, n1, n2, b1, b2, c1a] <;> omega
            · simp [h1, h2, h3, h4, h5, h6, n1, n2, b1, b2, c1a] <;> omega
            · simpa [h7, e1, e2] using b3
          | L pa pc ka va pr =>
            simp only [Frame.col_L] at hc
            subst hc
            simp only [Frame.sib_L] at n1 c1a b1 e1
            simp only [fixInsertZ, Frame.col, if_true, Tree.rootColor, Frame.fill, Tree.blacken]
            refine fixInsertZ_rb rest ga _ kg vg _ rfl rfl ?_ ?_ ?_ ?_ ?_ n3 ?_
            · simp [h1, h2, h3, h4, h5, h6, n1, n2, b1, b2, c1a] <;> omega
            · simp [h1, h2, h3, h4, h5, h6, n1, n2, b1, b2, c1a] <;> omega
            · simp [h1, h2, h3, h4, h5, h6, n1, n2, b1, b2, c1a] <;> omega
            · simp [h1, h2, h3, h4, h5, h6, n1, n2, b1, b2, c1a] <;> omega
            · simp [h1, h2, h3, h4, h5, h6, n1, n2, b1, b2, c1a] <;> omega
            · simpa [h7, e1, e2] using b3
        · have hu' := Tree.rootColor_black_of_not_red hu
          cases f1 with
          | R pa pc la ka va =>
            simp only [Frame.col_R] at hc
            subst hc
            simp only [Frame.sib_R] at n1 c1a b1 e1
            simp only [fixInsertZ, Frame.col, if_true, hu, if_false]
            refine Tree.rbInv_blacken ?_ ?_
            · rw [noRR_plug]
              refine ⟨?_, n3, fun _ => rfl⟩
              simp [h1, h2, h3, h4, n1, n2, c1a, hu']
            · rw [bal_plug]
              refine ⟨?_, ?_⟩
              · simp [h5, h6, b1, b2] <;> omega
              · simpa [h7, e1, e2] using b3
          | L pa pc ka va pr =>
            simp only [Frame.col_L] at hc
            subst hc
            simp only [Frame.sib_L] at n1 c1a b1 e1
            simp only [fixInsertZ, Frame.col, if_true, hu, if_false]
            refine Tree.rbInv_blacken ?_ ?_
            · rw [noRR_plug]
              refine ⟨?_, n3, fun _ => rfl⟩
              simp [h1, h2, h3, h4, n1, n2, c1a, hu']
            · rw [bal_plug]
              refine ⟨?_, ?_⟩
              · simp [h5, h6, b1, b2] <;> omega
              · simpa [h7, e1, e2] using b3
    · have hc' := color_eq_black_of_ne_red hc
      simp only [fixInsertZ, hc, if_false]
      refine Tree.rbInv_blacken ?_ ?_
      · rw [noRR_plug]
        refine ⟨⟨fun _ => ⟨h1, h2⟩, h3, h4⟩, ⟨n1, c1, n2, c2, n3⟩, ?_⟩
        intro h; rw [topColor_cons, hc'] at h; cases h
      · rw [bal_plug]
        exact ⟨⟨h5, h6, h7⟩, by simpa [CtxBal] using ⟨b1, e1, b2, e2, b3⟩⟩

theorem Tree.size_eq_length {β : Type} (g : Nat → K → V → β) (t : Tree K V) :
    t.size = (t.flat g).length := by
  induction t with
  | nil => rfl
  | node a c l k v r ihl ihr => simp [ihl, ihr]; omega

theorem Tree.height_le_size (t : Tree K V) : t.height ≤ t.size := by
  induction t with
  | nil => simp
  | node a c l k v r ihl ihr => simp; omega

theorem Tree.size_congr {β : Type} (g : Nat → K → V → β) {t t' : Tree K V}
    (h : t.flat g = t'.flat g) : t.size = t'.size := by
  rw [Tree.size_eq_length g t, Tree.size_eq_length g t', h]

/-- A tree stored without sharing below the allocation counter, beside nil and the sentinel,
has at most `next - 2` nodes. -/
theorem Inv.size_lt {s : RBTreeMap K V} {t : Tree K V} (h : Inv s t) : t.size + 2 ≤ s.next := by
  have hne := h.shape.rep.2.addr_ne
  have hsub : (0 :: s.sentinel :: t.addrs) ⊆ List.range s.next := by
    intro a ha
    simp only [List.mem_cons] at ha
    rw [List.mem_range]
    rcases ha with rfl | rfl | ha
    · exact Nat.lt_of_le_of_lt (Nat.zero_le _) h.sent_lt
    · exact h.sent_lt
    · exact h.lt_next a ha
  have hnd : (0 :: s.sentinel :: t.addrs).Nodup := by
    simp only [List.nodup_cons, List.mem_cons, not_or]
    exact ⟨⟨Ne.symm h.shape.sent_ne, fun h0 => (hne 0 h0).1 rfl⟩,
      fun hs => (hne _ hs).2 rfl, h.shape.nodup⟩
  have := (hnd.subperm hsub).length_le
  simp only [List.length_cons, List.length_range] at this
  rw [Tree.size_eq_length (fun a _ _ => a)]
  exact this

theorem Inv.height_lt {s : RBTreeMap K V} {t : Tree K V} (h : Inv s t) :
    t.height + 2 ≤ s.next :=
  Nat.le_trans (Nat.add_le_add_right t.height_le_size 2) h.size_lt

theorem rbInv_plug_congr {C : List (Frame K V)} {t t' : Tree K V}
    (h : (plug C t).RBInv) (hc : t'.rootColor = t.rootColor) (hn : t.NoRR → t'.NoRR)
    (hb : t.Bal → t'.Bal) (hbh : t'.bh = t.bh) : (plug C t').RBInv := by
  obtain ⟨h1, h2, h3⟩ := h
  rw [rootColor_plug] at h1
  rw [noRR_plug] at h2
  rw [bal_plug] at h3
  refine ⟨?_, ?_, ?_⟩
  · rw [rootColor_plug, hc]; exact h1
  · rw [noRR_plug, hc]; exact ⟨hn h2.1, h2.2⟩
  · rw [bal_plug, hbh]; exact ⟨hb h3.1, h3.2⟩

/-- `Insert` keeps the invariant and computes `insertT`. -/
theorem Insert_inv [DecidableEq K] {s : RBTreeMap K V} {T : Tree K V} (h : Inv s T)
    (key : K) (value : V) (fuel : Nat) (hf : s.next ≤ fuel) :
    (Insert fuel key value s).Post (fun s' =>
      Inv s' (insertT s.compare key value s.next T) ∧ s'.compare = s.compare ∧
      s'.sentinel = s.sentinel ∧ s.next ≤ s'.next) := by
  have hh := h.height_lt
  have hplug := plug_descend s.compare key [] T
  have hlen := descend_length s.compare key [] T
  have hdir := descend_topDir s.compare key [] T trivial
  have hloop := insertLoop_sim (s := s) key value T [] fuel h.shape (by omega)
  simp only [ctxPar_nil] at hloop
  rw [← h.shape.rep.1] at hloop
  rw [Insert_unfold, hloop]
  unfold insertT
  generalize descend s.compare key [] T = d at hplug hlen hdir
  obtain ⟨C, t⟩ := d
  simp only [plug_nil] at hplug
  cases t with
  | node a c l k v r =>
    simp only [Res.bind_assoc, Res.pure_def, Res.ok_bind]
    have hs : Shape s (plug C (.node a c l k v r)) := hplug ▸ h.shape
    have := setValue_at value hs
    rw [show (s.setValue a value >>= fun r => Res.ok r) = s.setValue a value from by
      cases s.setValue a value <;> rfl]
    refine this.mono ?_
    rintro s' ⟨hs', hsame⟩
    have hflat : ∀ {β : Type} (g : Nat → K → V → β), g a k value = g a k v →
        (plug C (.node a c l k value r)).flat g = T.flat g := by
      intro β g hg
      rw [← hplug]
      exact plug_flat_congr g C (by simp [hg])
    refine ⟨⟨hs', hsame.sentinel ▸ hsame.next ▸ h.sent_lt, ?_, ?_, ?_⟩, hsame.compare,
      hsame.sentinel, Nat.le_of_eq hsame.next.symm⟩
    · rw [Tree.addrs, hflat (fun a _ _ => a) rfl, hsame.next]; exact h.lt_next
    · rw [hsame.size, h.size_eq, Tree.size_congr (fun a _ _ => a) (hflat (fun a _ _ => a) rfl)]
    · exact rbInv_plug_congr (t := .node a c l k v r) (by rw [hplug]; exact h.rb) rfl id id rfl
  | nil =>
    simp only [Res.ok_bind]
    have hs : Shape s (plug C .nil) := hplug ▸ h.shape
    have hrb : (plug C (.nil : Tree K V)).RBInv := hplug ▸ h.rb
    refine Res.Post.bind (attach_spec key value hs (hplug ▸ h.lt_next) h.sent_lt hdir) ?_
    rintro s1 ⟨hs1, e1, e2, e3, e4⟩
    have hrootB := ((rootColor_plug _ _).1 hrb.1).2
    have hlen' : C.length + 2 ≤ fuel := by
      simp only [List.length_nil, Nat.zero_add] at hlen
      omega
    refine (fixInsert_sim C fuel s1 s.next RED .nil key value .nil hs1 hrootB hlen').mono ?_
    rintro s2 ⟨hs2, hsame⟩
    have hflat : ∀ {β : Type} (g : Nat → K → V → β),
        (fixInsertZ C (.node s.next RED .nil key value .nil)).flat g =
          ctxLeft g C ++ g s.next key value :: ctxRight g C := by
      intro β g
      rw [fixInsertZ_flat, flat_plug]; simp
    have hT : ∀ {β : Type} (g : Nat → K → V → β), T.flat g = ctxLeft g C ++ ctxRight g C := by
      intro β g
      rw [← hplug, flat_plug]; simp
    refine ⟨⟨hs2, ?_, ?_, ?_, ?_⟩, hsame.compare.trans e4, hsame.sentinel.trans e1, ?_⟩
    · rw [hsame.sentinel, hsame.next, e1, e2]; exact Nat.lt_succ_of_lt h.sent_lt
    · intro x hx
      rw [Tree.addrs, hflat] at hx
      rw [hsame.next, e2]
      simp only [List.mem_append, List.mem_cons] at hx
      rcases hx with hx | rfl | hx
      · exact Nat.lt_succ_of_lt (h.lt_next x (by rw [Tree.addrs, hT]; simp [hx]))
      · exact Nat.lt_succ_self _
      · exact Nat.lt_succ_of_lt (h.lt_next x (by rw [Tree.addrs, hT]; simp [hx]))
    · have e5 := Tree.size_eq_length (fun a _ _ => a)
        (fixInsertZ C (.node s.next RED .nil key value .nil))
      have e6 := Tree.size_eq_length (fun a _ _ => a) T
      rw [hflat] at e5
      rw [hT] at e6
      simp only [List.length_append, List.length_cons] at e5 e6
      rw [hsame.size, e3, h.size_eq, e5, e6]
      push_cast
      omega
    · have hn := (noRR_plug _ _).1 hrb.2.1
      have hb := (bal_plug _ _).1 hrb.2.2
      exact fixInsertZ_rb C s.next .nil key value .nil rfl rfl trivial trivial trivial trivial
        rfl hn.2.1 hb.2
    · rw [hsame.next, e2]; exact Nat.le_succ _

/-! ## Heap surgery of `Remove` -/

theorem transplant_unfold (r : RBTreeMap K V) (u v : Nat) :
    transplant r u v = (do
      let up ← r.getParent u
      let r ← relink r up u v
      let up ← r.getParent u
      r.setParent v up) := rfl

theorem SameW.weak_refl {s : RBTreeMap K V} : SameW s s :=
  ⟨Eq.refl _, Eq.refl _, Eq.refl _, Eq.refl _, Eq.refl _⟩

theorem SameW.weak_trans {s1 s2 s3 : RBTreeMap K V} (h12 : SameW s1 s2) (h23 : SameW s2 s3) :
    SameW s1 s3 := by
  obtain ⟨a1, a2, a3, a4, a5⟩ := h12
  obtain ⟨b1, b2, b3, b4, b5⟩ := h23
  refine ⟨b1.trans a1, ?_, b3.trans a3, b4.trans a4, b5.trans a5⟩
  rw [← a1, b2, a1, a2]

theorem Same.toW {s s' : RBTreeMap K V} (h : Same s s') : SameW s s' :=
  ⟨h.sentinel, by rw [h.sentNode], h.next, h.size, h.compare⟩

theorem transplant_spec (r : RBTreeMap K V) (m : Nat → Node K V) (C : List (Frame K V))
    (u v : Nat)
    (hctx : RepCtx m r.sentinel r.root C u)
    (he : EqOn r.mem m (ctxAddrs C))
    (hnd : (ctxAddrs C).Nodup) (hu : u ∉ ctxAddrs C) (hus : u ≠ r.sentinel) (hu0 : u ≠ 0)
    (hup : (r.mem u).parent = ctxPar r.sentinel C) (hv0 : v ≠ 0) (hv : v ∉ ctxAddrs C) :
    (transplant r u v).Post (fun r' =>
      RepCtx r'.mem r'.sentinel r'.root C v ∧
      r'.mem v = { r.mem v with parent := ctxPar r.sentinel C } ∧
      (∀ p, p ∉ ctxAddrs C → p ≠ v → r'.mem p = r.mem p) ∧
      r'.sentinel = r.sentinel ∧ r'.next = r.next ∧ r'.size = r.size ∧
      r'.compare = r.compare) := by
  rw [transplant_unfold]
  simp only [RBTreeMap.getParent, hu0, if_false, Res.ok_bind, hup]
  refine Res.Post.bind (relink_spec r m C u v hctx he hnd hu hus) ?_
  rintro r1 ⟨hc1, hm1, hs1, hn1, hz1, hcmp1⟩
  simp only [RBTreeMap.setParent, hv0, if_false, hm1 u hu, hup]
  refine Res.Post.ok ⟨?_, ?_, ?_, hs1, hn1, hz1, hcmp1⟩
  · exact RepCtx.ctx_congr hc1 (EqOn.upd _ hv EqOn.refl_on)
  · simp only [upd_self, hm1 v hv]
  · intro p hp hpv
    simp only [upd_ne _ _ hpv, hm1 p hp]

theorem nodup_plug_sub {C : List (Frame K V)} {t t' : Tree K V}
    (h : (plug C t).addrs.Nodup) (hs : List.Sublist t'.addrs t.addrs) :
    (plug C t').addrs.Nodup := by
  rw [nodup_plug] at h ⊢
  exact ⟨h.1.sublist hs, h.2.1, fun x hx => h.2.2 x (hs.subset hx)⟩

/-- Splicing out a node without left child (`transplant(u, u.right)`). -/
theorem transplant_at_right {s : RBTreeMap K V} {C : List (Frame K V)} {u : Nat}
    {uc : RB.color} {uk : K} {uv : V} {t : Tree K V}
    (h : Shape s (plug C (.node u uc .nil uk uv t))) :
    (transplant s u (t.ptr s.sentinel)).Post (fun s' =>
      ShapeX s' C t ∧ s'.mem u = s.mem u ∧ SameW s s') := by
  obtain ⟨hC, hR⟩ := (rep_plug _ _ _ _ _).1 h.rep
  have hnd := (nodup_plug _ _).1 h.nodup
  obtain ⟨hnt, hnc, hdisj⟩ := hnd
  have hf := h.node_facts
  have huc : u ∉ ctxAddrs C := hdisj u (by simp)
  have hsc : s.sentinel ∉ ctxAddrs C := fun hx => (hC.ctx_addr_ne _ hx).2 rfl
  simp only [Rep] at hR
  have hRt := hR.2.2.2.2.2.2.2.2.2
  have hv0 : t.ptr s.sentinel ≠ 0 := by
    cases t with
    | nil => exact h.sent_ne
    | node a c l k v r => simp only [Rep] at hRt; exact hRt.1
  have hvc : t.ptr s.sentinel ∉ ctxAddrs C := by
    cases t with
    | nil => exact hsc
    | node a c l k v r => exact hdisj a (by simp)
  have hvu : u ≠ t.ptr s.sentinel := by
    cases t with
    | nil => exact hf.2.1
    | node a c l k v r =>
      simp only [Tree.ptr_node]
      rintro rfl
      exact Tree.root_not_mem_right hnt (by simp)
  refine (transplant_spec s s.mem C u (t.ptr s.sentinel) hC EqOn.refl_on hnc huc hf.2.1 hf.1
    hf.2.2.2.2.2.1 hv0 hvc).mono ?_
  rintro s' ⟨hc', hmv, hm', hs', hn', hz', hcmp'⟩
  have hsent : (s'.mem s.sentinel).color = (s.mem s.sentinel).color := by
    by_cases e : s.sentinel = t.ptr s.sentinel
    · rw [e, hmv]
    · rw [hm' _ hsc e]
  refine ⟨⟨⟨?_, nodup_plug_sub h.nodup (by simp), hs' ▸ h.sent_ne, ?_⟩, ?_⟩, hm' u huc hvu,
    ⟨hs', hsent, hn', hz', hcmp'⟩⟩
  · unfold RepTree
    rw [hs'] at hc' ⊢
    refine (rep_plug _ _ _ _ _).2 ⟨hc', ?_⟩
    cases t with
    | nil => trivial
    | node a c l k v r =>
      have hna := Tree.nodup_right hnt
      refine hRt.reparent hmv ?_ ?_
      · intro p hp
        exact hm' p (hdisj p (by simp [hp]))
          (fun e => Tree.root_not_mem_left hna (by rw [Tree.ptr_node] at e; exact e ▸ hp))
      · intro p hp
        exact hm' p (hdisj p (by simp [hp]))
          (fun e => Tree.root_not_mem_right hna (by rw [Tree.ptr_node] at e; exact e ▸ hp))
  · rw [hs', hsent]; exact h.sent_black
  · rw [hs', hmv]

/-- Splicing out a node without right child (`transplant(u, u.left)`). -/
theorem transplant_at_left {s : RBTreeMap K V} {C : List (Frame K V)} {u : Nat}
    {uc : RB.color} {uk : K} {uv : V} {t : Tree K V}
    (h : Shape s (plug C (.node u uc t uk uv .nil))) :
    (transplant s u (t.ptr s.sentinel)).Post (fun s' =>
      ShapeX s' C t ∧ s'.mem u = s.mem u ∧ SameW s s') := by
  obtain ⟨hC, hR⟩ := (rep_plug _ _ _ _ _).1 h.rep
  have hnd := (nodup_plug _ _).1 h.nodup
  obtain ⟨hnt, hnc, hdisj⟩ := hnd
  have hf := h.node_facts
  have huc : u ∉ ctxAddrs C := hdisj u (by simp)
  have hsc : s.sentinel ∉ ctxAddrs C := fun hx => (hC.ctx_addr_ne _ hx).2 rfl
  simp only [Rep] at hR
  have hRt := hR.2.2.2.2.2.2.2.2.1
  have hv0 : t.ptr s.sentinel ≠ 0 := by
    cases t with
    | nil => exact h.sent_ne
    | node a c l k v r => simp only [Rep] at hRt; exact hRt.1
  have hvc : t.ptr s.sentinel ∉ ctxAddrs C := by
    cases t with
    | nil => exact hsc
    | node a c l k v r => exact hdisj a (by simp)
  have hvu : u ≠ t.ptr s.sentinel := by
    cases t with
    | nil => exact hf.2.1
    | node a c l k v r =>
      simp only [Tree.ptr_node]
      rintro rfl
      exact Tree.root_not_mem_left hnt (by simp)
  refine (transplant_spec s s.mem C u (t.ptr s.sentinel) hC EqOn.refl_on hnc huc hf.2.1 hf.1
    hf.2.2.2.2.2.1 hv0 hvc).mono ?_
  rintro s' ⟨hc', hmv, hm', hs', hn', hz', hcmp'⟩
  have hsent : (s'.mem s.sentinel).color = (s.mem s.sentinel).color := by
    by_cases e : s.sentinel = t.ptr s.sentinel
    · rw [e, hmv]
    · rw [hm' _ hsc e]
  refine ⟨⟨⟨?_, nodup_plug_sub h.nodup (by simp), hs' ▸ h.sent_ne, ?_⟩, ?_⟩, hm' u huc hvu,
    ⟨hs', hsent, hn', hz', hcmp'⟩⟩
  · unfold RepTree
    rw [hs'] at hc' ⊢
    refine (rep_plug _ _ _ _ _).2 ⟨hc', ?_⟩
    cases t with
    | nil => trivial
    | node a c l k v r =>
      have hna := Tree.nodup_left hnt
      refine hRt.reparent hmv ?_ ?_
      · intro p hp
        exact hm' p (hdisj p (by simp [hp]))
          (fun e => Tree.root_not_mem_left hna (by rw [Tree.ptr_node] at e; exact e ▸ hp))
      · intro p hp
        exact hm' p (hdisj p (by simp [hp]))
          (fun e => Tree.root_not_mem_right hna (by rw [Tree.ptr_node] at e; exact e ▸ hp))
  · rw [hs', hsent]; exact h.sent_black
  · rw [hs', hmv]

theorem Remove_unfold [DecidableEq K] (fuel : Nat) (key : K) (r : RBTreeMap K V) :
    Remove fuel key r = (do
      let z ← search fuel r key
      if z = r.sentinel then
        pure r
      else do
        let (r, x, yOriginalColor) ← removeSplice fuel { r with size := r.size - 1 } z
        if yOriginalColor = BLACK then fixDelete fuel r x else pure r) := by
  unfold Remove removeSplice removeTail removeDetach
  congr 1
  funext z
  split
  · rfl
  · simp only [Res.bind_assoc, Res.pure_def, Res.ok_bind]

theorem removeTail_spec (s : RBTreeMap K V) (C : List (Frame K V)) (z y la : Nat)
    (zc lc : RB.color) (ll lr R : Tree K V) (lk yk : K) (lv yv : V)
    (hC : RepCtx s.mem s.sentinel s.root C z)
    (hz0 : z ≠ 0) (hzs : z ≠ s.sentinel) (hzp : (s.mem z).parent = ctxPar s.sentinel C)
    (hzl : (s.mem z).left = la) (hzc : (s.mem z).color = zc)
    (hL : Rep s.mem s.sentinel z (.node la lc ll lk lv lr))
    (hy0 : y ≠ 0) (hys : y ≠ s.sentinel) (hyk : (s.mem y).key = yk)
    (hyv : (s.mem y).value = yv) (hyr : (s.mem y).right = R.ptr s.sentinel)
    (hR : Rep s.mem s.sentinel y R)
    (hnd : (plug C (.node y zc (.node la lc ll lk lv lr) yk yv R)).addrs.Nodup)
    (hzn : z ∉ (plug C (.node y zc (.node la lc ll lk lv lr) yk yv R)).addrs)
    (hs0 : s.sentinel ≠ 0) (hsb : (s.mem s.sentinel).color = BLACK) :
    (removeTail s z y).Post (fun s' =>
      Shape s' (plug C (.node y zc (.node la lc ll lk lv lr) yk yv R)) ∧ Same s s') := by
  have hnd' := (nodup_plug _ _).1 hnd
  obtain ⟨hnt, hnc, hdisj⟩ := hnd'
  rw [mem_plug_addrs] at hzn
  simp only [not_or] at hzn
  obtain ⟨hzt, hzctx⟩ := hzn
  have hyctx : y ∉ ctxAddrs C := hdisj y (by simp)
  have hlactx : la ∉ ctxAddrs C := hdisj la (by simp)
  have hsctx : s.sentinel ∉ ctxAddrs C := fun hx => (hC.ctx_addr_ne _ hx).2 rfl
  have hzy : z ≠ y := fun e => hzt (by simp [e])
  have hzla : z ≠ la := fun e => hzt (by simp [e])
  have hyla : y ≠ la := fun e => Tree.root_not_mem_left hnt (by simp [e])
  have hnL := Tree.nodup_left hnt
  have hla0 : la ≠ 0 := hL.1
  have hlas : la ≠ s.sentinel := hL.2.1
  unfold removeTail
  refine Res.Post.bind (transplant_spec s s.mem C z y hC EqOn.refl_on hnc hzctx hzs hz0 hzp hy0
    hyctx) ?_
  rintro r1 ⟨hc1, hmy, hm1, hs1, hn1, hz1, hcmp1⟩
  simp only [RBTreeMap.getLeft, RBTreeMap.setLeft, RBTreeMap.setParent, RBTreeMap.getColor,
    RBTreeMap.setColor, hz0, hy0, hla0, if_false, Res.ok_bind, hm1 z hzctx hzy, hzl, upd_self,
    upd_ne _ _ hzy, upd_ne _ _ hzla, upd_ne _ _ hyla, upd_ne _ _ (Ne.symm hyla), hzc, hmy,
    hm1 la hlactx (Ne.symm hyla)]
  refine Res.Post.ok ⟨⟨?_, hnd, hs1 ▸ hs0, ?_⟩, ⟨hs1, ?_, hn1, hz1, hcmp1⟩⟩
  · unfold RepTree
    simp only [hs1] at hc1 ⊢
    refine (rep_plug _ _ _ _ _).2 ⟨?_, ?_⟩
    · exact hc1.ctx_congr (EqOn.upd _ hyctx (EqOn.upd _ hlactx (EqOn.upd _ hyctx EqOn.refl_on)))
    · have hLfacts := hL
      simp only [Rep] at hLfacts
      obtain ⟨-, -, l3, l4, l5, l6, l7, l8, l9, l10⟩ := hLfacts
      have hlal : la ∉ ll.addrs := Tree.root_not_mem_left hnL
      have hlar : la ∉ lr.addrs := Tree.root_not_mem_right hnL
      have hyll : y ∉ ll.addrs := fun hx => Tree.root_not_mem_left hnt (by simp [hx])
      have hylr : y ∉ lr.addrs := fun hx => Tree.root_not_mem_left hnt (by simp [hx])
      have hyR : y ∉ R.addrs := Tree.root_not_mem_right hnt
      have hlaR : la ∉ R.addrs := fun hx => Tree.left_ne_right hnt (x := la) (by simp) hx rfl
      have hllc : ∀ p ∈ ll.addrs, p ∉ ctxAddrs C := fun p hp => hdisj p (by simp [hp])
      have hlrc : ∀ p ∈ lr.addrs, p ∉ ctxAddrs C := fun p hp => hdisj p (by simp [hp])
      have hRc : ∀ p ∈ R.addrs, p ∉ ctxAddrs C := fun p hp => hdisj p (by simp [hp])
      have hm1' : ∀ (l : List Nat), (∀ p ∈ l, p ∉ ctxAddrs C) → y ∉ l → EqOn r1.mem s.mem l :=
        fun l hl hyl p hp => hm1 p (hl p hp) (fun e => hyl (e ▸ hp))
      simp only [Rep, upd_self, upd_ne _ _ (Ne.symm hyla), Tree.ptr_node]
      refine ⟨hy0, hys, hyk, hyv, trivial, trivial, trivial, hyr,
        ⟨hla0, hlas, l3, l4, l5, trivial, l7, l8, l9.congr ?_, l10.congr ?_⟩, hR.congr ?_⟩
      · exact EqOn.upd _ hyll (EqOn.upd _ hlal (EqOn.upd _ hyll (hm1' _ hllc hyll)))
      · exact EqOn.upd _ hylr (EqOn.upd _ hlar (EqOn.upd _ hylr (hm1' _ hlrc hylr)))
      · exact EqOn.upd _ hyR (EqOn.upd _ hlaR (EqOn.upd _ hyR (hm1' _ hRc hyR)))
  · rw [hs1]
    simp only [upd_ne _ _ (Ne.symm hys), upd_ne _ _ (Ne.symm hlas),
      hm1 _ hsctx (Ne.symm hys), hsb]
  · simp only [upd_ne _ _ (Ne.symm hys), upd_ne _ _ (Ne.symm hlas),
      hm1 _ hsctx (Ne.symm hys)]

theorem minDescend_leaf (C : List (Frame K V)) (a : Nat) (c : RB.color) (k : K) (v : V)
    (r : Tree K V) :
    minDescend C (.node a c .nil k v r) = (C, .node a c .nil k v r) := rfl

theorem minDescend_left (C : List (Frame K V)) (a : Nat) (c : RB.color) (k : K) (v : V)
    (r : Tree K V) (la : Nat) (lc : RB.color) (ll : Tree K V) (lk : K) (lv : V)
    (lr : Tree K V) :
    minDescend C (.node a c (.node la lc ll lk lv lr) k v r) =
      minDescend (.L a c k v r :: C) (.node la lc ll lk lv lr) := rfl

theorem plug_minDescend (C : List (Frame K V)) (t : Tree K V) :
    plug (minDescend C t).1 (minDescend C t).2 = plug C t := by
  induction t generalizing C with
  | nil => rfl
  | node a c l k v r ihl _ =>
    cases l with
    | nil => rfl
    | node la lc ll lk lv lr =>
      rw [minDescend_left]
      rw [ihl]
      rfl

theorem minDescend_node (C : List (Frame K V)) (a : Nat) (c : RB.color) (l : Tree K V)
    (k : K) (v : V) (r : Tree K V) :
    ∃ ya yc yk yv yr, (minDescend C (.node a c l k v r)).2 = .node ya yc .nil yk yv yr := by
  induction l generalizing C a c k v r with
  | nil => exact ⟨_, _, _, _, _, rfl⟩
  | node la lc ll lk lv lr ihl _ =>
    rw [minDescend_left]
    exact ihl _ _ _ _ _ _

/-- The path found by `minDescend` extends the given one. -/
theorem minDescend_append (C : List (Frame K V)) (t : Tree K V) :
    (minDescend C t).1 = (minDescend [] t).1 ++ C ∧
      (minDescend C t).2 = (minDescend [] t).2 := by
  induction t generalizing C with
  | nil => simp [minDescend]
  | node a c l k v r ihl _ =>
    cases l with
    | nil => simp [minDescend]
    | node la lc ll lk lv lr =>
      rw [minDescend_left]
      rw [minDescend_left, (ihl (.L a c k v r :: C)).1, (ihl (.L a c k v r :: C)).2,
        (ihl [.L a c k v r]).1, (ihl [.L a c k v r]).2]
      simp

theorem minDescend_length (C : List (Frame K V)) (t : Tree K V) :
    (minDescend C t).1.length + (minDescend C t).2.height ≤ C.length + t.height := by
  induction t generalizing C with
  | nil => simp [minDescend]
  | node a c l k v r ihl _ =>
    cases l with
    | nil => simp [minDescend]
    | node la lc ll lk lv lr =>
      rw [minDescend_left]
      have := ihl (.L a c k v r :: C)
      simp only [List.length_cons, Tree.height_node] at this ⊢
      omega

theorem minimum_sim {s : RBTreeMap K V} :
    ∀ (l : Tree K V) (C : List (Frame K V)) (a : Nat) (c : RB.color) (k : K) (v : V)
      (r : Tree K V) (fuel : Nat),
      Shape s (plug C (.node a c l k v r)) → l.height < fuel →
      minimum s fuel a = .ok ((minDescend C (.node a c l k v r)).2.ptr s.sentinel) := by
  intro l
  induction l with
  | nil =>
    intro C a c k v r fuel h hf
    obtain ⟨f, rfl⟩ : ∃ f, fuel = f + 1 := ⟨fuel - 1, by omega⟩
    simp [minimum, getLeft_at h, minDescend]
  | node la lc ll lk lv lr ihl _ =>
    intro C a c k v r fuel h hf
    obtain ⟨f, rfl⟩ : ∃ f, fuel = f + 1 := ⟨fuel - 1, by omega⟩
    have hne := (Shape.node_facts (C := .L a c k v r :: C) h).2.1
    simp only [Tree.height_node] at hf
    rw [minDescend_left]
    simp only [minimum, getLeft_at h, Tree.ptr_node, Res.ok_bind, ne_eq, hne, not_false_eq_true,
      if_true]
    exact ihl (.L a c k v r :: C) la lc lk lv lr f h (by omega)

theorem ctxAddrs_append (c1 c2 : List (Frame K V)) :
    ctxAddrs (c1 ++ c2) = ctxAddrs c1 ++ ctxAddrs c2 := by
  induction c1 with
  | nil => rfl
  | cons f rest ih => cases f <;> simp [ctxAddrs, ih]

/-- Two-children case of `Remove`, successor directly below `z`. -/
theorem splice_adjacent {s : RBTreeMap K V} {C : List (Frame K V)} {z ya la : Nat}
    {zc yc lc : RB.color} {ll lr yr : Tree K V} {zk yk lk : K} {zv yv lv : V}
    (h : Shape s (plug C (.node z zc (.node la lc ll lk lv lr) zk zv
      (.node ya yc .nil yk yv yr)))) :
    (s.setParent (yr.ptr s.sentinel) ya >>= fun r => removeTail r z ya).Post (fun s' =>
      ShapeX s' (.R ya zc (.node la lc ll lk lv lr) yk yv :: C) yr ∧ SameW s s') := by
  obtain ⟨hC, hR⟩ := (rep_plug _ _ _ _ _).1 h.rep
  obtain ⟨hnt, hnc, hdisj⟩ := (nodup_plug _ _).1 h.nodup
  have hzf := h.node_facts
  have hyf := Shape.node_facts (C := .R z zc (.node la lc ll lk lv lr) zk zv :: C) h
  have hRL := hR.left
  have hRyr := hR.right.right
  have hsctx : s.sentinel ∉ ctxAddrs C := fun hx => (hC.ctx_addr_ne _ hx).2 rfl
  have hnR := Tree.nodup_right hnt
  have hnL := Tree.nodup_left hnt
  -- the cursor
  have hx0 : yr.ptr s.sentinel ≠ 0 := by
    cases yr with
    | nil => exact h.sent_ne
    | node a c l k v r => exact (hRyr.addr_ne a (by simp)).1
  have hxctx : yr.ptr s.sentinel ∉ ctxAddrs C := by
    cases yr with
    | nil => exact hsctx
    | node a c l k v r => exact hdisj a (by simp)
  have hxz : z ≠ yr.ptr s.sentinel := by
    cases yr with
    | nil => exact hzf.2.1
    | node a c l k v r =>
      rintro rfl
      exact Tree.root_not_mem_right hnt (by simp)
  have hxy : ya ≠ yr.ptr s.sentinel := by
    cases yr with
    | nil => exact hyf.2.1
    | node a c l k v r =>
      rintro rfl
      exact Tree.root_not_mem_right hnR (by simp)
  have hxL : yr.ptr s.sentinel ∉ (Tree.node la lc ll lk lv lr).addrs := by
    cases yr with
    | nil => exact fun hx => (hRL.addr_ne _ hx).2 rfl
    | node a c l k v r =>
      exact fun hx => Tree.left_ne_right hnt hx (y := a) (by simp) rfl
  simp only [RBTreeMap.setParent, hx0, if_false, Res.ok_bind]
  have hRyr' : Rep (upd s.mem (yr.ptr s.sentinel)
      { s.mem (yr.ptr s.sentinel) with parent := ya }) s.sentinel ya yr := by
    cases yr with
    | nil => trivial
    | node a c l k v r =>
      have hna := Tree.nodup_right hnR
      exact hRyr.reparent (by simp) (EqOn.upd _ (Tree.root_not_mem_left hna) EqOn.refl_on)
        (EqOn.upd _ (Tree.root_not_mem_right hna) EqOn.refl_on)
  have hnd' : (plug C (.node ya zc (.node la lc ll lk lv lr) yk yv yr)).addrs.Nodup := by
    rw [nodup_plug]
    refine ⟨?_, hnc, fun x hx => hdisj x ?_⟩
    · simp only [Tree.flat_node, Tree.flat_nil, List.nil_append] at hnt ⊢
      exact hnt.sublist ((List.Sublist.refl _).append (List.sublist_cons_self _ _))
    · simp only [Tree.flat_node, Tree.flat_nil, List.nil_append, List.mem_append,
        List.mem_cons] at hx ⊢
      tauto
  have hzn : z ∉ (plug C (.node ya zc (.node la lc ll lk lv lr) yk yv yr)).addrs := by
    rw [mem_plug_addrs]
    simp only [not_or]
    refine ⟨?_, hdisj z (by simp)⟩
    intro hx
    rw [Tree.addrs, Tree.flat_node, List.mem_append, List.mem_cons] at hx
    rcases hx with hx | rfl | hx
    · exact Tree.root_not_mem_left hnt hx
    · exact Tree.root_not_mem_right hnt (by simp)
    · exact Tree.root_not_mem_right hnt (by simp [hx])
  refine (removeTail_spec { s with mem := (upd s.mem (yr.ptr s.sentinel)
      { s.mem (yr.ptr s.sentinel) with parent := ya }) } C z ya la zc lc ll lr yr lk yk lv yv
    (hC.ctx_congr (EqOn.upd _ hxctx EqOn.refl_on)) hzf.1 hzf.2.1 ?_ ?_ ?_
    (hRL.congr (EqOn.upd _ hxL EqOn.refl_on)) hyf.1 hyf.2.1 ?_ ?_ ?_ hRyr' hnd' hzn h.sent_ne
    ?_).mono ?_
  · simp only [upd_ne _ _ hxz]; exact hzf.2.2.2.2.2.1
  · simp only [upd_ne _ _ hxz]; exact hzf.2.2.2.2.2.2.1
  · simp only [upd_ne _ _ hxz]; exact hzf.2.2.2.2.1
  · simp only [upd_ne _ _ hxy]; exact hyf.2.2.1
  · simp only [upd_ne _ _ hxy]; exact hyf.2.2.2.1
  · simp only [upd_ne _ _ hxy]; exact hyf.2.2.2.2.2.2.2
  · by_cases e : s.sentinel = yr.ptr s.sentinel
    · rw [← e]; simp only [upd_self]; exact h.sent_black
    · simp only [upd_ne _ _ e]; exact h.sent_black
  · rintro s' ⟨hs', hsame⟩
    have hsent := hsame.sentinel
    have hsn := hsame.sentNode
    simp only at hsent hsn
    refine ⟨⟨hs', ?_⟩, ⟨hsent, ?_, hsame.next, hsame.size, hsame.compare⟩⟩
    · cases yr with
      | nil =>
        simp only [Tree.ptr_nil, ctxPar_cons, Frame.addr_R] at hsn ⊢
        rw [hsent, hsn]; simp
      | node a c l k v r =>
        exact (Shape.node_facts
          (C := .R ya zc (.node la lc ll lk lv lr) yk yv :: C) hs').2.2.2.2.2.1
    · rw [hsn]
      by_cases e : s.sentinel = yr.ptr s.sentinel
      · rw [← e]; simp only [upd_self]
      · simp only [upd_ne _ _ e]

theorem nodup_swap_mid {l1 l2 : List Nat} {a b : Nat} (h : (l1 ++ a :: l2).Nodup)
    (h1 : b ∉ l1) (h2 : b ∉ l2) : (l1 ++ b :: l2).Nodup := by
  simp only [List.nodup_append, List.nodup_cons, List.disjoint_left, List.mem_cons] at h ⊢
  refine ⟨h.1, ⟨h2, h.2.1.2⟩, ?_⟩
  intro x hx hx'
  rcases hx' with rfl | hx'
  · exact h1 hx
  · exact h.2.2 hx (Or.inr hx')

theorem plug_cons_node (f : Frame K V) (rest : List (Frame K V)) (t : Tree K V) :
    ∃ a c l k v r, plug (f :: rest) t = .node a c l k v r := by
  cases f with
  | L a c k v r => exact plug_node_ne_nil rest a c t k v r
  | R a c l k v => exact plug_node_ne_nil rest a c l k v t

/-- Two-children case of `Remove`, successor deeper in the right subtree of `z`. -/
theorem splice_deep {s : RBTreeMap K V} {C cy' : List (Frame K V)} {f : Frame K V}
    {z ya la : Nat} {zc yc lc : RB.color} {ll lr yr : Tree K V} {zk yk lk : K} {zv yv lv : V}
    (h : Shape s (plug (f :: cy' ++ .R z zc (.node la lc ll lk lv lr) zk zv :: C)
      (.node ya yc .nil yk yv yr))) :
    (removeDetach s z ya >>= fun r => removeTail r z ya).Post (fun s' =>
      ShapeX s' (f :: cy' ++ .R ya zc (.node la lc ll lk lv lr) yk yv :: C) yr ∧
      SameW s s') := by
  have hyf := h.node_facts
  obtain ⟨hnty, -, hdisjy⟩ := (nodup_plug _ _).1 h.nodup
  have hyC : ya ∉ ctxAddrs (f :: cy' ++ .R z zc (.node la lc ll lk lv lr) zk zv :: C) :=
    hdisjy ya (by simp)
  rw [List.cons_append, ← List.cons_append, ctxAddrs_append] at hyC
  simp only [List.mem_append, not_or, ctxAddrs, List.mem_cons] at hyC
  obtain ⟨hycy, hyz, hyL, hyctx⟩ := hyC
  have hyyr : ya ∉ yr.addrs := Tree.root_not_mem_right hnty
  unfold removeDetach
  simp only [getRight_at h, Res.ok_bind, Res.bind_assoc]
  refine Res.Post.bind (transplant_at_right h) ?_
  rintro s1 ⟨hX1, hmy, hw1⟩
  -- the tree with `y` cut out
  have hs1 : Shape s1 (plug C (.node z zc (.node la lc ll lk lv lr) zk zv
      (plug (f :: cy') yr))) := by
    have := hX1.shape
    rw [List.cons_append, ← List.cons_append, plug_append] at this
    exact this
  obtain ⟨q, qc, ql, qk, qv, qr, hq⟩ := plug_cons_node f cy' yr
  have hyR' : ya ∉ (plug (f :: cy') yr).addrs := by
    rw [mem_plug_addrs]
    simp only [not_or]
    exact ⟨hyyr, hycy⟩
  rw [hq] at hs1 hyR'
  obtain ⟨hC1, hR1⟩ := (rep_plug _ _ _ _ _).1 hs1.rep
  obtain ⟨hnt1, hnc1, hdisj1⟩ := (nodup_plug _ _).1 hs1.nodup
  have hzf := hs1.node_facts
  have hqf := Shape.node_facts (C := .R z zc (.node la lc ll lk lv lr) zk zv :: C) hs1
  have hnR := Tree.nodup_right hnt1
  have hzq : z ≠ q := fun e => Tree.root_not_mem_right hnt1 (by simp [e])
  have hyq : ya ≠ q := fun e => hyR' (by simp [e])
  have hqctx : q ∉ ctxAddrs C := hdisj1 q (by simp)
  have hqL : q ∉ (Tree.node la lc ll lk lv lr).addrs :=
    fun hx => Tree.left_ne_right hnt1 hx (y := q) (by simp) rfl
  have hs1s : s1.sentinel = s.sentinel := hw1.sentinel
  simp only [getRight_at hs1, Tree.ptr_node, Res.ok_bind]
  simp only [RBTreeMap.setRight, hyf.1, if_false, RBTreeMap.getRight, upd_self,
    RBTreeMap.setParent, hqf.1, Res.ok_bind, upd_ne _ _ (Ne.symm hyq)]
  refine (removeTail_spec { s1 with mem := (upd (upd s1.mem ya { s1.mem ya with right := q }) q
      { s1.mem q with parent := ya }) } C z ya la zc lc ll lr (.node q qc ql qk qv qr)
      lk yk lv yv ?_ hzf.1 hzf.2.1 ?_ ?_ ?_ ?_ hyf.1 (hs1s ▸ hyf.2.1) ?_ ?_ ?_ ?_ ?_ ?_
      hs1.sent_ne ?_).mono ?_
  · exact hC1.ctx_congr (EqOn.upd _ hqctx (EqOn.upd _ hyctx EqOn.refl_on))
  · simp only [upd_ne _ _ hzq, upd_ne _ _ (Ne.symm hyz)]; exact hzf.2.2.2.2.2.1
  · simp only [upd_ne _ _ hzq, upd_ne _ _ (Ne.symm hyz)]; exact hzf.2.2.2.2.2.2.1
  · simp only [upd_ne _ _ hzq, upd_ne _ _ (Ne.symm hyz)]; exact hzf.2.2.2.2.1
  · exact hR1.left.congr (EqOn.upd _ hqL (EqOn.upd _ hyL EqOn.refl_on))
  · simp only [upd_ne _ _ hyq, upd_self, hmy]; exact hyf.2.2.1
  · simp only [upd_ne _ _ hyq, upd_self, hmy]; exact hyf.2.2.2.1
  · simp only [upd_ne _ _ hyq, upd_self, Tree.ptr_node]
  · refine hR1.right.reparent ?_ ?_ ?_
    · simp only [upd_self, upd_ne _ _ (Ne.symm hyq)]
    · exact EqOn.upd _ (Tree.root_not_mem_left hnR)
        (EqOn.upd _ (fun hx => hyR' (by simp [hx])) EqOn.refl_on)
    · exact EqOn.upd _ (Tree.root_not_mem_right hnR)
        (EqOn.upd _ (fun hx => hyR' (by simp [hx])) EqOn.refl_on)
  · rw [nodup_plug]
    refine ⟨?_, hnc1, ?_⟩
    · rw [Tree.addrs, Tree.flat_node] at hnt1 ⊢
      exact nodup_swap_mid hnt1 hyL hyR'
    · intro x hx
      rw [Tree.addrs, Tree.flat_node, List.mem_append, List.mem_cons] at hx
      rcases hx with hx | rfl | hx
      · exact hdisj1 x (by
          rw [Tree.addrs, Tree.flat_node]; exact List.mem_append_left _ hx)
      · exact hyctx
      · exact hdisj1 x (by
          rw [Tree.addrs, Tree.flat_node]
          exact List.mem_append_right _ (List.mem_cons_of_mem _ hx))
  · rw [mem_plug_addrs]
    simp only [not_or]
    refine ⟨?_, hdisj1 z (by simp)⟩
    intro hx
    rw [Tree.addrs, Tree.flat_node, List.mem_append, List.mem_cons] at hx
    rcases hx with hx | rfl | hx
    · exact Tree.root_not_mem_left hnt1 hx
    · exact hyz rfl
    · exact Tree.root_not_mem_right hnt1 hx
  · simp only [upd_ne _ _ (Ne.symm hqf.2.1), upd_ne _ _ (Ne.symm (hs1s ▸ hyf.2.1))]
    exact hs1.sent_black
  · rintro s4 ⟨hs4, hsame⟩
    have hsent := hsame.sentinel
    have hsn := hsame.sentNode
    simp only [upd_ne _ _ (Ne.symm hqf.2.1), upd_ne _ _ (Ne.symm (hs1s ▸ hyf.2.1))]
      at hsent hsn
    have hs4' : Shape s4 (plug (f :: cy' ++ .R ya zc (.node la lc ll lk lv lr) yk yv :: C)
        yr) := by
      rw [List.cons_append, ← List.cons_append, plug_append, hq]
      exact hs4
    refine ⟨⟨hs4', ?_⟩, ⟨hsent.trans hs1s, ?_, hsame.next.trans hw1.next,
      hsame.size.trans hw1.size, hsame.compare.trans hw1.compare⟩⟩
    · cases yr with
      | nil =>
        have := hX1.parent
        simp only [Tree.ptr_nil, List.cons_append, ctxPar_cons] at this ⊢
        rw [hsent, hsn]; exact this
      | node a c l k v r => exact hs4'.node_facts.2.2.2.2.2.1
    · rw [← hs1s, hsn, hs1s]; exact hw1.sentColor

theorem Shape.with_size {s : RBTreeMap K V} {T : Tree K V} (h : Shape s T) (n : Int) :
    Shape { s with size := n } T :=
  ⟨h.rep, h.nodup, h.sent_ne, h.sent_black⟩

theorem removeSplice_sim {s : RBTreeMap K V} {C : List (Frame K V)} {z : Nat}
    {zc : RB.color} {zl zr : Tree K V} {zk : K} {zv : V}
    (h : Shape s (plug C (.node z zc zl zk zv zr))) (fuel : Nat) (hf : zr.height ≤ fuel) :
    (removeSplice fuel s z).Post (fun res =>
      ShapeX res.1 (spliceZ C zc zl zr).1 (spliceZ C zc zl zr).2.1 ∧
      res.2.1 = (spliceZ C zc zl zr).2.1.ptr s.sentinel ∧
      res.2.2 = (spliceZ C zc zl zr).2.2 ∧ SameW s res.1) := by
  unfold removeSplice
  simp only [getColor_at h, getLeft_at h, getRight_at h, Res.ok_bind]
  cases zl with
  | nil =>
    simp only [Tree.ptr_nil, if_true, spliceZ]
    refine Res.Post.bind (transplant_at_right h) ?_
    rintro s1 ⟨hX, -, hw⟩
    exact Res.Post.ok ⟨hX, rfl, rfl, hw⟩
  | node la lc ll lk lv lr =>
    have hla := (Shape.node_facts (C := .L z zc zk zv zr :: C) h).2.1
    simp only [Tree.ptr_node, hla, if_false]
    cases zr with
    | nil =>
      simp only [Tree.ptr_nil, if_true, spliceZ]
      refine Res.Post.bind (transplant_at_left h) ?_
      rintro s1 ⟨hX, -, hw⟩
      exact Res.Post.ok ⟨hX, rfl, rfl, hw⟩
    | node ra rc rl rk rv rr =>
      have hra := (Shape.node_facts
        (C := .R z zc (.node la lc ll lk lv lr) zk zv :: C) h).2.1
      simp only [Tree.height_node] at hf
      have hmin := minimum_sim rl (.R z zc (.node la lc ll lk lv lr) zk zv :: C) ra rc rk rv rr
        fuel h (by omega)
      have happ := minDescend_append (.R z zc (.node la lc ll lk lv lr) zk zv :: C)
        (.node ra rc rl rk rv rr)
      have hplug := plug_minDescend (.R z zc (.node la lc ll lk lv lr) zk zv :: C)
        (.node ra rc rl rk rv rr)
      obtain ⟨ya, yc, yk, yv, yr, hy⟩ := minDescend_node ([] : List (Frame K V)) ra rc rl rk rv rr
      rw [happ.1, happ.2] at hplug
      rw [happ.2] at hmin
      simp only [Tree.ptr_node, hra, if_false, hmin, Res.ok_bind, spliceZ]
      generalize minDescend [] (Tree.node ra rc rl rk rv rr) = d at hplug hy
      obtain ⟨cy, yt⟩ := d
      simp only at hy hplug
      subst hy
      have h' : Shape s (plug (cy ++ .R z zc (.node la lc ll lk lv lr) zk zv :: C)
          (.node ya yc .nil yk yv yr)) := by
        rw [hplug]; exact h
      simp only [getColor_at h', getRight_at h', getParent_at h', Res.ok_bind, Tree.ptr_node]
      cases cy with
      | nil =>
        simp only [List.nil_append, ctxPar_cons, Frame.addr_R, if_true]
        rw [← Res.bind_assoc]
        refine Res.Post.bind (splice_adjacent h') ?_
        rintro s1 ⟨hX, hw⟩
        exact Res.Post.ok ⟨hX, rfl, rfl, hw⟩
      | cons f cy' =>
        have hne : f.addr ≠ z := by
          have hnc := ((nodup_plug _ _).1 h'.nodup).2.1
          have hz : z ∈ ctxAddrs (cy' ++ .R z zc (.node la lc ll lk lv lr) zk zv :: C) := by
            rw [ctxAddrs_append]
            simp [ctxAddrs]
          intro e
          cases f <;>
          · simp only [List.cons_append, ctxAddrs, List.nodup_cons, List.mem_append, not_or] at hnc
            simp only [Frame.addr_L, Frame.addr_R] at e
            exact hnc.1.2 (e ▸ hz)
        simp only [List.cons_append, ctxPar_cons, hne, if_false]
        rw [← Res.bind_assoc]
        refine Res.Post.bind (splice_deep h') ?_
        rintro s1 ⟨hX, hw⟩
        exact Res.Post.ok ⟨hX, rfl, rfl, hw⟩

theorem fixDelete_unfold (fuel : Nat) (r : RBTreeMap K V) (x : Nat) :
    fixDelete (fuel + 1) r x = (do
      let goOn ← (if x ≠ r.root then do
          let xc ← r.getColor x
          pure (decide (xc = BLACK))
        else pure false)
      if goOn then do
        let xp ← r.getParent x
        let xpl ← r.getLeft xp
        if x = xpl then do
          let sibling ← r.getRight xp
          let sc ← r.getColor sibling
          let (r, sibling) ← (if sc = RED then do
              let r ← r.setColor sibling BLACK
              let xp ← r.getParent x
              let r ← r.setColor xp RED
              let xp ← r.getParent x
              let r ← rotateLeft r xp
              let xp ← r.getParent x
              let sibling ← r.getRight xp
              pure (r, sibling)
            else pure (r, sibling))
          fixDeleteRestL fuel r x sibling
        else do
          let sibling ← r.getLeft xp
          let sc ← r.getColor sibling
          let (r, sibling) ← (if sc = RED then do
              let r ← r.setColor sibling BLACK
              let xp ← r.getParent x
              let r ← r.setColor xp RED
              let xp ← r.getParent x
              let r ← rotateRight r xp
              let xp ← r.getParent x
              let sibling ← r.getLeft xp
              pure (r, sibling)
            else pure (r, sibling))
          fixDeleteRestR fuel r x sibling
      else
        r.setColor x BLACK) := by
  rw [fixDelete]
  rfl

theorem ShapeX.ptr_ne_zero {s : RBTreeMap K V} {C : List (Frame K V)} {t : Tree K V}
    (h : ShapeX s C t) : t.ptr s.sentinel ≠ 0 := by
  cases t with
  | nil => exact h.shape.sent_ne
  | node a c l k v r => exact h.shape.node_facts.1

theorem getParent_x {s : RBTreeMap K V} {C : List (Frame K V)} {t : Tree K V} {s0 : Nat}
    (h : ShapeX s C t) (e : s.sentinel = s0) :
    s.getParent (t.ptr s0) = .ok (ctxPar s0 C) := by
  subst e
  simp [RBTreeMap.getParent, h.ptr_ne_zero, h.parent]

theorem getColor_x {s : RBTreeMap K V} {C : List (Frame K V)} {t : Tree K V}
    (h : ShapeX s C t) : s.getColor (t.ptr s.sentinel) = .ok t.rootColor :=
  getColor_ptr h.shape

/-- The cursor keeps its place when other nodes are recoloured or rotated. -/
theorem ShapeX.of_shape {s s' : RBTreeMap K V} {C C' : List (Frame K V)} {t : Tree K V}
    (hold : ShapeX s C t) (hs' : Shape s' (plug C' t)) (hsame : Same s s')
    (hpar : ctxPar s.sentinel C' = ctxPar s.sentinel C) : ShapeX s' C' t := by
  refine ⟨hs', ?_⟩
  cases t with
  | nil =>
    have := hold.parent
    simp only [Tree.ptr_nil] at this ⊢
    rw [hsame.sentinel, hsame.sentNode, hpar, this]
  | node a c l k v r => exact hs'.node_facts.2.2.2.2.2.1

theorem ShapeX.of_node {s : RBTreeMap K V} {C : List (Frame K V)} {a : Nat} {c : RB.color}
    {l r : Tree K V} {k : K} {v : V} (h : Shape s (plug C (.node a c l k v r))) :
    ShapeX s C (.node a c l k v r) :=
  ⟨h, h.node_facts.2.2.2.2.2.1⟩

/-- The cursor of `fixDelete` is the root exactly when the path is empty. -/
theorem ShapeX.ptr_ne_root {s : RBTreeMap K V} {f : Frame K V} {rest : List (Frame K V)}
    {t : Tree K V} (h : ShapeX s (f :: rest) t) : t.ptr s.sentinel ≠ s.root := by
  obtain ⟨a, c, l, k, v, r, e⟩ := plug_cons_node f rest t
  have hroot : s.root = a := by
    have := h.shape.rep.1
    rw [e] at this
    exact this
  have hmem : a ∈ ctxAddrs (f :: rest) := by
    have h1 : a ∈ (plug (f :: rest) t).addrs := by rw [e]; simp
    rw [mem_plug_addrs] at h1
    rcases h1 with h1 | h1
    · -- the root of a plugged tree is never inside the hole
      exfalso
      -- use the representation: the parent of the root is the sentinel
      have hrep := (rep_plug _ _ _ _ _).1 h.shape.rep
      have hne := hrep.1.ctx_addr_ne
      have hrootpar : (s.mem a).parent = s.sentinel := by
        have := h.shape.rep.2
        rw [e] at this
        simp only [Rep] at this
        exact this.2.2.2.2.2.1
      -- a node of `t` has its parent inside `t` or directly above the hole
      have key : ∀ (u : Tree K V) (par : Nat), Rep s.mem s.sentinel par u → par ≠ s.sentinel →
          ∀ x ∈ u.addrs, (s.mem x).parent ≠ s.sentinel := by
        intro u
        induction u with
        | nil => intro par _ _ x hx; simp at hx
        | node a' c' l' k' v' r' ihl ihr =>
          intro par hR hpar x hx
          have hR' := hR
          simp only [Rep] at hR'
          simp only [Tree.flat_node, List.mem_append, List.mem_cons] at hx
          rcases hx with hx | rfl | hx
          · exact ihl _ hR.left hR'.2.1 x hx
          · rw [hR'.2.2.2.2.2.1]; exact hpar
          · exact ihr _ hR.right hR'.2.1 x hx
      refine key t _ hrep.2 ?_ a h1 hrootpar
      cases f <;> exact (hne _ (by simp [ctxAddrs])).2
    · exact h1
  rw [hroot]
  have hnd := (nodup_plug _ _).1 h.shape.nodup
  have hne := ((rep_plug _ _ _ _ _).1 h.shape.rep).1.ctx_addr_ne
  cases t with
  | nil => exact fun e' => (hne a hmem).2 e'.symm
  | node a' c' l' k' v' r' =>
    exact fun e' => hnd.2.2 a' (by simp) (by rw [Tree.ptr_node] at e'; exact e' ▸ hmem)

theorem fixDelete_exit {s : RBTreeMap K V} {C : List (Frame K V)} {t : Tree K V}
    (fuel : Nat) (h : ShapeX s C t) (hc : C = [] ∨ t.rootColor = RED) :
    (fixDelete (fuel + 1) s (t.ptr s.sentinel)).Post (fun s' =>
      Shape s' (plug C t.blacken) ∧ Same s s') := by
  have hgo : (if t.ptr s.sentinel ≠ s.root then do
          let xc ← s.getColor (t.ptr s.sentinel)
          pure (decide (xc = BLACK))
        else pure false) = Res.ok false := by
    cases C with
    | nil =>
      have := h.shape.rep.1
      simp only [plug_nil] at this
      simp [this]
    | cons f rest =>
      rcases hc with hc | hc
      · cases hc
      · simp [h.ptr_ne_root, getColor_x h, hc]
  rw [fixDelete_unfold, hgo]
  simp only [Res.ok_bind, Bool.false_eq_true, if_false]
  cases t with
  | nil =>
    simp only [Tree.ptr_nil, RBTreeMap.setColor, h.shape.sent_ne, if_false, Tree.blacken]
    have hs := h.shape
    have e : ({ s.mem s.sentinel with color := BLACK } : Node K V) = s.mem s.sentinel := by
      rw [← hs.sent_black]
    rw [e]
    have e2 : upd s.mem s.sentinel (s.mem s.sentinel) = s.mem := by
      funext p
      by_cases hp : p = s.sentinel
      · rw [hp, upd_self]
      · rw [upd_ne _ _ hp]
    rw [e2]
    exact Res.Post.ok ⟨hs, Same.same_refl⟩
  | node a c l k v r =>
    exact setColor_at BLACK h.shape

theorem fixDelete_root {s : RBTreeMap K V} {T : Tree K V} (fuel : Nat) (h : Shape s T)
    (hT : T ≠ .nil) :
    (fixDelete (fuel + 1) s s.root).Post (fun s' => Shape s' T.blacken ∧ Same s s') := by
  cases T with
  | nil => exact absurd rfl hT
  | node a c l k v r =>
    have hX : ShapeX s [] (.node a c l k v r) := ShapeX.of_node (C := []) h
    have hr : s.root = a := h.rep.1
    have := fixDelete_exit fuel hX (Or.inl rfl)
    rw [hr]
    exact this

theorem plug_node_ne {C : List (Frame K V)} {a : Nat} {c : RB.color} {l r : Tree K V}
    {k : K} {v : V} : plug C (.node a c l k v r) ≠ .nil := by
  obtain ⟨a', c', l', k', v', r', e⟩ := plug_node_ne_nil C a c l k v r
  rw [e]; exact fun h => Tree.noConfusion h

/-- One round of `fixDelete` below the (BLACK or freshly rotated) sibling `sa`, cursor on the
left; `hup` describes the continuation after the cursor has moved up. -/
theorem restL_sim {s : RBTreeMap K V} {ctxUp : List (Frame K V)} {pa sa : Nat}
    {pc sc : RB.color} {t sl sr : Tree K V} {kp sk : K} {vp sv : V}
    (fuel : Nat) (up : Tree K V → Tree K V)
    (h : ShapeX s (.L pa pc kp vp (.node sa sc sl sk sv sr) :: ctxUp) t)
    (hup : ∀ s1 : RBTreeMap K V,
      Shape s1 (plug ctxUp (.node pa pc t kp vp (.node sa RED sl sk sv sr))) →
      (fixDelete (fuel + 1) s1 pa).Post (fun s' =>
        Shape s' (up (.node pa pc t kp vp (.node sa RED sl sk sv sr))) ∧ Same s1 s')) :
    (fixDeleteRestL (fuel + 1) s (t.ptr s.sentinel) sa).Post (fun s' =>
      Shape s' (delStepL ctxUp up pa pc kp vp t sa sl sk sv sr) ∧ Same s s') := by
  have hs := h.shape
  have hslc := getColor_ptr (C := .L sa sc sk sv sr :: .R pa pc t kp vp :: ctxUp) (t := sl) hs
  have hsrc := getColor_ptr (C := .R sa sc sl sk sv :: .R pa pc t kp vp :: ctxUp) (t := sr) hs
  unfold fixDeleteRestL delStepL
  simp only [getLeft_at (C := .R pa pc t kp vp :: ctxUp) (a := sa) hs,
    getRight_at (C := .R pa pc t kp vp :: ctxUp) (a := sa) hs, hslc, hsrc, Res.ok_bind]
  by_cases hbb : sl.rootColor = BLACK ∧ sr.rootColor = BLACK
  · -- case 2
    simp only [hbb.1, hbb.2, if_true, Res.ok_bind, Res.pure_def, decide_True, and_self]
    refine Res.Post.bind (setColor_at (C := .R pa pc t kp vp :: ctxUp) (a := sa) RED hs) ?_
    rintro s1 ⟨h1, hs1⟩
    have hX1 : ShapeX s1 (.L pa pc kp vp (.node sa RED sl sk sv sr) :: ctxUp) t :=
      h.of_shape h1 hs1 rfl
    simp only [getParent_x hX1 hs1.sentinel, ctxPar_cons, Frame.addr_L, Res.ok_bind]
    refine (hup s1 h1).mono ?_
    rintro s2 ⟨h2, hs2⟩
    exact ⟨h2, hs1.same_trans hs2⟩
  · have hbb' : (if sl.rootColor = BLACK then
          (Res.ok (decide (sr.rootColor = BLACK)) : Res Bool) else Res.ok false) =
        Res.ok false := by
      by_cases h1 : sl.rootColor = BLACK
      · have h2 : ¬sr.rootColor = BLACK := fun h2 => hbb ⟨h1, h2⟩
        simp [h1, h2]
      · simp [h1]
    simp only [Res.pure_def, hbb', Res.ok_bind, Bool.false_eq_true, if_false, hbb,
      delCase34L]
    by_cases hsr : sr.rootColor = BLACK
    · -- case 3, then case 4
      have hsl : sl.rootColor = RED := by
        cases hc : sl.rootColor
        · exact absurd ⟨hc, hsr⟩ hbb
        · rfl
      obtain ⟨la, ll, lk, lv, lr, rfl⟩ := Tree.rootColor_red hsl
      simp only [hsr, if_true, Tree.ptr_node, Res.bind_assoc]
      refine Res.Post.bind (setColor_at
        (C := .L sa sc sk sv sr :: .R pa pc t kp vp :: ctxUp) (a := la) BLACK hs) ?_
      rintro s1 ⟨h1, hs1⟩
      refine Res.Post.bind (setColor_at (C := .R pa pc t kp vp :: ctxUp) (a := sa) RED h1) ?_
      rintro s2 ⟨h2, hs2⟩
      refine Res.Post.bind (rotateRight_at (C := .R pa pc t kp vp :: ctxUp) h2) ?_
      rintro s3 ⟨h3, hs3⟩
      have hs03 := (hs1.same_trans hs2).same_trans hs3
      have hX3 : ShapeX s3 (.L pa pc kp vp
          (.node la BLACK ll lk lv (.node sa RED lr sk sv sr)) :: ctxUp) t :=
        h.of_shape h3 hs03 rfl
      simp only [getParent_x hX3 hs03.sentinel, ctxPar_cons, Frame.addr_L, Res.ok_bind,
        getRight_at (C := ctxUp) (a := pa) h3, Tree.ptr_node, Res.pure_def,
        getColor_at (C := ctxUp) (a := pa) h3]
      refine Res.Post.bind (setColor_at (C := .R pa pc t kp vp :: ctxUp) (a := la) pc h3) ?_
      rintro s4 ⟨h4, hs4⟩
      have hs04 := hs03.same_trans hs4
      have hX4 : ShapeX s4 (.L pa pc kp vp
          (.node la pc ll lk lv (.node sa RED lr sk sv sr)) :: ctxUp) t :=
        h.of_shape h4 hs04 rfl
      simp only [getParent_x hX4 hs04.sentinel, ctxPar_cons, Frame.addr_L, Res.ok_bind]
      refine Res.Post.bind (setColor_at (C := ctxUp) (a := pa) BLACK h4) ?_
      rintro s5 ⟨h5, hs5⟩
      simp only [getRight_at (C := .R pa BLACK t kp vp :: ctxUp) (a := la) h5, Tree.ptr_node,
        Res.ok_bind]
      refine Res.Post.bind (setColor_at
        (C := .R la pc ll lk lv :: .R pa BLACK t kp vp :: ctxUp) (a := sa) BLACK h5) ?_
      rintro s6 ⟨h6, hs6⟩
      have hs06 := (hs04.same_trans hs5).same_trans hs6
      have hX6 : ShapeX s6 (.L pa BLACK kp vp
          (.node la pc ll lk lv (.node sa BLACK lr sk sv sr)) :: ctxUp) t :=
        h.of_shape h6 hs06 rfl
      simp only [getParent_x hX6 hs06.sentinel, ctxPar_cons, Frame.addr_L, Res.ok_bind]
      refine Res.Post.bind (rotateLeft_at (C := ctxUp) h6) ?_
      rintro s7 ⟨h7, hs7⟩
      refine (fixDelete_root fuel h7 plug_node_ne).mono ?_
      rintro s8 ⟨h8, hs8⟩
      exact ⟨h8, (hs06.same_trans hs7).same_trans hs8⟩
    · -- case 4
      have hsr' : sr.rootColor = RED := by
        cases hc : sr.rootColor
        · exact absurd hc hsr
        · rfl
      obtain ⟨ra, rl, rk, rv, rr, rfl⟩ := Tree.rootColor_red hsr'
      simp only [Tree.rootColor_node, reduceCtorEq, if_false, Tree.ptr_node, Res.pure_def,
        Res.ok_bind, getParent_x h rfl, ctxPar_cons, Frame.addr_L,
        getColor_at (C := ctxUp) (a := pa) hs, Tree.blacken]
      refine Res.Post.bind (setColor_at (C := .R pa pc t kp vp :: ctxUp) (a := sa) pc hs) ?_
      rintro s4 ⟨h4, hs4⟩
      have hX4 : ShapeX s4 (.L pa pc kp vp
          (.node sa pc sl sk sv (.node ra RED rl rk rv rr)) :: ctxUp) t :=
        h.of_shape h4 hs4 rfl
      simp only [getParent_x hX4 hs4.sentinel, ctxPar_cons, Frame.addr_L, Res.ok_bind]
      refine Res.Post.bind (setColor_at (C := ctxUp) (a := pa) BLACK h4) ?_
      rintro s5 ⟨h5, hs5⟩
      simp only [getRight_at (C := .R pa BLACK t kp vp :: ctxUp) (a := sa) h5, Tree.ptr_node,
        Res.ok_bind]
      refine Res.Post.bind (setColor_at
        (C := .R sa pc sl sk sv :: .R pa BLACK t kp vp :: ctxUp) (a := ra) BLACK h5) ?_
      rintro s6 ⟨h6, hs6⟩
      have hs06 := (hs4.same_trans hs5).same_trans hs6
      have hX6 : ShapeX s6 (.L pa BLACK kp vp
          (.node sa pc sl sk sv (.node ra BLACK rl rk rv rr)) :: ctxUp) t :=
        h.of_shape h6 hs06 rfl
      simp only [getParent_x hX6 hs06.sentinel, ctxPar_cons, Frame.addr_L, Res.ok_bind]
      refine Res.Post.bind (rotateLeft_at (C := ctxUp) h6) ?_
      rintro s7 ⟨h7, hs7⟩
      refine (fixDelete_root fuel h7 plug_node_ne).mono ?_
      rintro s8 ⟨h8, hs8⟩
      exact ⟨h8, (hs06.same_trans hs7).same_trans hs8⟩

/-- Mirror image of `restL_sim`: cursor on the right. -/
theorem restR_sim {s : RBTreeMap K V} {ctxUp : List (Frame K V)} {pa sa : Nat}
    {pc sc : RB.color} {t sl sr : Tree K V} {kp sk : K} {vp sv : V}
    (fuel : Nat) (up : Tree K V → Tree K V)
    (h : ShapeX s (.R pa pc (.node sa sc sl sk sv sr) kp vp :: ctxUp) t)
    (hup : ∀ s1 : RBTreeMap K V,
      Shape s1 (plug ctxUp (.node pa pc (.node sa RED sl sk sv sr) kp vp t)) →
      (fixDelete (fuel + 1) s1 pa).Post (fun s' =>
        Shape s' (up (.node pa pc (.node sa RED sl sk sv sr) kp vp t)) ∧ Same s1 s')) :
    (fixDeleteRestR (fuel + 1) s (t.ptr s.sentinel) sa).Post (fun s' =>
      Shape s' (delStepR ctxUp up pa pc kp vp t sa sl sk sv sr) ∧ Same s s') := by
  have hs := h.shape
  have hslc := getColor_ptr (C := .L sa sc sk sv sr :: .L pa pc kp vp t :: ctxUp) (t := sl) hs
  have hsrc := getColor_ptr (C := .R sa sc sl sk sv :: .L pa pc kp vp t :: ctxUp) (t := sr) hs
  unfold fixDeleteRestR delStepR
  simp only [getLeft_at (C := .L pa pc kp vp t :: ctxUp) (a := sa) hs,
    getRight_at (C := .L pa pc kp vp t :: ctxUp) (a := sa) hs, hslc, hsrc, Res.ok_bind]
  by_cases hbb : sr.rootColor = BLACK ∧ sl.rootColor = BLACK
  · -- case 2
    simp only [hbb.1, hbb.2, if_true, Res.ok_bind, Res.pure_def, decide_True, and_self]
    refine Res.Post.bind (setColor_at (C := .L pa pc kp vp t :: ctxUp) (a := sa) RED hs) ?_
    rintro s1 ⟨h1, hs1⟩
    have hX1 : ShapeX s1 (.R pa pc (.node sa RED sl sk sv sr) kp vp :: ctxUp) t :=
      h.of_shape h1 hs1 rfl
    simp only [getParent_x hX1 hs1.sentinel, ctxPar_cons, Frame.addr_R, Res.ok_bind]
    refine (hup s1 h1).mono ?_
    rintro s2 ⟨h2, hs2⟩
    exact ⟨h2, hs1.same_trans hs2⟩
  · have hbb' : (if sr.rootColor = BLACK then
          (Res.ok (decide (sl.rootColor = BLACK)) : Res Bool) else Res.ok false) =
        Res.ok false := by
      by_cases h1 : sr.rootColor = BLACK
      · have h2 : ¬sl.rootColor = BLACK := fun h2 => hbb ⟨h1, h2⟩
        simp [h1, h2]
      · simp [h1]
    simp only [Res.pure_def, hbb', Res.ok_bind, Bool.false_eq_true, if_false, hbb,
      delCase34R]
    by_cases hsl : sl.rootColor = BLACK
    · -- case 3, then case 4
      have hsr : sr.rootColor = RED := by
        cases hc : sr.rootColor
        · exact absurd ⟨hc, hsl⟩ hbb
        · rfl
      obtain ⟨ra, rl, rk, rv, rr, rfl⟩ := Tree.rootColor_red hsr
      simp only [hsl, if_true, Tree.ptr_node, Res.bind_assoc]
      refine Res.Post.bind (setColor_at
        (C := .R sa sc sl sk sv :: .L pa pc kp vp t :: ctxUp) (a := ra) BLACK hs) ?_
      rintro s1 ⟨h1, hs1⟩
      refine Res.Post.bind (setColor_at (C := .L pa pc kp vp t :: ctxUp) (a := sa) RED h1) ?_
      rintro s2 ⟨h2, hs2⟩
      refine Res.Post.bind (rotateLeft_at (C := .L pa pc kp vp t :: ctxUp) h2) ?_
      rintro s3 ⟨h3, hs3⟩
      have hs03 := (hs1.same_trans hs2).same_trans hs3
      have hX3 : ShapeX s3 (.R pa pc
          (.node ra BLACK (.node sa RED sl sk sv rl) rk rv rr) kp vp :: ctxUp) t :=
        h.of_shape h3 hs03 rfl
      simp only [getParent_x hX3 hs03.sentinel, ctxPar_cons, Frame.addr_R, Res.ok_bind,
        getLeft_at (C := ctxUp) (a := pa) h3, Tree.ptr_node, Res.pure_def,
        getColor_at (C := ctxUp) (a := pa) h3]
      refine Res.Post.bind (setColor_at (C := .L pa pc kp vp t :: ctxUp) (a := ra) pc h3) ?_
      rintro s4 ⟨h4, hs4⟩
      have hs04 := hs03.same_trans hs4
      have hX4 : ShapeX s4 (.R pa pc
          (.node ra pc (.node sa RED sl sk sv rl) rk rv rr) kp vp :: ctxUp) t :=
        h.of_shape h4 hs04 rfl
      simp only [getParent_x hX4 hs04.sentinel, ctxPar_cons, Frame.addr_R, Res.ok_bind]
      refine Res.Post.bind (setColor_at (C := ctxUp) (a := pa) BLACK h4) ?_
      rintro s5 ⟨h5, hs5⟩
      simp only [getLeft_at (C := .L pa BLACK kp vp t :: ctxUp) (a := ra) h5, Tree.ptr_node,
        Res.ok_bind]
      refine Res.Post.bind (setColor_at
        (C := .L ra pc rk rv rr :: .L pa BLACK kp vp t :: ctxUp) (a := sa) BLACK h5) ?_
      rintro s6 ⟨h6, hs6⟩
      have hs06 := (hs04.same_trans hs5).same_trans hs6
      have hX6 : ShapeX s6 (.R pa BLACK
          (.node ra pc (.node sa BLACK sl sk sv rl) rk rv rr) kp vp :: ctxUp) t :=
        h.of_shape h6 hs06 rfl
      simp only [getParent_x hX6 hs06.sentinel, ctxPar_cons, Frame.addr_R, Res.ok_bind]
      refine Res.Post.bind (rotateRight_at (C := ctxUp) h6) ?_
      rintro s7 ⟨h7, hs7⟩
      refine (fixDelete_root fuel h7 plug_node_ne).mono ?_
      rintro s8 ⟨h8, hs8⟩
      exact ⟨h8, (hs06.same_trans hs7).same_trans hs8⟩
    · -- case 4
      have hsl' : sl.rootColor = RED := by
        cases hc : sl.rootColor
        · exact absurd hc hsl
        · rfl
      obtain ⟨la, ll, lk, lv, lr, rfl⟩ := Tree.rootColor_red hsl'
      simp only [Tree.rootColor_node, reduceCtorEq, if_false, Tree.ptr_node, Res.pure_def,
        Res.ok_bind, getParent_x h rfl, ctxPar_cons, Frame.addr_R,
        getColor_at (C := ctxUp) (a := pa) hs, Tree.blacken]
      refine Res.Post.bind (setColor_at (C := .L pa pc kp vp t :: ctxUp) (a := sa) pc hs) ?_
      rintro s4 ⟨h4, hs4⟩
      have hX4 : ShapeX s4 (.R pa pc
          (.node sa pc (.node la RED ll lk lv lr) sk sv sr) kp vp :: ctxUp) t :=
        h.of_shape h4 hs4 rfl
      simp only [getParent_x hX4 hs4.sentinel, ctxPar_cons, Frame.addr_R, Res.ok_bind]
      refine Res.Post.bind (setColor_at (C := ctxUp) (a := pa) BLACK h4) ?_
      rintro s5 ⟨h5, hs5⟩
      simp only [getLeft_at (C := .L pa BLACK kp vp t :: ctxUp) (a := sa) h5, Tree.ptr_node,
        Res.ok_bind]
      refine Res.Post.bind (setColor_at
        (C := .L sa pc sk sv sr :: .L pa BLACK kp vp t :: ctxUp) (a := la) BLACK h5) ?_
      rintro s6 ⟨h6, hs6⟩
      have hs06 := (hs4.same_trans hs5).same_trans hs6
      have hX6 : ShapeX s6 (.R pa BLACK
          (.node sa pc (.node la BLACK ll lk lv lr) sk sv sr) kp vp :: ctxUp) t :=
        h.of_shape h6 hs06 rfl
      simp only [getParent_x hX6 hs06.sentinel, ctxPar_cons, Frame.addr_R, Res.ok_bind]
      refine Res.Post.bind (rotateRight_at (C := ctxUp) h6) ?_
      rintro s7 ⟨h7, hs7⟩
      refine (fixDelete_root fuel h7 plug_node_ne).mono ?_
      rintro s8 ⟨h8, hs8⟩
      exact ⟨h8, (hs06.same_trans hs7).same_trans hs8⟩

/-- `fixDelete` on the heap computes `fixDeleteZ` on the represented tree, when the subtree
at the cursor is one BLACK node short. -/
theorem fixDelete_sim : ∀ (C : List (Frame K V)) (fuel : Nat) (s : RBTreeMap K V)
    (t : Tree K V), ShapeX s C t → CtxBal C (t.bh + 1) → C.length + 2 ≤ fuel →
    (fixDelete fuel s (t.ptr s.sentinel)).Post (fun s' =>
      Shape s' (fixDeleteZ C t) ∧ Same s s')
  | [], fuel, s, t, h, _, hf => by
    obtain ⟨f, rfl⟩ : ∃ f, fuel = f + 1 := ⟨fuel - 1, by simp at hf; omega⟩
    exact fixDelete_exit f h (Or.inl rfl)
  | fr :: rest, fuel, s, t, h, hb, hf => by
    obtain ⟨f, rfl⟩ : ∃ f, fuel = f + 2 := ⟨fuel - 2, by simp at hf; omega⟩
    have hf' : rest.length + 2 ≤ f + 1 := by simp at hf; omega
    by_cases hc : t.rootColor = RED
    · have := fixDelete_exit (f + 1) h (Or.inr hc)
      simpa only [fixDeleteZ, hc, if_true] using this
    · have hcb := color_eq_black_of_ne_red hc
      have hgo : (if t.ptr s.sentinel ≠ s.root then do
            let xc ← s.getColor (t.ptr s.sentinel)
            pure (decide (xc = BLACK))
          else pure false) = Res.ok true := by
        simp [h.ptr_ne_root, getColor_x h, hcb]
      have hs := h.shape
      simp only [CtxBal] at hb
      obtain ⟨hb1, hb2, hb3⟩ := hb
      rw [fixDelete_unfold, hgo]
      simp only [Res.ok_bind, if_true, getParent_x h rfl, ctxPar_cons]
      cases fr with
      | L pa pc kp vp sib =>
        simp only [Frame.sib_L, Frame.col_L] at hb1 hb2 hb3
        cases sib with
        | nil => simp at hb2
        | node sa sc sl sk sv sr =>
          simp only [Frame.addr_L, getLeft_at (C := rest) (a := pa) hs, Res.ok_bind, if_true,
            getRight_at (C := rest) (a := pa) hs, Tree.ptr_node,
            getColor_at (C := .R pa pc t kp vp :: rest) (a := sa) hs]
          simp only [Tree.bal_node, Tree.bh_node] at hb1 hb2
          by_cases hsc : sc = RED
          · subst hsc
            simp only [reduceCtorEq, if_false, Nat.add_zero] at hb2
            cases sl with
            | nil => simp at hb2
            | node la lc ll lk lv lr =>
              simp only [fixDeleteZ, hc, if_false, if_true, Res.bind_assoc]
              refine Res.Post.bind (setColor_at (C := .R pa pc t kp vp :: rest) (a := sa)
                BLACK hs) ?_
              rintro s1 ⟨h1, hs1⟩
              have hX1 : ShapeX s1 (.L pa pc kp vp
                  (.node sa BLACK (.node la lc ll lk lv lr) sk sv sr) :: rest) t :=
                h.of_shape h1 hs1 rfl
              simp only [getParent_x hX1 hs1.sentinel, ctxPar_cons, Frame.addr_L, Res.ok_bind]
              refine Res.Post.bind (setColor_at (C := rest) (a := pa) RED h1) ?_
              rintro s2 ⟨h2, hs2⟩
              have hs02 := hs1.same_trans hs2
              have hX2 : ShapeX s2 (.L pa RED kp vp
                  (.node sa BLACK (.node la lc ll lk lv lr) sk sv sr) :: rest) t :=
                h.of_shape h2 hs02 rfl
              simp only [getParent_x hX2 hs02.sentinel, ctxPar_cons, Frame.addr_L, Res.ok_bind]
              refine Res.Post.bind (rotateLeft_at (C := rest) h2) ?_
              rintro s3 ⟨h3, hs3⟩
              have hs03 := hs02.same_trans hs3
              have hX3 : ShapeX s3 (.L pa RED kp vp (.node la lc ll lk lv lr) ::
                  .L sa BLACK sk sv sr :: rest) t :=
                h.of_shape h3 hs03 rfl
              simp only [getParent_x hX3 hs03.sentinel, ctxPar_cons, Frame.addr_L, Res.ok_bind,
                getRight_at (C := .L sa BLACK sk sv sr :: rest) (a := pa) h3, Tree.ptr_node,
                Res.pure_def]
              rw [← hs03.sentinel]
              refine (restL_sim f (fun u => plug (.L sa BLACK sk sv sr :: rest) u.blacken) hX3
                ?_).mono ?_
              · intro s4 h4
                have hX4 := ShapeX.of_node (C := .L sa BLACK sk sv sr :: rest) h4
                exact fixDelete_exit f hX4 (Or.inr rfl)
              · rintro s5 ⟨h5, hs5⟩
                exact ⟨h5, hs03.same_trans hs5⟩
          · simp only [fixDeleteZ, hc, hsc, if_false, Res.pure_def, Res.ok_bind]
            refine restL_sim f (fun u => fixDeleteZ rest u) h ?_
            intro s1 h1
            have hX1 := ShapeX.of_node (C := rest) h1
            refine fixDelete_sim rest (f + 1) s1 _ hX1 ?_ hf'
            simp only [Tree.bh_node]
            rw [Nat.add_right_comm]
            exact hb3
      | R pa pc sib kp vp =>
        simp only [Frame.sib_R, Frame.col_R] at hb1 hb2 hb3
        cases sib with
        | nil => simp at hb2
        | node sa sc sl sk sv sr =>
          have hne : t.ptr s.sentinel ≠ sa :=
            fun e => Shape.left_ptr_ne_right (C := rest) hs e.symm
          simp only [Frame.addr_R, getLeft_at (C := rest) (a := pa) hs, Res.ok_bind, hne,
            if_false, Tree.ptr_node,
            getColor_at (C := .L pa pc kp vp t :: rest) (a := sa) hs]
          simp only [Tree.bal_node, Tree.bh_node] at hb1 hb2
          by_cases hsc : sc = RED
          · subst hsc
            simp only [reduceCtorEq, if_false, Nat.add_zero] at hb2
            cases sr with
            | nil =>
              have := hb1.2.2
              simp only [Tree.bh_nil] at this
              omega
            | node ra rc rl rk rv rr =>
              simp only [fixDeleteZ, hc, if_false, if_true, Res.bind_assoc]
              refine Res.Post.bind (setColor_at (C := .L pa pc kp vp t :: rest) (a := sa)
                BLACK hs) ?_
              rintro s1 ⟨h1, hs1⟩
              have hX1 : ShapeX s1 (.R pa pc
                  (.node sa BLACK sl sk sv (.node ra rc rl rk rv rr)) kp vp :: rest) t :=
                h.of_shape h1 hs1 rfl
              simp only [getParent_x hX1 hs1.sentinel, ctxPar_cons, Frame.addr_R, Res.ok_bind]
              refine Res.Post.bind (setColor_at (C := rest) (a := pa) RED h1) ?_
              rintro s2 ⟨h2, hs2⟩
              have hs02 := hs1.same_trans hs2
              have hX2 : ShapeX s2 (.R pa RED
                  (.node sa BLACK sl sk sv (.node ra rc rl rk rv rr)) kp vp :: rest) t :=
                h.of_shape h2 hs02 rfl
              simp only [getParent_x hX2 hs02.sentinel, ctxPar_cons, Frame.addr_R, Res.ok_bind]
              refine Res.Post.bind (rotateRight_at (C := rest) h2) ?_
              rintro s3 ⟨h3, hs3⟩
              have hs03 := hs02.same_trans hs3
              have hX3 : ShapeX s3 (.R pa RED (.node ra rc rl rk rv rr) kp vp ::
                  .R sa BLACK sl sk sv :: rest) t :=
                h.of_shape h3 hs03 rfl
              simp only [getParent_x hX3 hs03.sentinel, ctxPar_cons, Frame.addr_R, Res.ok_bind,
                getLeft_at (C := .R sa BLACK sl sk sv :: rest) (a := pa) h3, Tree.ptr_node,
                Res.pure_def]
              rw [← hs03.sentinel]
              refine (restR_sim f (fun u => plug (.R sa BLACK sl sk sv :: rest) u.blacken) hX3
                ?_).mono ?_
              · intro s4 h4
                have hX4 := ShapeX.of_node (C := .R sa BLACK sl sk sv :: rest) h4
                exact fixDelete_exit f hX4 (Or.inr rfl)
              · rintro s5 ⟨h5, hs5⟩
                exact ⟨h5, hs03.same_trans hs5⟩
          · simp only [fixDeleteZ, hc, hsc, if_false, Res.pure_def, Res.ok_bind]
            refine restR_sim f (fun u => fixDeleteZ rest u) h ?_
            intro s1 h1
            have hX1 := ShapeX.of_node (C := rest) h1
            refine fixDelete_sim rest (f + 1) s1 _ hX1 ?_ hf'
            simp only [Tree.bh_node]
            have hsc' := color_eq_black_of_ne_red hsc
            subst hsc'
            simp only [if_true, reduceCtorEq, if_false, Nat.add_zero] at hb2 ⊢
            rw [show sl.bh = t.bh from by omega, Nat.add_right_comm]
            exact hb3

theorem delCase34L_flat {β : Type} (g : Nat → K → V → β) (pa : Nat) (pc : RB.color) (kp : K)
    (vp : V) (t : Tree K V) (sa : Nat) (sc : RB.color) (sl : Tree K V) (sk : K) (sv : V)
    (sr : Tree K V) (h : ¬(sl.rootColor = BLACK ∧ sr.rootColor = BLACK)) :
    (delCase34L pa pc kp vp t sa sl sk sv sr).flat g =
      (Tree.node pa pc t kp vp (.node sa sc sl sk sv sr)).flat g := by
  unfold delCase34L
  by_cases hsr : sr.rootColor = BLACK
  · have hsl : sl.rootColor = RED := by
      cases hc : sl.rootColor
      · exact absurd ⟨hc, hsr⟩ h
      · rfl
    obtain ⟨la, ll, lk, lv, lr, rfl⟩ := Tree.rootColor_red hsl
    simp [hsr]
  · simp [hsr]

theorem delCase34R_flat {β : Type} (g : Nat → K → V → β) (pa : Nat) (pc : RB.color) (kp : K)
    (vp : V) (t : Tree K V) (sa : Nat) (sc : RB.color) (sl : Tree K V) (sk : K) (sv : V)
    (sr : Tree K V) (h : ¬(sr.rootColor = BLACK ∧ sl.rootColor = BLACK)) :
    (delCase34R pa pc kp vp t sa sl sk sv sr).flat g =
      (Tree.node pa pc (.node sa sc sl sk sv sr) kp vp t).flat g := by
  unfold delCase34R
  by_cases hsl : sl.rootColor = BLACK
  · have hsr : sr.rootColor = RED := by
      cases hc : sr.rootColor
      · exact absurd ⟨hc, hsl⟩ h
      · rfl
    obtain ⟨ra, rl, rk, rv, rr, rfl⟩ := Tree.rootColor_red hsr
    simp [hsl]
  · simp [hsl]

theorem delStepL_flat {β : Type} (g : Nat → K → V → β) (ctxUp : List (Frame K V))
    (up : Tree K V → Tree K V) (pa : Nat) (pc : RB.color) (kp : K) (vp : V) (t : Tree K V)
    (sa : Nat) (sc : RB.color) (sl : Tree K V) (sk : K) (sv : V) (sr : Tree K V)
    (hup : (up (.node pa pc t kp vp (.node sa RED sl sk sv sr))).flat g =
      (plug ctxUp (.node pa pc t kp vp (.node sa RED sl sk sv sr))).flat g) :
    (delStepL ctxUp up pa pc kp vp t sa sl sk sv sr).flat g =
      (plug ctxUp (.node pa pc t kp vp (.node sa sc sl sk sv sr))).flat g := by
  unfold delStepL
  by_cases hbb : sl.rootColor = BLACK ∧ sr.rootColor = BLACK
  · rw [if_pos hbb, hup]
    exact plug_flat_congr g ctxUp (by simp)
  · rw [if_neg hbb, Tree.blacken_flat]
    exact plug_flat_congr g ctxUp (delCase34L_flat g pa pc kp vp t sa sc sl sk sv sr hbb)

theorem delStepR_flat {β : Type} (g : Nat → K → V → β) (ctxUp : List (Frame K V))
    (up : Tree K V → Tree K V) (pa : Nat) (pc : RB.color) (kp : K) (vp : V) (t : Tree K V)
    (sa : Nat) (sc : RB.color) (sl : Tree K V) (sk : K) (sv : V) (sr : Tree K V)
    (hup : (up (.node pa pc (.node sa RED sl sk sv sr) kp vp t)).flat g =
      (plug ctxUp (.node pa pc (.node sa RED sl sk sv sr) kp vp t)).flat g) :
    (delStepR ctxUp up pa pc kp vp t sa sl sk sv sr).flat g =
      (plug ctxUp (.node pa pc (.node sa sc sl sk sv sr) kp vp t)).flat g := by
  unfold delStepR
  by_cases hbb : sr.rootColor = BLACK ∧ sl.rootColor = BLACK
  · rw [if_pos hbb, hup]
    exact plug_flat_congr g ctxUp (by simp)
  · rw [if_neg hbb, Tree.blacken_flat]
    exact plug_flat_congr g ctxUp (delCase34R_flat g pa pc kp vp t sa sc sl sk sv sr hbb)

/-- `fixDeleteZ` keeps the in-order sequence of nodes. -/
theorem fixDeleteZ_flat {β : Type} (g : Nat → K → V → β) :
    ∀ (C : List (Frame K V)) (t : Tree K V), CtxBal C (t.bh + 1) →
      (fixDeleteZ C t).flat g = (plug C t).flat g
  | [], t, _ => by simp [fixDeleteZ]
  | fr :: rest, t, hb => by
    by_cases hc : t.rootColor = RED
    · simp only [fixDeleteZ, hc, if_true]
      exact plug_flat_congr g _ (by simp)
    · simp only [CtxBal] at hb
      obtain ⟨hb1, hb2, hb3⟩ := hb
      cases fr with
      | L pa pc kp vp sib =>
        simp only [Frame.sib_L, Frame.col_L] at hb1 hb2 hb3
        cases sib with
        | nil => simp at hb2
        | node sa sc sl sk sv sr =>
          simp only [Tree.bal_node, Tree.bh_node] at hb1 hb2
          by_cases hsc : sc = RED
          · subst hsc
            simp only [reduceCtorEq, if_false, Nat.add_zero] at hb2
            cases sl with
            | nil => simp at hb2
            | node la lc ll lk lv lr =>
              simp only [fixDeleteZ, hc, if_false, if_true]
              rw [delStepL_flat g (.L sa BLACK sk sv sr :: rest)
                (fun u => plug (.L sa BLACK sk sv sr :: rest) u.blacken)
                pa RED kp vp t la lc ll lk lv lr (plug_flat_congr g _ (by simp))]
              simp [flat_plug, Frame.fill]
          · simp only [fixDeleteZ, hc, hsc, if_false]
            rw [delStepL_flat g rest _ pa pc kp vp t sa sc sl sk sv sr]
            · rfl
            · refine fixDeleteZ_flat g rest _ ?_
              have hsc' := color_eq_black_of_ne_red hsc
              subst hsc'
              simp only [if_true, Tree.bh_node] at hb2 ⊢
              rw [Nat.add_right_comm]
              exact hb3
      | R pa pc sib kp vp =>
        simp only [Frame.sib_R, Frame.col_R] at hb1 hb2 hb3
        cases sib with
        | nil => simp at hb2
        | node sa sc sl sk sv sr =>
          simp only [Tree.bal_node, Tree.bh_node] at hb1 hb2
          by_cases hsc : sc = RED
          · subst hsc
            simp only [reduceCtorEq, if_false, Nat.add_zero] at hb2
            cases sr with
            | nil =>
              have := hb1.2.2
              simp only [Tree.bh_nil] at this
              omega
            | node ra rc rl rk rv rr =>
              simp only [fixDeleteZ, hc, if_false, if_true]
              rw [delStepR_flat g (.R sa BLACK sl sk sv :: rest)
                (fun u => plug (.R sa BLACK sl sk sv :: rest) u.blacken)
                pa RED kp vp t ra rc rl rk rv rr (plug_flat_congr g _ (by simp))]
              simp [flat_plug, Frame.fill]
          · simp only [fixDeleteZ, hc, hsc, if_false]
            rw [delStepR_flat g rest _ pa pc kp vp t sa sc sl sk sv sr]
            · rfl
            · refine fixDeleteZ_flat g rest _ ?_
              have hsc' := color_eq_black_of_ne_red hsc
              subst hsc'
              simp only [if_true, Tree.bh_node, reduceCtorEq, if_false, Nat.add_zero] at hb2 ⊢
              rw [show sl.bh = t.bh from by omega, Nat.add_right_comm]
              exact hb3

theorem Tree.blacken_bh_red {t : Tree K V} (h : t.rootColor = RED) :
    t.blacken.bh = t.bh + 1 := by
  obtain ⟨a, l, k, v, r, rfl⟩ := Tree.rootColor_red h
  simp [Tree.blacken]

theorem Tree.noRR_of_blacken {t : Tree K V} (h : t.blacken.NoRR)
    (hc : t.rootColor = BLACK) : t.NoRR := by
  cases t with
  | nil => trivial
  | node a c l k v r =>
    simp only [Tree.rootColor_node] at hc
    subst hc
    simpa [Tree.blacken] using h

theorem Tree.blacken_noRR_red {t : Tree K V} (h : t.NoRR) (hc : t.rootColor = RED) :
    t.blacken.NoRR ∧ t.blacken.bh = t.bh + 1 :=
  ⟨Tree.blacken_noRR_of h, Tree.blacken_bh_red hc⟩

theorem delCase34L_rb (pa : Nat) (pc : RB.color) (kp : K) (vp : V) (t : Tree K V) (sa : Nat)
    (sl : Tree K V) (sk : K) (sv : V) (sr : Tree K V)
    (ht : t.NoRR) (htb : t.Bal) (hsl : sl.NoRR) (hsr : sr.NoRR) (hlb : sl.Bal) (hrb : sr.Bal)
    (hl : sl.bh = t.bh) (hr : sr.bh = t.bh)
    (hbb : ¬(sl.rootColor = BLACK ∧ sr.rootColor = BLACK)) :
    (delCase34L pa pc kp vp t sa sl sk sv sr).NoRR ∧
    (delCase34L pa pc kp vp t sa sl sk sv sr).Bal ∧
    (delCase34L pa pc kp vp t sa sl sk sv sr).bh = t.bh + 1 + (if pc = BLACK then 1 else 0) ∧
    (delCase34L pa pc kp vp t sa sl sk sv sr).rootColor = pc := by
  unfold delCase34L
  by_cases hsrc : sr.rootColor = BLACK
  · have hslc : sl.rootColor = RED := by
      cases hc : sl.rootColor
      · exact absurd ⟨hc, hsrc⟩ hbb
      · rfl
    obtain ⟨la, ll, lk, lv, lr, rfl⟩ := Tree.rootColor_red hslc
    simp only [Tree.noRR_node, Tree.bal_node, Tree.bh_node, reduceCtorEq, if_false,
      Nat.add_zero, true_implies] at hsl hlb hl
    simp only [hsrc, if_true, Tree.noRR_node, Tree.bal_node, Tree.bh_node, Tree.rootColor_node,
      reduceCtorEq, false_implies, true_and, and_true, implies_true]
    obtain ⟨-, hsl1, hsl2⟩ := hsl
    obtain ⟨hlb1, hlb2, hlb3⟩ := hlb
    repeat' apply And.intro
    all_goals first | assumption | omega
  · have hsrc' : sr.rootColor = RED := by
      cases hc : sr.rootColor
      · exact absurd hc hsrc
      · rfl
    obtain ⟨h1, h3⟩ := Tree.blacken_noRR_red hsr hsrc'
    have h2 := Tree.blacken_bal hrb
    simp only [hsrc, if_false, Tree.noRR_node, Tree.bal_node, Tree.bh_node, Tree.rootColor_node,
      reduceCtorEq, false_implies, true_and, and_true, implies_true, Tree.blacken_rootColor,
      if_true]
    repeat' apply And.intro
    all_goals first | assumption | omega

theorem delCase34R_rb (pa : Nat) (pc : RB.color) (kp : K) (vp : V) (t : Tree K V) (sa : Nat)
    (sl : Tree K V) (sk : K) (sv : V) (sr : Tree K V)
    (ht : t.NoRR) (htb : t.Bal) (hsl : sl.NoRR) (hsr : sr.NoRR) (hlb : sl.Bal) (hrb : sr.Bal)
    (hl : sl.bh = t.bh) (hr : sr.bh = t.bh)
    (hbb : ¬(sr.rootColor = BLACK ∧ sl.rootColor = BLACK)) :
    (delCase34R pa pc kp vp t sa sl sk sv sr).NoRR ∧
    (delCase34R pa pc kp vp t sa sl sk sv sr).Bal ∧
    (delCase34R pa pc kp vp t sa sl sk sv sr).bh = t.bh + 1 + (if pc = BLACK then 1 else 0) ∧
    (delCase34R pa pc kp vp t sa sl sk sv sr).rootColor = pc := by
  unfold delCase34R
  by_cases hslc : sl.rootColor = BLACK
  · have hsrc : sr.rootColor = RED := by
      cases hc : sr.rootColor
      · exact absurd ⟨hc, hslc⟩ hbb
      · rfl
    obtain ⟨ra, rl, rk, rv, rr, rfl⟩ := Tree.rootColor_red hsrc
    simp only [Tree.noRR_node, Tree.bal_node, Tree.bh_node, reduceCtorEq, if_false,
      Nat.add_zero, true_implies] at hsr hrb hr
    simp only [hslc, if_true, Tree.noRR_node, Tree.bal_node, Tree.bh_node, Tree.rootColor_node,
      reduceCtorEq, false_implies, true_and, and_true, implies_true]
    obtain ⟨-, hsr1, hsr2⟩ := hsr
    obtain ⟨hrb1, hrb2, hrb3⟩ := hrb
    repeat' apply And.intro
    all_goals first | assumption | omega
  · have hslc' : sl.rootColor = RED := by
      cases hc : sl.rootColor
      · exact absurd hc hslc
      · rfl
    obtain ⟨h1, h3⟩ := Tree.blacken_noRR_red hsl hslc'
    have h2 := Tree.blacken_bal hlb
    simp only [hslc, if_false, Tree.noRR_node, Tree.bal_node, Tree.bh_node, Tree.rootColor_node,
      reduceCtorEq, false_implies, true_and, and_true, implies_true, Tree.blacken_rootColor,
      if_true]
    repeat' apply And.intro
    all_goals first | assumption | omega

theorem delStepL_rb (ctxUp : List (Frame K V)) (up : Tree K V → Tree K V) (pa : Nat)
    (pc : RB.color) (kp : K) (vp : V) (t : Tree K V) (sa : Nat)
    (sl : Tree K V) (sk : K) (sv : V) (sr : Tree K V)
    (ht : t.NoRR) (htb : t.Bal) (hsl : sl.NoRR) (hsr : sr.NoRR) (hlb : sl.Bal) (hrb : sr.Bal)
    (hl : sl.bh = t.bh) (hr : sr.bh = t.bh)
    (hcb : CtxBal ctxUp (t.bh + 1 + (if pc = BLACK then 1 else 0))) (hcn : CtxNoRR ctxUp)
    (htop : pc = RED → topColor ctxUp = BLACK)
    (hup : sl.rootColor = BLACK ∧ sr.rootColor = BLACK →
      (up (.node pa pc t kp vp (.node sa RED sl sk sv sr))).RBInv) :
    (delStepL ctxUp up pa pc kp vp t sa sl sk sv sr).RBInv := by
  unfold delStepL
  by_cases hbb : sl.rootColor = BLACK ∧ sr.rootColor = BLACK
  · rw [if_pos hbb]; exact hup hbb
  · rw [if_neg hbb]
    obtain ⟨h1, h2, h3, h4⟩ :=
      delCase34L_rb pa pc kp vp t sa sl sk sv sr ht htb hsl hsr hlb hrb hl hr hbb
    apply Tree.rbInv_blacken
    · rw [noRR_plug]
      refine ⟨h1, hcn, fun hr => ?_⟩
      rw [h4]
      cases hpc : pc
      · rfl
      · rw [htop hpc] at hr; cases hr
    · rw [bal_plug, h3]
      exact ⟨h2, hcb⟩

theorem delStepR_rb (ctxUp : List (Frame K V)) (up : Tree K V → Tree K V) (pa : Nat)
    (pc : RB.color) (kp : K) (vp : V) (t : Tree K V) (sa : Nat)
    (sl : Tree K V) (sk : K) (sv : V) (sr : Tree K V)
    (ht : t.NoRR) (htb : t.Bal) (hsl : sl.NoRR) (hsr : sr.NoRR) (hlb : sl.Bal) (hrb : sr.Bal)
    (hl : sl.bh = t.bh) (hr : sr.bh = t.bh)
    (hcb : CtxBal ctxUp (t.bh + 1 + (if pc = BLACK then 1 else 0))) (hcn : CtxNoRR ctxUp)
    (htop : pc = RED → topColor ctxUp = BLACK)
    (hup : sr.rootColor = BLACK ∧ sl.rootColor = BLACK →
      (up (.node pa pc (.node sa RED sl sk sv sr) kp vp t)).RBInv) :
    (delStepR ctxUp up pa pc kp vp t sa sl sk sv sr).RBInv := by
  unfold delStepR
  by_cases hbb : sr.rootColor = BLACK ∧ sl.rootColor = BLACK
  · rw [if_pos hbb]; exact hup hbb
  · rw [if_neg hbb]
    obtain ⟨h1, h2, h3, h4⟩ :=
      delCase34R_rb pa pc kp vp t sa sl sk sv sr ht htb hsl hsr hlb hrb hl hr hbb
    apply Tree.rbInv_blacken
    · rw [noRR_plug]
      refine ⟨h1, hcn, fun hr => ?_⟩
      rw [h4]
      cases hpc : pc
      · rfl
      · rw [htop hpc] at hr; cases hr
    · rw [bal_plug, h3]
      exact ⟨h2, hcb⟩

theorem CtxRootBlack.cons_black {f : Frame K V} {rest : List (Frame K V)} (g : Frame K V)
    (h : CtxRootBlack (f :: rest)) (hg : g.col = BLACK) : CtxRootBlack (g :: rest) := by
  cases rest with
  | nil => exact hg
  | cons g' rest' => exact h

theorem CtxRootBlack.tail {f : Frame K V} {rest : List (Frame K V)}
    (h : CtxRootBlack (f :: rest)) : CtxRootBlack rest := by
  cases rest with
  | nil => trivial
  | cons g' rest' => exact h

/-- Plugging a blackened subtree of the right black height into a well-coloured path gives a
red-black tree. -/
theorem rbInv_plug_blacken (C : List (Frame K V)) (t : Tree K V) (h1 : t.blacken.NoRR)
    (h2 : t.blacken.Bal) (hb : CtxBal C t.blacken.bh) (hn : CtxNoRR C)
    (hr : CtxRootBlack C) : (plug C t.blacken).RBInv := by
  refine ⟨?_, ?_, ?_⟩
  · rw [rootColor_plug]
    exact ⟨fun _ => Tree.blacken_rootColor t, hr⟩
  · rw [noRR_plug]
    exact ⟨h1, hn, fun _ => Tree.blacken_rootColor t⟩
  · rw [bal_plug]
    exact ⟨h2, hb⟩

/-- `fixDeleteZ` restores the red-black invariants when the cursor subtree is one BLACK node
short. -/
theorem fixDeleteZ_rb : ∀ (C : List (Frame K V)) (t : Tree K V), t.blacken.NoRR → t.Bal →
    CtxNoRR C → CtxBal C (t.bh + 1) → CtxRootBlack C → (fixDeleteZ C t).RBInv
  | [], t, hn, hb, _, _, _ => by
    simp only [fixDeleteZ]
    exact ⟨Tree.blacken_rootColor t, hn, Tree.blacken_bal hb⟩
  | fr :: rest, t, hn, hb, hcn, hcb, hcr => by
    by_cases hc : t.rootColor = RED
    · simp only [fixDeleteZ, hc, if_true]
      refine rbInv_plug_blacken _ t hn (Tree.blacken_bal hb) ?_ hcn hcr
      rw [Tree.blacken_bh_red hc]; exact hcb
    · have ht := Tree.noRR_of_blacken hn (Tree.rootColor_black_of_not_red hc)
      simp only [CtxBal] at hcb
      simp only [CtxNoRR] at hcn
      obtain ⟨hb1, hb2, hb3⟩ := hcb
      obtain ⟨hn1, hn2, hn3⟩ := hcn
      cases fr with
      | L pa pc kp vp sib =>
        simp only [Frame.sib_L, Frame.col_L] at hb1 hb2 hb3 hn1 hn2
        cases sib with
        | nil => simp at hb2
        | node sa sc sl sk sv sr =>
          simp only [Tree.bal_node, Tree.bh_node] at hb1 hb2
          simp only [Tree.noRR_node, Tree.rootColor_node] at hn1 hn2
          obtain ⟨hsl, hsr, hlr⟩ := hb1
          obtain ⟨hch, hnl, hnr⟩ := hn1
          by_cases hsc : sc = RED
          · subst hsc
            simp only [reduceCtorEq, if_false, Nat.add_zero, true_implies] at hb2 hch
            have hpc : pc = BLACK := by
              cases hpc : pc
              · rfl
              · exact absurd (hn2 hpc).1 (by simp)
            subst hpc
            simp only [if_true] at hb3
            cases sl with
            | nil => simp at hb2
            | node la lc ll lk lv lr =>
              simp only [Tree.rootColor_node] at hch
              obtain ⟨hlc, hrc⟩ := hch
              subst hlc
              simp only [Tree.bal_node, Tree.bh_node, if_true] at hsl hb2 hlr
              simp only [Tree.noRR_node] at hnl
              simp only [fixDeleteZ, hc, if_false, if_true]
              have hcb' : CtxBal (Frame.L sa BLACK sk sv sr :: rest) (t.bh + 1) := by
                simp only [CtxBal, Frame.sib_L, Frame.col_L, if_true]
                exact ⟨hsr, by omega, hb3⟩
              have hcn' : CtxNoRR (Frame.L sa BLACK sk sv sr :: rest) := by
                simp only [CtxNoRR, Frame.sib_L, Frame.col_L]
                exact ⟨hnr, by simp, hn3⟩
              refine delStepL_rb _ _ pa RED kp vp t la ll lk lv lr ht hb hnl.2.1 hnl.2.2
                hsl.1 hsl.2.1 (by omega) (by omega) ?_ hcn' (fun _ => rfl) ?_
              · simpa using hcb'
              · intro hbb
                refine rbInv_plug_blacken _ _ ?_ ?_ ?_ hcn'
                  (CtxRootBlack.cons_black _ hcr rfl)
                · simp only [Tree.blacken, Tree.noRR_node, reduceCtorEq, false_implies,
                    true_and, Tree.rootColor_node, true_implies]
                  exact ⟨ht, hbb, hnl.2.1, hnl.2.2⟩
                · simp only [Tree.blacken, Tree.bal_node, Tree.bh_node, reduceCtorEq, if_false,
                    Nat.add_zero]
                  exact ⟨hb, ⟨hsl.1, hsl.2.1, hsl.2.2⟩, by omega⟩
                · simpa [Tree.blacken] using hcb'
          · have hsc' := color_eq_black_of_ne_red hsc
            subst hsc'
            simp only [if_true] at hb2
            simp only [fixDeleteZ, hc, hsc, if_false]
            refine delStepL_rb rest _ pa pc kp vp t sa sl sk sv sr ht hb hnl hnr hsl hsr
              (by omega) (by omega) hb3 hn3 (fun h => (hn2 h).2) ?_
            intro hbb
            refine fixDeleteZ_rb rest _ ?_ ?_ hn3 ?_ (CtxRootBlack.tail hcr)
            · simp only [Tree.blacken, Tree.noRR_node, reduceCtorEq, false_implies,
                true_and, Tree.rootColor_node, true_implies]
              exact ⟨ht, hbb, hnl, hnr⟩
            · simp only [Tree.bal_node, Tree.bh_node, reduceCtorEq, if_false, Nat.add_zero]
              exact ⟨hb, ⟨hsl, hsr, hlr⟩, by omega⟩
            · simp only [Tree.bh_node]
              rw [Nat.add_right_comm]; exact hb3
      | R pa pc sib kp vp =>
        simp only [Frame.sib_R, Frame.col_R] at hb1 hb2 hb3 hn1 hn2
        cases sib with
        | nil => simp at hb2
        | node sa sc sl sk sv sr =>
          simp only [Tree.bal_node, Tree.bh_node] at hb1 hb2
          simp only [Tree.noRR_node, Tree.rootColor_node] at hn1 hn2
          obtain ⟨hsl, hsr, hlr⟩ := hb1
          obtain ⟨hch, hnl, hnr⟩ := hn1
          by_cases hsc : sc = RED
          · subst hsc
            simp only [reduceCtorEq, if_false, Nat.add_zero, true_implies] at hb2 hch
            have hpc : pc = BLACK := by
              cases hpc : pc
              · rfl
              · exact absurd (hn2 hpc).1 (by simp)
            subst hpc
            simp only [if_true] at hb3
            cases sr with
            | nil => simp only [Tree.bh_nil] at hlr; omega
            | node ra rc rl rk rv rr =>
              simp only [Tree.rootColor_node] at hch
              obtain ⟨hlc, hrc⟩ := hch
              subst hrc
              simp only [Tree.bal_node, Tree.bh_node, if_true] at hsr hb2 hlr
              simp only [Tree.noRR_node] at hnr
              simp only [fixDeleteZ, hc, if_false, if_true]
              have hcb' : CtxBal (Frame.R sa BLACK sl sk sv :: rest) (t.bh + 1) := by
                simp only [CtxBal, Frame.sib_R, Frame.col_R, if_true]
                exact ⟨hsl, by omega, hb3⟩
              have hcn' : CtxNoRR (Frame.R sa BLACK sl sk sv :: rest) := by
                simp only [CtxNoRR, Frame.sib_R, Frame.col_R]
                exact ⟨hnl, by simp, hn3⟩
              refine delStepR_rb _ _ pa RED kp vp t ra rl rk rv rr ht hb hnr.2.1 hnr.2.2
                hsr.1 hsr.2.1 (by omega) (by omega) ?_ hcn' (fun _ => rfl) ?_
              · simpa using hcb'
              · intro hbb
                refine rbInv_plug_blacken _ _ ?_ ?_ ?_ hcn'
                  (CtxRootBlack.cons_black _ hcr rfl)
                · simp only [Tree.blacken, Tree.noRR_node, reduceCtorEq, false_implies,
                    true_and, Tree.rootColor_node, true_implies]
                  exact ⟨⟨⟨hbb.2, hbb.1⟩, hnr.2.1, hnr.2.2⟩, ht⟩
                · simp only [Tree.blacken, Tree.bal_node, Tree.bh_node, reduceCtorEq, if_false,
                    Nat.add_zero]
                  exact ⟨⟨hsr.1, hsr.2.1, hsr.2.2⟩, hb, by omega⟩
                · simp only [Tree.blacken, Tree.bh_node, reduceCtorEq, if_false, Nat.add_zero,
                    if_true]
                  rw [show rl.bh = t.bh from by omega]; exact hcb'
          · have hsc' := color_eq_black_of_ne_red hsc
            subst hsc'
            simp only [if_true] at hb2
            simp only [fixDeleteZ, hc, hsc, if_false]
            refine delStepR_rb rest _ pa pc kp vp t sa sl sk sv sr ht hb hnl hnr hsl hsr
              (by omega) (by omega) hb3 hn3 (fun h => (hn2 h).2) ?_
            intro hbb
            refine fixDeleteZ_rb rest _ ?_ ?_ hn3 ?_ (CtxRootBlack.tail hcr)
            · simp only [Tree.blacken, Tree.noRR_node, reduceCtorEq, false_implies,
                true_and, Tree.rootColor_node, true_implies]
              exact ⟨⟨⟨hbb.2, hbb.1⟩, hnl, hnr⟩, ht⟩
            · simp only [Tree.bal_node, Tree.bh_node, reduceCtorEq, if_false, Nat.add_zero]
              exact ⟨⟨hsl, hsr, hlr⟩, hb, by omega⟩
            · simp only [Tree.bh_node, reduceCtorEq, if_false, Nat.add_zero]
              rw [show sl.bh = t.bh from by omega, Nat.add_right_comm]; exact hb3

theorem size_fill_ge (f : Frame K V) (t : Tree K V) : t.size + 1 ≤ (f.fill t).size := by
  cases f <;> simp only [Frame.fill, Tree.size_node] <;> omega

theorem size_plug_ge (C : List (Frame K V)) (t : Tree K V) :
    C.length + t.size ≤ (plug C t).size := by
  induction C generalizing t with
  | nil => simp
  | cons f rest ih =>
    have h1 := ih (f.fill t)
    have h2 := size_fill_ge f t
    simp only [plug_cons, List.length_cons]
    omega

theorem minDescend_flat {β : Type} (g : Nat → K → V → β) (t : Tree K V) :
    ∀ {cy : List (Frame K V)} {ya : Nat} {yc : RB.color} {yl : Tree K V} {yk : K} {yv : V}
      {yr : Tree K V}, minDescend [] t = (cy, .node ya yc yl yk yv yr) →
      t.flat g = g ya yk yv :: (plug cy yr).flat g := by
  induction t with
  | nil => intro cy ya yc yl yk yv yr h; simp [minDescend] at h
  | node a c l k v r ihl _ =>
    intro cy ya yc yl yk yv yr h
    cases l with
    | nil =>
      simp only [minDescend_leaf, Prod.mk.injEq, Tree.node.injEq] at h
      obtain ⟨rfl, rfl, rfl, rfl, rfl, rfl, rfl⟩ := h
      simp
    | node la lc ll lk lv lr =>
      rw [minDescend_left] at h
      have ha := minDescend_append [Frame.L a c k v r] (Tree.node la lc ll lk lv lr)
      rw [h] at ha
      simp only at ha
      have e : minDescend [] (Tree.node la lc ll lk lv lr) =
          ((minDescend [] (Tree.node la lc ll lk lv lr)).1, .node ya yc yl yk yv yr) :=
        Prod.ext rfl ha.2.symm
      have := ihl e
      rw [ha.1, plug_append]
      simp only [Tree.flat] at this ⊢
      rw [this]
      simp [Frame.fill]

theorem spliceZ_two (C : List (Frame K V)) (zc : RB.color) (la : Nat) (lc : RB.color)
    (ll : Tree K V) (lk : K) (lv : V) (lr : Tree K V) (ra : Nat) (rc : RB.color)
    (rl : Tree K V) (rk : K) (rv : V) (rr : Tree K V) {cy : List (Frame K V)} {ya : Nat}
    {yc : RB.color} {yl : Tree K V} {yk : K} {yv : V} {yr : Tree K V}
    (h : minDescend [] (Tree.node ra rc rl rk rv rr) = (cy, .node ya yc yl yk yv yr)) :
    spliceZ C zc (.node la lc ll lk lv lr) (.node ra rc rl rk rv rr) =
      (cy ++ .R ya zc (.node la lc ll lk lv lr) yk yv :: C, yr, yc) := by
  simp only [spliceZ, h]

theorem spliceZ_flat {β : Type} (g : Nat → K → V → β) (C : List (Frame K V))
    (zc : RB.color) (zl zr : Tree K V) :
    (plug (spliceZ C zc zl zr).1 (spliceZ C zc zl zr).2.1).flat g =
      ctxLeft g C ++ (zl.flat g ++ zr.flat g) ++ ctxRight g C := by
  cases zl with
  | nil => simp [spliceZ, flat_plug]
  | node la lc ll lk lv lr =>
    cases zr with
    | nil => simp [spliceZ, flat_plug]
    | node ra rc rl rk rv rr =>
      obtain ⟨ya, yc, yk, yv, yr, hy⟩ := minDescend_node [] ra rc rl rk rv rr
      rcases hd : minDescend [] (Tree.node ra rc rl rk rv rr) with ⟨cy, y⟩
      rw [hd] at hy
      simp only at hy
      subst hy
      rw [spliceZ_two C zc la lc ll lk lv lr ra rc rl rk rv rr hd]
      simp only [plug_append, plug_cons, plug_nil, Frame.fill]
      rw [flat_plug, minDescend_flat g _ hd]
      simp

theorem rbInv_plug_black {C : List (Frame K V)} {t t' : Tree K V}
    (h : (plug C t).RBInv) (hc' : t'.rootColor = BLACK)
    (hn : t'.NoRR) (hb : t'.Bal) (hbh : t'.bh = t.bh) : (plug C t').RBInv := by
  obtain ⟨h1, h2, h3⟩ := h
  rw [rootColor_plug] at h1
  rw [noRR_plug] at h2
  rw [bal_plug] at h3
  refine ⟨?_, ?_, ?_⟩
  · rw [rootColor_plug]; exact ⟨fun _ => hc', h1.2⟩
  · rw [noRR_plug]; exact ⟨hn, h2.2.1, fun _ => hc'⟩
  · rw [bal_plug, hbh]; exact ⟨hb, h3.2⟩

/-- Colour bookkeeping of the unlinking step: some subtree `u` whose root has the removed
colour fits at the cursor, and the cursor subtree is one BLACK node short exactly when that
colour is BLACK. -/
theorem spliceZ_spec (C : List (Frame K V)) (z : Nat) (zc : RB.color) (zl : Tree K V)
    (zk : K) (zv : V) (zr : Tree K V) (h : (plug C (.node z zc zl zk zv zr)).RBInv) :
    ∃ u : Tree K V, (plug (spliceZ C zc zl zr).1 u).RBInv ∧
      u.rootColor = (spliceZ C zc zl zr).2.2 ∧
      (spliceZ C zc zl zr).2.1.NoRR ∧ (spliceZ C zc zl zr).2.1.Bal ∧
      u.bh = (spliceZ C zc zl zr).2.1.bh +
        (if (spliceZ C zc zl zr).2.2 = BLACK then 1 else 0) ∧
      ((spliceZ C zc zl zr).2.2 = RED → (spliceZ C zc zl zr).2.1.rootColor = BLACK) := by
  have hn := ((noRR_plug _ _).1 h.2.1).1
  have hb := ((bal_plug _ _).1 h.2.2).1
  simp only [Tree.noRR_node, Tree.bal_node] at hn hb
  obtain ⟨hn1, hn2, hn3⟩ := hn
  obtain ⟨hb1, hb2, hb3⟩ := hb
  cases zl with
  | nil =>
    simp only [spliceZ]
    refine ⟨.node z zc .nil zk zv zr, h, rfl, hn3, hb2, ?_, fun hc => (hn1 hc).2⟩
    simp only [Tree.bh_node, Tree.bh_nil] at hb3 ⊢
    rw [← hb3]
  | node la lc ll lk lv lr =>
    cases zr with
    | nil =>
      simp only [spliceZ]
      exact ⟨.node z zc (.node la lc ll lk lv lr) zk zv .nil, h, rfl, hn2, hb1, rfl,
        fun hc => (hn1 hc).1⟩
    | node ra rc rl rk rv rr =>
      obtain ⟨ya, yc, yk, yv, yr, hy⟩ := minDescend_node [] ra rc rl rk rv rr
      have hp := plug_minDescend [] (Tree.node ra rc rl rk rv rr)
      rcases hd : minDescend [] (Tree.node ra rc rl rk rv rr) with ⟨cy, y⟩
      rw [hd] at hy hp
      simp only at hy hp
      subst hy
      rw [spliceZ_two C zc la lc ll lk lv lr ra rc rl rk rv rr hd]
      simp only [plug_nil] at hp
      have hun := ((noRR_plug _ _).1 (hp ▸ hn3)).1
      have hub := ((bal_plug _ _).1 (hp ▸ hb2)).1
      simp only [Tree.noRR_node, Tree.bal_node, Tree.bh_nil] at hun hub
      refine ⟨.node ya yc .nil yk yv yr, ?_, rfl, hun.2.2, hub.2.1, ?_,
        fun hc => (hun.1 hc).2⟩
      · simp only [plug_append, plug_cons, Frame.fill, hp]
        exact rbInv_plug_congr h rfl id id rfl
      · simp only [Tree.bh_node, Tree.bh_nil, ← hub.2.2]

/-- `Remove` of a key that is not stored changes nothing. -/
theorem Remove_absent [DecidableEq K] {s : RBTreeMap K V} {T : Tree K V} (h : Inv s T)
    (key : K) (fuel : Nat) (hf : s.next ≤ fuel)
    (hd : (descend s.compare key [] T).2 = .nil) : Remove fuel key s = .ok s := by
  have hh := h.height_lt
  have hsearch := searchLoop_sim key T [] fuel h.shape (by omega)
  rw [Remove_unfold]
  unfold search
  rw [h.shape.rep.1, hsearch, hd]
  simp

/-- `Remove` keeps the invariant and computes `removeT`. -/
theorem Remove_inv [DecidableEq K] {s : RBTreeMap K V} {T : Tree K V} (h : Inv s T)
    (key : K) (fuel : Nat) (hf : s.next ≤ fuel) :
    (Remove fuel key s).Post (fun s' =>
      Inv s' (removeT s.compare key T) ∧ s'.compare = s.compare ∧
      s'.sentinel = s.sentinel ∧ s'.next = s.next) := by
  have hh := h.height_lt
  have hsz := h.size_lt
  have hplug := plug_descend s.compare key [] T
  have hsearch := searchLoop_sim key T [] fuel h.shape (by omega)
  rw [← h.shape.rep.1] at hsearch
  rw [Remove_unfold]
  unfold search
  rw [hsearch]
  simp only [Res.ok_bind]
  unfold removeT
  generalize descend s.compare key [] T = d at hplug
  obtain ⟨C, t⟩ := d
  simp only [plug_nil] at hplug
  cases t with
  | nil =>
    simp only [Tree.ptr_nil, if_true]
    exact Res.Post.ok ⟨h, rfl, rfl, rfl⟩
  | node z zc zl zk zv zr =>
    have hs : Shape s (plug C (.node z zc zl zk zv zr)) := hplug ▸ h.shape
    have hrb : (plug C (.node z zc zl zk zv zr)).RBInv := hplug ▸ h.rb
    have hz : z ≠ s.sentinel := hs.node_facts.2.1
    simp only [Tree.ptr_node, if_neg hz]
    have hs' := hs.with_size (s.size - 1)
    have hsize := size_plug_ge C (.node z zc zl zk zv zr)
    rw [hplug] at hsize
    simp only [Tree.size_node] at hsize
    have hzr : zr.height ≤ fuel := by
      have := zr.height_le_size
      omega
    obtain ⟨u, hu1, hu2, hu3, hu4, hu5, hu6⟩ := spliceZ_spec C z zc zl zk zv zr hrb
    have hfl := fun {β : Type} (g : Nat → K → V → β) => spliceZ_flat g C zc zl zr
    have hT : ∀ {β : Type} (g : Nat → K → V → β),
        T.flat g = ctxLeft g C ++ (zl.flat g ++ g z zk zv :: zr.flat g) ++ ctxRight g C := by
      intro β g
      rw [← hplug, flat_plug]; rfl
    refine Res.Post.bind (removeSplice_sim hs' fuel hzr) ?_
    rintro ⟨r, x, yc⟩ ⟨hX, hx, hyc, hw⟩
    simp only at hX hx hyc hw ⊢
    generalize spliceZ C zc zl zr = sp at hu1 hu2 hu3 hu4 hu5 hu6 hfl hX hx hyc
    obtain ⟨C', x', yc'⟩ := sp
    simp only at hu1 hu2 hu3 hu4 hu5 hu6 hfl hX hx hyc ⊢
    subst hyc hx
    have hcn := ((noRR_plug _ _).1 hu1.2.1).2.1
    have hcb := ((bal_plug _ _).1 hu1.2.2).2
    have hcr := ((rootColor_plug _ _).1 hu1.1).2
    have hlen : C'.length + 3 ≤ fuel := by
      have h1 := size_plug_ge C' x'
      have h2 := Tree.size_eq_length (fun a _ _ => a) (plug C' x')
      have h3 := Tree.size_eq_length (fun a _ _ => a) T
      rw [hfl] at h2
      rw [hT] at h3
      simp only [List.length_append, List.length_cons] at h2 h3
      omega
    have key1 : ∀ (s' : RBTreeMap K V) (T' : Tree K V), Shape s' T' →
        (∀ {β : Type} (g : Nat → K → V → β), T'.flat g = (plug C' x').flat g) →
        T'.RBInv → s'.sentinel = s.sentinel → s'.next = s.next →
        s'.size = s.size - 1 → s'.compare = s.compare →
        Inv s' T' ∧ s'.compare = s.compare ∧ s'.sentinel = s.sentinel ∧ s'.next = s.next := by
      intro s' T' hsh hflat hrb' e1 e2 e3 e4
      refine ⟨⟨hsh, ?_, ?_, ?_, hrb'⟩, e4, e1, e2⟩
      · rw [e1, e2]; exact h.sent_lt
      · intro a ha
        rw [Tree.addrs, hflat, hfl] at ha
        rw [e2]
        refine h.lt_next a ?_
        rw [Tree.addrs, hT]
        simp only [List.mem_append, List.mem_cons] at ha ⊢
        tauto
      · have h2 := Tree.size_eq_length (fun a _ _ => a) T'
        have h3 := Tree.size_eq_length (fun a _ _ => a) T
        rw [hflat, hfl] at h2
        rw [hT] at h3
        simp only [List.length_append, List.length_cons] at h2 h3
        rw [e3, h.size_eq]
        omega
    by_cases hc : yc = BLACK
    · simp only [hc, if_true] at hu5 ⊢
      have hw1 : r.sentinel = s.sentinel := hw.sentinel
      have hfd := fixDelete_sim C' fuel r x' hX (by rw [← hu5]; exact hcb) (by omega)
      rw [hw1] at hfd
      refine hfd.mono ?_
      rintro s2 ⟨hs2, hsame⟩
      refine key1 s2 _ hs2 (fun g => fixDeleteZ_flat g C' x' (by rw [← hu5]; exact hcb))
        (fixDeleteZ_rb C' x' (Tree.blacken_noRR_of hu3) hu4 hcn (by rw [← hu5]; exact hcb) hcr)
        (hsame.sentinel.trans hw.sentinel) (hsame.next.trans hw.next)
        (hsame.size.trans hw.size) (hsame.compare.trans hw.compare)
    · have hred : yc = RED := by
        cases hyc : yc
        · exact absurd hyc hc
        · rfl
      simp only [hc, if_false] at hu5 ⊢
      refine Res.Post.ok ?_
      exact key1 r _ hX.shape (fun g => rfl)
        (rbInv_plug_black hu1 (hu6 hred) hu3 hu4 (by simpa using hu5.symm))
        hw.sentinel hw.next hw.size hw.compare

theorem Get_sim [DecidableEq K] [Inhabited V] {s : RBTreeMap K V} {T : Tree K V}
    (h : Inv s T) (key : K) (fuel : Nat) (hf : s.next ≤ fuel) :
    Get fuel key s = .ok (getT s.compare key T) := by
  have hh := h.height_lt
  have hplug := plug_descend s.compare key [] T
  have hsearch := searchLoop_sim key T [] fuel h.shape (by omega)
  rw [← h.shape.rep.1] at hsearch
  unfold Get search getT
  rw [hsearch]
  simp only [Res.ok_bind]
  generalize descend s.compare key [] T = d at hplug
  obtain ⟨C, t⟩ := d
  simp only [plug_nil] at hplug
  cases t with
  | nil => simp
  | node a c l k v r =>
    have hs : Shape s (plug C (.node a c l k v r)) := hplug ▸ h.shape
    simp [hs.node_facts.2.1, getValue_at hs]

theorem ContainsKey_sim [DecidableEq K] [Inhabited V] {s : RBTreeMap K V} {T : Tree K V}
    (h : Inv s T) (key : K) (fuel : Nat) (hf : s.next ≤ fuel) :
    ContainsKey fuel key s = .ok (getT s.compare key T).2 := by
  have hh := h.height_lt
  have hplug := plug_descend s.compare key [] T
  have hsearch := searchLoop_sim key T [] fuel h.shape (by omega)
  rw [← h.shape.rep.1] at hsearch
  unfold ContainsKey search getT
  rw [hsearch]
  simp only [Res.ok_bind]
  generalize descend s.compare key [] T = d at hplug
  obtain ⟨C, t⟩ := d
  simp only [plug_nil] at hplug
  cases t with
  | nil => simp
  | node a c l k v r =>
    have hs : Shape s (plug C (.node a c l k v r)) := hplug ▸ h.shape
    simp [hs.node_facts.2.1]

theorem boundLoop_sim {s : RBTreeMap K V} (goLeft : K → Bool) :
    ∀ (t : Tree K V) (C : List (Frame K V)) (fuel : Nat) (res : Option (Nat × K × V)),
      Shape s (plug C t) → t.height < fuel → ResOk s res →
      boundLoop s goLeft fuel (resPtr s.sentinel res) (t.ptr s.sentinel) =
        .ok (resPtr s.sentinel (boundT goLeft res t)) ∧ ResOk s (boundT goLeft res t) := by
  intro t
  induction t with
  | nil =>
    intro C fuel res h hf hres
    obtain ⟨f, rfl⟩ : ∃ f, fuel = f + 1 := ⟨fuel - 1, by omega⟩
    simp [boundLoop, boundT, hres]
  | node a c l k v r ihl ihr =>
    intro C fuel res h hf hres
    obtain ⟨f, rfl⟩ : ∃ f, fuel = f + 1 := ⟨fuel - 1, by omega⟩
    simp only [Tree.height] at hf
    have hfacts := h.node_facts
    have hne := hfacts.2.1
    simp only [boundLoop, Tree.ptr_node, ne_eq, hne, not_false_eq_true, if_true, getKey_at h,
      Res.ok_bind, boundT, getLeft_at h, getRight_at h]
    by_cases hg : goLeft k = true
    · simp only [hg, if_true]
      exact ihl (.L a c k v r :: C) f (some (a, k, v)) h (by omega)
        ⟨hfacts.1, hfacts.2.1, hfacts.2.2.1, hfacts.2.2.2.1⟩
    · simp only [hg]
      exact ihr (.R a c l k v :: C) f res h (by omega) hres

theorem boundResult_sim [Inhabited K] [Inhabited V] {s : RBTreeMap K V}
    (res : Option (Nat × K × V)) (h : ResOk s res) :
    boundResult s (resPtr s.sentinel res) = .ok (boundOut res) := by
  cases res with
  | none => simp [boundResult, resPtr, boundOut]
  | some p =>
    obtain ⟨a, k, v⟩ := p
    obtain ⟨h1, h2, h3, h4⟩ := h
    simp [boundResult, resPtr, boundOut, h1, h2, h3, h4, RBTreeMap.getKey, RBTreeMap.getValue]

theorem LowerBound_sim [Inhabited K] [Inhabited V] {s : RBTreeMap K V} {T : Tree K V}
    (h : Inv s T) (key : K) (fuel : Nat) (hf : s.next ≤ fuel) :
    LowerBound fuel key s = .ok (boundOut (boundT (fun ck => !s.compare ck key) none T)) := by
  have hh := h.height_lt
  obtain ⟨h1, h2⟩ := boundLoop_sim (fun ck => !s.compare ck key) T [] fuel none h.shape
    (by omega) trivial
  rw [← h.shape.rep.1] at h1
  unfold LowerBound
  simp only [resPtr] at h1
  rw [h1]
  exact boundResult_sim _ h2

theorem UpperBound_sim [Inhabited K] [Inhabited V] {s : RBTreeMap K V} {T : Tree K V}
    (h : Inv s T) (key : K) (fuel : Nat) (hf : s.next ≤ fuel) :
    UpperBound fuel key s = .ok (boundOut (boundT (fun ck => s.compare key ck) none T)) := by
  have hh := h.height_lt
  obtain ⟨h1, h2⟩ := boundLoop_sim (fun ck => s.compare key ck) T [] fuel none h.shape
    (by omega) trivial
  rw [← h.shape.rep.1] at h1
  unfold UpperBound
  simp only [resPtr] at h1
  rw [h1]
  exact boundResult_sim _ h2

theorem height_plug_ge (C : List (Frame K V)) (t : Tree K V) :
    t.height ≤ (plug C t).height := by
  induction C generalizing t with
  | nil => simp
  | cons f rest ih =>
    refine Nat.le_trans ?_ (ih (f.fill t))
    cases f <;> simp only [Frame.fill, Tree.height_node] <;> omega

theorem pushLeft_sim {s : RBTreeMap K V} :
    ∀ (t : Tree K V) (C : List (Frame K V)) (fuel : Nat) (st : List (Tree K V)),
      Shape s (plug C t) → t.height < fuel →
      pushLeft s fuel (st.map (Tree.ptr s.sentinel)) (t.ptr s.sentinel) =
        .ok ((spine t st).map (Tree.ptr s.sentinel)) := by
  intro t
  induction t with
  | nil =>
    intro C fuel st h hf
    obtain ⟨f, rfl⟩ : ∃ f, fuel = f + 1 := ⟨fuel - 1, by omega⟩
    simp [pushLeft, spine]
  | node a c l k v r ihl _ =>
    intro C fuel st h hf
    obtain ⟨f, rfl⟩ : ∃ f, fuel = f + 1 := ⟨fuel - 1, by omega⟩
    simp only [Tree.height] at hf
    have hne := h.node_facts.2.1
    simp only [pushLeft, Tree.ptr_node, ne_eq, hne, not_false_eq_true, if_true, getLeft_at h,
      Res.ok_bind, spine]
    exact ihl (.L a c k v r :: C) f (.node a c l k v r :: st) h (by omega)

theorem pending_spine (t : Tree K V) (st : List (Tree K V)) :
    pending (spine t st) = t.toList ++ pending st := by
  induction t generalizing st with
  | nil => rfl
  | node a c l k v r ihl _ =>
    simp only [spine, ihl, pending, Tree.toList, Tree.flat, List.append_assoc,
      List.cons_append]

theorem spine_valid {T : Tree K V} (t : Tree K V) (st : List (Tree K V))
    (ht : ∃ C, plug C t = T) (hst : ∀ e ∈ st, IsNodeOf T e) :
    ∀ e ∈ spine t st, IsNodeOf T e := by
  induction t generalizing st with
  | nil => exact hst
  | node a c l k v r ihl _ =>
    obtain ⟨C, hctx⟩ := ht
    simp only [spine]
    refine ihl _ ⟨.L a c k v r :: C, hctx⟩ ?_
    intro e he
    simp only [List.mem_cons] at he
    rcases he with rfl | he
    · exact ⟨C, a, c, l, k, v, r, rfl, hctx⟩
    · exact hst e he

theorem inOrderLoop_sim {σ : Type} {s : RBTreeMap K V} {T : Tree K V}
    (yield : σ → K → V → σ × Bool) (fuel : Nat) (hT : Shape s T) (hfuel : T.height < fuel) :
    ∀ (n : Nat) (t : Tree K V) (st : List (Tree K V)) (acc : σ),
      (∃ C, plug C t = T) → (∀ e ∈ st, IsNodeOf T e) →
      (t.toList ++ pending st).length < n →
      inOrderLoop s yield fuel n (st.map (Tree.ptr s.sentinel)) (t.ptr s.sentinel) acc =
        .ok (feed yield acc (t.toList ++ pending st)) := by
  intro n
  induction n with
  | zero => intro t st acc _ _ hn; omega
  | succ n ih =>
    intro t st acc ht hst hn
    have hval := spine_valid t st ht hst
    have hpen := pending_spine t st
    obtain ⟨C, hctx⟩ := ht
    have hth : t.height < fuel := by
      have h1 := height_plug_ge C t
      rw [hctx] at h1; omega
    have hs : Shape s (plug C t) := hctx ▸ hT
    unfold inOrderLoop
    rw [pushLeft_sim t C fuel st hs hth]
    simp only [Res.ok_bind]
    rw [← hpen] at hn ⊢
    generalize spine t st = sp at hval hn ⊢
    cases sp with
    | nil => simp [pending, feed]
    | cons e st' =>
      obtain ⟨C', a, c, l, k, v, r, rfl, he⟩ := hval e (List.mem_cons_self _ _)
      have hs' : Shape s (plug C' (.node a c l k v r)) := he ▸ hT
      simp only [List.map_cons, Tree.ptr_node, getKey_at hs', getValue_at hs',
        getRight_at hs', Res.ok_bind, pending, feed]
      cases hy : (yield acc k v).2
      · simp [hy]
      · simp only [hy, Bool.not_true, Bool.false_eq_true, if_false, if_true]
        exact ih r st' _ ⟨.R a c l k v :: C', he⟩
          (fun e he => hval e (List.mem_cons_of_mem _ he))
          (by simp only [pending, List.length_cons] at hn; omega)

theorem feed_collect (acc l : List (K × V)) :
    feed (fun acc k v => (acc ++ [(k, v)], true)) acc l = acc ++ l := by
  induction l generalizing acc with
  | nil => simp [feed]
  | cons p rest ih =>
    obtain ⟨k, v⟩ := p
    simp [feed, ih]

/-- `InOrder` feeds the consumer the pairs of the tree in order, until it asks to stop. -/
theorem InOrder_sim {σ : Type} {s : RBTreeMap K V} {T : Tree K V} (h : Inv s T)
    (yield : σ → K → V → σ × Bool) (init : σ) (fuel : Nat) (hf : s.next ≤ fuel) :
    InOrder fuel s yield init = .ok (feed yield init T.toList) := by
  have hh := h.height_lt
  have hsz := h.size_lt
  have hlen := Tree.size_eq_length (fun _ k v => (k, v)) T
  have := inOrderLoop_sim yield fuel h.shape (by omega) fuel T [] init ⟨[], rfl⟩
    (fun e he => by cases he) (by simp only [pending, List.append_nil, Tree.toList]; omega)
  simp only [List.map_nil, pending, List.append_nil, ← h.shape.rep.1] at this
  exact this

theorem InOrderAll_sim {s : RBTreeMap K V} {T : Tree K V} (h : Inv s T) (fuel : Nat)
    (hf : s.next ≤ fuel) : InOrderAll fuel s = .ok T.toList := by
  unfold InOrderAll
  rw [InOrder_sim h _ _ fuel hf, feed_collect]
  rfl

theorem Tree.keys_eq_map (t : Tree K V) : t.keys = t.toList.map Prod.fst := by
  induction t with
  | nil => rfl
  | node a c l k v r ihl ihr =>
    simp only [Tree.keys, Tree.toList, Tree.flat, List.map_append, List.map_cons] at ihl ihr ⊢
    rw [ihl, ihr]

theorem Tree.mem_keys_iff (t : Tree K V) (x : K) : x ∈ t.keys ↔ ∃ v, (x, v) ∈ t.toList := by
  rw [Tree.keys_eq_map]
  simp

theorem Tree.bst_of_pairwise {cmp : K → K → Bool} :
    ∀ {t : Tree K V}, t.keys.Pairwise (fun a b => cmp a b = true) → t.BST cmp
  | .nil, _ => trivial
  | .node a c l k v r, h => by
    simp only [Tree.keys, Tree.flat, List.pairwise_append, List.pairwise_cons,
      List.mem_cons] at h
    obtain ⟨h1, ⟨h2, h3⟩, h4⟩ := h
    exact ⟨fun x hx => h4 x hx k (Or.inl rfl), h2, Tree.bst_of_pairwise h1,
      Tree.bst_of_pairwise h3⟩

theorem Tree.pairwise_of_bst {cmp : K → K → Bool}
    (htr : ∀ a b c, cmp a b = true → cmp b c = true → cmp a c = true) :
    ∀ {t : Tree K V}, t.BST cmp → t.keys.Pairwise (fun a b => cmp a b = true)
  | .nil, _ => List.Pairwise.nil
  | .node a c l k v r, h => by
    obtain ⟨h1, h2, h3, h4⟩ := h
    simp only [Tree.keys, Tree.flat, List.pairwise_append, List.pairwise_cons,
      List.mem_cons]
    refine ⟨Tree.pairwise_of_bst htr h3, ⟨h2, Tree.pairwise_of_bst htr h4⟩, ?_⟩
    rintro x hx y (rfl | hy)
    · exact h1 x hx
    · exact htr x k y (h1 x hx) (h2 y hy)

/-- The descent for `key` keeps everything to its left ordered before `key` and everything to
its right ordered after `key`. -/
theorem descend_bounds [DecidableEq K] {cmp : K → K → Bool} (hst : StrictTotal cmp) (key : K) :
    ∀ (t : Tree K V) (C : List (Frame K V)), t.BST cmp →
      (∀ x ∈ ctxLeft (fun _ k _ => k) C, cmp x key = true) →
      (∀ x ∈ ctxRight (fun _ k _ => k) C, cmp key x = true) →
      (∀ x ∈ ctxLeft (fun _ k _ => k) (descend cmp key C t).1, cmp x key = true) ∧
      (∀ x ∈ ctxRight (fun _ k _ => k) (descend cmp key C t).1, cmp key x = true) ∧
      (descend cmp key C t).2.BST cmp := by
  intro t
  induction t with
  | nil => intro C hb hl hr; exact ⟨hl, hr, trivial⟩
  | node a c l k v r ihl ihr =>
    intro C hb hl hr
    obtain ⟨h1, h2, h3, h4⟩ := hb
    simp only [descend]
    by_cases hk : key = k
    · simp only [hk, if_true]
      exact ⟨hk ▸ hl, hk ▸ hr, h1, h2, h3, h4⟩
    · simp only [hk, if_false]
      by_cases hc : cmp key k = true
      · simp only [hc, if_true]
        refine ihl _ h3 hl ?_
        intro x hx
        simp only [ctxRight, List.mem_cons, List.mem_append] at hx
        rcases hx with (rfl | hx) | hx
        · exact hc
        · exact hst.trans _ _ _ hc (h2 x hx)
        · exact hr x hx
      · simp only [hc]
        have hc' : cmp k key = true := by
          rcases hst.total key k hk with h | h
          · exact absurd h hc
          · exact h
        refine ihr _ h4 ?_ hr
        intro x hx
        simp only [ctxLeft, List.mem_append, List.mem_singleton] at hx
        rcases hx with hx | hx | rfl
        · exact hl x hx
        · exact hst.trans _ _ _ (h1 x hx) hc'
        · exact hc'

theorem insertT_flat [DecidableEq K] {β : Type} (g : Nat → K → V → β) (cmp : K → K → Bool)
    (key : K) (value : V) (n : Nat) (T : Tree K V) :
    (insertT cmp key value n T).flat g =
      match descend cmp key [] T with
      | (C, .node a _ l k _ r) =>
        ctxLeft g C ++ (l.flat g ++ g a k value :: r.flat g) ++ ctxRight g C
      | (C, .nil) => ctxLeft g C ++ g n key value :: ctxRight g C := by
  unfold insertT
  rcases descend cmp key [] T with ⟨C, t⟩
  cases t with
  | nil => simp only [fixInsertZ_flat, flat_plug]; simp
  | node a c l k v r => simp only [flat_plug]; rfl

theorem removeT_flat [DecidableEq K] {β : Type} (g : Nat → K → V → β) (cmp : K → K → Bool)
    (key : K) (T : Tree K V) (hrb : T.RBInv) :
    (removeT cmp key T).flat g =
      match descend cmp key [] T with
      | (C, .node _ _ l _ _ r) => ctxLeft g C ++ (l.flat g ++ r.flat g) ++ ctxRight g C
      | (_, .nil) => T.flat g := by
  have hplug := plug_descend cmp key [] T
  unfold removeT
  generalize descend cmp key [] T = d at hplug
  obtain ⟨C, t⟩ := d
  simp only [plug_nil] at hplug
  cases t with
  | nil => rfl
  | node z zc zl zk zv zr =>
    simp only
    obtain ⟨u, hu1, hu2, hu3, hu4, hu5, hu6⟩ :=
      spliceZ_spec C z zc zl zk zv zr (hplug ▸ hrb)
    have hfl := spliceZ_flat g C zc zl zr
    by_cases hc : (spliceZ C zc zl zr).2.2 = BLACK
    · rw [if_pos hc, fixDeleteZ_flat, hfl]
      simp only [hc, if_true] at hu5
      rw [← hu5]
      exact ((bal_plug _ _).1 hu1.2.2).2
    · rw [if_neg hc, hfl]

theorem descend_flat [DecidableEq K] {β : Type} (g : Nat → K → V → β) (cmp : K → K → Bool)
    (key : K) (T : Tree K V) :
    T.flat g = ctxLeft g (descend cmp key [] T).1 ++ (descend cmp key [] T).2.flat g ++
      ctxRight g (descend cmp key [] T).1 := by
  rw [← flat_plug, plug_descend]
  rfl

theorem ctxLeft_keys (C : List (Frame K V)) :
    ctxLeft (fun _ k _ => k) C = (ctxLeft (fun _ k v => (k, v)) C).map Prod.fst := by
  induction C with
  | nil => rfl
  | cons f rest ih =>
    cases f with
    | L a c k v r => exact ih
    | R a c l k v =>
      have := Tree.keys_eq_map l
      simp only [Tree.keys, Tree.toList] at this
      simp only [ctxLeft, ih, this, List.map_append, List.map_cons, List.map_nil]

theorem ctxRight_keys (C : List (Frame K V)) :
    ctxRight (fun _ k _ => k) C = (ctxRight (fun _ k v => (k, v)) C).map Prod.fst := by
  induction C with
  | nil => rfl
  | cons f rest ih =>
    cases f with
    | R a c l k v => exact ih
    | L a c k v r =>
      have := Tree.keys_eq_map r
      simp only [Tree.keys, Tree.toList] at this
      simp only [ctxRight, ih, this, List.map_append, List.map_cons, List.cons_append]

/-- Where the descent for `key` ends, the in-order listing splits, and `Insert`, `Remove`
and `Get` act on the parts. -/
theorem op_split [DecidableEq K] [Inhabited V] {cmp : K → K → Bool} (hst : StrictTotal cmp)
    {T : Tree K V} (hb : T.BST cmp) (key : K) :
    ∃ L mid R, SplitAt cmp key T.toList L mid R ∧
      (∀ value n, (insertT cmp key value n T).toList = L ++ (key, value) :: R) ∧
      (T.RBInv → (removeT cmp key T).toList = L ++ R) ∧
      getT cmp key T = (match mid with
        | [] => (default, false)
        | p :: _ => (p.2, true)) ∧
      ((descend cmp key [] T).2 = .nil ↔ mid = []) := by
  have hbd := descend_bounds hst key T [] hb (by simp [ctxLeft]) (by simp [ctxRight])
  have hfl := descend_flat (fun _ k v => (k, v)) cmp key T
  have hi := fun value n => insertT_flat (fun _ k v => (k, v)) cmp key value n T
  have hr := removeT_flat (fun _ k v => (k, v)) cmp key T
  unfold getT
  rcases hd : descend cmp key [] T with ⟨C, t⟩
  rw [hd] at hbd hfl hr
  simp only [hd] at hi
  obtain ⟨hL, hR, hB⟩ := hbd
  simp only [ctxLeft_keys, ctxRight_keys, List.mem_map, forall_exists_index, and_imp] at hL hR
  cases t with
  | nil =>
    refine ⟨ctxLeft (fun _ k v => (k, v)) C, [], ctxRight (fun _ k v => (k, v)) C,
      ⟨?_, fun p hp => hL _ p hp rfl, fun p hp => hR _ p hp rfl, Or.inl rfl⟩, hi, ?_, rfl,
      by simp⟩
    · simpa using hfl
    · intro hrb
      rw [Tree.toList, hr hrb]
      simpa using hfl
  | node a c l k v r =>
    have hk := descend_key cmp key [] T hd
    subst hk
    obtain ⟨h1, h2, -, -⟩ := hB
    simp only [Tree.mem_keys_iff, forall_exists_index] at h1 h2
    refine ⟨ctxLeft (fun _ k v => (k, v)) C ++ l.toList, [(k, v)],
      r.toList ++ ctxRight (fun _ k v => (k, v)) C, ⟨?_, ?_, ?_, Or.inr ⟨v, rfl⟩⟩, ?_, ?_,
      rfl, by simp⟩
    · simpa [Tree.toList] using hfl
    · intro p hp
      rcases List.mem_append.1 hp with hp | hp
      · exact hL _ p hp rfl
      · exact h1 p.1 p.2 hp
    · intro p hp
      rcases List.mem_append.1 hp with hp | hp
      · exact h2 p.1 p.2 hp
      · exact hR _ p hp rfl
    · intro value n
      rw [Tree.toList, hi]
      simp [Tree.toList]
    · intro hrb
      rw [Tree.toList, hr hrb]
      simp [Tree.toList]

/-! ## Listings with keys in order -/

theorem lookupL_append [DecidableEq K] (k : K) (A B : List (K × V)) :
    lookupL k (A ++ B) = (lookupL k A).or (lookupL k B) := by
  induction A with
  | nil => simp [lookupL]
  | cons p rest ih =>
    obtain ⟨k', v'⟩ := p
    by_cases h : k = k'
    · simp [lookupL, h]
    · simp [lookupL, h, ih]

theorem lookupL_none [DecidableEq K] (k : K) (A : List (K × V)) (h : ∀ p ∈ A, p.1 ≠ k) :
    lookupL k A = none := by
  induction A with
  | nil => rfl
  | cons p rest ih =>
    obtain ⟨k', v'⟩ := p
    have h1 : k ≠ k' := fun e => h (k', v') (List.mem_cons_self _ _) e.symm
    simp only [lookupL, h1, if_false]
    exact ih (fun p hp => h p (List.mem_cons_of_mem _ hp))

theorem lookupL_mem [DecidableEq K] (k : K) (v : V) (A : List (K × V))
    (h : lookupL k A = some v) : (k, v) ∈ A := by
  induction A with
  | nil => simp [lookupL] at h
  | cons p rest ih =>
    obtain ⟨k', v'⟩ := p
    by_cases h1 : k = k'
    · simp only [lookupL, h1, if_true, Option.some.injEq] at h
      simp [h1, h]
    · simp only [lookupL, h1, if_false] at h
      exact List.mem_cons_of_mem _ (ih h)

theorem lookupL_isSome [DecidableEq K] (k : K) (A : List (K × V)) :
    (lookupL k A).isSome = true ↔ k ∈ A.map Prod.fst := by
  induction A with
  | nil => simp [lookupL]
  | cons p rest ih =>
    obtain ⟨k', v'⟩ := p
    by_cases h1 : k = k'
    · simp [lookupL, h1]
    · simp only [lookupL, h1, if_false, ih, List.map_cons, List.mem_cons, false_or]

namespace SplitAt

variable {cmp : K → K → Bool} {key : K} {M L mid R : List (K × V)}

theorem left_ne (h : SplitAt cmp key M L mid R) (hst : StrictTotal cmp) :
    ∀ p ∈ L, p.1 ≠ key := by
  intro p hp e
  have := h.left p hp
  rw [e, hst.irrefl] at this
  cases this

theorem right_ne (h : SplitAt cmp key M L mid R) (hst : StrictTotal cmp) :
    ∀ p ∈ R, p.1 ≠ key := by
  intro p hp e
  have := h.right p hp
  rw [e, hst.irrefl] at this
  cases this

theorem lookup_self [DecidableEq K] (h : SplitAt cmp key M L mid R) (hst : StrictTotal cmp) :
    lookupL key M = mid.head?.map Prod.snd := by
  rw [h.eq, lookupL_append, lookupL_none key L (h.left_ne hst), lookupL_append]
  rcases h.mid with rfl | ⟨v, rfl⟩
  · simp [lookupL, lookupL_none key R (h.right_ne hst)]
  · simp [lookupL]

theorem lookup_insert_self [DecidableEq K] (h : SplitAt cmp key M L mid R)
    (hst : StrictTotal cmp) (value : V) : lookupL key (L ++ (key, value) :: R) = some value := by
  rw [lookupL_append, lookupL_none key L (h.left_ne hst)]
  simp [lookupL]

theorem lookup_remove_self [DecidableEq K] (h : SplitAt cmp key M L mid R)
    (hst : StrictTotal cmp) : lookupL key (L ++ R) = none := by
  rw [lookupL_append, lookupL_none key L (h.left_ne hst), lookupL_none key R (h.right_ne hst)]
  rfl

theorem lookup_other [DecidableEq K] (h : SplitAt cmp key M L mid R) {k : K} (hk : k ≠ key) :
    lookupL k M = lookupL k (L ++ R) := by
  rw [h.eq, lookupL_append, lookupL_append, lookupL_append]
  rcases h.mid with rfl | ⟨v, rfl⟩
  · simp [lookupL]
  · simp [lookupL, hk]

theorem lookup_insert_other [DecidableEq K] (h : SplitAt cmp key M L mid R) {k : K}
    (hk : k ≠ key) (value : V) : lookupL k (L ++ (key, value) :: R) = lookupL k M := by
  rw [h.lookup_other hk, lookupL_append, lookupL_append]
  simp [lookupL, hk]

theorem keys_remove (h : SplitAt cmp key M L mid R) (hst : StrictTotal cmp) (x : K) :
    x ∈ (L ++ R).map Prod.fst ↔ x ∈ M.map Prod.fst ∧ x ≠ key := by
  have hl := h.left_ne hst
  have hr := h.right_ne hst
  rw [h.eq]
  simp only [List.map_append, List.mem_append, List.mem_map]
  constructor
  · rintro (⟨p, hp, rfl⟩ | ⟨p, hp, rfl⟩)
    · exact ⟨Or.inl ⟨p, hp, rfl⟩, hl p hp⟩
    · exact ⟨Or.inr (Or.inr ⟨p, hp, rfl⟩), hr p hp⟩
  · rintro ⟨h1 | h1 | h1, h2⟩
    · exact Or.inl h1
    · rcases h.mid with rfl | ⟨v, rfl⟩
      · simp at h1
      · obtain ⟨p, hp, rfl⟩ := h1
        simp only [List.mem_singleton] at hp
        subst hp
        exact absurd rfl h2
    · exact Or.inr h1

theorem keys_insert (h : SplitAt cmp key M L mid R) (value : V) (x : K) :
    x ∈ (L ++ (key, value) :: R).map Prod.fst ↔ x = key ∨ x ∈ M.map Prod.fst := by
  rw [h.eq]
  simp only [List.map_append, List.mem_append, List.map_cons, List.mem_cons]
  rcases h.mid with rfl | ⟨v, rfl⟩
  · simp only [List.map_nil, List.not_mem_nil, false_or]
    tauto
  · simp only [List.map_cons, List.map_nil, List.mem_singleton]
    tauto

theorem sorted_remove (h : SplitAt cmp key M L mid R)
    (hM : (M.map Prod.fst).Pairwise (fun a b => cmp a b = true)) :
    ((L ++ R).map Prod.fst).Pairwise (fun a b => cmp a b = true) := by
  refine List.Pairwise.sublist ?_ hM
  rw [h.eq]
  exact ((List.sublist_append_right mid R).append_left L).map _

theorem sorted_insert (h : SplitAt cmp key M L mid R) (hst : StrictTotal cmp)
    (hM : (M.map Prod.fst).Pairwise (fun a b => cmp a b = true)) (value : V) :
    ((L ++ (key, value) :: R).map Prod.fst).Pairwise (fun a b => cmp a b = true) := by
  have h0 := h.sorted_remove hM
  simp only [List.map_append, List.pairwise_append, List.map_cons, List.pairwise_cons,
    List.mem_map, List.mem_cons, forall_exists_index, and_imp] at h0 ⊢
  obtain ⟨h1, h2, h3⟩ := h0
  refine ⟨h1, ⟨?_, h2⟩, ?_⟩
  · rintro x p hp rfl
    exact h.right p hp
  · rintro x p hp rfl y (rfl | ⟨q, hq, rfl⟩)
    · exact h.left p hp
    · exact hst.trans _ _ _ (h.left p hp) (h.right q hq)

theorem key_mem_iff (h : SplitAt cmp key M L mid R) (hst : StrictTotal cmp) :
    key ∈ M.map Prod.fst ↔ mid ≠ [] := by
  have hl := h.left_ne hst
  have hr := h.right_ne hst
  rw [h.eq]
  simp only [List.map_append, List.mem_append, List.mem_map]
  constructor
  · rintro (⟨p, hp, e⟩ | ⟨p, hp, e⟩ | ⟨p, hp, e⟩)
    · exact absurd e (hl p hp)
    · rintro rfl; simp at hp
    · exact absurd e (hr p hp)
  · intro hne
    rcases h.mid with rfl | ⟨v, rfl⟩
    · exact absurd rfl hne
    · exact Or.inr (Or.inl ⟨(key, v), by simp, rfl⟩)

theorem length_insert (h : SplitAt cmp key M L mid R) (value : V) :
    (L ++ (key, value) :: R).length = M.length + 1 - mid.length := by
  rw [h.eq]
  rcases h.mid with rfl | ⟨v, rfl⟩ <;>
    simp only [List.length_append, List.length_cons, List.length_nil] <;> omega

theorem length_remove (h : SplitAt cmp key M L mid R) :
    (L ++ R).length = M.length - mid.length := by
  rw [h.eq]
  rcases h.mid with rfl | ⟨v, rfl⟩ <;>
    simp only [List.length_append, List.length_cons, List.length_nil] <;> omega

end SplitAt

theorem pairwise_nodup {cmp : K → K → Bool} (hst : StrictTotal cmp) {l : List K}
    (h : l.Pairwise (fun a b => cmp a b = true)) : l.Nodup := by
  refine h.imp ?_
  intro a b hab e
  rw [e, hst.irrefl] at hab
  cases hab

theorem less_strictTotal [LinearOrder K] : StrictTotal (less : K → K → Bool) where
  irrefl := fun a => by simp [less]
  trans := fun a b c h1 h2 => by
    simp only [less, decide_eq_true_eq] at h1 h2 ⊢
    exact lt_trans h1 h2
  total := fun a b hab => by
    simp only [less, decide_eq_true_eq]
    exact lt_or_gt_of_ne hab

theorem Inv.new [Inhabited K] [Inhabited V] (cmp : K → K → Bool) :
    Inv (NewWithCompare cmp : RBTreeMap K V) .nil := by
  have hshape : Shape (NewWithCompare cmp : RBTreeMap K V) .nil :=
    ⟨⟨rfl, trivial⟩, List.nodup_nil, by simp [NewWithCompare],
      by simp [NewWithCompare, upd]⟩
  exact ⟨hshape, by simp [NewWithCompare], fun a ha => (by cases ha), rfl, ⟨rfl, trivial, trivial⟩⟩

/-- Every call keeps the invariant, with a budget of at least `s.next`. -/
theorem Op.run_inv [DecidableEq K] {s : RBTreeMap K V} {T : Tree K V} (h : Inv s T)
    (op : Op K V) (fuel : Nat) (hf : s.next ≤ fuel) :
    (op.run fuel s).Post (fun s' =>
      Inv s' (op.runT s.compare s.next T) ∧ s'.compare = s.compare ∧
      s'.sentinel = s.sentinel ∧ s.next ≤ s'.next) := by
  cases op with
  | insert k v => exact Insert_inv h k v fuel hf
  | remove k =>
    refine (Remove_inv h k fuel hf).mono ?_
    rintro s' ⟨h1, h2, h3, h4⟩
    exact ⟨h1, h2, h3, Nat.le_of_eq h4.symm⟩

/-- Every call completes, with a budget of at least `s.next`. -/
theorem Op.run_ok [DecidableEq K] {s : RBTreeMap K V} {T : Tree K V} (h : Inv s T)
    (op : Op K V) (fuel : Nat) (hf : s.next ≤ fuel) : ∃ s', op.run fuel s = .ok s' := by
  obtain ⟨s', e, -⟩ := Op.run_inv h op fuel hf
  exact ⟨s', e⟩

theorem refKeys_snoc [DecidableEq K] (ops : List (Op K V)) (op : Op K V) :
    refKeys (ops ++ [op]) = refStep (refKeys ops) op := by
  simp [refKeys, List.foldl_append]

/-- Effect of one call on the listing of a tree with keys in order. -/
theorem Op.runT_model [DecidableEq K] [Inhabited V] {cmp : K → K → Bool} (hst : StrictTotal cmp) {T : Tree K V} (hrb : T.RBInv)
    (hsorted : (T.toList.map Prod.fst).Pairwise (fun a b => cmp a b = true))
    (op : Op K V) (n : Nat) (S : Finset K) (hS : ∀ x, x ∈ T.toList.map Prod.fst ↔ x ∈ S) :
    (((op.runT cmp n T).toList.map Prod.fst).Pairwise (fun a b => cmp a b = true)) ∧
    ∀ x, x ∈ (op.runT cmp n T).toList.map Prod.fst ↔ x ∈ refStep S op := by
  have hb : T.BST cmp := Tree.bst_of_pairwise (by rw [Tree.keys_eq_map]; exact hsorted)
  cases op with
  | insert k v =>
    obtain ⟨L, mid, R, hsp, hi, -, -, -⟩ := op_split hst hb k
    simp only [Op.runT, refStep, hi v n, Finset.mem_insert]
    refine ⟨hsp.sorted_insert hst hsorted v, fun x => ?_⟩
    rw [hsp.keys_insert v x, hS]
  | remove k =>
    obtain ⟨L, mid, R, hsp, -, hr, -, -⟩ := op_split hst hb k
    simp only [Op.runT, refStep, hr hrb, Finset.mem_erase]
    refine ⟨hsp.sorted_remove hsorted, fun x => ?_⟩
    rw [hsp.keys_remove hst x, hS]
    exact And.comm

section Reachable

variable [DecidableEq K] [Inhabited K] [Inhabited V] {cmp : K → K → Bool}
  {ops : List (Op K V)} {s : RBTreeMap K V}

/-- A reachable map satisfies the invariant for some tree. -/
theorem Reach.inv (hr : Reach cmp ops s) : ∃ T, Inv s T ∧ s.compare = cmp := by
  induction hr with
  | new => exact ⟨.nil, Inv.new cmp, rfl⟩
  | step fuel op _ hf hrun ih =>
    obtain ⟨T, hT, hc⟩ := ih
    obtain ⟨s2, e, h1, h2, -, -⟩ := Op.run_inv hT op fuel hf
    rw [hrun] at e
    cases e
    exact ⟨_, h1, h2.trans hc⟩

/-- On a reachable map every call completes. -/
theorem Reach.next_ok (hr : Reach cmp ops s) (op : Op K V) (fuel : Nat) (hf : s.next ≤ fuel) :
    ∃ s', op.run fuel s = .ok s' ∧ Reach cmp (ops ++ [op]) s' := by
  obtain ⟨T, hT, -⟩ := hr.inv
  obtain ⟨s', e⟩ := Op.run_ok hT op fuel hf
  exact ⟨s', e, Reach.step fuel op hr hf e⟩

/-- A reachable map under a strict total order stores a tree whose keys are in order and are
those of the reference key set. -/
theorem Reach.model (hst : StrictTotal cmp) (hr : Reach cmp ops s) :
    ∃ T, Inv s T ∧ s.compare = cmp ∧
      (T.toList.map Prod.fst).Pairwise (fun a b => cmp a b = true) ∧
      ∀ x, x ∈ T.toList.map Prod.fst ↔ x ∈ refKeys ops := by
  induction hr with
  | new => exact ⟨.nil, Inv.new cmp, rfl, List.Pairwise.nil, fun x => by simp [refKeys]⟩
  | step fuel op _ hf hrun ih =>
    obtain ⟨T, hT, hc, hsorted, hS⟩ := ih
    obtain ⟨s2, e, h1, h2, -, -⟩ := Op.run_inv hT op fuel hf
    rw [hrun] at e
    cases e
    rw [hc] at h1
    obtain ⟨m1, m2⟩ := Op.runT_model hst hT.rb hsorted op _ _ hS
    exact ⟨_, h1, h2.trans hc, m1, fun x => by rw [refKeys_snoc]; exact m2 x⟩

/-- A completed run of a list of calls reaches its result. -/
theorem Reach.append_run (fuel : Nat) : ∀ (more : List (Op K V)) {ops : List (Op K V)}
    {s s' : RBTreeMap K V}, Reach cmp ops s → runOps fuel more s = .ok s' →
    Reach cmp (ops ++ more) s'
  | [], ops, s, s', hr, hrun => by
    simp only [runOps, Res.ok.injEq] at hrun
    subst hrun
    simpa using hr
  | op :: rest, ops, s, s', hr, hrun => by
    simp only [runOps] at hrun
    by_cases hf : s.next ≤ fuel
    · rw [if_pos hf] at hrun
      cases h1 : op.run fuel s with
      | ok s1 =>
        rw [h1] at hrun
        simp only [Res.ok_bind] at hrun
        have := Reach.append_run fuel rest (Reach.step fuel op hr hf h1) hrun
        simpa using this
      | fault => rw [h1] at hrun; cases hrun
      | timeout => rw [h1] at hrun; cases hrun
    · rw [if_neg hf] at hrun
      cases hrun

/-- A completed run of a list of calls on a fresh map reaches its result. -/
theorem Reach.of_run (fuel : Nat) (ops : List (Op K V)) {s : RBTreeMap K V}
    (h : runOps fuel ops (NewWithCompare cmp) = .ok s) : Reach cmp ops s := by
  simpa using Reach.append_run fuel ops Reach.new h

end Reachable

/-- Reading the heap back gives the represented tree. -/
theorem toTree_eq {m : Nat → Node K V} {sent : Nat} :
    ∀ (t : Tree K V) (par fuel : Nat), Rep m sent par t → t.height < fuel →
      toTree m sent fuel (t.ptr sent) = t := by
  intro t
  induction t with
  | nil =>
    intro par fuel _ hf
    obtain ⟨f, rfl⟩ : ∃ f, fuel = f + 1 := ⟨fuel - 1, by omega⟩
    simp [toTree]
  | node a c l k v r ihl ihr =>
    intro par fuel h hf
    obtain ⟨f, rfl⟩ : ∃ f, fuel = f + 1 := ⟨fuel - 1, by omega⟩
    simp only [Tree.height_node] at hf
    simp only [Rep] at h
    obtain ⟨h1, h2, h3, h4, h5, -, h7, h8, h9, h10⟩ := h
    simp only [toTree, Tree.ptr_node, h1, h2, or_self, if_false, h3, h4, h5, h7, h8,
      ihl a f h9 (by omega), ihr a f h10 (by omega)]

theorem Inv.read_back {s : RBTreeMap K V} {T : Tree K V} (h : Inv s T) (fuel : Nat)
    (hf : s.next ≤ fuel) : toTree s.mem s.sentinel fuel s.root = T := by
  have hh := h.height_lt
  rw [h.shape.rep.1]
  exact RB.toTree_eq T s.sentinel fuel h.shape.rep.2 (by omega)

theorem Tree.pathBlacks_of_bal : ∀ {t : Tree K V}, t.Bal → ∀ n ∈ t.pathBlacks, n = t.bh
  | .nil, _, n, hn => by simpa [Tree.pathBlacks] using hn
  | .node a c l k v r, h, n, hn => by
    obtain ⟨hl, hr, hlr⟩ := h
    simp only [Tree.pathBlacks, List.mem_map, List.mem_append] at hn
    obtain ⟨m, hm | hm, rfl⟩ := hn
    · rw [Tree.pathBlacks_of_bal hl m hm]; rfl
    · rw [Tree.pathBlacks_of_bal hr m hm, ← hlr]; rfl

theorem Tree.bal_subtrees : ∀ {t : Tree K V}, t.Bal → ∀ u ∈ t.subtrees, u.Bal
  | .nil, _, u, hu => by
    simp only [Tree.subtrees, List.mem_singleton] at hu
    subst hu; trivial
  | .node a c l k v r, h, u, hu => by
    simp only [Tree.subtrees, List.mem_cons, List.mem_append] at hu
    rcases hu with rfl | hu | hu
    · exact h
    · exact Tree.bal_subtrees h.1 u hu
    · exact Tree.bal_subtrees h.2.1 u hu

/-- In a balanced tree, below every node all paths down to the sentinel hold the same number
of BLACK nodes. -/
theorem Tree.paths_equal {t : Tree K V} (h : t.Bal) :
    ∀ u ∈ t.subtrees, ∀ m ∈ u.pathBlacks, ∀ n ∈ u.pathBlacks, m = n := by
  intro u hu m hm n hn
  have hb := Tree.bal_subtrees h u hu
  rw [Tree.pathBlacks_of_bal hb m hm, Tree.pathBlacks_of_bal hb n hn]

theorem getColor_root {s : RBTreeMap K V} {T : Tree K V} (h : Inv s T) :
    s.getColor s.root = .ok BLACK := by
  rw [h.shape.rep.1, getColor_ptr h.shape (C := []) (t := T)]
  exact congrArg _ h.rb.1

/-- `Insert` of a key the descent finds overwrites the value of that node and nothing else. -/
theorem Insert_present [DecidableEq K] {s : RBTreeMap K V} {T : Tree K V} (h : Inv s T)
    (key : K) (value : V) (fuel : Nat) (hf : s.next ≤ fuel) {C : List (Frame K V)} {a : Nat}
    {c : RB.color} {l r : Tree K V} {k : K} {v : V}
    (hd : descend s.compare key [] T = (C, .node a c l k v r)) :
    Insert fuel key value s = .ok { s with mem := upd s.mem a { s.mem a with value := value } } ∧
      a ≠ 0 ∧ a ≠ s.sentinel ∧ (s.mem a).key = key ∧ (s.mem a).value = v := by
  have hh := h.height_lt
  have hplug := plug_descend s.compare key [] T
  have hk := descend_key s.compare key [] T hd
  have hloop := insertLoop_sim (s := s) key value T [] fuel h.shape (by omega)
  simp only [ctxPar_nil] at hloop
  rw [← h.shape.rep.1] at hloop
  rw [hd] at hplug hloop
  simp only [plug_nil] at hplug
  have hs : Shape s (plug C (.node a c l k v r)) := hplug ▸ h.shape
  have hfacts := hs.node_facts
  refine ⟨?_, hfacts.1, hfacts.2.1, hk ▸ hfacts.2.2.1, hfacts.2.2.2.1⟩
  rw [Insert_unfold, hloop]
  simp [RBTreeMap.setValue, hfacts.1]

theorem getT_eq_lookup [DecidableEq K] [Inhabited V] {cmp : K → K → Bool}
    (hst : StrictTotal cmp) {T : Tree K V} (hb : T.BST cmp) (key : K) :
    getT cmp key T = optOut (lookupL key T.toList) := by
  obtain ⟨L, mid, R, hsp, -, -, hg, -⟩ := op_split hst hb key
  rw [hg, hsp.lookup_self hst]
  cases mid <;> rfl

/-- The bound loop finds the first pair, in order, whose key passes the test, when the test
is upward closed for the ordering. -/
theorem boundT_find [Inhabited K] [Inhabited V] (cmp : K → K → Bool) (goLeft : K → Bool)
    (hg : ∀ x y, cmp x y = true → goLeft y = false → goLeft x = false) :
    ∀ (t : Tree K V) (res : Option (Nat × K × V)), t.BST cmp →
      boundOut (boundT goLeft res t) =
        match t.toList.find? (fun p => goLeft p.1) with
        | some p => (p.1, p.2, true)
        | none => boundOut res := by
  intro t
  induction t with
  | nil => intro res _; rfl
  | node a c l k v r ihl ihr =>
    intro res hb
    obtain ⟨h1, h2, h3, h4⟩ := hb
    simp only [boundT, Tree.toList, Tree.flat, List.find?_append, List.find?_cons]
    by_cases hk : goLeft k = true
    · simp only [hk, if_true]
      rw [ihl _ h3]
      simp only [Tree.toList]
      cases List.find? (fun p => goLeft p.1) (Tree.flat (fun _ k v => (k, v)) l) <;> rfl
    · have hk' : goLeft k = false := by simpa using hk
      have hnone : List.find? (fun p => goLeft p.1) (Tree.flat (fun _ k v => (k, v)) l) = none := by
        rw [List.find?_eq_none]
        intro p hp
        have := hg p.1 k (h1 p.1 ((Tree.mem_keys_iff l p.1).2 ⟨p.2, hp⟩)) hk'
        simp [this]
      simp only [hk', hnone, Option.none_or, Bool.false_eq_true, if_false]
      exact ihr _ h4

/-- First pair of a listing in order that passes an upward-closed test: it is the least. -/
theorem find_first (cmp : K → K → Bool) (goLeft : K → Bool) :
    ∀ (l : List (K × V)), (l.map Prod.fst).Pairwise (fun a b => cmp a b = true) →
      match l.find? (fun p => goLeft p.1) with
      | some p => p ∈ l ∧ goLeft p.1 = true ∧
          ∀ q ∈ l, goLeft q.1 = true → q.1 = p.1 ∨ cmp p.1 q.1 = true
      | none => ∀ q ∈ l, goLeft q.1 = false
  | [], _ => by simp
  | p :: rest, h => by
    simp only [List.map_cons, List.pairwise_cons, List.mem_map, forall_exists_index,
      and_imp] at h
    obtain ⟨h1, h2⟩ := h
    have ih := find_first cmp goLeft rest h2
    simp only [List.find?_cons]
    by_cases hp : goLeft p.1 = true
    · simp only [hp]
      refine ⟨List.mem_cons_self _ _, trivial, ?_⟩
      intro q hq _
      rcases List.mem_cons.1 hq with rfl | hq
      · exact Or.inl rfl
      · exact Or.inr (h1 q.1 q hq rfl)
    · have hp' : goLeft p.1 = false := by simpa using hp
      simp only [hp']
      cases hf : List.find? (fun p => goLeft p.1) rest with
      | none =>
        rw [hf] at ih
        intro q hq
        rcases List.mem_cons.1 hq with rfl | hq
        · exact hp'
        · exact ih q hq
      | some p0 =>
        rw [hf] at ih
        obtain ⟨i1, i2, i3⟩ := ih
        refine ⟨List.mem_cons_of_mem _ i1, i2, ?_⟩
        intro q hq hgq
        rcases List.mem_cons.1 hq with rfl | hq
        · rw [hp'] at hgq; cases hgq
        · exact i3 q hq hgq

/-- The descent depends on the subtree it ends at only through where it stops: with another
stopping point `u` in that place it takes the same path. -/
theorem descend_replace [DecidableEq K] (cmp : K → K → Bool) (key : K) (u : Tree K V)
    (hstop : ∀ C, descend cmp key C u = (C, u)) :
    ∀ (t : Tree K V) (C0 C1 : List (Frame K V)) (t1 : Tree K V),
      descend cmp key C0 t = (C1, t1) →
      ∃ pre, C1 = pre ++ C0 ∧ t = plug pre t1 ∧ descend cmp key C0 (plug pre u) = (C1, u) := by
  intro t
  induction t with
  | nil =>
    intro C0 C1 t1 h
    simp only [descend, Prod.mk.injEq] at h
    obtain ⟨rfl, rfl⟩ := h
    exact ⟨[], rfl, rfl, hstop _⟩
  | node a c l k v r ihl ihr =>
    intro C0 C1 t1 h
    simp only [descend] at h
    by_cases hk : key = k
    · simp only [hk, if_true, Prod.mk.injEq] at h
      obtain ⟨rfl, rfl⟩ := h
      exact ⟨[], rfl, rfl, hstop _⟩
    · simp only [hk, if_false] at h
      by_cases hc : cmp key k = true
      · simp only [hc, if_true] at h
        obtain ⟨pre, e1, e2, e3⟩ := ihl _ _ _ h
        refine ⟨pre ++ [.L a c k v r], by simp [e1], by simp [plug_append, Frame.fill, ← e2], ?_⟩
        simp only [plug_append, plug_cons, plug_nil, Frame.fill, descend, hk, if_false, hc,
          if_true]
        exact e3
      · simp only [hc] at h
        obtain ⟨pre, e1, e2, e3⟩ := ihr _ _ _ h
        refine ⟨pre ++ [.R a c l k v], by simp [e1], by simp [plug_append, Frame.fill, ← e2], ?_⟩
        simp only [plug_append, plug_cons, plug_nil, Frame.fill, descend, hk, if_false, hc]
        exact e3

/-- After the value of the node the descent finds is replaced, the descent finds that node
again. -/
theorem descend_setValue [DecidableEq K] (cmp : K → K → Bool) (key : K) (T : Tree K V)
    {C : List (Frame K V)} {a : Nat} {c : RB.color} {l r : Tree K V} {k : K} {v : V} (w : V)
    (hd : descend cmp key [] T = (C, .node a c l k v r)) :
    descend cmp key [] (plug C (.node a c l k w r)) = (C, .node a c l k w r) := by
  have hk := descend_key cmp key [] T hd
  obtain ⟨pre, e1, -, e3⟩ := descend_replace cmp key (.node a c l k w r)
    (fun C => by simp [descend, hk]) T [] C _ hd
  simp only [List.append_nil] at e1
  subst e1
  exact e3

theorem upd_value_self (m : Nat → Node K V) (a : Nat) (v : V) (h : (m a).value = v) :
    upd m a { m a with value := v } = m := by
  funext p
  by_cases hp : p = a
  · subst hp
    rw [upd_self, ← h]
  · simp [upd, hp]

/-- A node the descent stops at holds a key of the tree. -/
theorem descend_mem_keys [DecidableEq K] (cmp : K → K → Bool) (key : K) (T : Tree K V)
    {C : List (Frame K V)} {a : Nat} {c : RB.color} {l r : Tree K V} {k : K} {v : V}
    (hd : descend cmp key [] T = (C, .node a c l k v r)) : key ∈ T.toList.map Prod.fst := by
  have hk := descend_key cmp key [] T hd
  have hfl := descend_flat (fun _ k v => (k, v)) cmp key T
  rw [hd] at hfl
  rw [Tree.toList, hfl, hk]
  simp [Tree.flat]

/-- C1: on every map reachable by `Insert` and `Remove` calls from a fresh map whose ordering
predicate is a strict total order (the default `less` is one), the heap holds a tree with the
BST ordering at every node, and a full `InOrder` traversal completes and yields the pairs of
that tree, keys strictly ascending for the predicate. -/
theorem C1_bst_order_and_ascending_traversal [DecidableEq K] [Inhabited K] [Inhabited V]
    {cmp : K → K → Bool} (hst : StrictTotal cmp) {ops : List (Op K V)} {s : RBTreeMap K V}
    (hr : Reach cmp ops s) (fuel : Nat) (hf : s.next ≤ fuel) :
    RepTree s (toTree s.mem s.sentinel fuel s.root) ∧
    (toTree s.mem s.sentinel fuel s.root).BST cmp ∧
    InOrderAll fuel s = .ok (toTree s.mem s.sentinel fuel s.root).toList ∧
    ((toTree s.mem s.sentinel fuel s.root).toList.map Prod.fst).Pairwise
      (fun a b => cmp a b = true) := by
  obtain ⟨T, hT, -, hsorted, -⟩ := hr.model hst
  rw [hT.read_back fuel hf]
  exact ⟨hT.shape.rep, Tree.bst_of_pairwise (by rw [Tree.keys_eq_map]; exact hsorted),
    InOrderAll_sim hT fuel hf, hsorted⟩

/-- C2: on every map reachable by `Insert` and `Remove` calls from a fresh map (any ordering
predicate, so in particular from `New`), the root and the sentinel are BLACK, no RED node of
the stored tree has a RED child, and below every node all paths down to the sentinel hold the
same number of BLACK nodes. -/
theorem C2_red_black_colouring [DecidableEq K] [Inhabited K] [Inhabited V]
    {cmp : K → K → Bool} {ops : List (Op K V)} {s : RBTreeMap K V}
    (hr : Reach cmp ops s) (fuel : Nat) (hf : s.next ≤ fuel) :
    RepTree s (toTree s.mem s.sentinel fuel s.root) ∧
    s.getColor s.root = .ok BLACK ∧ s.getColor s.sentinel = .ok BLACK ∧
    (toTree s.mem s.sentinel fuel s.root).NoRR ∧
    ∀ u ∈ (toTree s.mem s.sentinel fuel s.root).subtrees,
      ∀ m ∈ u.pathBlacks, ∀ n ∈ u.pathBlacks, m = n := by
  obtain ⟨T, hT, -⟩ := hr.inv
  rw [hT.read_back fuel hf]
  refine ⟨hT.shape.rep, getColor_root hT, ?_, hT.rb.2.1, Tree.paths_equal hT.rb.2.2⟩
  simp [RBTreeMap.getColor, hT.shape.sent_ne, hT.shape.sent_black]

/-- C3: on every map reachable by `Insert` and `Remove` calls from a fresh map with a strict
total order (the default `less` is one), `Size` is the number of nodes of the stored tree,
the number of pairs a full `InOrder` traversal yields, and the cardinality of the reference
key set that received the same calls. -/
theorem C3_size_counts_nodes_traversal_reference [DecidableEq K] [Inhabited K] [Inhabited V]
    {cmp : K → K → Bool} (hst : StrictTotal cmp) {ops : List (Op K V)} {s : RBTreeMap K V}
    (hr : Reach cmp ops s) (fuel : Nat) (hf : s.next ≤ fuel) :
    Size s = ((toTree s.mem s.sentinel fuel s.root).size : Int) ∧
    ∃ l, InOrderAll fuel s = .ok l ∧ Size s = (l.length : Int) ∧
      Size s = ((refKeys ops).card : Int) := by
  obtain ⟨T, hT, -, hsorted, hS⟩ := hr.model hst
  rw [hT.read_back fuel hf]
  have hlen := Tree.size_eq_length (fun _ k v => (k, v)) T
  refine ⟨hT.size_eq, T.toList, InOrderAll_sim hT fuel hf, ?_, ?_⟩
  · rw [Size, hT.size_eq, hlen]
  · have hset : refKeys ops = (T.toList.map Prod.fst).toFinset := by
      ext x
      rw [List.mem_toFinset, hS]
    rw [Size, hT.size_eq, hlen, hset, List.toFinset_card_of_nodup (pairwise_nodup hst hsorted),
      List.length_map]

/-- C4: on every map reachable by `Insert` and `Remove` calls from `New` (default ordering),
the keys a full `InOrder` traversal yields are the sorted list of the reference key set that
received the same insertions and deletions. -/
theorem C4_traversal_is_sorted_reference [LinearOrder K] [Inhabited K] [Inhabited V]
    {ops : List (Op K V)} {s : RBTreeMap K V} (hr : Reach less ops s) (fuel : Nat)
    (hf : s.next ≤ fuel) :
    ∃ l, InOrderAll fuel s = .ok l ∧
      l.map Prod.fst = (refKeys ops).sort (fun a b => a ≤ b) := by
  obtain ⟨T, hT, -, hsorted, hS⟩ := hr.model less_strictTotal
  refine ⟨T.toList, InOrderAll_sim hT fuel hf, ?_⟩
  have hset : refKeys ops = (T.toList.map Prod.fst).toFinset := by
    ext x
    rw [List.mem_toFinset, hS]
  have hle : (T.toList.map Prod.fst).Sorted (fun a b => a ≤ b) := by
    refine hsorted.imp ?_
    intro a b hab
    simp only [less, decide_eq_true_eq] at hab
    exact le_of_lt hab
  rw [hset]
  exact ((List.toFinset_sort (fun a b => a ≤ b)
    (pairwise_nodup less_strictTotal hsorted)).2 hle).symm

/-- C5: on every reachable map with a strict total order, `Insert k v` completes, and then
`Get k` returns `(v, true)` while `Get` of every other key returns what it returned before. -/
theorem C5_insert_is_map_update [DecidableEq K] [Inhabited K] [Inhabited V]
    {cmp : K → K → Bool} (hst : StrictTotal cmp) {ops : List (Op K V)} {s : RBTreeMap K V}
    (hr : Reach cmp ops s) (k : K) (v : V) (fuel : Nat) (hf : s.next ≤ fuel) :
    ∃ s', Insert fuel k v s = .ok s' ∧
      ∀ f, s'.next ≤ f →
        Get f k s' = .ok (v, true) ∧ ∀ k', k' ≠ k → Get f k' s' = Get f k' s := by
  obtain ⟨T, hT, rfl, hsorted, -⟩ := hr.model hst
  obtain ⟨s', e, hT', hc', -, hn⟩ := Insert_inv hT k v fuel hf
  have hb : T.BST s.compare := Tree.bst_of_pairwise (by rw [Tree.keys_eq_map]; exact hsorted)
  obtain ⟨L, mid, R, hsp, hi, -, -, -⟩ := op_split hst hb k
  have hsorted' := hsp.sorted_insert hst hsorted v
  rw [← hi v s.next] at hsorted'
  have hb' : (insertT s.compare k v s.next T).BST s.compare :=
    Tree.bst_of_pairwise (by rw [Tree.keys_eq_map]; exact hsorted')
  refine ⟨s', e, fun f hf' => ⟨?_, fun k' hk' => ?_⟩⟩
  · rw [Get_sim hT' k f hf', hc', getT_eq_lookup hst hb', hi, hsp.lookup_insert_self hst]
    rfl
  · rw [Get_sim hT' k' f hf', Get_sim hT k' f (Nat.le_trans hn hf'), hc',
      getT_eq_lookup hst hb', getT_eq_lookup hst hb, hi, hsp.lookup_insert_other hk']

/-- C6: on every reachable map with a strict total order that contains the key `k`,
`Remove k` completes, after which `ContainsKey k` is false, `Get k` reports not-found,
`Size` has dropped by exactly one and `Get` of every other key returns what it returned
before. -/
theorem C6_remove_deletes_exactly_one_key [DecidableEq K] [Inhabited K] [Inhabited V]
    {cmp : K → K → Bool} (hst : StrictTotal cmp) {ops : List (Op K V)} {s : RBTreeMap K V}
    (hr : Reach cmp ops s) (k : K) (fuel : Nat) (hf : s.next ≤ fuel)
    (hk : ContainsKey fuel k s = .ok true) :
    ∃ s', Remove fuel k s = .ok s' ∧ ContainsKey fuel k s' = .ok false ∧
      Get fuel k s' = .ok (default, false) ∧ Size s' = Size s - 1 ∧
      ∀ k', k' ≠ k → Get fuel k' s' = Get fuel k' s := by
  obtain ⟨T, hT, rfl, hsorted, -⟩ := hr.model hst
  obtain ⟨s', e, hT', hc', -, hn⟩ := Remove_inv hT k fuel hf
  have hf' : s'.next ≤ fuel := hn ▸ hf
  have hb : T.BST s.compare := Tree.bst_of_pairwise (by rw [Tree.keys_eq_map]; exact hsorted)
  obtain ⟨L, mid, R, hsp, -, hrm, hg, -⟩ := op_split hst hb k
  have hrm := hrm hT.rb
  have hsorted' := hsp.sorted_remove hsorted
  rw [← hrm] at hsorted'
  have hb' : (removeT s.compare k T).BST s.compare :=
    Tree.bst_of_pairwise (by rw [Tree.keys_eq_map]; exact hsorted')
  rw [ContainsKey_sim hT k fuel hf, hg] at hk
  have hmid : mid.length = 1 := by
    rcases hsp.mid with rfl | ⟨v, rfl⟩
    · simp at hk
    · rfl
  have hlook : lookupL k (removeT s.compare k T).toList = none := by
    rw [hrm]; exact hsp.lookup_remove_self hst
  refine ⟨s', e, ?_, ?_, ?_, fun k' hk' => ?_⟩
  · rw [ContainsKey_sim hT' k fuel hf', hc', getT_eq_lookup hst hb', hlook]
    rfl
  · rw [Get_sim hT' k fuel hf', hc', getT_eq_lookup hst hb', hlook]
    rfl
  · have h1 := Tree.size_eq_length (fun _ k v => (k, v)) T
    have h2 := Tree.size_eq_length (fun _ k v => (k, v)) (removeT s.compare k T)
    have h3 := hsp.length_remove
    have h4 : 1 ≤ T.toList.length := by
      rw [hsp.eq]
      simp only [List.length_append]
      omega
    simp only [Tree.toList] at hrm h3 h4
    rw [hrm] at h2
    rw [Size, Size, hT'.size_eq, hT.size_eq, h2, h3, h1, hmid]
    omega
  · rw [Get_sim hT' k' fuel hf', Get_sim hT k' fuel hf, hc',
      getT_eq_lookup hst hb', getT_eq_lookup hst hb, hrm, hsp.lookup_other hk']

/-- C7: on every reachable map (any ordering predicate) in which the search finds the key
`k`, `Insert k v` only writes `v` into the value field of the node holding `k`: the root,
the size, and every other field of every node stay as they were; and a second `Insert k v`
leaves the map exactly as the first one left it. -/
theorem C7_insert_existing_key_overwrites_value_only [DecidableEq K] [Inhabited K]
    [Inhabited V] {cmp : K → K → Bool} {ops : List (Op K V)}
    {s : RBTreeMap K V} (hr : Reach cmp ops s) (k : K) (v : V) (fuel : Nat)
    (hf : s.next ≤ fuel) (hk : ContainsKey fuel k s = .ok true) :
    ∃ a, a ≠ s.sentinel ∧ s.getKey a = .ok k ∧
      Insert fuel k v s = .ok { s with mem := upd s.mem a { s.mem a with value := v } } ∧
      Insert fuel k v { s with mem := upd s.mem a { s.mem a with value := v } } =
        .ok { s with mem := upd s.mem a { s.mem a with value := v } } := by
  obtain ⟨T, hT, -⟩ := hr.inv
  rw [ContainsKey_sim hT k fuel hf] at hk
  unfold getT at hk
  rcases hd : descend s.compare k [] T with ⟨C, t⟩
  rw [hd] at hk
  cases t with
  | nil => simp at hk
  | node a c l k0 v0 r =>
    obtain ⟨e, ha0, has, hak, -⟩ := Insert_present hT k v fuel hf hd
    refine ⟨a, has, by simp [RBTreeMap.getKey, ha0, hak], e, ?_⟩
    obtain ⟨s', e', hT', -, -, -⟩ := Insert_inv hT k v fuel hf
    rw [e] at e'
    cases e'
    have hins : insertT s.compare k v s.next T = plug C (.node a c l k0 v r) := by
      simp only [insertT, hd]
    rw [hins] at hT'
    have hd' := descend_setValue s.compare k T v hd
    obtain ⟨e2, -, -, -, hv⟩ := Insert_present hT' k v fuel hf hd'
    have hu := upd_value_self _ a v hv
    rw [e2, hu]

/-- C8: on every reachable map (any ordering predicate), `Remove` of a key that is not
stored (`ContainsKey` is false, or the key is not among those a full `InOrder` traversal
yields) completes and returns the map unchanged in every field. -/
theorem C8_remove_absent_key_is_noop [DecidableEq K] [Inhabited K] [Inhabited V]
    {cmp : K → K → Bool} {ops : List (Op K V)} {s : RBTreeMap K V}
    (hr : Reach cmp ops s) (k : K) (fuel : Nat) (hf : s.next ≤ fuel)
    (hk : ContainsKey fuel k s = .ok false ∨
      ∃ l, InOrderAll fuel s = .ok l ∧ k ∉ l.map Prod.fst) :
    Remove fuel k s = .ok s := by
  obtain ⟨T, hT, -⟩ := hr.inv
  refine Remove_absent hT k fuel hf ?_
  rcases hd : descend s.compare k [] T with ⟨C, t⟩
  cases t with
  | nil => rfl
  | node a c l k0 v0 r =>
    exfalso
    rcases hk with hk | ⟨l', hl, hk⟩
    · rw [ContainsKey_sim hT k fuel hf] at hk
      unfold getT at hk
      rw [hd] at hk
      simp at hk
    · rw [InOrderAll_sim hT fuel hf] at hl
      cases hl
      exact hk (descend_mem_keys s.compare k T hd)

/-- C9: on every reachable map with a strict total order, `LowerBound q` completes; it
returns the first pair of the ascending traversal whose key is not ordered before `q`, which
is the smallest such stored key with its value, and `found = false` with zero key and value
exactly when every stored key is ordered before `q` (so on the empty map). -/
theorem C9_lower_bound_least_key_not_before [DecidableEq K] [Inhabited K] [Inhabited V]
    {cmp : K → K → Bool} (hst : StrictTotal cmp) {ops : List (Op K V)} {s : RBTreeMap K V}
    (hr : Reach cmp ops s) (q : K) (fuel : Nat) (hf : s.next ≤ fuel) :
    ∃ l res, InOrderAll fuel s = .ok l ∧ LowerBound fuel q s = .ok res ∧
      res = pairOut (l.find? (fun p => !cmp p.1 q)) ∧
      (res.2.2 = true → (res.1, res.2.1) ∈ l ∧ cmp res.1 q = false ∧
        ∀ p ∈ l, cmp p.1 q = false → p.1 = res.1 ∨ cmp res.1 p.1 = true) ∧
      (res.2.2 = false → res.1 = default ∧ res.2.1 = default) ∧
      (res.2.2 = false ↔ ∀ p ∈ l, cmp p.1 q = true) := by
  obtain ⟨T, hT, rfl, hsorted, -⟩ := hr.model hst
  have hb : T.BST s.compare := Tree.bst_of_pairwise (by rw [Tree.keys_eq_map]; exact hsorted)
  have hfind := boundT_find s.compare (fun ck => !s.compare ck q)
    (fun x y hxy hy => by
      simp only [Bool.not_eq_false'] at hy ⊢
      exact hst.trans _ _ _ hxy hy) T none hb
  have hfirst := find_first s.compare (fun ck => !s.compare ck q) T.toList hsorted
  refine ⟨T.toList, _, InOrderAll_sim hT fuel hf, LowerBound_sim hT q fuel hf, ?_⟩
  rw [hfind]
  cases hfd : List.find? (fun p => !s.compare p.1 q) T.toList with
  | none =>
    rw [hfd] at hfirst
    simp only [Bool.not_eq_false'] at hfirst
    refine ⟨rfl, fun h => by simp [boundOut] at h, fun _ => ⟨rfl, rfl⟩, ?_⟩
    simp only [boundOut, true_iff]
    exact hfirst
  | some p =>
    rw [hfd] at hfirst
    simp only [Bool.not_eq_true'] at hfirst
    obtain ⟨h1, h2, h3⟩ := hfirst
    refine ⟨rfl, fun _ => ⟨h1, h2, h3⟩, fun h => by simp at h, ?_⟩
    simp only [Bool.true_eq_false, false_iff]
    intro hall
    rw [hall p h1] at h2
    cases h2

/-- C10: on every reachable map with a strict total order, `UpperBound q` completes; it
returns the first pair of the ascending traversal whose key is ordered after `q`, which is
the smallest stored key strictly greater than `q` with its value, and `found = false` with
zero key and value exactly when no stored key is ordered after `q` (so on the empty map, and
when `q` is the largest stored key). -/
theorem C10_upper_bound_least_key_after [DecidableEq K] [Inhabited K] [Inhabited V]
    {cmp : K → K → Bool} (hst : StrictTotal cmp) {ops : List (Op K V)} {s : RBTreeMap K V}
    (hr : Reach cmp ops s) (q : K) (fuel : Nat) (hf : s.next ≤ fuel) :
    ∃ l res, InOrderAll fuel s = .ok l ∧ UpperBound fuel q s = .ok res ∧
      res = pairOut (l.find? (fun p => cmp q p.1)) ∧
      (res.2.2 = true → (res.1, res.2.1) ∈ l ∧ cmp q res.1 = true ∧
        ∀ p ∈ l, cmp q p.1 = true → p.1 = res.1 ∨ cmp res.1 p.1 = true) ∧
      (res.2.2 = false → res.1 = default ∧ res.2.1 = default) ∧
      (res.2.2 = false ↔ ∀ p ∈ l, cmp q p.1 = false) := by
  obtain ⟨T, hT, rfl, hsorted, -⟩ := hr.model hst
  have hb : T.BST s.compare := Tree.bst_of_pairwise (by rw [Tree.keys_eq_map]; exact hsorted)
  have hfind := boundT_find s.compare (fun ck => s.compare q ck)
    (fun x y hxy (hy : s.compare q y = false) => show s.compare q x = false from by
      cases hx : s.compare q x
      · rfl
      · rw [hst.trans _ _ _ hx hxy] at hy; cases hy) T none hb
  have hfirst := find_first s.compare (fun ck => s.compare q ck) T.toList hsorted
  refine ⟨T.toList, _, InOrderAll_sim hT fuel hf, UpperBound_sim hT q fuel hf, ?_⟩
  rw [hfind]
  cases hfd : List.find? (fun p => s.compare q p.1) T.toList with
  | none =>
    rw [hfd] at hfirst
    refine ⟨rfl, fun h => by simp [boundOut] at h, fun _ => ⟨rfl, rfl⟩, ?_⟩
    simp only [boundOut, true_iff]
    exact hfirst
  | some p =>
    rw [hfd] at hfirst
    simp only at hfirst
    obtain ⟨h1, h2, h3⟩ := hfirst
    refine ⟨rfl, fun _ => ⟨h1, h2, h3⟩, fun h => by simp at h, ?_⟩
    simp only [Bool.true_eq_false, false_iff]
    intro hall
    rw [hall p h1] at h2
    cases h2

theorem insertedMap_reach : Reach less scenarioInserts insertedMap :=
  Reach.of_run 32 _ (Res.eq_ok_getD _ (by decide!))

theorem scenarioMap_reach : Reach less (scenarioInserts ++ scenarioRemoves) scenarioMap :=
  Reach.of_run 32 _ (Res.eq_ok_getD _ (by decide!))

theorem boundsMap_reach : Reach less boundsOps boundsMap :=
  Reach.of_run 16 _ (Res.eq_ok_getD _ (by decide!))

theorem insertedMap_next : insertedMap.next ≤ 32 := by decide!

theorem scenarioMap_next : scenarioMap.next ≤ 32 := by decide!

theorem boundsMap_next : boundsMap.next ≤ 16 := by decide!

/-- Witness of C1 on the map of the combined scenario. -/
theorem C1_witness :
    RepTree scenarioMap (toTree scenarioMap.mem scenarioMap.sentinel 32 scenarioMap.root) ∧
    (toTree scenarioMap.mem scenarioMap.sentinel 32 scenarioMap.root).BST less ∧
    InOrderAll 32 scenarioMap =
      .ok (toTree scenarioMap.mem scenarioMap.sentinel 32 scenarioMap.root).toList ∧
    ((toTree scenarioMap.mem scenarioMap.sentinel 32 scenarioMap.root).toList.map
      Prod.fst).Pairwise (fun a b => less a b = true) :=
  C1_bst_order_and_ascending_traversal less_strictTotal scenarioMap_reach 32 scenarioMap_next

/-- Witness of C2 on the map of the combined scenario. -/
theorem C2_witness :
    RepTree scenarioMap (toTree scenarioMap.mem scenarioMap.sentinel 32 scenarioMap.root) ∧
    scenarioMap.getColor scenarioMap.root = .ok BLACK ∧
    scenarioMap.getColor scenarioMap.sentinel = .ok BLACK ∧
    (toTree scenarioMap.mem scenarioMap.sentinel 32 scenarioMap.root).NoRR ∧
    ∀ u ∈ (toTree scenarioMap.mem scenarioMap.sentinel 32 scenarioMap.root).subtrees,
      ∀ m ∈ u.pathBlacks, ∀ n ∈ u.pathBlacks, m = n :=
  C2_red_black_colouring scenarioMap_reach 32 scenarioMap_next

/-- Witness of C3 on the map of the combined scenario, which holds ten keys. -/
theorem C3_witness :
    (Size scenarioMap =
      ((toTree scenarioMap.mem scenarioMap.sentinel 32 scenarioMap.root).size : Int) ∧
    ∃ l, InOrderAll 32 scenarioMap = .ok l ∧ Size scenarioMap = (l.length : Int) ∧
      Size scenarioMap = ((refKeys (scenarioInserts ++ scenarioRemoves)).card : Int)) ∧
    Size scenarioMap = 10 :=
  ⟨C3_size_counts_nodes_traversal_reference less_strictTotal scenarioMap_reach 32
    scenarioMap_next, by decide!⟩

/-- Witness of C4: the combined scenario, after the insertions and after the removals. -/
theorem C4_witness :
    (∃ l, InOrderAll 32 insertedMap = .ok l ∧
      l.map Prod.fst = (refKeys scenarioInserts).sort (fun a b => a ≤ b)) ∧
    InOrderAll 32 insertedMap =
      .ok ([5, 10, 15, 20, 30, 40, 50, 55, 60, 65, 70, 80, 85, 90].map (fun k => (k, true))) ∧
    (∃ l, InOrderAll 32 scenarioMap = .ok l ∧
      l.map Prod.fst = (refKeys (scenarioInserts ++ scenarioRemoves)).sort (fun a b => a ≤ b)) ∧
    InOrderAll 32 scenarioMap =
      .ok ([15, 20, 30, 40, 55, 60, 65, 70, 80, 90].map (fun k => (k, true))) :=
  ⟨C4_traversal_is_sorted_reference insertedMap_reach 32 insertedMap_next, by decide!,
    C4_traversal_is_sorted_reference scenarioMap_reach 32 scenarioMap_next, by decide!⟩

/-- Witness of C5: inserting the new key 35 into the map of the combined scenario. -/
theorem C5_witness :
    ∃ s', Insert 32 35 false scenarioMap = .ok s' ∧
      ∀ f, s'.next ≤ f →
        Get f 35 s' = .ok (false, true) ∧
        ∀ k', k' ≠ 35 → Get f k' s' = Get f k' scenarioMap :=
  C5_insert_is_map_update less_strictTotal scenarioMap_reach 35 false 32 scenarioMap_next

/-- Witness of C6: removing the stored key 40 from the map of the combined scenario. -/
theorem C6_witness :
    ∃ s', Remove 32 40 scenarioMap = .ok s' ∧ ContainsKey 32 40 s' = .ok false ∧
      Get 32 40 s' = .ok (default, false) ∧ Size s' = Size scenarioMap - 1 ∧
      ∀ k', k' ≠ 40 → Get 32 k' s' = Get 32 k' scenarioMap :=
  C6_remove_deletes_exactly_one_key less_strictTotal scenarioMap_reach 40 32 scenarioMap_next
    (by decide!)

/-- Witness of C7: inserting the stored key 40 with a new value into the map of the combined
scenario. -/
theorem C7_witness :
    ∃ a, a ≠ scenarioMap.sentinel ∧ scenarioMap.getKey a = .ok 40 ∧
      Insert 32 40 false scenarioMap =
        .ok { scenarioMap with
          mem := upd scenarioMap.mem a { scenarioMap.mem a with value := false } } ∧
      Insert 32 40 false { scenarioMap with
          mem := upd scenarioMap.mem a { scenarioMap.mem a with value := false } } =
        .ok { scenarioMap with
          mem := upd scenarioMap.mem a { scenarioMap.mem a with value := false } } :=
  C7_insert_existing_key_overwrites_value_only scenarioMap_reach 40 false 32
    scenarioMap_next (by decide!)

/-- Witness of C8: removing the key 50, which the scenario has removed already. -/
theorem C8_witness : Remove 32 50 scenarioMap = .ok scenarioMap :=
  C8_remove_absent_key_is_noop scenarioMap_reach 50 32 scenarioMap_next (Or.inl (by decide!))

/-- Witness of C9: the bounds scenario, `LowerBound 35` and `LowerBound 60`. -/
theorem C9_witness :
    (∃ l res, InOrderAll 16 boundsMap = .ok l ∧ LowerBound 16 35 boundsMap = .ok res ∧
      res = pairOut (l.find? (fun p => !less p.1 35)) ∧
      (res.2.2 = true → (res.1, res.2.1) ∈ l ∧ less res.1 35 = false ∧
        ∀ p ∈ l, less p.1 35 = false → p.1 = res.1 ∨ less res.1 p.1 = true) ∧
      (res.2.2 = false → res.1 = default ∧ res.2.1 = default) ∧
      (res.2.2 = false ↔ ∀ p ∈ l, less p.1 35 = true)) ∧
    LowerBound 16 35 boundsMap = .ok (50, true, true) ∧
    LowerBound 16 60 boundsMap = .ok (60, true, true) ∧
    LowerBound 16 61 boundsMap = .ok (0, false, false) :=
  ⟨C9_lower_bound_least_key_not_before less_strictTotal boundsMap_reach 35 16 boundsMap_next,
    by decide!, by decide!, by decide!⟩

/-- Witness of C10: the bounds scenario, `UpperBound 35` and `UpperBound 60`. -/
theorem C10_witness :
    (∃ l res, InOrderAll 16 boundsMap = .ok l ∧ UpperBound 16 60 boundsMap = .ok res ∧
      res = pairOut (l.find? (fun p => less 60 p.1)) ∧
      (res.2.2 = true → (res.1, res.2.1) ∈ l ∧ less 60 res.1 = true ∧
        ∀ p ∈ l, less 60 p.1 = true → p.1 = res.1 ∨ less res.1 p.1 = true) ∧
      (res.2.2 = false → res.1 = default ∧ res.2.1 = default) ∧
      (res.2.2 = false ↔ ∀ p ∈ l, less 60 p.1 = false)) ∧
    UpperBound 16 35 boundsMap = .ok (50, true, true) ∧
    UpperBound 16 60 boundsMap = .ok (0, false, false) :=
  ⟨C10_upper_bound_least_key_after less_strictTotal boundsMap_reach 60 16 boundsMap_next,
    by decide!, by decide!⟩

/-- In a listing without repeated keys a key is paired with one value only. -/
theorem mem_unique_of_nodup_keys {l : List (K × V)} (h : (l.map Prod.fst).Nodup) {k : K}
    {v w : V} (hv : (k, v) ∈ l) (hw : (k, w) ∈ l) : v = w := by
  induction l with
  | nil => cases hv
  | cons p rest ih =>
    simp only [List.map_cons, List.nodup_cons, List.mem_map, not_exists, not_and] at h
    rcases List.mem_cons.1 hv with e1 | m1
    · rcases List.mem_cons.1 hw with e2 | m2
      · rw [← e1] at e2; cases e2; rfl
      · subst e1; exact absurd rfl (h.1 (k, w) m2)
    · rcases List.mem_cons.1 hw with e2 | m2
      · subst e2; exact absurd rfl (h.1 (k, v) m1)
      · exact ih h.2 m1 m2

theorem lookupL_of_mem [DecidableEq K] {l : List (K × V)} (h : (l.map Prod.fst).Nodup) {k : K}
    {v : V} (hv : (k, v) ∈ l) : lookupL k l = some v := by
  have hs := (lookupL_isSome k l).2 (List.mem_map.2 ⟨(k, v), hv, rfl⟩)
  cases hl : lookupL k l with
  | none => rw [hl] at hs; cases hs
  | some w => rw [mem_unique_of_nodup_keys h hv (lookupL_mem k w l hl)]

theorem refKeys_insertAll [DecidableEq K] (kvs : List (K × V)) (S : Finset K) :
    (insertAll kvs).foldl refStep S = S ∪ (kvs.map Prod.fst).toFinset := by
  induction kvs generalizing S with
  | nil => simp [insertAll]
  | cons p rest ih =>
    simp only [insertAll, List.map_cons, List.foldl_cons, refStep] at ih ⊢
    rw [ih]
    ext x
    simp only [Finset.mem_union, Finset.mem_insert, List.toFinset_cons]
    tauto

theorem refKeys_removeAll [DecidableEq K] (ks : List K) (S : Finset K) :
    (removeAll ks : List (Op K V)).foldl refStep S = S \ ks.toFinset := by
  induction ks generalizing S with
  | nil => simp [removeAll]
  | cons k rest ih =>
    simp only [removeAll, List.map_cons, List.foldl_cons, refStep] at ih ⊢
    rw [ih]
    ext x
    simp only [Finset.mem_sdiff, Finset.mem_erase, List.toFinset_cons, Finset.mem_insert,
      List.mem_toFinset]
    tauto

theorem refKeys_insert_remove [DecidableEq K] (kvs : List (K × V)) (ks : List K) :
    refKeys (insertAll kvs ++ removeAll ks) = (kvs.map Prod.fst).toFinset \ ks.toFinset := by
  rw [refKeys, List.foldl_append, refKeys_insertAll, refKeys_removeAll]
  simp

/-- Every list of calls can be run: it reaches some map. -/
theorem Reach.exists_run [DecidableEq K] [Inhabited K] [Inhabited V] (cmp : K → K → Bool)
    (ops : List (Op K V)) : ∃ s, Reach cmp ops s := by
  induction ops using List.reverseRecOn with
  | nil => exact ⟨_, Reach.new⟩
  | append_singleton ops op ih =>
    obtain ⟨s, hs⟩ := ih
    obtain ⟨s', -, hs'⟩ := hs.next_ok op s.next (Nat.le_refl _)
    exact ⟨s', hs'⟩

/-- C11: on every reachable map with a strict total order (the default `less` is one) and
for every key `k`, `Get k` completes; its flag is true exactly when `k` is among the keys a
full `InOrder` traversal yields, the value is then the one paired with `k` there, otherwise
it is the zero value; and `ContainsKey k` returns the flag of `Get k`. -/
theorem C11_get_reports_exactly_the_stored_keys [DecidableEq K] [Inhabited K] [Inhabited V]
    {cmp : K → K → Bool} (hst : StrictTotal cmp) {ops : List (Op K V)} {s : RBTreeMap K V}
    (hr : Reach cmp ops s) (k : K) (fuel : Nat) (hf : s.next ≤ fuel) :
    ∃ l res, InOrderAll fuel s = .ok l ∧ Get fuel k s = .ok res ∧
      ContainsKey fuel k s = .ok res.2 ∧
      (res.2 = true ↔ k ∈ l.map Prod.fst) ∧
      (res.2 = true → (k, res.1) ∈ l ∧ ∀ v, (k, v) ∈ l → v = res.1) ∧
      (res.2 = false → res.1 = default) := by
  obtain ⟨T, hT, rfl, hsorted, -⟩ := hr.model hst
  have hb : T.BST s.compare := Tree.bst_of_pairwise (by rw [Tree.keys_eq_map]; exact hsorted)
  have hnd := pairwise_nodup hst hsorted
  refine ⟨T.toList, _, InOrderAll_sim hT fuel hf, Get_sim hT k fuel hf,
    ContainsKey_sim hT k fuel hf, ?_⟩
  rw [getT_eq_lookup hst hb]
  have hsome := lookupL_isSome k T.toList
  cases hl : lookupL k T.toList with
  | none =>
    rw [hl] at hsome
    simp only [Option.isSome_none, Bool.false_eq_true, false_iff] at hsome
    exact ⟨by simp [optOut, hsome], fun h => by simp [optOut] at h, fun _ => rfl⟩
  | some v =>
    rw [hl] at hsome
    simp only [Option.isSome_some, true_iff] at hsome
    have hv := lookupL_mem k v T.toList hl
    exact ⟨by simp [optOut, hsome], fun _ => ⟨hv, fun w hw => mem_unique_of_nodup_keys hnd hw hv⟩,
      fun h => by simp [optOut] at h⟩

/-- C12: after the pairs of any list have been inserted into a fresh map with a strict total
order and then every inserted key has been removed, in any order, the run completes, `Size`
is 0 and `InOrder` yields no pair; when the inserted keys are distinct and `rem` lists them
in some order, `Size` is the number of keys less the number of removals made so far, so it
drops by exactly one at each removal. -/
theorem C12_insert_then_remove_all_leaves_empty [DecidableEq K] [Inhabited K] [Inhabited V]
    {cmp : K → K → Bool} (hst : StrictTotal cmp) (kvs : List (K × V)) (rem : List K)
    (hall : ∀ p ∈ kvs, p.1 ∈ rem) :
    (∃ s, Reach cmp (insertAll kvs ++ removeAll rem) s) ∧
    (∀ s, Reach cmp (insertAll kvs ++ removeAll rem) s →
      Size s = 0 ∧ ∀ fuel, s.next ≤ fuel → InOrderAll fuel s = .ok []) ∧
    ((kvs.map Prod.fst).Nodup → rem.Perm (kvs.map Prod.fst) →
      ∀ i, i ≤ rem.length → ∀ s, Reach cmp (insertAll kvs ++ removeAll (rem.take i)) s →
        Size s = (kvs.length : Int) - (i : Int)) := by
  refine ⟨Reach.exists_run cmp _, ?_, ?_⟩
  · intro s hr
    obtain ⟨T, hT, -, hsorted, hS⟩ := hr.model hst
    have hempty : refKeys (insertAll kvs ++ removeAll rem) = ∅ := by
      rw [refKeys_insert_remove]
      ext x
      simp only [Finset.mem_sdiff, List.mem_toFinset, List.mem_map, Finset.not_mem_empty,
        iff_false, not_and, not_not]
      rintro ⟨p, hp, rfl⟩
      exact hall p hp
    have hnil : T.toList = [] := by
      cases hl : T.toList with
      | nil => rfl
      | cons p rest =>
        have := (hS p.1).1 (by rw [hl]; simp)
        rw [hempty] at this
        cases this
    have hsize : T.size = 0 := by
      rw [Tree.size_eq_length (fun _ k v => (k, v)) T]
      exact congrArg List.length hnil
    refine ⟨by rw [Size, hT.size_eq, hsize]; rfl, fun fuel hf => ?_⟩
    rw [InOrderAll_sim hT fuel hf, hnil]
  · intro hnd hperm i hi s hr
    obtain ⟨T, hT, -, hsorted, hS⟩ := hr.model hst
    have hnd' : rem.Nodup := hperm.nodup_iff.2 hnd
    have hset : refKeys (insertAll kvs ++ removeAll (rem.take i)) =
        (T.toList.map Prod.fst).toFinset := by
      ext x
      rw [List.mem_toFinset, hS]
    have hcard : (refKeys (insertAll kvs ++ removeAll (rem.take i))).card + i = kvs.length := by
      rw [refKeys_insert_remove, ← List.toFinset_eq_of_perm _ _ hperm]
      have hsub : (rem.take i).toFinset ⊆ rem.toFinset := by
        intro x hx
        rw [List.mem_toFinset] at hx ⊢
        exact List.mem_of_mem_take hx
      rw [Finset.card_sdiff hsub, List.toFinset_card_of_nodup hnd',
        List.toFinset_card_of_nodup (hnd'.sublist (List.take_sublist i rem)),
        List.length_take, hperm.length_eq, List.length_map]
      have := hperm.length_eq
      rw [List.length_map] at this
      omega
    have hlen := Tree.size_eq_length (fun _ k v => (k, v)) T
    rw [hset, List.toFinset_card_of_nodup (pairwise_nodup hst hsorted), List.length_map] at hcard
    rw [Size, hT.size_eq, hlen]
    simp only [Tree.toList] at hcard
    omega

theorem Tree.pow_bh_le_size : ∀ {t : Tree K V}, t.Bal → 2 ^ t.bh ≤ t.size + 1
  | .nil, _ => by simp
  | .node a c l k v r, h => by
    obtain ⟨hl, hr, hlr⟩ := h
    have h1 := Tree.pow_bh_le_size hl
    have h2 := Tree.pow_bh_le_size hr
    rw [← hlr] at h2
    simp only [Tree.bh_node, Tree.size_node]
    by_cases hc : c = BLACK
    · simp only [hc, if_true, pow_succ]
      omega
    · simp only [hc, if_false, Nat.add_zero]
      omega

theorem Tree.height_le_bh : ∀ {t : Tree K V}, t.NoRR → t.Bal →
    t.height ≤ 2 * t.bh + (if t.rootColor = RED then 1 else 0)
  | .nil, _, _ => by simp
  | .node a c l k v r, hn, hb => by
    obtain ⟨hl, hr, hlr⟩ := hb
    obtain ⟨hc, hnl, hnr⟩ := hn
    have h1 := Tree.height_le_bh hnl hl
    have h2 := Tree.height_le_bh hnr hr
    rw [← hlr] at h2
    simp only [Tree.height_node, Tree.bh_node, Tree.rootColor_node]
    cases c with
    | BLACK =>
      simp only [if_true, reduceCtorEq, if_false]
      split at h1 <;> split at h2 <;> omega
    | RED =>
      obtain ⟨c1, c2⟩ := hc rfl
      simp only [c1, c2, reduceCtorEq, if_false, Nat.add_zero] at h1 h2
      simp only [reduceCtorEq, if_false, if_true]
      omega

/-- A red-black tree of height `h` with `n` nodes has `2 ^ (h / 2) ≤ n + 1`. -/
theorem Tree.height_log {t : Tree K V} (h : t.RBInv) :
    t.height ≤ 2 * Nat.log 2 (t.size + 1) ∧ 2 ^ (t.height / 2) ≤ t.size + 1 ∧
      2 ^ t.height ≤ (t.size + 1) ^ 2 := by
  obtain ⟨hc, hn, hb⟩ := h
  have h1 := Tree.height_le_bh hn hb
  simp only [hc, reduceCtorEq, if_false, Nat.add_zero] at h1
  have h2 := Tree.pow_bh_le_size hb
  have h3 : t.bh ≤ Nat.log 2 (t.size + 1) :=
    (Nat.pow_le_iff_le_log (by decide) (by omega)).1 h2
  refine ⟨by omega, ?_, ?_⟩
  · exact Nat.le_trans (Nat.pow_le_pow_right (by decide) (by omega)) h2
  · calc 2 ^ t.height ≤ 2 ^ (2 * t.bh) := Nat.pow_le_pow_right (by decide) h1
      _ = (2 ^ t.bh) ^ 2 := by rw [Nat.mul_comm, pow_mul]
      _ ≤ (t.size + 1) ^ 2 := Nat.pow_le_pow_left h2 2

/-- C14: on every map reachable by `Insert` and `Remove` calls from a fresh map (any ordering
predicate, so in particular from `New`), the height `h` of the stored tree and the number `n`
of stored keys, which is `Size`, satisfy `h ≤ 2 * log2 (n + 1)` and `2 ^ (h / 2) ≤ n + 1`
(and, without rounding, `2 ^ h ≤ (n + 1) ^ 2`). -/
theorem C14_height_is_logarithmic [DecidableEq K] [Inhabited K] [Inhabited V]
    {cmp : K → K → Bool} {ops : List (Op K V)} {s : RBTreeMap K V}
    (hr : Reach cmp ops s) (fuel : Nat) (hf : s.next ≤ fuel) :
    Size s = ((toTree s.mem s.sentinel fuel s.root).size : Int) ∧
    (toTree s.mem s.sentinel fuel s.root).height ≤
      2 * Nat.log 2 ((toTree s.mem s.sentinel fuel s.root).size + 1) ∧
    2 ^ ((toTree s.mem s.sentinel fuel s.root).height / 2) ≤
      (toTree s.mem s.sentinel fuel s.root).size + 1 ∧
    2 ^ (toTree s.mem s.sentinel fuel s.root).height ≤
      ((toTree s.mem s.sentinel fuel s.root).size + 1) ^ 2 := by
  obtain ⟨T, hT, -⟩ := hr.inv
  rw [hT.read_back fuel hf]
  exact ⟨hT.size_eq, Tree.height_log hT.rb⟩

theorem feed_stopAfter (n : Nat) : ∀ (l acc : List (K × V)), acc.length < n →
    feed (stopAfter n) acc l = acc ++ l.take (n - acc.length)
  | [], acc, _ => by simp [feed]
  | p :: rest, acc, h => by
    obtain ⟨k, v⟩ := p
    obtain ⟨m, hm⟩ : ∃ m, n - acc.length = m + 1 := ⟨n - acc.length - 1, by omega⟩
    rw [hm, List.take_succ_cons]
    by_cases hlt : acc.length + 1 < n
    · simp only [feed, stopAfter, hlt, decide_True, if_true]
      rw [feed_stopAfter n rest (acc ++ [(k, v)]) (by simpa using hlt)]
      simp only [List.length_append, List.length_singleton, List.append_assoc,
        List.singleton_append]
      rw [show n - (acc.length + 1) = m from by omega]
    · simp only [feed, stopAfter, hlt, decide_False, Bool.false_eq_true, if_false]
      rw [show m = 0 from by omega, List.take_zero]

/-- A node listed for a represented tree is stored with its key and value. -/
theorem Rep.node_fields {m : Nat → Node K V} {sent : Nat} :
    ∀ {t : Tree K V} {par : Nat}, Rep m sent par t → ∀ {a : Nat} {k : K} {v : V},
      (a, k, v) ∈ t.nodes → (m a).key = k ∧ (m a).value = v
  | .nil, _, _, _, _, _, hm => by simp [Tree.nodes] at hm
  | .node a0 c l k0 v0 r, par, h, a, k, v, hm => by
    have hl := h.left
    have hr := h.right
    simp only [Rep] at h
    simp only [Tree.nodes, Tree.flat_node, List.mem_append, List.mem_cons] at hm
    rcases hm with hm | hm | hm
    · exact Rep.node_fields hl hm
    · cases hm
      exact ⟨h.2.2.1, h.2.2.2.1⟩
    · exact Rep.node_fields hr hm

theorem Tree.mem_addrs_iff (t : Tree K V) (a : Nat) :
    a ∈ t.addrs ↔ ∃ k v, (a, k, v) ∈ t.nodes := by
  induction t with
  | nil => simp [Tree.nodes]
  | node a0 c l k0 v0 r ihl ihr =>
    simp only [Tree.addrs, Tree.nodes, Tree.flat_node, List.mem_append, List.mem_cons] at ihl ihr ⊢
    rw [ihl, ihr]
    constructor
    · rintro (⟨k, v, h⟩ | rfl | ⟨k, v, h⟩)
      · exact ⟨k, v, Or.inl h⟩
      · exact ⟨k0, v0, Or.inr (Or.inl rfl)⟩
      · exact ⟨k, v, Or.inr (Or.inr h)⟩
    · rintro ⟨k, v, h | h | h⟩
      · exact Or.inl ⟨k, v, h⟩
      · cases h; exact Or.inr (Or.inl rfl)
      · exact Or.inr (Or.inr ⟨k, v, h⟩)

theorem Tree.addrs_eq_map (t : Tree K V) : t.addrs = t.nodes.map (fun p => p.1) := by
  induction t with
  | nil => rfl
  | node a c l k v r ihl ihr =>
    simp only [Tree.addrs, Tree.nodes, Tree.flat_node, List.map_append, List.map_cons] at ihl ihr ⊢
    rw [ihl, ihr]

theorem Tree.toList_eq_map (t : Tree K V) : t.toList = t.nodes.map (fun p => p.2) := by
  induction t with
  | nil => rfl
  | node a c l k v r ihl ihr =>
    simp only [Tree.toList, Tree.nodes, Tree.flat_node, List.map_append, List.map_cons] at ihl ihr ⊢
    rw [ihl, ihr]

/-- C15: on every reachable map, whatever the ordering predicate, `Insert k v` completes;
when `k` differs from every stored key it adds exactly one node, at a fresh address and
holding `(k, v)`, and `Size` grows by exactly one; and in every case each node of the tree
keeps its key, and keeps its value unless its key equals `k`. -/
theorem C15_insert_detects_duplicates_by_native_equality [DecidableEq K] [Inhabited K]
    [Inhabited V] {cmp : K → K → Bool} {ops : List (Op K V)} {s : RBTreeMap K V}
    (hr : Reach cmp ops s) (k : K) (v : V) (fuel : Nat) (hf : s.next ≤ fuel) :
    ∃ l s', InOrderAll fuel s = .ok l ∧ Insert fuel k v s = .ok s' ∧
      (k ∉ l.map Prod.fst →
        Size s' = Size s + 1 ∧
        s.next ∉ (toTree s.mem s.sentinel fuel s.root).addrs ∧
        s'.getKey s.next = .ok k ∧ s'.getValue s.next = .ok v ∧
        ∀ f, s'.next ≤ f →
          (toTree s'.mem s'.sentinel f s'.root).addrs.Perm
            (s.next :: (toTree s.mem s.sentinel fuel s.root).addrs) ∧
          ∃ l', InOrderAll f s' = .ok l' ∧ l'.Perm ((k, v) :: l)) ∧
      (∀ a ∈ (toTree s.mem s.sentinel fuel s.root).addrs,
        (s'.mem a).key = (s.mem a).key ∧
        ((s'.mem a).value ≠ (s.mem a).value → (s.mem a).key = k)) := by
  obtain ⟨T, hT, -⟩ := hr.inv
  obtain ⟨s', e, hT', -, -, hn⟩ := Insert_inv hT k v fuel hf
  rw [hT.read_back fuel hf]
  have hfl := insertT_flat (fun a k v => (a, k, v)) s.compare k v s.next T
  have hT0 := descend_flat (fun a k v => (a, k, v)) s.compare k T
  have hrep := hT.shape.rep.2
  have hrep' := hT'.shape.rep.2
  refine ⟨T.toList, s', InOrderAll_sim hT fuel hf, e, ?_, ?_⟩
  · intro hk
    rcases hd : descend s.compare k [] T with ⟨C, t⟩
    rw [hd] at hfl hT0
    cases t with
    | node a c l k1 v1 r => exact absurd (descend_mem_keys s.compare k T hd) hk
    | nil =>
      simp only [Tree.flat_nil, List.append_nil] at hfl hT0
      have hnew : (s.next, k, v) ∈ (insertT s.compare k v s.next T).nodes := by
        rw [Tree.nodes, hfl]; simp
      have hf1 := Rep.node_fields hrep' hnew
      have h0 : s.next ≠ 0 := Nat.not_eq_zero_of_lt hT.sent_lt
      refine ⟨?_, fun hx => Nat.lt_irrefl _ (hT.lt_next _ hx), by
        simp [RBTreeMap.getKey, h0, hf1.1], by simp [RBTreeMap.getValue, h0, hf1.2],
        fun f hf' => ⟨?_, _, InOrderAll_sim hT' f hf', ?_⟩⟩
      · have h1 := Tree.size_eq_length (fun a k v => (a, k, v)) T
        have h2 := Tree.size_eq_length (fun a k v => (a, k, v))
          (insertT s.compare k v s.next T)
        rw [hfl] at h2
        rw [hT0] at h1
        simp only [List.length_append, List.length_cons] at h1 h2
        rw [Size, Size, hT'.size_eq, hT.size_eq]
        omega
      · rw [hT'.read_back f hf', Tree.addrs_eq_map, Tree.addrs_eq_map, Tree.nodes, Tree.nodes,
          hfl, hT0]
        simp only [List.map_append, List.map_cons]
        exact List.perm_middle
      · rw [Tree.toList_eq_map, Tree.toList_eq_map, Tree.nodes, Tree.nodes, hfl, hT0]
        simp only [List.map_append, List.map_cons]
        exact List.perm_middle
  · intro a ha
    obtain ⟨k0, v0, hm⟩ := (Tree.mem_addrs_iff T a).1 ha
    have h1 := Rep.node_fields hrep hm
    rcases hd : descend s.compare k [] T with ⟨C, t⟩
    rw [hd] at hfl hT0
    cases t with
    | nil =>
      have hm' : (a, k0, v0) ∈ (insertT s.compare k v s.next T).nodes := by
        rw [Tree.nodes, hT0] at hm
        rw [Tree.nodes, hfl]
        simp only [Tree.flat_nil, List.append_nil, List.mem_append, List.mem_cons] at hm ⊢
        tauto
      have h2 := Rep.node_fields hrep' hm'
      rw [h1.1, h1.2, h2.1, h2.2]
      exact ⟨rfl, fun h => absurd rfl h⟩
    | node a1 c l k1 v1 r =>
      have hk1 := descend_key s.compare k [] T hd
      simp only at hfl hT0
      rw [Tree.nodes, hT0] at hm
      simp only [Tree.flat_node, List.mem_append, List.mem_cons] at hm
      by_cases hcase : (a, k0, v0) = (a1, k1, v1)
      · cases hcase
        have hm' : (a, k0, v) ∈ (insertT s.compare k v s.next T).nodes := by
          rw [Tree.nodes, hfl]
          simp
        have h2 := Rep.node_fields hrep' hm'
        rw [h1.1, h2.1]
        exact ⟨rfl, fun _ => hk1⟩
      · have hm' : (a, k0, v0) ∈ (insertT s.compare k v s.next T).nodes := by
          rw [Tree.nodes, hfl]
          simp only [List.mem_append, List.mem_cons]
          tauto
        have h2 := Rep.node_fields hrep' hm'
        rw [h1.1, h1.2, h2.1, h2.2]
        exact ⟨rfl, fun h => absurd rfl h⟩

theorem byTens_strictWeak : StrictWeak byTens where
  irrefl := fun a => by simp [byTens]
  trans := fun a b c h1 h2 => by
    simp only [byTens, decide_eq_true_eq] at h1 h2 ⊢
    exact lt_trans h1 h2
  incomp := fun a b c h1 h2 h3 h4 => by
    simp only [byTens, decide_eq_false_iff_not, not_lt] at h1 h2 h3 h4 ⊢
    exact ⟨le_trans h3 h1, le_trans h2 h4⟩

theorem strictTotal_strictWeak {cmp : K → K → Bool} (hst : StrictTotal cmp) :
    StrictWeak cmp where
  irrefl := hst.irrefl
  trans := hst.trans
  incomp := fun a b c h1 h2 h3 h4 => by
    by_cases hab : a = b
    · subst hab
      exact ⟨h3, h4⟩
    · rcases hst.total a b hab with h | h
      · rw [h1] at h; cases h
      · rw [h2] at h; cases h

theorem tripleMap_reach : Reach byTens tripleOps tripleMap :=
  Reach.of_run 8 _ (Res.eq_ok_getD _ (by decide!))

theorem tripleMap_next : tripleMap.next ≤ 8 := by decide!

/-- Under a strict total order the descent finds every stored key. -/
theorem descend_finds [DecidableEq K] [Inhabited V] {cmp : K → K → Bool}
    (hst : StrictTotal cmp) {T : Tree K V} (hb : T.BST cmp) {key : K}
    (hk : key ∈ T.toList.map Prod.fst) :
    ∃ C a c l k v r, descend cmp key [] T = (C, .node a c l k v r) := by
  have hg := getT_eq_lookup hst hb key
  have hs := (lookupL_isSome key T.toList).2 hk
  rcases hd : descend cmp key [] T with ⟨C, t⟩
  cases t with
  | node a c l k v r => exact ⟨C, a, c, l, k, v, r, rfl⟩
  | nil =>
    exfalso
    unfold getT at hg
    rw [hd] at hg
    cases hl : lookupL key T.toList with
    | none => rw [hl] at hs; cases hs
    | some w =>
      rw [hl] at hg
      simp [optOut] at hg

/-- Counterexample to C16 as stated: `byTens` is a strict weak order; after `Insert` of 1, 2
and 3 the key 1 is stored at the node 2, yet a further `Insert` of 1 allocates the node 5
for it, so that two nodes of the tree hold the key 1 and the traversal yields it twice. -/
theorem C16_counterexample :
    StrictWeak byTens ∧ Reach byTens tripleOps tripleMap ∧
    InOrderAll 8 tripleMap = .ok [(1, true), (2, true), (3, true)] ∧
    ∃ s', Insert 8 1 false tripleMap = .ok s' ∧
      s'.next = tripleMap.next + 1 ∧ Size s' = Size tripleMap + 1 ∧
      InOrderAll 8 s' = .ok [(1, true), (2, true), (3, true), (1, false)] ∧
      (toTree s'.mem s'.sentinel 8 s'.root).addrs = [2, 3, 4, 5] ∧
      s'.getKey 2 = .ok 1 ∧ s'.getKey 5 = .ok 1 :=
  ⟨byTens_strictWeak, tripleMap_reach, by decide!,
    (Insert 8 1 false tripleMap).getD tripleMap, Res.eq_ok_getD _ (by decide!),
    by decide!, by decide!, by decide!, by decide!, by decide!, by decide!⟩

/-- C16 (amended): on every map reachable with an ordering predicate that is a strict total
order (the default `less` is one), no two nodes of the tree hold equal keys and the traversal
yields no key twice; and `Insert k v` of a stored key completes without creating a node: the
allocation counter, `Size`, the root and the addresses of the nodes stay as they were. -/
theorem C16_stored_keys_unique_under_total_order [DecidableEq K] [Inhabited K] [Inhabited V]
    {cmp : K → K → Bool} (hst : StrictTotal cmp) {ops : List (Op K V)} {s : RBTreeMap K V}
    (hr : Reach cmp ops s) (fuel : Nat) (hf : s.next ≤ fuel) :
    ∃ l, InOrderAll fuel s = .ok l ∧ (l.map Prod.fst).Nodup ∧
      (∀ a ∈ (toTree s.mem s.sentinel fuel s.root).addrs,
        ∀ b ∈ (toTree s.mem s.sentinel fuel s.root).addrs,
          (s.mem a).key = (s.mem b).key → a = b) ∧
      ∀ k v, k ∈ l.map Prod.fst →
        ∃ s', Insert fuel k v s = .ok s' ∧ s'.next = s.next ∧ Size s' = Size s ∧
          s'.root = s.root ∧
          (toTree s'.mem s'.sentinel fuel s'.root).addrs =
            (toTree s.mem s.sentinel fuel s.root).addrs := by
  obtain ⟨T, hT, hc, hsorted, -⟩ := hr.model hst
  rw [← hc] at hst hsorted
  have hb : T.BST s.compare := Tree.bst_of_pairwise (by rw [Tree.keys_eq_map]; exact hsorted)
  have hnd := pairwise_nodup hst hsorted
  rw [hT.read_back fuel hf]
  refine ⟨T.toList, InOrderAll_sim hT fuel hf, hnd, ?_, ?_⟩
  · intro a ha b hb'
    obtain ⟨k1, v1, h1⟩ := (Tree.mem_addrs_iff T a).1 ha
    obtain ⟨k2, v2, h2⟩ := (Tree.mem_addrs_iff T b).1 hb'
    rw [(Rep.node_fields hT.shape.rep.2 h1).1, (Rep.node_fields hT.shape.rep.2 h2).1]
    intro e
    rw [Tree.toList_eq_map, List.map_map] at hnd
    have := List.inj_on_of_nodup_map hnd h1 h2 e
    exact congrArg Prod.fst this
  · intro k v hk
    obtain ⟨C, a, c, l, k0, v0, r, hd⟩ := descend_finds hst hb hk
    obtain ⟨e, -⟩ := Insert_present hT k v fuel hf hd
    obtain ⟨s', e', hT', -, -, -⟩ := Insert_inv hT k v fuel hf
    rw [e] at e'
    cases e'
    refine ⟨_, e, rfl, rfl, rfl, ?_⟩
    have hfl := insertT_flat (fun a _ _ => a) s.compare k v s.next T
    have hT0 := descend_flat (fun a _ _ => a) s.compare k T
    rw [hd] at hfl hT0
    have := hT'.read_back fuel hf
    simp only at this hfl hT0
    rw [this]
    show (insertT s.compare k v s.next T).flat _ = T.flat _
    rw [hfl, hT0]
    rfl

/-- Witness of C16 (amended) on the map of the combined scenario. -/
theorem C16_witness :
    ∃ l, InOrderAll 32 scenarioMap = .ok l ∧ (l.map Prod.fst).Nodup ∧
      (∀ a ∈ (toTree scenarioMap.mem scenarioMap.sentinel 32 scenarioMap.root).addrs,
        ∀ b ∈ (toTree scenarioMap.mem scenarioMap.sentinel 32 scenarioMap.root).addrs,
          (scenarioMap.mem a).key = (scenarioMap.mem b).key → a = b) ∧
      ∀ k v, k ∈ l.map Prod.fst →
        ∃ s', Insert 32 k v scenarioMap = .ok s' ∧ s'.next = scenarioMap.next ∧
          Size s' = Size scenarioMap ∧ s'.root = scenarioMap.root ∧
          (toTree s'.mem s'.sentinel 32 s'.root).addrs =
            (toTree scenarioMap.mem scenarioMap.sentinel 32 scenarioMap.root).addrs :=
  C16_stored_keys_unique_under_total_order less_strictTotal scenarioMap_reach 32
    scenarioMap_next

/-- Witness of C11: the stored key 40 and the map of the combined scenario. -/
theorem C11_witness :
    ∃ l res, InOrderAll 32 scenarioMap = .ok l ∧ Get 32 40 scenarioMap = .ok res ∧
      ContainsKey 32 40 scenarioMap = .ok res.2 ∧
      (res.2 = true ↔ (40 : Int) ∈ l.map Prod.fst) ∧
      (res.2 = true → (40, res.1) ∈ l ∧ ∀ v, ((40 : Int), v) ∈ l → v = res.1) ∧
      (res.2 = false → res.1 = default) :=
  C11_get_reports_exactly_the_stored_keys less_strictTotal scenarioMap_reach 40 32
    scenarioMap_next

/-- Witness of C12: the keys 3, 1, 2 are inserted and then removed in the order 1, 2, 3. -/
theorem C12_witness :
    (∃ s, Reach (less : Int → Int → Bool)
      (insertAll [(3, true), (1, false), (2, true)] ++ removeAll [1, 2, 3]) s) ∧
    (∀ s, Reach (less : Int → Int → Bool)
        (insertAll [(3, true), (1, false), (2, true)] ++ removeAll [1, 2, 3]) s →
      Size s = 0 ∧ ∀ fuel, s.next ≤ fuel → InOrderAll fuel s = .ok []) ∧
    ((([(3, true), (1, false), (2, true)] : List (Int × Bool)).map Prod.fst).Nodup →
      ([1, 2, 3] : List Int).Perm
        (([(3, true), (1, false), (2, true)] : List (Int × Bool)).map Prod.fst) →
      ∀ i, i ≤ ([1, 2, 3] : List Int).length → ∀ s, Reach (less : Int → Int → Bool)
          (insertAll [(3, true), (1, false), (2, true)] ++
            removeAll (([1, 2, 3] : List Int).take i)) s →
        Size s = (([(3, true), (1, false), (2, true)] : List (Int × Bool)).length : Int) -
          (i : Int)) :=
  C12_insert_then_remove_all_leaves_empty less_strictTotal
    [(3, true), (1, false), (2, true)] [1, 2, 3] (by decide)

/-- Witness of C14 on the map of the combined scenario. -/
theorem C14_witness :
    Size scenarioMap =
      ((toTree scenarioMap.mem scenarioMap.sentinel 32 scenarioMap.root).size : Int) ∧
    (toTree scenarioMap.mem scenarioMap.sentinel 32 scenarioMap.root).height ≤
      2 * Nat.log 2 ((toTree scenarioMap.mem scenarioMap.sentinel 32 scenarioMap.root).size + 1) ∧
    2 ^ ((toTree scenarioMap.mem scenarioMap.sentinel 32 scenarioMap.root).height / 2) ≤
      (toTree scenarioMap.mem scenarioMap.sentinel 32 scenarioMap.root).size + 1 ∧
    2 ^ (toTree scenarioMap.mem scenarioMap.sentinel 32 scenarioMap.root).height ≤
      ((toTree scenarioMap.mem scenarioMap.sentinel 32 scenarioMap.root).size + 1) ^ 2 :=
  C14_height_is_logarithmic scenarioMap_reach 32 scenarioMap_next

/-- Witness of C15: the key 4 is inserted into the map ordered by `byTens` that stores 1, 2
and 3; the predicate orders it neither before nor after any of them. -/
theorem C15_witness :
    ∃ l s', InOrderAll 8 tripleMap = .ok l ∧ Insert 8 4 true tripleMap = .ok s' ∧
      ((4 : Int) ∉ l.map Prod.fst →
        Size s' = Size tripleMap + 1 ∧
        tripleMap.next ∉ (toTree tripleMap.mem tripleMap.sentinel 8 tripleMap.root).addrs ∧
        s'.getKey tripleMap.next = .ok 4 ∧ s'.getValue tripleMap.next = .ok true ∧
        ∀ f, s'.next ≤ f →
          (toTree s'.mem s'.sentinel f s'.root).addrs.Perm
            (tripleMap.next ::
              (toTree tripleMap.mem tripleMap.sentinel 8 tripleMap.root).addrs) ∧
          ∃ l', InOrderAll f s' = .ok l' ∧ l'.Perm ((4, true) :: l)) ∧
      (∀ a ∈ (toTree tripleMap.mem tripleMap.sentinel 8 tripleMap.root).addrs,
        (s'.mem a).key = (tripleMap.mem a).key ∧
        ((s'.mem a).value ≠ (tripleMap.mem a).value → (tripleMap.mem a).key = 4)) :=
  C15_insert_detects_duplicates_by_native_equality tripleMap_reach 4 true 8
    tripleMap_next

/-- With a func value that is not nil the loop of `search` is the one of the model. -/
theorem searchLoopN_some [DecidableEq K] (b : RBTreeMap K V) (key : K) :
    ∀ (fuel current : Nat),
      searchLoopN { body := b, compare := some b.compare } key fuel current =
        searchLoop b key fuel current
  | 0, _ => rfl
  | fuel + 1, current => by
    have ih := searchLoopN_some b key fuel
    rw [searchLoopN, searchLoop]
    simp only [ih, callCompare, Res.ok_bind]

/-- With a func value that is not nil `GetN` is `Get`. -/
theorem GetN_some [DecidableEq K] [Inhabited V] (fuel : Nat) (key : K) (b : RBTreeMap K V) :
    GetN fuel key { body := b, compare := some b.compare } = Get fuel key b := by
  unfold GetN Get search
  rw [searchLoopN_some]

/-- With a func value that is not nil the descent loop of `Insert` is the one of the model. -/
theorem insertLoopN_some [DecidableEq K] (b : RBTreeMap K V) (key : K) (value : V) :
    ∀ (fuel parent current : Nat),
      insertLoopN { body := b, compare := some b.compare } key value fuel parent current =
        (insertLoop b key value fuel parent current >>= fun x =>
          match x with
          | Sum.inl b1 => pure (Sum.inl { body := b1, compare := some b.compare })
          | Sum.inr p => pure (Sum.inr p))
  | 0, _, _ => rfl
  | fuel + 1, parent, current => by
    have ih := insertLoopN_some b key value fuel
    rw [insertLoopN, insertLoop]
    simp only [ih, callCompare, Res.ok_bind]
    by_cases hc : current = b.sentinel
    · simp only [hc, ne_eq, not_true_eq_false, if_false]
      rfl
    · simp only [hc, ne_eq, not_false_eq_true, if_true]
      cases hk : b.getKey current with
      | fault => rfl
      | timeout => rfl
      | ok ck =>
        simp only [Res.ok_bind]
        by_cases he : key = ck
        · simp only [he, if_true]
          cases b.setValue current value <;> rfl
        · simp only [he, if_false]
          cases b.compare key ck
          · simp only [Bool.false_eq_true, if_false]
            cases b.getRight current <;> rfl
          · simp only [if_true]
            cases b.getLeft current <;> rfl

/-- With a func value that is not nil `InsertN` is `Insert`. -/
theorem InsertN_some [DecidableEq K] (fuel : Nat) (key : K) (value : V) (b : RBTreeMap K V) :
    InsertN fuel key value { body := b, compare := some b.compare } =
      (Insert fuel key value b >>= fun b1 =>
        pure { body := b1, compare := some b.compare }) := by
  unfold InsertN Insert
  rw [insertLoopN_some]
  cases insertLoop b key value fuel b.sentinel b.root with
  | fault => rfl
  | timeout => rfl
  | ok x =>
    cases x with
    | inl b1 => rfl
    | inr parent =>
      simp only [Res.ok_bind, Res.pure_def, alloc, callCompare]
      by_cases hp : parent = b.sentinel
      · simp only [hp, if_true, Res.ok_bind]
      · simp only [hp, if_false, Res.bind_assoc]

/-- With a func value that is not nil `NewWithCompareN` returns the map of the model. -/
theorem NewWithCompareN_some [Inhabited K] [Inhabited V] (f : K → K → Bool) :
    (NewWithCompareN (some f) : Res (RBTreeMapN K V)) =
      .ok { body := NewWithCompare f, compare := some f } := rfl

/-- Counterexample to C18 as stated: `NewWithCompare` with the nil func does not fail, it
returns an empty map; `Insert(10, true)` on it completes, and the next calls `Insert(20, true)`
and `Get(20)` fault when they call the nil func. -/
theorem C18_counterexample :
    ∃ m0 m1 : RBTreeMapN Int Bool, NewWithCompareN none = .ok m0 ∧ Size m0.body = 0 ∧
      InsertN 4 10 true m0 = .ok m1 ∧ Size m1.body = 1 ∧
      InsertN 4 20 true m1 = .fault ∧ GetN 4 20 m1 = .fault :=
  ⟨_, _, rfl, rfl, rfl, rfl, rfl, rfl⟩

/-- C18 (amended): `NewWithCompare` called with the nil func does not fail at construction:
it returns an empty map.  On that map the calls that compare no keys complete (`Get`, and the
first `Insert`, after which `Get` of the inserted key finds it), and the first call that has
to compare two keys, `Insert` or `Get` of another key, faults. -/
theorem C18_nil_predicate_accepted_faults_at_first_comparison [DecidableEq K] [Inhabited K]
    [Inhabited V] (k k2 : K) (v v2 : V) (fuel : Nat) (hne : k2 ≠ k) :
    ∃ m0 m1 : RBTreeMapN K V, NewWithCompareN none = .ok m0 ∧ Size m0.body = 0 ∧
      m0.body.root = m0.body.sentinel ∧
      GetN (fuel + 1) k m0 = .ok (default, false) ∧
      InsertN (fuel + 1) k v m0 = .ok m1 ∧ Size m1.body = 1 ∧
      GetN (fuel + 1) k m1 = .ok (v, true) ∧
      InsertN (fuel + 1) k2 v2 m1 = .fault ∧ GetN (fuel + 1) k2 m1 = .fault := by
  refine ⟨_, _, rfl, rfl, rfl, rfl, rfl, rfl, ?_, ?_, ?_⟩
  · simp [GetN, searchLoopN, RBTreeMap.getKey, RBTreeMap.getValue, upd]
  · simp [InsertN, insertLoopN, RBTreeMap.getKey, upd, hne, callCompare]
  · simp [GetN, searchLoopN, RBTreeMap.getKey, upd, hne, callCompare]

/-- Witness of C18 (amended): the keys 10 and 20. -/
theorem C18_witness :
    ∃ m0 m1 : RBTreeMapN Int Bool, NewWithCompareN none = .ok m0 ∧ Size m0.body = 0 ∧
      m0.body.root = m0.body.sentinel ∧
      GetN (3 + 1) 10 m0 = .ok (default, false) ∧
      InsertN (3 + 1) 10 true m0 = .ok m1 ∧ Size m1.body = 1 ∧
      GetN (3 + 1) 10 m1 = .ok (true, true) ∧
      InsertN (3 + 1) 20 false m1 = .fault ∧ GetN (3 + 1) 20 m1 = .fault :=
  C18_nil_predicate_accepted_faults_at_first_comparison 10 20 true false 3 (by decide)

theorem Res.ite_bind {α β : Type} (c : Prop) [Decidable c] (x y : Res α) (f : α → Res β) :
    ((if c then x else y) >>= f) = if c then x >>= f else y >>= f := by
  split <;> rfl

/-- The loop of `fixInsert` is its body, repeated. -/
theorem fixInsert_body (fuel : Nat) (r : RBTreeMap K V) (node : Nat) :
    fixInsert (fuel + 1) r node =
      fixInsertBody (fixInsert fuel) (fun r => r.setColor r.root BLACK) r node := by
  rw [fixInsert]
  rfl

/-- The body of `fixInsert` is one step followed by the jump or the exit. -/
theorem fixInsertBody_step {α : Type} (loop : RBTreeMap K V → Nat → Res α)
    (done : RBTreeMap K V → Res α) (r : RBTreeMap K V) (node : Nat) :
    fixInsertBody loop done r node =
      (fixInsertStep r node >>= fun o =>
        match o with
        | none => done r
        | some (r1, n1) => loop r1 n1) := by
  unfold fixInsertStep fixInsertBody
  simp only [Res.bind_assoc, Res.ite_bind, Res.pure_def, Res.ok_bind]

/-- The loop test of `fixInsert` fails when the node above the cursor is BLACK. -/
theorem fixInsertStep_exit {s : RBTreeMap K V} {C : List (Frame K V)} {n : Nat}
    {nc : RB.color} {tl tr : Tree K V} {k : K} {v : V}
    (h : Shape s (plug C (.node n nc tl k v tr))) (hc : topColor C = BLACK) :
    fixInsertStep s n = .ok none := by
  cases C with
  | nil =>
    have hp := getParent_at h
    simp only [ctxPar_nil] at hp
    simp [fixInsertStep, fixInsertBody, hp, RBTreeMap.getColor, h.sent_ne, h.sent_black]
  | cons f rest =>
    have hp := getParent_at h
    cases f with
    | L pa pc ka va pr =>
      have hpc := getColor_at (C := rest) (a := pa) h
      simp only [topColor, Frame.col] at hc
      simp [fixInsertStep, fixInsertBody, hp, hpc, hc]
    | R pa pc pl ka va =>
      have hpc := getColor_at (C := rest) (a := pa) h
      simp only [topColor, Frame.col] at hc
      simp [fixInsertStep, fixInsertBody, hp, hpc, hc]

/-- One run of the body of the loop of `fixInsert`, when the node above the cursor is RED. -/
theorem fixInsertStep_sim {s : RBTreeMap K V} {f1 f2 : Frame K V} {rest : List (Frame K V)}
    {n : Nat} {nc : RB.color} {tl tr : Tree K V} {k : K} {v : V}
    (h : Shape s (plug (f1 :: f2 :: rest) (.node n nc tl k v tr)))
    (hb : CtxRootBlack (f1 :: f2 :: rest)) (hc : f1.col = RED) :
    (fixInsertStep s n).Post (InsStepPost s n (f1 :: f2 :: rest)) := by
  unfold InsStepPost
  cases f2 with
  | L ga gc kg vg u =>
    by_cases hu : u.rootColor = RED
    · obtain ⟨ua, ul, uk, uv, ur, rfl⟩ := Tree.rootColor_red hu
      cases f1 with
      | R pa pc la ka va =>
        simp only [Frame.col] at hc
        subst hc
        have hun : uncleColor s n = .ok RED := by
          simp only [uncleColor, getParent_at h, ctxPar_cons, Frame.addr_R, Frame.addr_L, Res.ok_bind,
          getColor_at (C := .L ga gc kg vg _ :: rest) (a := pa) h, if_true,
          getParent_at (C := .L ga gc kg vg _ :: rest) (a := pa) h,
          getLeft_at (C := rest) (a := ga) h, Tree.ptr_node, Frame.fill,
          getRight_at (C := rest) (a := ga) h,
          getColor_at (C := .R ga gc _ kg vg :: rest) (a := ua) h]
        unfold fixInsertStep fixInsertBody
        simp only [getParent_at h, ctxPar_cons, Frame.addr_R, Frame.addr_L, Res.ok_bind,
          getColor_at (C := .L ga gc kg vg _ :: rest) (a := pa) h, if_true,
          getParent_at (C := .L ga gc kg vg _ :: rest) (a := pa) h,
          getLeft_at (C := rest) (a := ga) h, Tree.ptr_node, Frame.fill,
          getRight_at (C := rest) (a := ga) h,
          getColor_at (C := .R ga gc _ kg vg :: rest) (a := ua) h]
        refine Res.Post.bind (setColor_at (C := .L ga gc kg vg _ :: rest) (a := pa) BLACK h) ?_
        rintro s1 ⟨h1, hs1⟩
        refine Res.Post.bind (setColor_at (C := .R ga gc _ kg vg :: rest) (a := ua) BLACK h1) ?_
        rintro s2 ⟨h2, hs2⟩
        simp only [getParent_at (C := .R pa BLACK la ka va :: .L ga gc kg vg _ :: rest) (a := n) h2,
          getParent_at (C := .L ga gc kg vg _ :: rest) (a := pa) h2,
          ctxPar_cons, Frame.addr_R, Frame.addr_L, Res.ok_bind]
        refine Res.Post.bind (setColor_at (C := rest) (a := ga) RED h2) ?_
        rintro s3 ⟨h3, hs3⟩
        simp only [getParent_at (C := .R pa BLACK la ka va :: .L ga RED kg vg _ :: rest) (a := n) h3,
          getParent_at (C := .L ga RED kg vg _ :: rest) (a := pa) h3,
          ctxPar_cons, Frame.addr_R, Frame.addr_L, Res.ok_bind]
        exact Res.Post.ok ⟨s3, ga, rest, RED, _, kg, vg, _, rfl, h3, hb.tail2,
          (hs1.same_trans hs2).same_trans hs3, Or.inl ⟨hun, rfl⟩⟩
      | L pa pc ka va pr =>
        simp only [Frame.col] at hc
        subst hc
        have hun : uncleColor s n = .ok RED := by
          simp only [uncleColor, getParent_at h, ctxPar_cons, Frame.addr_R, Frame.addr_L, Res.ok_bind,
          getColor_at (C := .L ga gc kg vg _ :: rest) (a := pa) h, if_true,
          getParent_at (C := .L ga gc kg vg _ :: rest) (a := pa) h,
          getLeft_at (C := rest) (a := ga) h, Tree.ptr_node, Frame.fill,
          getRight_at (C := rest) (a := ga) h,
          getColor_at (C := .R ga gc _ kg vg :: rest) (a := ua) h]
        unfold fixInsertStep fixInsertBody
        simp only [getParent_at h, ctxPar_cons, Frame.addr_R, Frame.addr_L, Res.ok_bind,
          getColor_at (C := .L ga gc kg vg _ :: rest) (a := pa) h, if_true,
          getParent_at (C := .L ga gc kg vg _ :: rest) (a := pa) h,
          getLeft_at (C := rest) (a := ga) h, Tree.ptr_node, Frame.fill,
          getRight_at (C := rest) (a := ga) h,
          getColor_at (C := .R ga gc _ kg vg :: rest) (a := ua) h]
        refine Res.Post.bind (setColor_at (C := .L ga gc kg vg _ :: rest) (a := pa) BLACK h) ?_
        rintro s1 ⟨h1, hs1⟩
        refine Res.Post.bind (setColor_at (C := .R ga gc _ kg vg :: rest) (a := ua) BLACK h1) ?_
        rintro s2 ⟨h2, hs2⟩
        simp only [getParent_at (C := .L pa BLACK ka va pr :: .L ga gc kg vg _ :: rest) (a := n) h2,
          getParent_at (C := .L ga gc kg vg _ :: rest) (a := pa) h2,
          ctxPar_cons, Frame.addr_R, Frame.addr_L, Res.ok_bind]
        refine Res.Post.bind (setColor_at (C := rest) (a := ga) RED h2) ?_
        rintro s3 ⟨h3, hs3⟩
        simp only [getParent_at (C := .L pa BLACK ka va pr :: .L ga RED kg vg _ :: rest) (a := n) h3,
          getParent_at (C := .L ga RED kg vg _ :: rest) (a := pa) h3,
          ctxPar_cons, Frame.addr_R, Frame.addr_L, Res.ok_bind]
        exact Res.Post.ok ⟨s3, ga, rest, RED, _, kg, vg, _, rfl, h3, hb.tail2,
          (hs1.same_trans hs2).same_trans hs3, Or.inl ⟨hun, rfl⟩⟩
    · have hucol := getColor_ptr
        (C := .R ga gc (f1.fill (.node n nc tl k v tr)) kg vg :: rest) (t := u) h
      cases f1 with
      | R pa pc la ka va =>
        simp only [Frame.col] at hc
        subst hc
        have hun : uncleColor s n = .ok BLACK := by
          have hub := color_eq_black_of_ne_red hu
          simp only [uncleColor, getParent_at h, ctxPar_cons, Frame.addr_R, Frame.addr_L, Res.ok_bind,
          getColor_at (C := .L ga gc kg vg u :: rest) (a := pa) h, if_true,
          getParent_at (C := .L ga gc kg vg u :: rest) (a := pa) h,
          getLeft_at (C := rest) (a := ga) h, Tree.ptr_node, Frame.fill,
          getRight_at (C := rest) (a := ga) h, hucol, hub, if_false,
          getRight_at (C := .L ga gc kg vg u :: rest) (a := pa) h, Res.bind_assoc]
        unfold fixInsertStep fixInsertBody
        simp only [getParent_at h, ctxPar_cons, Frame.addr_R, Frame.addr_L, Res.ok_bind,
          getColor_at (C := .L ga gc kg vg u :: rest) (a := pa) h, if_true,
          getParent_at (C := .L ga gc kg vg u :: rest) (a := pa) h,
          getLeft_at (C := rest) (a := ga) h, Tree.ptr_node, Frame.fill,
          getRight_at (C := rest) (a := ga) h, hucol, hu, if_false,
          getRight_at (C := .L ga gc kg vg u :: rest) (a := pa) h, Res.bind_assoc]
        refine Res.Post.bind (rotateLeft_at (C := .L ga gc kg vg u :: rest) h) ?_
        rintro s1 ⟨h1, hs1⟩
        simp only [Res.pure_def, Res.ok_bind]
        simp only [getParent_at (C := .L n nc k v tr :: .L ga gc kg vg u :: rest) (a := pa) h1,
          ctxPar_cons, Frame.addr_R, Frame.addr_L, Res.ok_bind]
        refine Res.Post.bind (setColor_at (C := .L ga gc kg vg u :: rest) BLACK h1) ?_
        rintro s2 ⟨h2, hs2⟩
        simp only [getParent_at (C := .L n BLACK k v tr :: .L ga gc kg vg u :: rest) (a := pa) h2,
          getParent_at (C := .L ga gc kg vg u :: rest) (a := n) h2,
          ctxPar_cons, Frame.addr_R, Frame.addr_L, Res.ok_bind]
        refine Res.Post.bind (setColor_at (C := rest) (a := ga) RED h2) ?_
        rintro s3 ⟨h3, hs3⟩
        simp only [getParent_at (C := .L n BLACK k v tr :: .L ga RED kg vg u :: rest) (a := pa) h3,
          getParent_at (C := .L ga RED kg vg u :: rest) (a := n) h3,
          ctxPar_cons, Frame.addr_R, Frame.addr_L, Res.ok_bind]
        refine Res.Post.bind (rotateRight_at (C := rest) h3) ?_
        rintro s4 ⟨h4, hs4⟩
        exact Res.Post.ok ⟨s4, _, .L n BLACK k v (.node ga RED tr kg vg u) :: rest, _, _, _, _, _, rfl, h4,
          hb.tail.cons_black _ rfl, ((hs1.same_trans hs2).same_trans hs3).same_trans hs4, Or.inr ⟨hun, rfl⟩⟩
      | L pa pc ka va pr =>
        simp only [Frame.col] at hc
        subst hc
        have hne := Shape.left_ptr_ne_right (C := .L ga gc kg vg u :: rest) h
        have hun : uncleColor s n = .ok BLACK := by
          have hub := color_eq_black_of_ne_red hu
          simp only [uncleColor, getParent_at h, ctxPar_cons, Frame.addr_R, Frame.addr_L, Res.ok_bind,
          getColor_at (C := .L ga gc kg vg u :: rest) (a := pa) h, if_true,
          getParent_at (C := .L ga gc kg vg u :: rest) (a := pa) h,
          getLeft_at (C := rest) (a := ga) h, Tree.ptr_node, Frame.fill,
          getRight_at (C := rest) (a := ga) h, hucol, hub, if_false,
          getRight_at (C := .L ga gc kg vg u :: rest) (a := pa) h, hne, Res.pure_def]
        unfold fixInsertStep fixInsertBody
        simp only [getParent_at h, ctxPar_cons, Frame.addr_R, Frame.addr_L, Res.ok_bind,
          getColor_at (C := .L ga gc kg vg u :: rest) (a := pa) h, if_true,
          getParent_at (C := .L ga gc kg vg u :: rest) (a := pa) h,
          getLeft_at (C := rest) (a := ga) h, Tree.ptr_node, Frame.fill,
          getRight_at (C := rest) (a := ga) h, hucol, hu, if_false,
          getRight_at (C := .L ga gc kg vg u :: rest) (a := pa) h, hne, Res.pure_def]
        refine Res.Post.bind (setColor_at (C := .L ga gc kg vg u :: rest) (a := pa) BLACK h) ?_
        rintro s2 ⟨h2, hs2⟩
        simp only [getParent_at (C := .L pa BLACK ka va pr :: .L ga gc kg vg u :: rest) (a := n) h2,
          getParent_at (C := .L ga gc kg vg u :: rest) (a := pa) h2,
          ctxPar_cons, Frame.addr_R, Frame.addr_L, Res.ok_bind]
        refine Res.Post.bind (setColor_at (C := rest) (a := ga) RED h2) ?_
        rintro s3 ⟨h3, hs3⟩
        simp only [getParent_at (C := .L pa BLACK ka va pr :: .L ga RED kg vg u :: rest) (a := n) h3,
          getParent_at (C := .L ga RED kg vg u :: rest) (a := pa) h3,
          ctxPar_cons, Frame.addr_R, Frame.addr_L, Res.ok_bind]
        refine Res.Post.bind (rotateRight_at (C := rest) h3) ?_
        rintro s4 ⟨h4, hs4⟩
        exact Res.Post.ok ⟨s4, _, .L pa BLACK ka va (.node ga RED pr kg vg u) :: rest, _, _, _, _, _, rfl, h4,
          hb.tail.cons_black _ rfl, (hs2.same_trans hs3).same_trans hs4, Or.inr ⟨hun, rfl⟩⟩
  | R ga gc u kg vg =>
    by_cases hu : u.rootColor = RED
    · obtain ⟨ua, ul, uk, uv, ur, rfl⟩ := Tree.rootColor_red hu
      cases f1 with
      | R pa pc pl ka va =>
        simp only [Frame.col] at hc
        subst hc
        have hpu := Shape.right_ne_left (C := rest) h
        simp only [Tree.ptr_node] at hpu
        have hun : uncleColor s n = .ok RED := by
          simp only [uncleColor, getParent_at h, ctxPar_cons, Frame.addr_R, Frame.addr_L, Res.ok_bind,
          getColor_at (C := .R ga gc _ kg vg :: rest) (a := pa) h, if_true,
          getParent_at (C := .R ga gc _ kg vg :: rest) (a := pa) h,
          getLeft_at (C := rest) (a := ga) h, Tree.ptr_node, Frame.fill, hpu, if_false,
          getColor_at (C := .L ga gc kg vg _ :: rest) (a := ua) h]
        unfold fixInsertStep fixInsertBody
        simp only [getParent_at h, ctxPar_cons, Frame.addr_R, Frame.addr_L, Res.ok_bind,
          getColor_at (C := .R ga gc _ kg vg :: rest) (a := pa) h, if_true,
          getParent_at (C := .R ga gc _ kg vg :: rest) (a := pa) h,
          getLeft_at (C := rest) (a := ga) h, Tree.ptr_node, Frame.fill, hpu, if_false,
          getColor_at (C := .L ga gc kg vg _ :: rest) (a := ua) h]
        refine Res.Post.bind (setColor_at (C := .R ga gc _ kg vg :: rest) (a := pa) BLACK h) ?_
        rintro s1 ⟨h1, hs1⟩
        refine Res.Post.bind (setColor_at (C := .L ga gc kg vg _ :: rest) (a := ua) BLACK h1) ?_
        rintro s2 ⟨h2, hs2⟩
        simp only [getParent_at (C := .R pa BLACK pl ka va :: .R ga gc _ kg vg :: rest) (a := n) h2,
          getParent_at (C := .R ga gc _ kg vg :: rest) (a := pa) h2,
          ctxPar_cons, Frame.addr_R, Frame.addr_L, Res.ok_bind]
        refine Res.Post.bind (setColor_at (C := rest) (a := ga) RED h2) ?_
        rintro s3 ⟨h3, hs3⟩
        simp only [getParent_at (C := .R pa BLACK pl ka va :: .R ga RED _ kg vg :: rest) (a := n) h3,
          getParent_at (C := .R ga RED _ kg vg :: rest) (a := pa) h3,
          ctxPar_cons, Frame.addr_R, Frame.addr_L, Res.ok_bind]
        exact Res.Post.ok ⟨s3, ga, rest, RED, _, kg, vg, _, rfl, h3, hb.tail2,
          (hs1.same_trans hs2).same_trans hs3, Or.inl ⟨hun, rfl⟩⟩
      | L pa pc ka va pr =>
        simp only [Frame.col] at hc
        subst hc
        have hpu := Shape.right_ne_left (C := rest) h
        simp only [Tree.ptr_node] at hpu
        have hun : uncleColor s n = .ok RED := by
          simp only [uncleColor, getParent_at h, ctxPar_cons, Frame.addr_R, Frame.addr_L, Res.ok_bind,
          getColor_at (C := .R ga gc _ kg vg :: rest) (a := pa) h, if_true,
          getParent_at (C := .R ga gc _ kg vg :: rest) (a := pa) h,
          getLeft_at (C := rest) (a := ga) h, Tree.ptr_node, Frame.fill, hpu, if_false,
          getColor_at (C := .L ga gc kg vg _ :: rest) (a := ua) h]
        unfold fixInsertStep fixInsertBody
        simp only [getParent_at h, ctxPar_cons, Frame.addr_R, Frame.addr_L, Res.ok_bind,
          getColor_at (C := .R ga gc _ kg vg :: rest) (a := pa) h, if_true,
          getParent_at (C := .R ga gc _ kg vg :: rest) (a := pa) h,
          getLeft_at (C := rest) (a := ga) h, Tree.ptr_node, Frame.fill, hpu, if_false,
          getColor_at (C := .L ga gc kg vg _ :: rest) (a := ua) h]
        refine Res.Post.bind (setColor_at (C := .R ga gc _ kg vg :: rest) (a := pa) BLACK h) ?_
        rintro s1 ⟨h1, hs1⟩
        refine Res.Post.bind (setColor_at (C := .L ga gc kg vg _ :: rest) (a := ua) BLACK h1) ?_
        rintro s2 ⟨h2, hs2⟩
        simp only [getParent_at (C := .L pa BLACK ka va pr :: .R ga gc _ kg vg :: rest) (a := n) h2,
          getParent_at (C := .R ga gc _ kg vg :: rest) (a := pa) h2,
          ctxPar_cons, Frame.addr_R, Frame.addr_L, Res.ok_bind]
        refine Res.Post.bind (setColor_at (C := rest) (a := ga) RED h2) ?_
        rintro s3 ⟨h3, hs3⟩
        simp only [getParent_at (C := .L pa BLACK ka va pr :: .R ga RED _ kg vg :: rest) (a := n) h3,
          getParent_at (C := .R ga RED _ kg vg :: rest) (a := pa) h3,
          ctxPar_cons, Frame.addr_R, Frame.addr_L, Res.ok_bind]
        exact Res.Post.ok ⟨s3, ga, rest, RED, _, kg, vg, _, rfl, h3, hb.tail2,
          (hs1.same_trans hs2).same_trans hs3, Or.inl ⟨hun, rfl⟩⟩
    · have hucol := getColor_ptr
        (C := .L ga gc kg vg (f1.fill (.node n nc tl k v tr)) :: rest) (t := u) h
      cases f1 with
      | L pa pc ka va pr =>
        simp only [Frame.col] at hc
        subst hc
        have hpu := Shape.right_ne_left (C := rest) h
        have hun : uncleColor s n = .ok BLACK := by
          have hub := color_eq_black_of_ne_red hu
          simp only [uncleColor, getParent_at h, ctxPar_cons, Frame.addr_R, Frame.addr_L, Res.ok_bind,
          getColor_at (C := .R ga gc u kg vg :: rest) (a := pa) h, if_true,
          getParent_at (C := .R ga gc u kg vg :: rest) (a := pa) h,
          getLeft_at (C := rest) (a := ga) h, Tree.ptr_node, Frame.fill, hpu,
          hucol, hub, if_false,
          getLeft_at (C := .R ga gc u kg vg :: rest) (a := pa) h, Res.bind_assoc]
        unfold fixInsertStep fixInsertBody
        simp only [getParent_at h, ctxPar_cons, Frame.addr_R, Frame.addr_L, Res.ok_bind,
          getColor_at (C := .R ga gc u kg vg :: rest) (a := pa) h, if_true,
          getParent_at (C := .R ga gc u kg vg :: rest) (a := pa) h,
          getLeft_at (C := rest) (a := ga) h, Tree.ptr_node, Frame.fill, hpu,
          hucol, hu, if_false,
          getLeft_at (C := .R ga gc u kg vg :: rest) (a := pa) h, Res.bind_assoc]
        refine Res.Post.bind (rotateRight_at (C := .R ga gc u kg vg :: rest) h) ?_
        rintro s1 ⟨h1, hs1⟩
        simp only [Res.pure_def, Res.ok_bind]
        simp only [getParent_at (C := .R n nc tl k v :: .R ga gc u kg vg :: rest) (a := pa) h1,
          ctxPar_cons, Frame.addr_R, Frame.addr_L, Res.ok_bind]
        refine Res.Post.bind (setColor_at (C := .R ga gc u kg vg :: rest) BLACK h1) ?_
        rintro s2 ⟨h2, hs2⟩
        simp only [getParent_at (C := .R n BLACK tl k v :: .R ga gc u kg vg :: rest) (a := pa) h2,
          getParent_at (C := .R ga gc u kg vg :: rest) (a := n) h2,
          ctxPar_cons, Frame.addr_R, Frame.addr_L, Res.ok_bind]
        refine Res.Post.bind (setColor_at (C := rest) (a := ga) RED h2) ?_
        rintro s3 ⟨h3, hs3⟩
        simp only [getParent_at (C := .R n BLACK tl k v :: .R ga RED u kg vg :: rest) (a := pa) h3,
          getParent_at (C := .R ga RED u kg vg :: rest) (a := n) h3,
          ctxPar_cons, Frame.addr_R, Frame.addr_L, Res.ok_bind]
        refine Res.Post.bind (rotateLeft_at (C := rest) h3) ?_
        rintro s4 ⟨h4, hs4⟩
        exact Res.Post.ok ⟨s4, _, .R n BLACK (.node ga RED u kg vg tl) k v :: rest, _, _, _, _, _, rfl, h4,
          hb.tail.cons_black _ rfl, ((hs1.same_trans hs2).same_trans hs3).same_trans hs4, Or.inr ⟨hun, rfl⟩⟩
      | R pa pc pl ka va =>
        simp only [Frame.col] at hc
        subst hc
        have hpu := Shape.right_ne_left (C := rest) h
        have hne := Shape.right_ne_left (C := .R ga gc u kg vg :: rest) h
        have hun : uncleColor s n = .ok BLACK := by
          have hub := color_eq_black_of_ne_red hu
          simp only [uncleColor, getParent_at h, ctxPar_cons, Frame.addr_R, Frame.addr_L, Res.ok_bind,
          getColor_at (C := .R ga gc u kg vg :: rest) (a := pa) h, if_true,
          getParent_at (C := .R ga gc u kg vg :: rest) (a := pa) h,
          getLeft_at (C := rest) (a := ga) h, Tree.ptr_node, Frame.fill, hpu,
          hucol, hub, if_false,
          getLeft_at (C := .R ga gc u kg vg :: rest) (a := pa) h, hne, Res.pure_def]
        unfold fixInsertStep fixInsertBody
        simp only [getParent_at h, ctxPar_cons, Frame.addr_R, Frame.addr_L, Res.ok_bind,
          getColor_at (C := .R ga gc u kg vg :: rest) (a := pa) h, if_true,
          getParent_at (C := .R ga gc u kg vg :: rest) (a := pa) h,
          getLeft_at (C := rest) (a := ga) h, Tree.ptr_node, Frame.fill, hpu,
          hucol, hu, if_false,
          getLeft_at (C := .R ga gc u kg vg :: rest) (a := pa) h, hne, Res.pure_def]
        refine Res.Post.bind (setColor_at (C := .R ga gc u kg vg :: rest) (a := pa) BLACK h) ?_
        rintro s2 ⟨h2, hs2⟩
        simp only [getParent_at (C := .R pa BLACK pl ka va :: .R ga gc u kg vg :: rest) (a := n) h2,
          getParent_at (C := .R ga gc u kg vg :: rest) (a := pa) h2,
          ctxPar_cons, Frame.addr_R, Frame.addr_L, Res.ok_bind]
        refine Res.Post.bind (setColor_at (C := rest) (a := ga) RED h2) ?_
        rintro s3 ⟨h3, hs3⟩
        simp only [getParent_at (C := .R pa BLACK pl ka va :: .R ga RED u kg vg :: rest) (a := n) h3,
          getParent_at (C := .R ga RED u kg vg :: rest) (a := pa) h3,
          ctxPar_cons, Frame.addr_R, Frame.addr_L, Res.ok_bind]
        refine Res.Post.bind (rotateLeft_at (C := rest) h3) ?_
        rintro s4 ⟨h4, hs4⟩
        exact Res.Post.ok ⟨s4, _, .R pa BLACK (.node ga RED u kg vg pl) ka va :: rest, _, _, _, _, _, rfl, h4,
          hb.tail.cons_black _ rfl, (hs2.same_trans hs3).same_trans hs4, Or.inr ⟨hun, rfl⟩⟩

/-- The cursor of a path of length `d` is `d` parent links below the root. -/
theorem depth_of_shapeX : ∀ (C : List (Frame K V)) {s : RBTreeMap K V} {t : Tree K V},
    ShapeX s C t → ∀ F, C.length < F → depth s F (t.ptr s.sentinel) = .ok C.length
  | [], s, t, h, F, hF => by
    obtain ⟨f, rfl⟩ : ∃ f, F = f + 1 := ⟨F - 1, by omega⟩
    have := h.shape.rep.1
    simp only [plug_nil] at this
    simp [depth, this]
  | fr :: rest, s, t, h, F, hF => by
    obtain ⟨f, rfl⟩ : ∃ f, F = f + 1 := ⟨F - 1, by omega⟩
    simp only [List.length_cons] at hF
    have hsh : Shape s (plug rest (fr.fill t)) := h.shape
    have ih : depth s f fr.addr = .ok rest.length := by
      cases fr with
      | L a c k v r =>
        exact depth_of_shapeX rest (ShapeX.of_node (C := rest) hsh) f (by omega)
      | R a c l k v =>
        exact depth_of_shapeX rest (ShapeX.of_node (C := rest) hsh) f (by omega)
    simp [depth, h.ptr_ne_root, getParent_x h rfl, ih]

theorem InsLoopInv.ins_depth {r : RBTreeMap K V} {n d : Nat} (h : InsLoopInv r n d) :
    ∀ F, d < F → depth r F n = .ok d := by
  obtain ⟨C, nc, tl, k, v, tr, hs, -, rfl⟩ := h
  exact depth_of_shapeX C (ShapeX.of_node hs)

/-- One pass through the loop of `fixInsert` at a loop head: the parent and its colour are
read; when the parent is BLACK the loop ends; when it is RED, it is a node other than the
root, its parent (the grandparent of the cursor) is a node, and the body runs without a
fault and leaves a loop head two levels up (uncle RED) or one level up (uncle BLACK). -/
theorem InsLoopInv.ins_step {r : RBTreeMap K V} {n d : Nat} (h : InsLoopInv r n d) :
    ∃ p pc, r.getParent n = .ok p ∧ r.getColor p = .ok pc ∧
      (pc = BLACK → fixInsertStep r n = .ok none) ∧
      (pc = RED → p ≠ r.root ∧ p ≠ r.sentinel ∧
        (∃ g, r.getParent p = .ok g ∧ g ≠ 0 ∧ g ≠ r.sentinel) ∧
        ∃ r1 n1 d1, fixInsertStep r n = .ok (some (r1, n1)) ∧ InsLoopInv r1 n1 d1 ∧
          Same r r1 ∧
          ((uncleColor r n = .ok RED ∧ d1 + 2 = d) ∨
            (uncleColor r n = .ok BLACK ∧ d1 + 1 = d))) := by
  obtain ⟨C, nc, tl, k, v, tr, hs, hb, rfl⟩ := h
  have hp := getParent_at hs
  have hcol : r.getColor (ctxPar r.sentinel C) = .ok (topColor C) := by
    cases C with
    | nil => simp [RBTreeMap.getColor, hs.sent_ne, hs.sent_black, topColor]
    | cons f rest =>
      cases f with
      | L pa pc ka va pr => exact getColor_at (C := rest) (a := pa) hs
      | R pa pc pl ka va => exact getColor_at (C := rest) (a := pa) hs
  refine ⟨_, _, hp, hcol, fun hc => fixInsertStep_exit hs hc, fun hc => ?_⟩
  match C, hs, hb, hp, hcol, hc with
  | [], _, _, _, _, hc => simp [topColor] at hc
  | [f], _, hb, _, _, hc =>
    simp only [topColor] at hc
    simp only [CtxRootBlack] at hb
    rw [hb] at hc
    cases hc
  | f1 :: f2 :: rest, hs, hb, _, _, hc =>
    simp only [topColor] at hc
    have hs1 : Shape r (plug (f2 :: rest) (f1.fill (.node n nc tl k v tr))) := hs
    have hs2 : Shape r (plug rest (f2.fill (f1.fill (.node n nc tl k v tr)))) := hs
    have hX : ShapeX r (f2 :: rest) (f1.fill (.node n nc tl k v tr)) := by
      cases f1 <;> exact ShapeX.of_node (C := f2 :: rest) hs1
    have hptr : (f1.fill (.node n nc tl k v tr)).ptr r.sentinel = f1.addr := by
      cases f1 <;> rfl
    have hnr := hX.ptr_ne_root
    rw [hptr] at hnr
    have hps : f1.addr ≠ r.sentinel := by
      cases f1 <;> exact (Shape.node_facts (C := f2 :: rest) hs1).2.1
    have hg : r.getParent f1.addr = .ok f2.addr := by
      have := getParent_x hX rfl
      rw [hptr] at this
      exact this
    have hgf : f2.addr ≠ 0 ∧ f2.addr ≠ r.sentinel := by
      cases f2 <;> exact ⟨(Shape.node_facts (C := rest) hs2).1,
        (Shape.node_facts (C := rest) hs2).2.1⟩
    refine ⟨hnr, hps, ⟨_, hg, hgf.1, hgf.2⟩, ?_⟩
    obtain ⟨o, ho, s1, n1, C1, c1, l1, k1, v1, r1, rfl, h1, hb1, hsame, hcase⟩ :=
      fixInsertStep_sim hs hb hc
    exact ⟨s1, n1, C1.length, ho, ⟨C1, c1, l1, k1, v1, r1, h1, hb1, rfl⟩, hsame, hcase⟩

/-- Every loop head of a run of `fixInsert` satisfies the loop invariant, and the number of
iterations so far plus the depth of the cursor does not exceed the depth at the start. -/
theorem FixInsertHead.ins_heads {r0 r : RBTreeMap K V} {n0 n i d0 : Nat}
    (hh : FixInsertHead r0 n0 i r n) (h0 : InsLoopInv r0 n0 d0) :
    ∃ d, InsLoopInv r n d ∧ i + d ≤ d0 ∧ Same r0 r := by
  induction hh with
  | start => exact ⟨d0, h0, by omega, Same.same_refl⟩
  | next hprev hstep ih =>
    obtain ⟨d, hd, hle, hsame⟩ := ih
    obtain ⟨p, pc, -, -, hB, hR⟩ := hd.ins_step
    cases pc with
    | BLACK =>
      rw [hB rfl] at hstep
      cases hstep
    | RED =>
      obtain ⟨-, -, -, r1, n1, d1, e, hinv, hs1, hcase⟩ := hR rfl
      rw [e] at hstep
      cases hstep
      refine ⟨d1, hinv, ?_, hsame.same_trans hs1⟩
      rcases hcase with ⟨-, hc⟩ | ⟨-, hc⟩ <;> omega

/-- From a loop head at depth `d` the loop of `fixInsert` runs its body at most `d` times
and then ends, with the root coloured BLACK; any budget above `d` is enough. -/
theorem InsLoopInv.ins_run : ∀ (d : Nat) {r : RBTreeMap K V} {n : Nat}, InsLoopInv r n d →
    ∃ i r', i ≤ d ∧ r'.getColor r'.root = .ok BLACK ∧ Same r r' ∧
      ∀ F, d < F → fixInsertIters F r n = .ok i ∧ fixInsert F r n = .ok r' := by
  intro d
  induction d using Nat.strong_induction_on with
  | _ d ih =>
    intro r n h
    obtain ⟨p, pc, -, -, hB, hR⟩ := h.ins_step
    cases pc with
    | BLACK =>
      obtain ⟨C, nc, tl, k, v, tr, hs, -, -⟩ := h
      obtain ⟨a', c', l', k', v', r', e⟩ := plug_node_ne_nil C n nc tl k v tr
      obtain ⟨s', e', hs', hsame⟩ := setRootBlack hs (by rw [e]; simp)
      refine ⟨0, s', Nat.zero_le _, ?_, hsame, fun F hF => ?_⟩
      · rw [e] at hs'
        rw [hs'.rep.1]
        exact getColor_at (C := []) hs'
      · obtain ⟨f, rfl⟩ : ∃ f, F = f + 1 := ⟨F - 1, by omega⟩
        rw [fixInsert_body, fixInsertBody_step, fixInsertIters, hB rfl]
        exact ⟨rfl, e'⟩
    | RED =>
      obtain ⟨-, -, -, r1, n1, d1, e, hinv, hs1, hcase⟩ := hR rfl
      have hd1 : d1 < d := by rcases hcase with ⟨-, hc⟩ | ⟨-, hc⟩ <;> omega
      obtain ⟨i, r', hi, hroot, hs2, hrun⟩ := ih d1 hd1 hinv
      refine ⟨i + 1, r', by omega, hroot, hs1.same_trans hs2, fun F hF => ?_⟩
      obtain ⟨f, rfl⟩ : ∃ f, F = f + 1 := ⟨F - 1, by omega⟩
      obtain ⟨e1, e2⟩ := hrun f (by omega)
      rw [fixInsert_body, fixInsertBody_step, fixInsertIters, e]
      simp only [Res.ok_bind, e1, e2, Res.pure_def, and_self]

/-- When the descent of `Insert` does not find the key, a RED node is attached at the next
free address, and the loop of `fixInsert` starts at a loop head with that node as cursor. -/
theorem attach_head [DecidableEq K] {s : RBTreeMap K V} {T : Tree K V} (h : Inv s T)
    (key : K) (value : V) (fuel : Nat) (hf : s.next ≤ fuel)
    (hk : (descend s.compare key [] T).2 = .nil) :
    ∃ parent r0 d0, insertLoop s key value fuel s.sentinel s.root = .ok (Sum.inr parent) ∧
      attach s parent key value = .ok r0 ∧ InsLoopInv r0 s.next d0 ∧ d0 + 2 ≤ s.next ∧
      r0.getColor s.next = .ok RED ∧
      Insert fuel key value s = fixInsert fuel r0 s.next := by
  have hh := h.height_lt
  have hplug := plug_descend s.compare key [] T
  have hlen := descend_length s.compare key [] T
  have hdir := descend_topDir s.compare key [] T trivial
  have hloop := insertLoop_sim (s := s) key value T [] fuel h.shape (by omega)
  simp only [ctxPar_nil] at hloop
  rw [← h.shape.rep.1] at hloop
  rcases hd : descend s.compare key [] T with ⟨C, t⟩
  rw [hd] at hplug hlen hdir hloop hk
  simp only at hk
  subst hk
  simp only [plug_nil] at hplug
  simp only at hloop
  have hs : Shape s (plug C .nil) := hplug ▸ h.shape
  have hrb : (plug C (.nil : Tree K V)).RBInv := hplug ▸ h.rb
  obtain ⟨r0, e0, hs0, -⟩ := attach_spec key value hs (hplug ▸ h.lt_next) h.sent_lt hdir
  have hrootB := ((rootColor_plug _ _).1 hrb.1).2
  refine ⟨_, r0, C.length, hloop, e0, ⟨C, RED, .nil, key, value, .nil, hs0, hrootB, rfl⟩, ?_,
    getColor_at hs0, ?_⟩
  · simp only [List.length_nil, Nat.zero_add, Tree.height] at hlen
    omega
  · rw [Insert_unfold, hloop]
    simp only [Res.ok_bind, e0]

/-- C19: on every reachable map, an `Insert` of a key that is not stored attaches a RED node
and starts the loop of `fixInsert` with that node as cursor, at some depth `d0`.  At every
loop head of that run the pass through the loop completes; when the body runs, the uncle is
RED and the cursor ends two levels nearer to the root, or the uncle is BLACK and the cursor
ends one level nearer; the iterations made so far plus the depth of the cursor never exceed
`d0`.  So the body runs at most `d0` times, after which `fixInsert` returns with the root
coloured BLACK, and this is the result of `Insert`. -/
theorem C19_insert_fixup_terminates_by_ascent [DecidableEq K] [Inhabited K] [Inhabited V]
    {cmp : K → K → Bool} {ops : List (Op K V)} {s : RBTreeMap K V}
    (hr : Reach cmp ops s) (k : K) (v : V) (fuel : Nat) (hf : s.next ≤ fuel)
    (hk : ContainsKey fuel k s = .ok false) :
    ∃ parent r0 d0, insertLoop s k v fuel s.sentinel s.root = .ok (Sum.inr parent) ∧
      attach s parent k v = .ok r0 ∧ r0.getColor s.next = .ok RED ∧
      (∀ F, d0 < F → depth r0 F s.next = .ok d0) ∧
      (∀ i r n, FixInsertHead r0 s.next i r n →
        ∃ d, (∀ F, d < F → depth r F n = .ok d) ∧ i + d ≤ d0 ∧
          ∃ o, fixInsertStep r n = .ok o ∧
            ∀ r1 n1, o = some (r1, n1) →
              ∃ d1, (∀ F, d1 < F → depth r1 F n1 = .ok d1) ∧
                ((uncleColor r n = .ok RED ∧ d1 + 2 = d) ∨
                  (uncleColor r n = .ok BLACK ∧ d1 + 1 = d))) ∧
      ∃ i r', fixInsertIters (d0 + 1) r0 s.next = .ok i ∧ i ≤ d0 ∧
        fixInsert (d0 + 1) r0 s.next = .ok r' ∧ r'.getColor r'.root = .ok BLACK ∧
        Insert fuel k v s = .ok r' := by
  obtain ⟨T, hT, -⟩ := hr.inv
  rw [ContainsKey_sim hT k fuel hf] at hk
  have hnil : (descend s.compare k [] T).2 = .nil := by
    unfold getT at hk
    cases hd : (descend s.compare k [] T).2 with
    | nil => rfl
    | node a c l k0 v0 r =>
      rw [hd] at hk
      simp at hk
  obtain ⟨parent, r0, d0, hloop, hatt, h0, hd0, hred, hins⟩ := attach_head hT k v fuel hf hnil
  refine ⟨parent, r0, d0, hloop, hatt, hred, h0.ins_depth, ?_, ?_⟩
  · intro i r n hh
    obtain ⟨d, hd, hle, -⟩ := hh.ins_heads h0
    obtain ⟨p, pc, -, -, hB, hR⟩ := hd.ins_step
    refine ⟨d, hd.ins_depth, hle, ?_⟩
    cases pc with
    | BLACK => exact ⟨none, hB rfl, fun r1 n1 e => by cases e⟩
    | RED =>
      obtain ⟨-, -, -, r1, n1, d1, e, hinv, -, hcase⟩ := hR rfl
      refine ⟨_, e, fun r2 n2 e2 => ?_⟩
      cases e2
      exact ⟨d1, hinv.ins_depth, hcase⟩
  · obtain ⟨i, r', hi, hroot, -, hrun⟩ := h0.ins_run d0
    obtain ⟨e1, e2⟩ := hrun (d0 + 1) (Nat.lt_succ_self _)
    refine ⟨i, r', e1, hi, e2, hroot, ?_⟩
    rw [hins]
    exact (hrun fuel (by omega)).2

/-- The loop of `fixDelete` is its body, repeated, followed by `x.color = BLACK`. -/
theorem fixDelete_body (fuel : Nat) (r : RBTreeMap K V) (x : Nat) :
    fixDelete (fuel + 1) r x =
      fixDeleteBody (fixDelete fuel) (fun r x => r.setColor x BLACK) r x := by
  rw [fixDelete]
  rfl

/-- The body of `fixDelete` is one step followed by the jump or the exit. -/
theorem fixDeleteBody_step {α : Type} (loop : RBTreeMap K V → Nat → Res α)
    (done : RBTreeMap K V → Nat → Res α) (r : RBTreeMap K V) (x : Nat) :
    fixDeleteBody loop done r x =
      (fixDeleteStep r x >>= fun o =>
        match o with
        | none => done r x
        | some (r1, x1) => loop r1 x1) := by
  unfold fixDeleteStep fixDeleteBody fixDeleteRestLBody fixDeleteRestRBody
  simp only [Res.bind_assoc, Res.ite_bind, Res.pure_def, Res.ok_bind]

/-- The body of the loop of `fixDelete` below the (BLACK or freshly rotated) sibling `sa`,
cursor on the left: when both children of the sibling are BLACK the sibling is coloured RED
and the loop is re-entered at the parent; otherwise the body ends with rotations and
re-enters the loop at the root. -/
theorem restLBody_sim {α : Type} {loop : RBTreeMap K V → Nat → Res α} {Q : α → Prop}
    {s : RBTreeMap K V} {ctxUp : List (Frame K V)} {pa sa : Nat}
    {pc sc : RB.color} {t sl sr : Tree K V} {kp sk : K} {vp sv : V}
    (h : ShapeX s (.L pa pc kp vp (.node sa sc sl sk sv sr) :: ctxUp) t)
    (hup : sl.rootColor = BLACK ∧ sr.rootColor = BLACK → ∀ s1 : RBTreeMap K V,
      Shape s1 (plug ctxUp (.node pa pc t kp vp (.node sa RED sl sk sv sr))) → Same s s1 →
      (loop s1 pa).Post Q)
    (hroot : ¬(sl.rootColor = BLACK ∧ sr.rootColor = BLACK) →
      ∀ (s1 : RBTreeMap K V) (T : Tree K V), Shape s1 T → T ≠ .nil → Same s s1 →
        (loop s1 s1.root).Post Q) :
    (fixDeleteRestLBody loop s (t.ptr s.sentinel) sa).Post Q := by
  have hs := h.shape
  have hslc := getColor_ptr (C := .L sa sc sk sv sr :: .R pa pc t kp vp :: ctxUp) (t := sl) hs
  have hsrc := getColor_ptr (C := .R sa sc sl sk sv :: .R pa pc t kp vp :: ctxUp) (t := sr) hs
  unfold fixDeleteRestLBody
  simp only [getLeft_at (C := .R pa pc t kp vp :: ctxUp) (a := sa) hs,
    getRight_at (C := .R pa pc t kp vp :: ctxUp) (a := sa) hs, hslc, hsrc, Res.ok_bind]
  by_cases hbb : sl.rootColor = BLACK ∧ sr.rootColor = BLACK
  · -- case 2
    simp only [hbb.1, hbb.2, if_true, Res.ok_bind, Res.pure_def, decide_True, and_self]
    refine Res.Post.bind (setColor_at (C := .R pa pc t kp vp :: ctxUp) (a := sa) RED hs) ?_
    rintro s1 ⟨h1, hs1⟩
    have hX1 : ShapeX s1 (.L pa pc kp vp (.node sa RED sl sk sv sr) :: ctxUp) t :=
      h.of_shape h1 hs1 rfl
    simp only [getParent_x hX1 hs1.sentinel, ctxPar_cons, Frame.addr_L, Res.ok_bind]
    exact hup hbb s1 h1 hs1
  · have hbb' : (if sl.rootColor = BLACK then
          (Res.ok (decide (sr.rootColor = BLACK)) : Res Bool) else Res.ok false) =
        Res.ok false := by
      by_cases h1 : sl.rootColor = BLACK
      · have h2 : ¬sr.rootColor = BLACK := fun h2 => hbb ⟨h1, h2⟩
        simp [h1, h2]
      · simp [h1]
    simp only [Res.pure_def, hbb', Res.ok_bind, Bool.false_eq_true, if_false, hbb]
    by_cases hsr : sr.rootColor = BLACK
    · -- case 3, then case 4
      have hsl : sl.rootColor = RED := by
        cases hc : sl.rootColor
        · exact absurd ⟨hc, hsr⟩ hbb
        · rfl
      obtain ⟨la, ll, lk, lv, lr, rfl⟩ := Tree.rootColor_red hsl
      simp only [hsr, if_true, Tree.ptr_node, Res.bind_assoc]
      refine Res.Post.bind (setColor_at
        (C := .L sa sc sk sv sr :: .R pa pc t kp vp :: ctxUp) (a := la) BLACK hs) ?_
      rintro s1 ⟨h1, hs1⟩
      refine Res.Post.bind (setColor_at (C := .R pa pc t kp vp :: ctxUp) (a := sa) RED h1) ?_
      rintro s2 ⟨h2, hs2⟩
      refine Res.Post.bind (rotateRight_at (C := .R pa pc t kp vp :: ctxUp) h2) ?_
      rintro s3 ⟨h3, hs3⟩
      have hs03 := (hs1.same_trans hs2).same_trans hs3
      have hX3 : ShapeX s3 (.L pa pc kp vp
          (.node la BLACK ll lk lv (.node sa RED lr sk sv sr)) :: ctxUp) t :=
        h.of_shape h3 hs03 rfl
      simp only [getParent_x hX3 hs03.sentinel, ctxPar_cons, Frame.addr_L, Res.ok_bind,
        getRight_at (C := ctxUp) (a := pa) h3, Tree.ptr_node, Res.pure_def,
        getColor_at (C := ctxUp) (a := pa) h3]
      refine Res.Post.bind (setColor_at (C := .R pa pc t kp vp :: ctxUp) (a := la) pc h3) ?_
      rintro s4 ⟨h4, hs4⟩
      have hs04 := hs03.same_trans hs4
      have hX4 : ShapeX s4 (.L pa pc kp vp
          (.node la pc ll lk lv (.node sa RED lr sk sv sr)) :: ctxUp) t :=
        h.of_shape h4 hs04 rfl
      simp only [getParent_x hX4 hs04.sentinel, ctxPar_cons, Frame.addr_L, Res.ok_bind]
      refine Res.Post.bind (setColor_at (C := ctxUp) (a := pa) BLACK h4) ?_
      rintro s5 ⟨h5, hs5⟩
      simp only [getRight_at (C := .R pa BLACK t kp vp :: ctxUp) (a := la) h5, Tree.ptr_node,
        Res.ok_bind]
      refine Res.Post.bind (setColor_at
        (C := .R la pc ll lk lv :: .R pa BLACK t kp vp :: ctxUp) (a := sa) BLACK h5) ?_
      rintro s6 ⟨h6, hs6⟩
      have hs06 := (hs04.same_trans hs5).same_trans hs6
      have hX6 : ShapeX s6 (.L pa BLACK kp vp
          (.node la pc ll lk lv (.node sa BLACK lr sk sv sr)) :: ctxUp) t :=
        h.of_shape h6 hs06 rfl
      simp only [getParent_x hX6 hs06.sentinel, ctxPar_cons, Frame.addr_L, Res.ok_bind]
      refine Res.Post.bind (rotateLeft_at (C := ctxUp) h6) ?_
      rintro s7 ⟨h7, hs7⟩
      exact hroot hbb s7 _ h7 plug_node_ne (hs06.same_trans hs7)
    · -- case 4
      have hsr' : sr.rootColor = RED := by
        cases hc : sr.rootColor
        · exact absurd hc hsr
        · rfl
      obtain ⟨ra, rl, rk, rv, rr, rfl⟩ := Tree.rootColor_red hsr'
      simp only [Tree.rootColor_node, reduceCtorEq, if_false, Tree.ptr_node, Res.pure_def,
        Res.ok_bind, getParent_x h rfl, ctxPar_cons, Frame.addr_L,
        getColor_at (C := ctxUp) (a := pa) hs, Tree.blacken]
      refine Res.Post.bind (setColor_at (C := .R pa pc t kp vp :: ctxUp) (a := sa) pc hs) ?_
      rintro s4 ⟨h4, hs4⟩
      have hX4 : ShapeX s4 (.L pa pc kp vp
          (.node sa pc sl sk sv (.node ra RED rl rk rv rr)) :: ctxUp) t :=
        h.of_shape h4 hs4 rfl
      simp only [getParent_x hX4 hs4.sentinel, ctxPar_cons, Frame.addr_L, Res.ok_bind]
      refine Res.Post.bind (setColor_at (C := ctxUp) (a := pa) BLACK h4) ?_
      rintro s5 ⟨h5, hs5⟩
      simp only [getRight_at (C := .R pa BLACK t kp vp :: ctxUp) (a := sa) h5, Tree.ptr_node,
        Res.ok_bind]
      refine Res.Post.bind (setColor_at
        (C := .R sa pc sl sk sv :: .R pa BLACK t kp vp :: ctxUp) (a := ra) BLACK h5) ?_
      rintro s6 ⟨h6, hs6⟩
      have hs06 := (hs4.same_trans hs5).same_trans hs6
      have hX6 : ShapeX s6 (.L pa BLACK kp vp
          (.node sa pc sl sk sv (.node ra BLACK rl rk rv rr)) :: ctxUp) t :=
        h.of_shape h6 hs06 rfl
      simp only [getParent_x hX6 hs06.sentinel, ctxPar_cons, Frame.addr_L, Res.ok_bind]
      refine Res.Post.bind (rotateLeft_at (C := ctxUp) h6) ?_
      rintro s7 ⟨h7, hs7⟩
      exact hroot hbb s7 _ h7 plug_node_ne (hs06.same_trans hs7)

/-- Mirror image of `restLBody_sim`: cursor on the right. -/
theorem restRBody_sim {α : Type} {loop : RBTreeMap K V → Nat → Res α} {Q : α → Prop}
    {s : RBTreeMap K V} {ctxUp : List (Frame K V)} {pa sa : Nat}
    {pc sc : RB.color} {t sl sr : Tree K V} {kp sk : K} {vp sv : V}
    (h : ShapeX s (.R pa pc (.node sa sc sl sk sv sr) kp vp :: ctxUp) t)
    (hup : sr.rootColor = BLACK ∧ sl.rootColor = BLACK → ∀ s1 : RBTreeMap K V,
      Shape s1 (plug ctxUp (.node pa pc (.node sa RED sl sk sv sr) kp vp t)) → Same s s1 →
      (loop s1 pa).Post Q)
    (hroot : ¬(sr.rootColor = BLACK ∧ sl.rootColor = BLACK) →
      ∀ (s1 : RBTreeMap K V) (T : Tree K V), Shape s1 T → T ≠ .nil → Same s s1 →
        (loop s1 s1.root).Post Q) :
    (fixDeleteRestRBody loop s (t.ptr s.sentinel) sa).Post Q := by
  have hs := h.shape
  have hslc := getColor_ptr (C := .L sa sc sk sv sr :: .L pa pc kp vp t :: ctxUp) (t := sl) hs
  have hsrc := getColor_ptr (C := .R sa sc sl sk sv :: .L pa pc kp vp t :: ctxUp) (t := sr) hs
  unfold fixDeleteRestRBody
  simp only [getLeft_at (C := .L pa pc kp vp t :: ctxUp) (a := sa) hs,
    getRight_at (C := .L pa pc kp vp t :: ctxUp) (a := sa) hs, hslc, hsrc, Res.ok_bind]
  by_cases hbb : sr.rootColor = BLACK ∧ sl.rootColor = BLACK
  · -- case 2
    simp only [hbb.1, hbb.2, if_true, Res.ok_bind, Res.pure_def, decide_True, and_self]
    refine Res.Post.bind (setColor_at (C := .L pa pc kp vp t :: ctxUp) (a := sa) RED hs) ?_
    rintro s1 ⟨h1, hs1⟩
    have hX1 : ShapeX s1 (.R pa pc (.node sa RED sl sk sv sr) kp vp :: ctxUp) t :=
      h.of_shape h1 hs1 rfl
    simp only [getParent_x hX1 hs1.sentinel, ctxPar_cons, Frame.addr_R, Res.ok_bind]
    exact hup hbb s1 h1 hs1
  · have hbb' : (if sr.rootColor = BLACK then
          (Res.ok (decide (sl.rootColor = BLACK)) : Res Bool) else Res.ok false) =
        Res.ok false := by
      by_cases h1 : sr.rootColor = BLACK
      · have h2 : ¬sl.rootColor = BLACK := fun h2 => hbb ⟨h1, h2⟩
        simp [h1, h2]
      · simp [h1]
    simp only [Res.pure_def, hbb', Res.ok_bind, Bool.false_eq_true, if_false, hbb]
    by_cases hsl : sl.rootColor = BLACK
    · -- case 3, then case 4
      have hsr : sr.rootColor = RED := by
        cases hc : sr.rootColor
        · exact absurd ⟨hc, hsl⟩ hbb
        · rfl
      obtain ⟨ra, rl, rk, rv, rr, rfl⟩ := Tree.rootColor_red hsr
      simp only [hsl, if_true, Tree.ptr_node, Res.bind_assoc]
      refine Res.Post.bind (setColor_at
        (C := .R sa sc sl sk sv :: .L pa pc kp vp t :: ctxUp) (a := ra) BLACK hs) ?_
      rintro s1 ⟨h1, hs1⟩
      refine Res.Post.bind (setColor_at (C := .L pa pc kp vp t :: ctxUp) (a := sa) RED h1) ?_
      rintro s2 ⟨h2, hs2⟩
      refine Res.Post.bind (rotateLeft_at (C := .L pa pc kp vp t :: ctxUp) h2) ?_
      rintro s3 ⟨h3, hs3⟩
      have hs03 := (hs1.same_trans hs2).same_trans hs3
      have hX3 : ShapeX s3 (.R pa pc
          (.node ra BLACK (.node sa RED sl sk sv rl) rk rv rr) kp vp :: ctxUp) t :=
        h.of_shape h3 hs03 rfl
      simp only [getParent_x hX3 hs03.sentinel, ctxPar_cons, Frame.addr_R, Res.ok_bind,
        getLeft_at (C := ctxUp) (a := pa) h3, Tree.ptr_node, Res.pure_def,
        getColor_at (C := ctxUp) (a := pa) h3]
      refine Res.Post.bind (setColor_at (C := .L pa pc kp vp t :: ctxUp) (a := ra) pc h3) ?_
      rintro s4 ⟨h4, hs4⟩
      have hs04 := hs03.same_trans hs4
      have hX4 : ShapeX s4 (.R pa pc
          (.node ra pc (.node sa RED sl sk sv rl) rk rv rr) kp vp :: ctxUp) t :=
        h.of_shape h4 hs04 rfl
      simp only [getParent_x hX4 hs04.sentinel, ctxPar_cons, Frame.addr_R, Res.ok_bind]
      refine Res.Post.bind (setColor_at (C := ctxUp) (a := pa) BLACK h4) ?_
      rintro s5 ⟨h5, hs5⟩
      simp only [getLeft_at (C := .L pa BLACK kp vp t :: ctxUp) (a := ra) h5, Tree.ptr_node,
        Res.ok_bind]
      refine Res.Post.bind (setColor_at
        (C := .L ra pc rk rv rr :: .L pa BLACK kp vp t :: ctxUp) (a := sa) BLACK h5) ?_
      rintro s6 ⟨h6, hs6⟩
      have hs06 := (hs04.same_trans hs5).same_trans hs6
      have hX6 : ShapeX s6 (.R pa BLACK
          (.node ra pc (.node sa BLACK sl sk sv rl) rk rv rr) kp vp :: ctxUp) t :=
        h.of_shape h6 hs06 rfl
      simp only [getParent_x hX6 hs06.sentinel, ctxPar_cons, Frame.addr_R, Res.ok_bind]
      refine Res.Post.bind (rotateRight_at (C := ctxUp) h6) ?_
      rintro s7 ⟨h7, hs7⟩
      exact hroot hbb s7 _ h7 plug_node_ne (hs06.same_trans hs7)
    · -- case 4
      have hsl' : sl.rootColor = RED := by
        cases hc : sl.rootColor
        · exact absurd hc hsl
        · rfl
      obtain ⟨la, ll, lk, lv, lr, rfl⟩ := Tree.rootColor_red hsl'
      simp only [Tree.rootColor_node, reduceCtorEq, if_false, Tree.ptr_node, Res.pure_def,
        Res.ok_bind, getParent_x h rfl, ctxPar_cons, Frame.addr_R,
        getColor_at (C := ctxUp) (a := pa) hs, Tree.blacken]
      refine Res.Post.bind (setColor_at (C := .L pa pc kp vp t :: ctxUp) (a := sa) pc hs) ?_
      rintro s4 ⟨h4, hs4⟩
      have hX4 : ShapeX s4 (.R pa pc
          (.node sa pc (.node la RED ll lk lv lr) sk sv sr) kp vp :: ctxUp) t :=
        h.of_shape h4 hs4 rfl
      simp only [getParent_x hX4 hs4.sentinel, ctxPar_cons, Frame.addr_R, Res.ok_bind]
      refine Res.Post.bind (setColor_at (C := ctxUp) (a := pa) BLACK h4) ?_
      rintro s5 ⟨h5, hs5⟩
      simp only [getLeft_at (C := .L pa BLACK kp vp t :: ctxUp) (a := sa) h5, Tree.ptr_node,
        Res.ok_bind]
      refine Res.Post.bind (setColor_at
        (C := .L sa pc sk sv sr :: .L pa BLACK kp vp t :: ctxUp) (a := la) BLACK h5) ?_
      rintro s6 ⟨h6, hs6⟩
      have hs06 := (hs4.same_trans hs5).same_trans hs6
      have hX6 : ShapeX s6 (.R pa BLACK
          (.node sa pc (.node la BLACK ll lk lv lr) sk sv sr) kp vp :: ctxUp) t :=
        h.of_shape h6 hs06 rfl
      simp only [getParent_x hX6 hs06.sentinel, ctxPar_cons, Frame.addr_R, Res.ok_bind]
      refine Res.Post.bind (rotateRight_at (C := ctxUp) h6) ?_
      rintro s7 ⟨h7, hs7⟩
      exact hroot hbb s7 _ h7 plug_node_ne (hs06.same_trans hs7)

/-- The sibling-RED case of `fixDelete`, cursor on the left. -/
theorem siblingRedL {s : RBTreeMap K V} {rest : List (Frame K V)} {pa sa la : Nat}
    {pc lc : RB.color} {t ll lr sr : Tree K V} {kp sk lk : K} {vp sv lv : V}
    (h : ShapeX s (.L pa pc kp vp
      (.node sa RED (.node la lc ll lk lv lr) sk sv sr) :: rest) t) :
    (do
      let r ← s.setColor sa BLACK
      let xp ← r.getParent (t.ptr s.sentinel)
      let r ← r.setColor xp RED
      let xp ← r.getParent (t.ptr s.sentinel)
      let r ← rotateLeft r xp
      let xp ← r.getParent (t.ptr s.sentinel)
      let sibling ← r.getRight xp
      (pure (r, sibling) : Res (RBTreeMap K V × Nat))).Post (fun p =>
        p.2 = la ∧ Same s p.1 ∧
        ShapeX p.1 (.L pa RED kp vp (.node la lc ll lk lv lr) ::
          .L sa BLACK sk sv sr :: rest) t) := by
  have hs := h.shape
  refine Res.Post.bind (setColor_at (C := .R pa pc t kp vp :: rest) (a := sa) BLACK hs) ?_
  rintro s1 ⟨h1, hs1⟩
  have hX1 : ShapeX s1 (.L pa pc kp vp
      (.node sa BLACK (.node la lc ll lk lv lr) sk sv sr) :: rest) t :=
    h.of_shape h1 hs1 rfl
  simp only [getParent_x hX1 hs1.sentinel, ctxPar_cons, Frame.addr_L, Res.ok_bind]
  refine Res.Post.bind (setColor_at (C := rest) (a := pa) RED h1) ?_
  rintro s2 ⟨h2, hs2⟩
  have hs02 := hs1.same_trans hs2
  have hX2 : ShapeX s2 (.L pa RED kp vp
      (.node sa BLACK (.node la lc ll lk lv lr) sk sv sr) :: rest) t :=
    h.of_shape h2 hs02 rfl
  simp only [getParent_x hX2 hs02.sentinel, ctxPar_cons, Frame.addr_L, Res.ok_bind]
  refine Res.Post.bind (rotateLeft_at (C := rest) h2) ?_
  rintro s3 ⟨h3, hs3⟩
  have hs03 := hs02.same_trans hs3
  have hX3 : ShapeX s3 (.L pa RED kp vp (.node la lc ll lk lv lr) ::
      .L sa BLACK sk sv sr :: rest) t :=
    h.of_shape h3 hs03 rfl
  simp only [getParent_x hX3 hs03.sentinel, ctxPar_cons, Frame.addr_L, Res.ok_bind,
    getRight_at (C := .L sa BLACK sk sv sr :: rest) (a := pa) h3, Tree.ptr_node,
    Res.pure_def]
  exact Res.Post.ok ⟨rfl, hs03, hX3⟩

/-- The sibling-RED case of `fixDelete`, cursor on the right. -/
theorem siblingRedR {s : RBTreeMap K V} {rest : List (Frame K V)} {pa sa ra : Nat}
    {pc rc : RB.color} {t sl rl rr : Tree K V} {kp sk rk : K} {vp sv rv : V}
    (h : ShapeX s (.R pa pc
      (.node sa RED sl sk sv (.node ra rc rl rk rv rr)) kp vp :: rest) t) :
    (do
      let r ← s.setColor sa BLACK
      let xp ← r.getParent (t.ptr s.sentinel)
      let r ← r.setColor xp RED
      let xp ← r.getParent (t.ptr s.sentinel)
      let r ← rotateRight r xp
      let xp ← r.getParent (t.ptr s.sentinel)
      let sibling ← r.getLeft xp
      (pure (r, sibling) : Res (RBTreeMap K V × Nat))).Post (fun p =>
        p.2 = ra ∧ Same s p.1 ∧
        ShapeX p.1 (.R pa RED (.node ra rc rl rk rv rr) kp vp ::
          .R sa BLACK sl sk sv :: rest) t) := by
  have hs := h.shape
  refine Res.Post.bind (setColor_at (C := .L pa pc kp vp t :: rest) (a := sa) BLACK hs) ?_
  rintro s1 ⟨h1, hs1⟩
  have hX1 : ShapeX s1 (.R pa pc
      (.node sa BLACK sl sk sv (.node ra rc rl rk rv rr)) kp vp :: rest) t :=
    h.of_shape h1 hs1 rfl
  simp only [getParent_x hX1 hs1.sentinel, ctxPar_cons, Frame.addr_R, Res.ok_bind]
  refine Res.Post.bind (setColor_at (C := rest) (a := pa) RED h1) ?_
  rintro s2 ⟨h2, hs2⟩
  have hs02 := hs1.same_trans hs2
  have hX2 : ShapeX s2 (.R pa RED
      (.node sa BLACK sl sk sv (.node ra rc rl rk rv rr)) kp vp :: rest) t :=
    h.of_shape h2 hs02 rfl
  simp only [getParent_x hX2 hs02.sentinel, ctxPar_cons, Frame.addr_R, Res.ok_bind]
  refine Res.Post.bind (rotateRight_at (C := rest) h2) ?_
  rintro s3 ⟨h3, hs3⟩
  have hs03 := hs02.same_trans hs3
  have hX3 : ShapeX s3 (.R pa RED (.node ra rc rl rk rv rr) kp vp ::
      .R sa BLACK sl sk sv :: rest) t :=
    h.of_shape h3 hs03 rfl
  simp only [getParent_x hX3 hs03.sentinel, ctxPar_cons, Frame.addr_R, Res.ok_bind,
    getLeft_at (C := .R sa BLACK sl sk sv :: rest) (a := pa) h3, Tree.ptr_node,
    Res.pure_def]
  exact Res.Post.ok ⟨rfl, hs03, hX3⟩

/-- The loop test of `fixDelete` fails when the cursor is the root or RED. -/
theorem fixDeleteStep_exit {s : RBTreeMap K V} {C : List (Frame K V)} {t : Tree K V}
    (h : ShapeX s C t) (hc : C = [] ∨ t.rootColor = RED) :
    fixDeleteStep s (t.ptr s.sentinel) = .ok none := by
  have hgo : (if t.ptr s.sentinel ≠ s.root then do
          let xc ← s.getColor (t.ptr s.sentinel)
          pure (decide (xc = BLACK))
        else pure false) = Res.ok false := by
    cases C with
    | nil =>
      have := h.shape.rep.1
      simp only [plug_nil] at this
      simp [this]
    | cons f rest =>
      rcases hc with hc | hc
      · cases hc
      · simp [h.ptr_ne_root, getColor_x h, hc]
  unfold fixDeleteStep fixDeleteBody
  rw [hgo]
  rfl

/-- A step that ends with the cursor at the root is a last step. -/
theorem delStepPost_root {s s1 : RBTreeMap K V} {x : Nat} {C : List (Frame K V)}
    {T : Tree K V} (h7 : Shape s1 T) (hT : T ≠ .nil) (hsame : Same s s1)
    (hfam : siblingFamilyBlack s x = .ok false) :
    (pure (some (s1, s1.root)) : Res (Option (RBTreeMap K V × Nat))).Post
      (DelStepPost s x C) := by
  cases T with
  | nil => exact absurd rfl hT
  | node a c l k v r =>
    have hr : s1.root = a := h7.rep.1
    rw [hr]
    exact Res.Post.ok ⟨s1, [], .node a c l k v r, rfl, ShapeX.of_node (C := []) h7, hsame,
      Or.inr ⟨hfam, Or.inl rfl⟩⟩

/-- One run of the body of the loop of `fixDelete`, at a cursor that is BLACK, not the root
and one BLACK node short: the sibling whose children are read is a node, and the body runs
without a fault. -/
theorem fixDeleteStep_sim {s : RBTreeMap K V} {fr : Frame K V} {rest : List (Frame K V)}
    {t : Tree K V} (h : ShapeX s (fr :: rest) t) (hb : CtxBal (fr :: rest) (t.bh + 1))
    (hcb : t.rootColor = BLACK) :
    (fixDeleteStep s (t.ptr s.sentinel)).Post
        (DelStepPost s (t.ptr s.sentinel) (fr :: rest)) ∧
      (fixDeleteSibling s (t.ptr s.sentinel)).Post (fun p =>
        p.2 ≠ 0 ∧ p.2 ≠ p.1.sentinel ∧ Same s p.1) := by
  have hgo : (if t.ptr s.sentinel ≠ s.root then do
        let xc ← s.getColor (t.ptr s.sentinel)
        pure (decide (xc = BLACK))
      else pure false) = Res.ok true := by
    simp [h.ptr_ne_root, getColor_x h, hcb]
  have hs := h.shape
  simp only [CtxBal] at hb
  obtain ⟨hb1, hb2, hb3⟩ := hb
  unfold fixDeleteStep fixDeleteBody fixDeleteSibling
  rw [hgo]
  simp only [Res.ok_bind, if_true, getParent_x h rfl, ctxPar_cons]
  cases fr with
  | L pa pc kp vp sib =>
    simp only [Frame.sib_L, Frame.col_L] at hb1 hb2 hb3
    cases sib with
    | nil => simp at hb2
    | node sa sc sl sk sv sr =>
      have hslc := getColor_ptr
        (C := .L sa sc sk sv sr :: .R pa pc t kp vp :: rest) (t := sl) hs
      have hsrc := getColor_ptr
        (C := .R sa sc sl sk sv :: .R pa pc t kp vp :: rest) (t := sr) hs
      have hfam : siblingFamilyBlack s (t.ptr s.sentinel) =
          .ok (decide (sc = BLACK ∧ sl.rootColor = BLACK ∧ sr.rootColor = BLACK)) := by
        simp only [siblingFamilyBlack, getParent_x h rfl, ctxPar_cons, Frame.addr_L,
          getLeft_at (C := rest) (a := pa) hs, Res.ok_bind, if_true,
          getRight_at (C := rest) (a := pa) hs, Tree.ptr_node,
          getColor_at (C := .R pa pc t kp vp :: rest) (a := sa) hs,
          getLeft_at (C := .R pa pc t kp vp :: rest) (a := sa) hs,
          getRight_at (C := .R pa pc t kp vp :: rest) (a := sa) hs, hslc, hsrc,
          Res.pure_def]
      have hsaf := Shape.node_facts (C := .R pa pc t kp vp :: rest) (a := sa) hs
      simp only [Frame.addr_L, getLeft_at (C := rest) (a := pa) hs, Res.ok_bind, if_true,
        getRight_at (C := rest) (a := pa) hs, Tree.ptr_node,
        getColor_at (C := .R pa pc t kp vp :: rest) (a := sa) hs]
      simp only [Tree.bal_node, Tree.bh_node] at hb1 hb2
      by_cases hsc : sc = RED
      · subst hsc
        simp only [reduceCtorEq, if_false, Nat.add_zero] at hb2
        have hfam0 : siblingFamilyBlack s (t.ptr s.sentinel) = .ok false := by
          rw [hfam]; simp
        cases sl with
        | nil => simp at hb2
        | node la lc ll lk lv lr =>
          obtain ⟨⟨s3, w⟩, heq, hw, hs03, hX3⟩ := siblingRedL h
          simp only at hw hs03 hX3
          have hw2 := hw.symm
          subst hw2
          simp only [if_true, heq, Res.ok_bind]
          refine ⟨?_, Res.Post.ok ⟨?_, ?_, hs03⟩⟩
          · have key : (fixDeleteRestLBody (fun r x => pure (some (r, x))) s3
                (t.ptr s3.sentinel) la).Post
                (DelStepPost s (t.ptr s.sentinel)
                  (.L pa pc kp vp (.node sa RED (.node la lc ll lk lv lr) sk sv sr) ::
                    rest)) := by
              refine restLBody_sim hX3 ?_ ?_
              · intro _ s4 h4 hs4
                exact Res.Post.ok ⟨s4, .L sa BLACK sk sv sr :: rest,
                  .node pa RED t kp vp (.node la RED ll lk lv lr), rfl,
                  ShapeX.of_node (C := .L sa BLACK sk sv sr :: rest) h4,
                  hs03.same_trans hs4, Or.inr ⟨hfam0, Or.inr rfl⟩⟩
              · intro _ s7 T h7 hT hs7
                exact delStepPost_root h7 hT (hs03.same_trans hs7) hfam0
            rw [hs03.sentinel] at key
            exact key
          · exact (Shape.node_facts
              (C := .R pa RED t kp vp :: .L sa BLACK sk sv sr :: rest) hX3.shape).1
          · exact (Shape.node_facts
              (C := .R pa RED t kp vp :: .L sa BLACK sk sv sr :: rest) hX3.shape).2.1
      · have hscb := color_eq_black_of_ne_red hsc
        simp only [hsc, if_false, Res.pure_def, Res.ok_bind]
        refine ⟨?_, Res.Post.ok ⟨hsaf.1, hsaf.2.1, Same.same_refl⟩⟩
        refine restLBody_sim h ?_ ?_
        · intro hbb s1 h1 hs1
          refine Res.Post.ok ⟨s1, rest, .node pa pc t kp vp (.node sa RED sl sk sv sr), rfl,
            ShapeX.of_node (C := rest) h1, hs1,
            Or.inl ⟨?_, rfl, ?_⟩⟩
          · rw [hfam]; simp [hscb, hbb.1, hbb.2]
          · simp only [Tree.bh_node]
            rw [Nat.add_right_comm]
            exact hb3
        · intro hbb s7 T h7 hT hs7
          refine delStepPost_root h7 hT hs7 ?_
          rw [hfam]
          simp only [Res.ok.injEq, decide_eq_false_iff_not]
          exact fun hx => hbb hx.2
  | R pa pc sib kp vp =>
    simp only [Frame.sib_R, Frame.col_R] at hb1 hb2 hb3
    cases sib with
    | nil => simp at hb2
    | node sa sc sl sk sv sr =>
      have hne : t.ptr s.sentinel ≠ sa :=
        fun e => Shape.left_ptr_ne_right (C := rest) hs e.symm
      have hslc := getColor_ptr
        (C := .L sa sc sk sv sr :: .L pa pc kp vp t :: rest) (t := sl) hs
      have hsrc := getColor_ptr
        (C := .R sa sc sl sk sv :: .L pa pc kp vp t :: rest) (t := sr) hs
      have hfam : siblingFamilyBlack s (t.ptr s.sentinel) =
          .ok (decide (sc = BLACK ∧ sl.rootColor = BLACK ∧ sr.rootColor = BLACK)) := by
        simp only [siblingFamilyBlack, getParent_x h rfl, ctxPar_cons, Frame.addr_R,
          getLeft_at (C := rest) (a := pa) hs, Res.ok_bind, hne, if_false,
          Tree.ptr_node,
          getColor_at (C := .L pa pc kp vp t :: rest) (a := sa) hs,
          getLeft_at (C := .L pa pc kp vp t :: rest) (a := sa) hs,
          getRight_at (C := .L pa pc kp vp t :: rest) (a := sa) hs, hslc, hsrc,
          Res.pure_def]
      have hsaf := Shape.node_facts (C := .L pa pc kp vp t :: rest) (a := sa) hs
      simp only [Frame.addr_R, getLeft_at (C := rest) (a := pa) hs, Res.ok_bind, hne,
        if_false, Tree.ptr_node,
        getColor_at (C := .L pa pc kp vp t :: rest) (a := sa) hs]
      simp only [Tree.bal_node, Tree.bh_node] at hb1 hb2
      by_cases hsc : sc = RED
      · subst hsc
        simp only [reduceCtorEq, if_false, Nat.add_zero] at hb2
        have hfam0 : siblingFamilyBlack s (t.ptr s.sentinel) = .ok false := by
          rw [hfam]; simp
        cases sr with
        | nil =>
          have := hb1.2.2
          simp only [Tree.bh_nil] at this
          omega
        | node ra rc rl rk rv rr =>
          obtain ⟨⟨s3, w⟩, heq, hw, hs03, hX3⟩ := siblingRedR h
          simp only at hw hs03 hX3
          have hw2 := hw.symm
          subst hw2
          simp only [if_true, heq, Res.ok_bind]
          refine ⟨?_, Res.Post.ok ⟨?_, ?_, hs03⟩⟩
          · have key : (fixDeleteRestRBody (fun r x => pure (some (r, x))) s3
                (t.ptr s3.sentinel) ra).Post
                (DelStepPost s (t.ptr s.sentinel)
                  (.R pa pc (.node sa RED sl sk sv (.node ra rc rl rk rv rr)) kp vp ::
                    rest)) := by
              refine restRBody_sim hX3 ?_ ?_
              · intro _ s4 h4 hs4
                exact Res.Post.ok ⟨s4, .R sa BLACK sl sk sv :: rest,
                  .node pa RED (.node ra RED rl rk rv rr) kp vp t, rfl,
                  ShapeX.of_node (C := .R sa BLACK sl sk sv :: rest) h4,
                  hs03.same_trans hs4, Or.inr ⟨hfam0, Or.inr rfl⟩⟩
              · intro _ s7 T h7 hT hs7
                exact delStepPost_root h7 hT (hs03.same_trans hs7) hfam0
            rw [hs03.sentinel] at key
            exact key
          · exact (Shape.node_facts
              (C := .L pa RED kp vp t :: .R sa BLACK sl sk sv :: rest) hX3.shape).1
          · exact (Shape.node_facts
              (C := .L pa RED kp vp t :: .R sa BLACK sl sk sv :: rest) hX3.shape).2.1
      · have hscb := color_eq_black_of_ne_red hsc
        simp only [hsc, if_false, Res.pure_def, Res.ok_bind]
        refine ⟨?_, Res.Post.ok ⟨hsaf.1, hsaf.2.1, Same.same_refl⟩⟩
        refine restRBody_sim h ?_ ?_
        · intro hbb s1 h1 hs1
          refine Res.Post.ok ⟨s1, rest, .node pa pc (.node sa RED sl sk sv sr) kp vp t, rfl,
            ShapeX.of_node (C := rest) h1, hs1,
            Or.inl ⟨?_, rfl, ?_⟩⟩
          · rw [hfam]; simp [hscb, hbb.1, hbb.2]
          · simp only [Tree.bh_node]
            subst hscb
            simp only [if_true, reduceCtorEq, if_false, Nat.add_zero] at hb2 ⊢
            rw [show sl.bh = t.bh from by omega, Nat.add_right_comm]
            exact hb3
        · intro hbb s7 T h7 hT hs7
          refine delStepPost_root h7 hT hs7 ?_
          rw [hfam]
          simp only [Res.ok.injEq, decide_eq_false_iff_not]
          exact fun hx => hbb ⟨hx.2.2, hx.2.1⟩

theorem DelLive.live_depth {r : RBTreeMap K V} {x d : Nat} (h : DelLive r x d) :
    ∀ F, d < F → depth r F x = .ok d := by
  obtain ⟨C, t, hX, rfl, rfl, -⟩ := h
  exact depth_of_shapeX C hX

theorem DelLast.last_depth {r : RBTreeMap K V} {x d : Nat} (h : DelLast r x d) :
    ∀ F, d < F → depth r F x = .ok d := by
  obtain ⟨C, t, hX, rfl, rfl, -⟩ := h
  exact depth_of_shapeX C hX

/-- At a last loop head the loop test fails, the cursor is the root or RED, and the
statement after the loop colours the cursor BLACK. -/
theorem DelLast.last_exit {r : RBTreeMap K V} {x d : Nat} (h : DelLast r x d) :
    fixDeleteStep r x = .ok none ∧ (x = r.root ∨ r.getColor x = .ok RED) ∧
      ∃ r', r.setColor x BLACK = .ok r' ∧ r'.getColor x = .ok BLACK ∧
        ∀ F, fixDelete (F + 1) r x = .ok r' ∧ fixDeleteIters (F + 1) r x = .ok 0 := by
  obtain ⟨C, t, hX, rfl, rfl, hc⟩ := h
  have hstep := fixDeleteStep_exit hX hc
  have hne := hX.ptr_ne_zero
  refine ⟨hstep, ?_, _, by simp only [RBTreeMap.setColor, hne, if_false]; rfl, ?_, ?_⟩
  · rcases hc with rfl | hc
    · left
      have := hX.shape.rep.1
      simp only [plug_nil] at this
      exact this.symm
    · right
      rw [getColor_x hX, hc]
  · simp [RBTreeMap.getColor, hne]
  · intro F
    rw [fixDelete_body, fixDeleteBody_step, fixDeleteIters, hstep]
    simp [RBTreeMap.setColor, hne]

/-- One pass through the loop of `fixDelete` at a loop head that is one BLACK node short:
either the loop test fails; or the body runs without a fault, the sibling whose children it
reads is a node, and the body leaves a head one level up when the sibling and its children
were BLACK, and a last head otherwise. -/
theorem DelLive.live_step {r : RBTreeMap K V} {x d : Nat} (h : DelLive r x d) :
    DelLast r x d ∨
      ((fixDeleteSibling r x).Post (fun p => p.2 ≠ 0 ∧ p.2 ≠ p.1.sentinel ∧ Same r p.1) ∧
        ∃ r1 x1, fixDeleteStep r x = .ok (some (r1, x1)) ∧ Same r r1 ∧
          ((siblingFamilyBlack r x = .ok true ∧ ∃ d1, DelLive r1 x1 d1 ∧ d1 + 1 = d) ∨
            (siblingFamilyBlack r x = .ok false ∧ ∃ d1, DelLast r1 x1 d1 ∧ 0 < d))) := by
  obtain ⟨C, t, hX, rfl, rfl, hb⟩ := h
  cases C with
  | nil => exact Or.inl ⟨[], t, hX, rfl, rfl, Or.inl rfl⟩
  | cons fr rest =>
    by_cases hc : t.rootColor = RED
    · exact Or.inl ⟨fr :: rest, t, hX, rfl, rfl, Or.inr hc⟩
    · right
      obtain ⟨⟨o, ho, s1, C1, t1, rfl, hX1, hsame, hcase⟩, hsib⟩ :=
        fixDeleteStep_sim hX hb (color_eq_black_of_ne_red hc)
      refine ⟨hsib, s1, _, ho, hsame, ?_⟩
      rcases hcase with ⟨hf, hl, hb1⟩ | ⟨hf, hl⟩
      · refine Or.inl ⟨hf, C1.length, ⟨C1, t1, hX1, rfl, rfl, hb1⟩, ?_⟩
        simpa using hl
      · exact Or.inr ⟨hf, C1.length, ⟨C1, t1, hX1, rfl, rfl, hl⟩, by simp⟩

/-- A run of loop heads can be extended at its start. -/
theorem FixDeleteHead.prepend {r0 r1 r : RBTreeMap K V} {x0 x1 x i : Nat}
    (hstep : fixDeleteStep r0 x0 = .ok (some (r1, x1)))
    (hh : FixDeleteHead r1 x1 i r x) : FixDeleteHead r0 x0 (i + 1) r x := by
  induction hh with
  | start => exact FixDeleteHead.next FixDeleteHead.start hstep
  | next _ hs ih => exact FixDeleteHead.next ih hs

/-- Every loop head of a run of `fixDelete` that starts one BLACK node short at depth `d0`
is either such a head, with the iterations so far plus its depth at most `d0`, or a last
head. -/
theorem FixDeleteHead.del_heads {r0 r : RBTreeMap K V} {x0 x i d0 : Nat}
    (hh : FixDeleteHead r0 x0 i r x) (h0 : DelLive r0 x0 d0) :
    i ≤ d0 ∧ Same r0 r ∧
      ((∃ d, DelLive r x d ∧ i + d ≤ d0) ∨ (∃ d, DelLast r x d)) := by
  induction hh with
  | start => exact ⟨Nat.zero_le _, Same.same_refl, Or.inl ⟨d0, h0, by omega⟩⟩
  | next hprev hstep ih =>
    obtain ⟨-, hsame, hcase⟩ := ih
    rcases hcase with ⟨d, hd, hle⟩ | ⟨d, hd⟩
    · rcases hd.live_step with hl | ⟨-, r1, x1, e, hs1, hc⟩
      · rw [hl.last_exit.1] at hstep
        cases hstep
      · rw [e] at hstep
        cases hstep
        rcases hc with ⟨-, d1, h1, e1⟩ | ⟨-, d1, h1, hpos⟩
        · exact ⟨by omega, hsame.same_trans hs1, Or.inl ⟨d1, h1, by omega⟩⟩
        · exact ⟨by omega, hsame.same_trans hs1, Or.inr ⟨d1, h1⟩⟩
    · rw [hd.last_exit.1] at hstep
      cases hstep

/-- From a loop head at depth `d` that is one BLACK node short, the loop of `fixDelete` runs
its body at most `d` times and then ends at a head whose cursor is the root or RED; the
cursor is then coloured BLACK.  Any budget above `d` is enough. -/
theorem DelLive.live_run : ∀ (d : Nat) {r : RBTreeMap K V} {x : Nat}, DelLive r x d →
    ∃ i rl xl r', i ≤ d ∧ FixDeleteHead r x i rl xl ∧ fixDeleteStep rl xl = .ok none ∧
      (xl = rl.root ∨ rl.getColor xl = .ok RED) ∧
      rl.setColor xl BLACK = .ok r' ∧ r'.getColor xl = .ok BLACK ∧
      ∀ F, d < F → fixDeleteIters F r x = .ok i ∧ fixDelete F r x = .ok r' := by
  intro d
  induction d using Nat.strong_induction_on with
  | _ d ih =>
    intro r x h
    rcases h.live_step with hl | ⟨-, r1, x1, e, hs1, hc⟩
    · obtain ⟨hstep, hx, r', e1, e2, hrun⟩ := hl.last_exit
      refine ⟨0, r, x, r', Nat.zero_le _, FixDeleteHead.start, hstep, hx, e1, e2,
        fun F hF => ?_⟩
      obtain ⟨f, rfl⟩ : ∃ f, F = f + 1 := ⟨F - 1, by omega⟩
      exact ⟨(hrun f).2, (hrun f).1⟩
    · rcases hc with ⟨-, d1, h1, e1⟩ | ⟨-, d1, h1, hpos⟩
      · obtain ⟨i, rl, xl, r', hi, hh, hstep, hx, e2, e3, hrun⟩ := ih d1 (by omega) h1
        refine ⟨i + 1, rl, xl, r', by omega, hh.prepend e, hstep, hx, e2, e3, fun F hF => ?_⟩
        obtain ⟨f, rfl⟩ : ∃ f, F = f + 1 := ⟨F - 1, by omega⟩
        obtain ⟨e4, e5⟩ := hrun f (by omega)
        rw [fixDelete_body, fixDeleteBody_step, fixDeleteIters, e]
        simp only [Res.ok_bind, e4, e5, Res.pure_def, and_self]
      · obtain ⟨hstep, hx, r', e2, e3, hrun⟩ := h1.last_exit
        refine ⟨1, r1, x1, r', by omega, FixDeleteHead.start.prepend e, hstep, hx, e2, e3,
          fun F hF => ?_⟩
        obtain ⟨f, rfl⟩ : ∃ f, F = f + 2 := ⟨F - 2, by omega⟩
        rw [fixDelete_body, fixDeleteBody_step, fixDeleteIters, e]
        simp only [Res.ok_bind, (hrun f).1, (hrun f).2, Res.pure_def, and_self]

/-- When the search of `Remove` finds the key, the node is unlinked, and if the colour taken
out is BLACK the loop of `fixDelete` starts at a loop head that is one BLACK node short. -/
theorem remove_head [DecidableEq K] {s : RBTreeMap K V} {T : Tree K V} (h : Inv s T)
    (key : K) (fuel : Nat) (hf : s.next ≤ fuel) {C : List (Frame K V)} {z : Nat}
    {zc : RB.color} {zl zr : Tree K V} {zk : K} {zv : V}
    (hd : descend s.compare key [] T = (C, .node z zc zl zk zv zr)) :
    search fuel s key = .ok z ∧ z ≠ s.sentinel ∧
      ∃ r0 x0 yc, removeSplice fuel { s with size := s.size - 1 } z = .ok (r0, x0, yc) ∧
        (yc = BLACK → ∃ d0, DelLive r0 x0 d0 ∧ d0 + 3 ≤ fuel) ∧
        Remove fuel key s = (if yc = BLACK then fixDelete fuel r0 x0 else pure r0) := by
  have hh := h.height_lt
  have hsz := h.size_lt
  have hplug := plug_descend s.compare key [] T
  have hsearch := searchLoop_sim key T [] fuel h.shape (by omega)
  rw [← h.shape.rep.1] at hsearch
  rw [hd] at hplug hsearch
  simp only [plug_nil, Tree.ptr_node] at hplug hsearch
  have hs : Shape s (plug C (.node z zc zl zk zv zr)) := hplug ▸ h.shape
  have hrb : (plug C (.node z zc zl zk zv zr)).RBInv := hplug ▸ h.rb
  have hz : z ≠ s.sentinel := hs.node_facts.2.1
  have hs' := hs.with_size (s.size - 1)
  have hsize := size_plug_ge C (.node z zc zl zk zv zr)
  rw [hplug] at hsize
  simp only [Tree.size_node] at hsize
  have hzr : zr.height ≤ fuel := by
    have := zr.height_le_size
    omega
  obtain ⟨u, hu1, hu2, hu3, hu4, hu5, hu6⟩ := spliceZ_spec C z zc zl zk zv zr hrb
  have hfl := fun {β : Type} (g : Nat → K → V → β) => spliceZ_flat g C zc zl zr
  have hT : ∀ {β : Type} (g : Nat → K → V → β),
      T.flat g = ctxLeft g C ++ (zl.flat g ++ g z zk zv :: zr.flat g) ++ ctxRight g C := by
    intro β g
    rw [← hplug, flat_plug]; rfl
  obtain ⟨⟨r, x, yc⟩, hsp, hX, hx, hyc, hw⟩ := removeSplice_sim hs' fuel hzr
  simp only at hX hx hyc hw
  refine ⟨hsearch, hz, r, x, yc, hsp, ?_, ?_⟩
  · intro hc
    generalize spliceZ C zc zl zr = sp at hu1 hu2 hu3 hu4 hu5 hu6 hfl hX hx hyc
    obtain ⟨C', x', yc'⟩ := sp
    simp only at hu1 hu2 hu3 hu4 hu5 hu6 hfl hX hx hyc
    subst hyc hx
    have hcb := ((bal_plug _ _).1 hu1.2.2).2
    simp only [hc, if_true] at hu5
    have hw1 : r.sentinel = s.sentinel := hw.sentinel
    refine ⟨C'.length, ⟨C', x', hX, by rw [hw1], rfl, by rw [← hu5]; exact hcb⟩, ?_⟩
    have h1 := size_plug_ge C' x'
    have h2 := Tree.size_eq_length (fun a _ _ => a) (plug C' x')
    have h3 := Tree.size_eq_length (fun a _ _ => a) T
    rw [hfl] at h2
    rw [hT] at h3
    simp only [List.length_append, List.length_cons] at h2 h3
    omega
  · rw [Remove_unfold]
    unfold search
    rw [hsearch]
    simp only [Res.ok_bind, if_neg hz, hsp]

/-- The run of the loop of `fixDelete`, summed up for the claims: what holds at every loop
head of a run that starts one BLACK node short at depth `d0`. -/
theorem FixDeleteHead.del_facts {r0 r : RBTreeMap K V} {x0 x i d0 : Nat}
    (hh : FixDeleteHead r0 x0 i r x) (h0 : DelLive r0 x0 d0) :
    ∃ d, (∀ F, d < F → depth r F x = .ok d) ∧ i ≤ d0 ∧
      ∃ o, fixDeleteStep r x = .ok o ∧
        ∀ r1 x1, o = some (r1, x1) →
          (fixDeleteSibling r x).Post (fun p => p.2 ≠ 0 ∧ p.2 ≠ p.1.sentinel) ∧
          ((siblingFamilyBlack r x = .ok true ∧
              ∃ d1, (∀ F, d1 < F → depth r1 F x1 = .ok d1) ∧ d1 + 1 = d) ∨
            (siblingFamilyBlack r x = .ok false ∧ fixDeleteStep r1 x1 = .ok none ∧
              (x1 = r1.root ∨ r1.getColor x1 = .ok RED))) := by
  obtain ⟨hi, -, hcase⟩ := hh.del_heads h0
  rcases hcase with ⟨d, hd, -⟩ | ⟨d, hd⟩
  · refine ⟨d, hd.live_depth, hi, ?_⟩
    rcases hd.live_step with hl | ⟨hsib, r1, x1, e, -, hc⟩
    · exact ⟨none, hl.last_exit.1, fun r1 x1 e => by cases e⟩
    · refine ⟨_, e, fun r2 x2 e2 => ?_⟩
      cases e2
      refine ⟨hsib.mono (fun p hp => ⟨hp.1, hp.2.1⟩), ?_⟩
      rcases hc with ⟨hf, d1, h1, e1⟩ | ⟨hf, d1, h1, -⟩
      · exact Or.inl ⟨hf, d1, h1.live_depth, e1⟩
      · exact Or.inr ⟨hf, h1.last_exit.1, h1.last_exit.2.1⟩
  · exact ⟨d, hd.last_depth, hi, none, hd.last_exit.1, fun r1 x1 e => by cases e⟩

/-- The descent of `Insert` ends below a leaf only when it has not found the key. -/
theorem insertLoop_inr [DecidableEq K] {s : RBTreeMap K V} {T : Tree K V} (h : Inv s T)
    (key : K) (value : V) (fuel : Nat) (hf : s.next ≤ fuel) {parent : Nat}
    (hloop : insertLoop s key value fuel s.sentinel s.root = .ok (Sum.inr parent)) :
    (descend s.compare key [] T).2 = .nil := by
  have hh := h.height_lt
  have hsim := insertLoop_sim (s := s) key value T [] fuel h.shape (by omega)
  simp only [ctxPar_nil] at hsim
  rw [← h.shape.rep.1, hloop] at hsim
  rcases hd : descend s.compare key [] T with ⟨C, t⟩
  rw [hd] at hsim
  cases t with
  | nil => rfl
  | node a c l k v r =>
    exfalso
    simp only at hsim
    cases hv : s.setValue a value <;> rw [hv] at hsim <;> cases hsim

/-- C20: on every reachable map, a `Remove` that takes a BLACK colour out of the tree starts
the loop of `fixDelete` at a cursor of some depth `d0`.  At every loop head of that run the
pass through the loop completes; when the body runs, the sibling whose children it reads is
a node, and either the sibling and its two children are BLACK and the cursor ends exactly
one level nearer to the root, or the iteration is the last one: the cursor is then the root
or RED and the next loop test fails.  The body runs at most `d0` times; the loop ends at a
head whose cursor is the root or RED, that cursor is coloured BLACK, and this is the result
of `Remove`. -/
theorem C20_delete_fixup_terminates [DecidableEq K] [Inhabited K] [Inhabited V]
    {cmp : K → K → Bool} {ops : List (Op K V)} {s : RBTreeMap K V}
    (hr : Reach cmp ops s) (k : K) (fuel : Nat) (hf : s.next ≤ fuel)
    (hb : removedColor fuel k s = .ok (some BLACK)) :
    ∃ z r0 x0 d0, search fuel s k = .ok z ∧
      removeSplice fuel { s with size := s.size - 1 } z = .ok (r0, x0, BLACK) ∧
      (∀ F, d0 < F → depth r0 F x0 = .ok d0) ∧
      (∀ i r x, FixDeleteHead r0 x0 i r x →
        ∃ d, (∀ F, d < F → depth r F x = .ok d) ∧ i ≤ d0 ∧
          ∃ o, fixDeleteStep r x = .ok o ∧
            ∀ r1 x1, o = some (r1, x1) →
              (fixDeleteSibling r x).Post (fun p => p.2 ≠ 0 ∧ p.2 ≠ p.1.sentinel) ∧
              ((siblingFamilyBlack r x = .ok true ∧
                  ∃ d1, (∀ F, d1 < F → depth r1 F x1 = .ok d1) ∧ d1 + 1 = d) ∨
                (siblingFamilyBlack r x = .ok false ∧ fixDeleteStep r1 x1 = .ok none ∧
                  (x1 = r1.root ∨ r1.getColor x1 = .ok RED)))) ∧
      ∃ i rl xl r', fixDeleteIters (d0 + 1) r0 x0 = .ok i ∧ i ≤ d0 ∧
        FixDeleteHead r0 x0 i rl xl ∧ fixDeleteStep rl xl = .ok none ∧
        (xl = rl.root ∨ rl.getColor xl = .ok RED) ∧
        fixDelete (d0 + 1) r0 x0 = .ok r' ∧ rl.setColor xl BLACK = .ok r' ∧
        r'.getColor xl = .ok BLACK ∧ Remove fuel k s = .ok r' := by
  obtain ⟨T, hT, -⟩ := hr.inv
  rcases hd : descend s.compare k [] T with ⟨C, t⟩
  cases t with
  | nil =>
    exfalso
    have hh := hT.height_lt
    have hsearch := searchLoop_sim k T [] fuel hT.shape (by omega)
    rw [← hT.shape.rep.1, hd] at hsearch
    unfold removedColor search at hb
    rw [hsearch] at hb
    simp at hb
  | node z zc zl zk zv zr =>
    obtain ⟨hsearch, hz, r0, x0, yc, hsp, hlive, hrem⟩ := remove_head hT k fuel hf hd
    have hyc : yc = BLACK := by
      unfold removedColor at hb
      rw [hsearch] at hb
      simp only [Res.ok_bind, if_neg hz, hsp, Res.pure_def, Res.ok.injEq,
        Option.some.injEq] at hb
      exact hb
    subst hyc
    obtain ⟨d0, h0, hd0⟩ := hlive rfl
    refine ⟨z, r0, x0, d0, hsearch, hsp, h0.live_depth, fun i r x hh => hh.del_facts h0, ?_⟩
    obtain ⟨i, rl, xl, r', hi, hh, hstep, hx, e1, e2, hrun⟩ := h0.live_run d0
    obtain ⟨e3, e4⟩ := hrun (d0 + 1) (Nat.lt_succ_self _)
    refine ⟨i, rl, xl, r', e3, hi, hh, hstep, hx, e4, e1, e2, ?_⟩
    rw [hrem, if_pos rfl]
    exact (hrun fuel (by omega)).2

/-- C13: on every reachable map, whatever the ordering predicate, each of `Insert`,
`Remove`, `Get`, `ContainsKey`, `LowerBound`, `UpperBound` and `InOrder` (with any consumer)
completes for every argument.  In particular, at every loop head of the `fixInsert` run of
an `Insert` the parent and its colour are read, the pass through the loop completes, and the
grandparent is read only when the parent is RED, in which case the parent is a node other
than the root and the grandparent is a node; and at every loop head of the `fixDelete` run
of a `Remove` the pass through the loop completes, and when the body runs, the sibling whose
children it reads is a node and not the sentinel. -/
theorem C13_no_operation_faults [DecidableEq K] [Inhabited K] [Inhabited V]
    {cmp : K → K → Bool} {ops : List (Op K V)} {s : RBTreeMap K V}
    (hr : Reach cmp ops s) (fuel : Nat) (hf : s.next ≤ fuel) :
    (∀ k v, ∃ s', Insert fuel k v s = .ok s') ∧
    (∀ k, ∃ s', Remove fuel k s = .ok s') ∧
    (∀ k, ∃ res, Get fuel k s = .ok res) ∧
    (∀ k, ∃ res, ContainsKey fuel k s = .ok res) ∧
    (∀ k, ∃ res, LowerBound fuel k s = .ok res) ∧
    (∀ k, ∃ res, UpperBound fuel k s = .ok res) ∧
    (∀ (σ : Type) (yield : σ → K → V → σ × Bool) (init : σ),
      ∃ res, InOrder fuel s yield init = .ok res) ∧
    (∀ k v parent r0, insertLoop s k v fuel s.sentinel s.root = .ok (Sum.inr parent) →
      attach s parent k v = .ok r0 →
      ∀ i r n, FixInsertHead r0 s.next i r n →
        ∃ p pc, r.getParent n = .ok p ∧ r.getColor p = .ok pc ∧
          (pc = RED → p ≠ r.root ∧ p ≠ r.sentinel ∧
            ∃ g, r.getParent p = .ok g ∧ g ≠ 0 ∧ g ≠ r.sentinel) ∧
          ∃ o, fixInsertStep r n = .ok o ∧ (o = none ↔ pc = BLACK)) ∧
    (∀ k z r0 x0, search fuel s k = .ok z → z ≠ s.sentinel →
      removeSplice fuel { s with size := s.size - 1 } z = .ok (r0, x0, BLACK) →
      ∀ i r x, FixDeleteHead r0 x0 i r x →
        ∃ o, fixDeleteStep r x = .ok o ∧
          (o ≠ none →
            (fixDeleteSibling r x).Post (fun p => p.2 ≠ 0 ∧ p.2 ≠ p.1.sentinel))) := by
  obtain ⟨T, hT, -⟩ := hr.inv
  refine ⟨fun k v => ?_, fun k => ?_, fun k => ⟨_, Get_sim hT k fuel hf⟩,
    fun k => ⟨_, ContainsKey_sim hT k fuel hf⟩, fun k => ⟨_, LowerBound_sim hT k fuel hf⟩,
    fun k => ⟨_, UpperBound_sim hT k fuel hf⟩,
    fun σ yield init => ⟨_, InOrder_sim hT yield init fuel hf⟩, ?_, ?_⟩
  · obtain ⟨s', e, -⟩ := Insert_inv hT k v fuel hf
    exact ⟨s', e⟩
  · obtain ⟨s', e, -⟩ := Remove_inv hT k fuel hf
    exact ⟨s', e⟩
  · intro k v parent r0 hloop hatt i r n hh
    have hnil := insertLoop_inr hT k v fuel hf hloop
    obtain ⟨parent', r0', d0, hloop', hatt', h0, -, -, -⟩ := attach_head hT k v fuel hf hnil
    rw [hloop] at hloop'
    cases hloop'
    rw [hatt] at hatt'
    cases hatt'
    obtain ⟨d, hd, -, -⟩ := hh.ins_heads h0
    obtain ⟨p, pc, hp, hpc, hB, hR⟩ := hd.ins_step
    refine ⟨p, pc, hp, hpc, fun hc => ?_, ?_⟩
    · obtain ⟨h1, h2, h3, -⟩ := hR hc
      exact ⟨h1, h2, h3⟩
    · cases pc with
      | BLACK => exact ⟨none, hB rfl, ⟨fun _ => rfl, fun _ => rfl⟩⟩
      | RED =>
        obtain ⟨-, -, -, r1, n1, d1, e, -⟩ := hR rfl
        exact ⟨_, e, ⟨fun h => (by cases h), fun h => (by cases h)⟩⟩
  · intro k z r0 x0 hsearch hz hsp i r x hh
    rcases hd : descend s.compare k [] T with ⟨C, t⟩
    cases t with
    | nil =>
      exfalso
      have hh' := hT.height_lt
      have hsearch' := searchLoop_sim k T [] fuel hT.shape (by omega)
      rw [← hT.shape.rep.1, hd] at hsearch'
      unfold search at hsearch
      rw [hsearch] at hsearch'
      simp only [Res.ok.injEq, Tree.ptr_nil] at hsearch'
      exact hz hsearch'
    | node z' zc zl zk zv zr =>
      obtain ⟨hsearch', -, r0', x0', yc, hsp', hlive, -⟩ := remove_head hT k fuel hf hd
      rw [hsearch] at hsearch'
      cases hsearch'
      rw [hsp] at hsp'
      cases hsp'
      obtain ⟨d0, h0, -⟩ := hlive rfl
      obtain ⟨d, -, -, o, ho, hfacts⟩ := hh.del_facts h0
      refine ⟨o, ho, fun hne => ?_⟩
      cases o with
      | none => exact absurd rfl hne
      | some p => exact (hfacts p.1 p.2 rfl).1

/-- Witness of C13 on the map of the combined scenario. -/
theorem C13_witness :
    (∀ k v, ∃ s', Insert 32 k v scenarioMap = .ok s') ∧
    (∀ k, ∃ s', Remove 32 k scenarioMap = .ok s') ∧
    (∀ k, ∃ res, Get 32 k scenarioMap = .ok res) ∧
    (∀ k, ∃ res, ContainsKey 32 k scenarioMap = .ok res) ∧
    (∀ k, ∃ res, LowerBound 32 k scenarioMap = .ok res) ∧
    (∀ k, ∃ res, UpperBound 32 k scenarioMap = .ok res) ∧
    (∀ (σ : Type) (yield : σ → Int → Bool → σ × Bool) (init : σ),
      ∃ res, InOrder 32 scenarioMap yield init = .ok res) ∧
    (∀ k v parent r0,
      insertLoop scenarioMap k v 32 scenarioMap.sentinel scenarioMap.root =
        .ok (Sum.inr parent) →
      attach scenarioMap parent k v = .ok r0 →
      ∀ i r n, FixInsertHead r0 scenarioMap.next i r n →
        ∃ p pc, r.getParent n = .ok p ∧ r.getColor p = .ok pc ∧
          (pc = RED → p ≠ r.root ∧ p ≠ r.sentinel ∧
            ∃ g, r.getParent p = .ok g ∧ g ≠ 0 ∧ g ≠ r.sentinel) ∧
          ∃ o, fixInsertStep r n = .ok o ∧ (o = none ↔ pc = BLACK)) ∧
    (∀ k z r0 x0, search 32 scenarioMap k = .ok z → z ≠ scenarioMap.sentinel →
      removeSplice 32 { scenarioMap with size := scenarioMap.size - 1 } z =
        .ok (r0, x0, BLACK) →
      ∀ i r x, FixDeleteHead r0 x0 i r x →
        ∃ o, fixDeleteStep r x = .ok o ∧
          (o ≠ none →
            (fixDeleteSibling r x).Post (fun p => p.2 ≠ 0 ∧ p.2 ≠ p.1.sentinel))) :=
  C13_no_operation_faults scenarioMap_reach 32 scenarioMap_next

/-- Witness of C19: the key 35 is inserted into the map that holds the fourteen keys of the
scenario; the new node hangs five levels below the root. -/
theorem C19_witness :
    ∃ parent r0 d0,
      insertLoop insertedMap 35 true 32 insertedMap.sentinel insertedMap.root =
        .ok (Sum.inr parent) ∧
      attach insertedMap parent 35 true = .ok r0 ∧
      r0.getColor insertedMap.next = .ok RED ∧
      (∀ F, d0 < F → depth r0 F insertedMap.next = .ok d0) ∧
      (∀ i r n, FixInsertHead r0 insertedMap.next i r n →
        ∃ d, (∀ F, d < F → depth r F n = .ok d) ∧ i + d ≤ d0 ∧
          ∃ o, fixInsertStep r n = .ok o ∧
            ∀ r1 n1, o = some (r1, n1) →
              ∃ d1, (∀ F, d1 < F → depth r1 F n1 = .ok d1) ∧
                ((uncleColor r n = .ok RED ∧ d1 + 2 = d) ∨
                  (uncleColor r n = .ok BLACK ∧ d1 + 1 = d))) ∧
      ∃ i r', fixInsertIters (d0 + 1) r0 insertedMap.next = .ok i ∧ i ≤ d0 ∧
        fixInsert (d0 + 1) r0 insertedMap.next = .ok r' ∧
        r'.getColor r'.root = .ok BLACK ∧
        Insert 32 35 true insertedMap = .ok r' :=
  C19_insert_fixup_terminates_by_ascent insertedMap_reach 35 true 32 insertedMap_next
    (by decide!)

/-- Witness of C20: the key 60 is removed from the map that holds the fourteen keys of the
scenario; the removal takes a BLACK colour out of the tree. -/
theorem C20_witness :
    ∃ z r0 x0 d0, search 32 insertedMap 60 = .ok z ∧
      removeSplice 32 { insertedMap with size := insertedMap.size - 1 } z =
        .ok (r0, x0, BLACK) ∧
      (∀ F, d0 < F → depth r0 F x0 = .ok d0) ∧
      (∀ i r x, FixDeleteHead r0 x0 i r x →
        ∃ d, (∀ F, d < F → depth r F x = .ok d) ∧ i ≤ d0 ∧
          ∃ o, fixDeleteStep r x = .ok o ∧
            ∀ r1 x1, o = some (r1, x1) →
              (fixDeleteSibling r x).Post (fun p => p.2 ≠ 0 ∧ p.2 ≠ p.1.sentinel) ∧
              ((siblingFamilyBlack r x = .ok true ∧
                  ∃ d1, (∀ F, d1 < F → depth r1 F x1 = .ok d1) ∧ d1 + 1 = d) ∨
                (siblingFamilyBlack r x = .ok false ∧ fixDeleteStep r1 x1 = .ok none ∧
                  (x1 = r1.root ∨ r1.getColor x1 = .ok RED)))) ∧
      ∃ i rl xl r', fixDeleteIters (d0 + 1) r0 x0 = .ok i ∧ i ≤ d0 ∧
        FixDeleteHead r0 x0 i rl xl ∧ fixDeleteStep rl xl = .ok none ∧
        (xl = rl.root ∨ rl.getColor xl = .ok RED) ∧
        fixDelete (d0 + 1) r0 x0 = .ok r' ∧ rl.setColor xl BLACK = .ok r' ∧
        r'.getColor xl = .ok BLACK ∧ Remove 32 60 insertedMap = .ok r' :=
  C20_delete_fixup_terminates insertedMap_reach 60 32 insertedMap_next (by decide!)

/-- Two tests that agree on the members of a list find the same member. -/
theorem find_congr_mem {α : Type} (p q : α → Bool) (l : List α)
    (hpq : ∀ x, x ∈ l → p x = q x) : List.find? p l = List.find? q l := by
  induction l with
  | nil => rfl
  | cons x rest ih =>
    have hx := hpq x (List.mem_cons_self _ _)
    have hrest := ih (fun y hy => hpq y (List.mem_cons_of_mem _ hy))
    simp only [List.find?, hx, hrest]

/-- Under a strict total order at most one of two keys is ordered before the other. -/
theorem StrictTotal.asymm {cmp : K → K → Bool} (hst : StrictTotal cmp) {a b : K}
    (h : cmp a b = true) : cmp b a = false := by
  cases hb : cmp b a
  · rfl
  · have := hst.trans a b a h hb
    rw [hst.irrefl] at this
    cases this

/-- C23: on every reachable map with a strict total order (the default `less` is one) and
for every key `q`, `LowerBound q` and `UpperBound q` complete; when `q` is stored,
`LowerBound q` returns `q` with the value stored for it (the one `Get q` returns) and
`found = true`, and `UpperBound q` returns something else; when `q` is not stored, the two
return the same key, value and flag. -/
theorem C23_bounds_differ_only_on_stored_keys [DecidableEq K] [Inhabited K] [Inhabited V]
    {cmp : K → K → Bool} (hst : StrictTotal cmp) {ops : List (Op K V)} {s : RBTreeMap K V}
    (hr : Reach cmp ops s) (q : K) (fuel : Nat) (hf : s.next ≤ fuel) :
    ∃ l lo up, InOrderAll fuel s = .ok l ∧ LowerBound fuel q s = .ok lo ∧
      UpperBound fuel q s = .ok up ∧
      (∀ v, (q, v) ∈ l →
        lo = (q, v, true) ∧ Get fuel q s = .ok (v, true) ∧ up ≠ lo) ∧
      (q ∉ l.map Prod.fst → lo = up) := by
  obtain ⟨T, hT, rfl, hsorted, -⟩ := hr.model hst
  have hb : T.BST s.compare := Tree.bst_of_pairwise (by rw [Tree.keys_eq_map]; exact hsorted)
  have hnd := pairwise_nodup hst hsorted
  have hlo := boundT_find s.compare (fun ck => !s.compare ck q)
    (fun x y hxy hy => by
      simp only [Bool.not_eq_false'] at hy ⊢
      exact hst.trans _ _ _ hxy hy) T none hb
  have hup := boundT_find s.compare (fun ck => s.compare q ck)
    (fun x y hxy (hy : s.compare q y = false) => show s.compare q x = false from by
      cases hx : s.compare q x
      · rfl
      · rw [hst.trans _ _ _ hx hxy] at hy; cases hy) T none hb
  have hfirst := find_first s.compare (fun ck => !s.compare ck q) T.toList hsorted
  have hfirstU := find_first s.compare (fun ck => s.compare q ck) T.toList hsorted
  refine ⟨T.toList, _, _, InOrderAll_sim hT fuel hf, LowerBound_sim hT q fuel hf,
    UpperBound_sim hT q fuel hf, ?_, ?_⟩
  · intro v hv
    rw [hlo, hup]
    have hlow : List.find? (fun p => !s.compare p.1 q) T.toList = some (q, v) := by
      cases hfd : List.find? (fun p => !s.compare p.1 q) T.toList with
      | none =>
        rw [hfd] at hfirst
        simp only [Bool.not_eq_false'] at hfirst
        have := hfirst (q, v) hv
        rw [hst.irrefl] at this
        cases this
      | some p =>
        rw [hfd] at hfirst
        simp only [Bool.not_eq_true'] at hfirst
        obtain ⟨h1, h2, h3⟩ := hfirst
        have hq : p.1 = q := by
          rcases h3 (q, v) hv (hst.irrefl q) with e | e
          · exact e.symm
          · rw [h2] at e; cases e
        obtain ⟨pk, pv⟩ := p
        simp only at hq
        subst hq
        rw [mem_unique_of_nodup_keys hnd h1 hv]
    refine ⟨by rw [hlow], ?_, ?_⟩
    · rw [Get_sim hT q fuel hf, getT_eq_lookup hst hb, lookupL_of_mem hnd hv]
      rfl
    · rw [hlow]
      cases hfd : List.find? (fun p => s.compare q p.1) T.toList with
      | none => simp [boundOut]
      | some p =>
        rw [hfd] at hfirstU
        obtain ⟨-, h2, -⟩ := hfirstU
        intro e
        have e1 : p.1 = q := congrArg Prod.fst e
        simp only at h2
        rw [e1, hst.irrefl] at h2
        cases h2
  · intro hq
    rw [hlo, hup]
    congr 1
    refine find_congr_mem _ _ _ (fun p hp => ?_)
    have hne : p.1 ≠ q := fun e => hq (List.mem_map.2 ⟨p, hp, e⟩)
    show (!s.compare p.1 q) = s.compare q p.1
    cases h1 : s.compare p.1 q
    · rcases hst.total p.1 q hne with h | h
      · rw [h1] at h; cases h
      · rw [h]; rfl
    · rw [hst.asymm h1]; rfl

/-- Witness of C23 on the map of the bounds scenario (keys 10, 20, 30, 50, 60), with the
stored key 30. -/
theorem C23_witness :
    ∃ l lo up, InOrderAll 16 boundsMap = .ok l ∧ LowerBound 16 30 boundsMap = .ok lo ∧
      UpperBound 16 30 boundsMap = .ok up ∧
      (∀ v, ((30 : Int), v) ∈ l →
        lo = (30, v, true) ∧ Get 16 30 boundsMap = .ok (v, true) ∧ up ≠ lo) ∧
      ((30 : Int) ∉ l.map Prod.fst → lo = up) :=
  C23_bounds_differ_only_on_stored_keys less_strictTotal boundsMap_reach 30 16
    boundsMap_next

theorem tensMap_reach : Reach byTens tensOps tensMap :=
  Reach.of_run 8 _ (Res.eq_ok_getD _ (by decide!))

/-- Counterexample to C24 as stated: `byTens` is a strict weak order; after `Insert` of 1, 2
and 15 the traversal yields the key 1, the root holds 2 with 1 to its left, yet the search
for 1 goes right at the root (1 is not ordered before 2) and ends at the sentinel: `Get 1`
and `ContainsKey 1` report not-found, and `Remove 1` removes nothing. -/
theorem C24_counterexample :
    StrictWeak byTens ∧ Reach byTens tensOps tensMap ∧
    InOrderAll 8 tensMap = .ok [(1, true), (2, true), (15, true)] ∧
    tensMap.getKey tensMap.root = .ok 2 ∧
    Get 8 1 tensMap = .ok (false, false) ∧ ContainsKey 8 1 tensMap = .ok false ∧
    ∃ s', Remove 8 1 tensMap = .ok s' ∧ Size s' = Size tensMap ∧ Size s' = 3 ∧
      InOrderAll 8 s' = .ok [(1, true), (2, true), (15, true)] :=
  ⟨byTens_strictWeak, tensMap_reach, by decide!, by decide!, by decide!, by decide!,
    (Remove 8 1 tensMap).getD tensMap, Res.eq_ok_getD _ (by decide!), by decide!,
    by decide!, by decide!⟩

/-- C24 (amended): on every map reachable with an ordering predicate that is a strict total
order (the default `less` is one), by `Insert` calls and also by `Remove` calls, every key
that a full `InOrder` traversal yields is found by `Get`, with the value paired with it, and
by `ContainsKey`, and `Remove` removes it: afterwards `Size` is one less, the traversal no
longer yields the key and `ContainsKey` reports it absent. -/
theorem C24_stored_keys_retrievable_under_total_order [DecidableEq K] [Inhabited K]
    [Inhabited V] {cmp : K → K → Bool} (hst : StrictTotal cmp) {ops : List (Op K V)}
    {s : RBTreeMap K V} (hr : Reach cmp ops s) (fuel : Nat) (hf : s.next ≤ fuel) :
    ∃ l, InOrderAll fuel s = .ok l ∧
      ∀ k v, (k, v) ∈ l →
        Get fuel k s = .ok (v, true) ∧ ContainsKey fuel k s = .ok true ∧
        ∃ s' l', Remove fuel k s = .ok s' ∧ Size s' = Size s - 1 ∧
          InOrderAll fuel s' = .ok l' ∧ k ∉ l'.map Prod.fst ∧
          ContainsKey fuel k s' = .ok false := by
  obtain ⟨T, hT, rfl, hsorted, -⟩ := hr.model hst
  have hb : T.BST s.compare := Tree.bst_of_pairwise (by rw [Tree.keys_eq_map]; exact hsorted)
  have hnd := pairwise_nodup hst hsorted
  refine ⟨T.toList, InOrderAll_sim hT fuel hf, fun k v hv => ?_⟩
  have hget : getT s.compare k T = (v, true) := by
    rw [getT_eq_lookup hst hb, lookupL_of_mem hnd hv]
    rfl
  obtain ⟨s', e, hT', hc', -, hn⟩ := Remove_inv hT k fuel hf
  have hf' : s'.next ≤ fuel := hn ▸ hf
  obtain ⟨L, mid, R, hsp, -, hrm, hg, -⟩ := op_split hst hb k
  have hrm := hrm hT.rb
  have hsorted' := hsp.sorted_remove hsorted
  rw [← hrm] at hsorted'
  have hb' : (removeT s.compare k T).BST s.compare :=
    Tree.bst_of_pairwise (by rw [Tree.keys_eq_map]; exact hsorted')
  have hmid : mid.length = 1 := by
    rw [hg] at hget
    rcases hsp.mid with rfl | ⟨w, rfl⟩
    · simp at hget
    · rfl
  have hlook : lookupL k (removeT s.compare k T).toList = none := by
    rw [hrm]; exact hsp.lookup_remove_self hst
  refine ⟨by rw [Get_sim hT k fuel hf, hget], by rw [ContainsKey_sim hT k fuel hf, hget],
    s', _, e, ?_, InOrderAll_sim hT' fuel hf', ?_, ?_⟩
  · have h1 := Tree.size_eq_length (fun _ k v => (k, v)) T
    have h2 := Tree.size_eq_length (fun _ k v => (k, v)) (removeT s.compare k T)
    have h3 := hsp.length_remove
    have h4 : 1 ≤ T.toList.length := by
      rw [hsp.eq]
      simp only [List.length_append]
      omega
    simp only [Tree.toList] at hrm h3 h4
    rw [hrm] at h2
    rw [Size, Size, hT'.size_eq, hT.size_eq, h2, h3, h1, hmid]
    omega
  · intro hmem
    have := (lookupL_isSome k (removeT s.compare k T).toList).2 hmem
    rw [hlook] at this
    cases this
  · rw [ContainsKey_sim hT' k fuel hf', hc', getT_eq_lookup hst hb', hlook]
    rfl

/-- Witness of C24 (amended) on the map of the combined scenario. -/
theorem C24_witness :
    ∃ l, InOrderAll 32 scenarioMap = .ok l ∧
      ∀ k v, (k, v) ∈ l →
        Get 32 k scenarioMap = .ok (v, true) ∧ ContainsKey 32 k scenarioMap = .ok true ∧
        ∃ s' l', Remove 32 k scenarioMap = .ok s' ∧ Size s' = Size scenarioMap - 1 ∧
          InOrderAll 32 s' = .ok l' ∧ k ∉ l'.map Prod.fst ∧
          ContainsKey 32 k s' = .ok false :=
  C24_stored_keys_retrievable_under_total_order less_strictTotal scenarioMap_reach 32
    scenarioMap_next

theorem Tree.flat_eq_nodesC {β : Type} (g : Nat → K → V → β) (t : Tree K V) :
    t.flat g = t.nodesC.map (fun p => g p.1 p.2.2.1 p.2.2.2) := by
  induction t with
  | nil => rfl
  | node a c l k v r ihl ihr =>
    simp only [Tree.flat, Tree.nodesC, List.map_append, List.map_cons, ihl, ihr]

theorem nodesC_plug_congr : ∀ (C : List (Frame K V)) {t t' : Tree K V},
    t.nodesC = t'.nodesC → (plug C t).nodesC = (plug C t').nodesC
  | [], _, _, h => h
  | f :: rest, t, t', h => by
    cases f with
    | L a c k v r =>
      exact nodesC_plug_congr rest (by simp only [Frame.fill, Tree.nodesC, h])
    | R a c l k v =>
      exact nodesC_plug_congr rest (by simp only [Frame.fill, Tree.nodesC, h])

theorem Rep.nodeC_fields {m : Nat → Node K V} {sent : Nat} :
    ∀ {t : Tree K V} {par : Nat}, Rep m sent par t →
      ∀ {a : Nat} {c : RB.color} {k : K} {v : V}, (a, c, k, v) ∈ t.nodesC →
        (m a).color = c ∧ (m a).key = k ∧ (m a).value = v
  | .nil, _, _, _, _, _, _, hm => by simp [Tree.nodesC] at hm
  | .node a0 c0 l k0 v0 r, par, h, a, c, k, v, hm => by
    have hl := h.left
    have hr := h.right
    simp only [Rep] at h
    simp only [Tree.nodesC, List.mem_append, List.mem_cons] at hm
    rcases hm with hm | hm | hm
    · exact Rep.nodeC_fields hl hm
    · cases hm
      exact ⟨h.2.2.2.2.1, h.2.2.1, h.2.2.2.1⟩
    · exact Rep.nodeC_fields hr hm

theorem Tree.mem_addrs_nodesC (t : Tree K V) (a : Nat) :
    a ∈ t.addrs ↔ ∃ c k v, (a, c, k, v) ∈ t.nodesC := by
  rw [Tree.addrs, Tree.flat_eq_nodesC, List.mem_map]
  constructor
  · rintro ⟨⟨a', c, k, v⟩, hm, rfl⟩
    exact ⟨c, k, v, hm⟩
  · rintro ⟨c, k, v, hm⟩
    exact ⟨(a, c, k, v), hm, rfl⟩

/-- Every node of a tree is the subtree at the end of some path from the root. -/
theorem Tree.focus : ∀ (T : Tree K V) {x : Nat}, x ∈ T.addrs →
    ∃ C c l k v r, T = plug C (.node x c l k v r)
  | .nil, x, hx => by simp at hx
  | .node a c l k v r, x, hx => by
    simp only [Tree.flat_node, List.mem_append, List.mem_cons] at hx
    rcases hx with hx | rfl | hx
    · obtain ⟨C, c1, l1, k1, v1, r1, e⟩ := Tree.focus l hx
      refine ⟨C ++ [.L a c k v r], c1, l1, k1, v1, r1, ?_⟩
      rw [plug_append, ← e]
      rfl
    · exact ⟨[], c, l, k, v, r, rfl⟩
    · obtain ⟨C, c1, l1, k1, v1, r1, e⟩ := Tree.focus r hx
      refine ⟨C ++ [.R a c l k v], c1, l1, k1, v1, r1, ?_⟩
      rw [plug_append, ← e]
      rfl

/-- Two heaps that hold the same tree agree on every node of it. -/
theorem Shape.mem_eq {s s' : RBTreeMap K V} {T : Tree K V} (h : Shape s T) (h' : Shape s' T)
    (hsent : s'.sentinel = s.sentinel) : ∀ a ∈ T.addrs, s'.mem a = s.mem a := by
  intro a ha
  obtain ⟨C, c, l, k, v, r, rfl⟩ := T.focus ha
  have f1 := h.node_facts
  have f2 := h'.node_facts
  rw [hsent] at f2
  cases hn : s.mem a with
  | mk k1 v1 c1 p1 l1 r1 =>
    cases hn' : s'.mem a with
    | mk k2 v2 c2 p2 l2 r2 =>
      rw [hn] at f1
      rw [hn'] at f2
      simp only at f1 f2
      obtain ⟨-, -, e1, e2, e3, e4, e5, e6⟩ := f1
      obtain ⟨-, -, g1, g2, g3, g4, g5, g6⟩ := f2
      rw [e1, e2, e3, e4, e5, e6, g1, g2, g3, g4, g5, g6]

/-- The tree read back from a reachable map is the tree the heap holds. -/
theorem Reach.shape_toTree [DecidableEq K] [Inhabited K] [Inhabited V] {cmp : K → K → Bool}
    {ops : List (Op K V)} {s : RBTreeMap K V} (hr : Reach cmp ops s) (fuel : Nat)
    (hf : s.next ≤ fuel) : Shape s (toTree s.mem s.sentinel fuel s.root) := by
  obtain ⟨T, hT, -⟩ := hr.inv
  rw [hT.read_back fuel hf]
  exact hT.shape

/-- What two heaps share when they hold trees with the same nodes in the same order: the
traversal, the addresses, the colour, key and value of every node, and the BST ordering. -/
theorem same_nodes_facts {s s1 : RBTreeMap K V} {T T1 : Tree K V} (h : Shape s T)
    (h1 : Shape s1 T1) (e : T1.nodesC = T.nodesC) :
    T1.toList = T.toList ∧ T1.addrs = T.addrs ∧
      (∀ a ∈ T.addrs, (s1.mem a).color = (s.mem a).color ∧ (s1.mem a).key = (s.mem a).key ∧
        (s1.mem a).value = (s.mem a).value) ∧
      (∀ cmp : K → K → Bool,
        (∀ a b c, cmp a b = true → cmp b c = true → cmp a c = true) →
        T.BST cmp → T1.BST cmp) := by
  refine ⟨?_, ?_, ?_, ?_⟩
  · rw [Tree.toList, Tree.toList, Tree.flat_eq_nodesC, Tree.flat_eq_nodesC, e]
  · rw [Tree.addrs, Tree.addrs, Tree.flat_eq_nodesC, Tree.flat_eq_nodesC, e]
  · intro a ha
    obtain ⟨c, k, v, hm⟩ := (Tree.mem_addrs_nodesC T a).1 ha
    have f := Rep.nodeC_fields h.rep.2 hm
    have f1 := Rep.nodeC_fields h1.rep.2 (e ▸ hm)
    rw [f.1, f.2.1, f.2.2, f1.1, f1.2.1, f1.2.2]
    exact ⟨rfl, rfl, rfl⟩
  · intro cmp htr hb
    have hp := Tree.pairwise_of_bst htr hb
    refine Tree.bst_of_pairwise ?_
    have hk : T1.keys = T.keys := by
      rw [Tree.keys, Tree.keys, Tree.flat_eq_nodesC, Tree.flat_eq_nodesC, e]
    rw [hk]
    exact hp

/-- A left rotation followed by the right rotation at the new subtree root. -/
theorem rotateLeft_restore {s : RBTreeMap K V} {C : List (Frame K V)} {x y : Nat}
    {c c' : RB.color} {a b g : Tree K V} {k k' : K} {v v' : V}
    (h : Shape s (plug C (.node x c a k v (.node y c' b k' v' g)))) :
    ∃ s1, rotateLeft s x = .ok s1 ∧
      Shape s1 (plug C (.node y c' (.node x c a k v b) k' v' g)) ∧ Same s s1 ∧
      ∃ s2, rotateRight s1 y = .ok s2 ∧
        Shape s2 (plug C (.node x c a k v (.node y c' b k' v' g))) ∧ Same s s2 := by
  obtain ⟨s1, e1, h1, hs1⟩ := rotateLeft_at h
  obtain ⟨s2, e2, h2, hs2⟩ := rotateRight_at h1
  exact ⟨s1, e1, h1, hs1, s2, e2, h2, hs1.same_trans hs2⟩

/-- A right rotation followed by the left rotation at the new subtree root. -/
theorem rotateRight_restore {s : RBTreeMap K V} {C : List (Frame K V)} {x y : Nat}
    {c c' : RB.color} {a b g : Tree K V} {k k' : K} {v v' : V}
    (h : Shape s (plug C (.node y c' (.node x c a k v b) k' v' g))) :
    ∃ s1, rotateRight s y = .ok s1 ∧
      Shape s1 (plug C (.node x c a k v (.node y c' b k' v' g))) ∧ Same s s1 ∧
      ∃ s2, rotateLeft s1 x = .ok s2 ∧
        Shape s2 (plug C (.node y c' (.node x c a k v b) k' v' g)) ∧ Same s s2 := by
  obtain ⟨s1, e1, h1, hs1⟩ := rotateRight_at h
  obtain ⟨s2, e2, h2, hs2⟩ := rotateLeft_at h1
  exact ⟨s1, e1, h1, hs1, s2, e2, h2, hs1.same_trans hs2⟩

/-- C21: in every well-formed tree (the heap holds a tree `T` without sharing) and for every
node `x` of it whose right child is not the sentinel, `rotateLeft x` completes and leaves a
well-formed tree with the same nodes in the same order: the in-order sequence of pairs, the
addresses, and the colour, key and value of every node are unchanged, so the BST ordering
is preserved; the old right child has become the parent of `x`, and `rotateRight` applied
to it restores the original tree, every node as it was.  The same holds for `rotateRight x`
when the left child of `x` is not the sentinel, with `rotateLeft` restoring the tree. -/
theorem C21_rotations_preserve_order_nodes_colours {s : RBTreeMap K V} {T : Tree K V}
    (h : Shape s T) (x : Nat) (hx : x ∈ T.addrs) :
    ((s.mem x).right ≠ s.sentinel →
      ∃ s1 T1, rotateLeft s x = .ok s1 ∧ Shape s1 T1 ∧
        T1.nodesC = T.nodesC ∧ T1.toList = T.toList ∧ T1.addrs = T.addrs ∧
        (∀ a ∈ T.addrs, (s1.mem a).color = (s.mem a).color ∧
          (s1.mem a).key = (s.mem a).key ∧ (s1.mem a).value = (s.mem a).value) ∧
        (∀ cmp : K → K → Bool,
          (∀ a b c, cmp a b = true → cmp b c = true → cmp a c = true) →
          T.BST cmp → T1.BST cmp) ∧
        (s1.mem x).parent = (s.mem x).right ∧
        ∃ s2, rotateRight s1 (s.mem x).right = .ok s2 ∧ Shape s2 T ∧
          s2.root = s.root ∧ ∀ a ∈ T.addrs, s2.mem a = s.mem a) ∧
    ((s.mem x).left ≠ s.sentinel →
      ∃ s1 T1, rotateRight s x = .ok s1 ∧ Shape s1 T1 ∧
        T1.nodesC = T.nodesC ∧ T1.toList = T.toList ∧ T1.addrs = T.addrs ∧
        (∀ a ∈ T.addrs, (s1.mem a).color = (s.mem a).color ∧
          (s1.mem a).key = (s.mem a).key ∧ (s1.mem a).value = (s.mem a).value) ∧
        (∀ cmp : K → K → Bool,
          (∀ a b c, cmp a b = true → cmp b c = true → cmp a c = true) →
          T.BST cmp → T1.BST cmp) ∧
        (s1.mem x).parent = (s.mem x).left ∧
        ∃ s2, rotateLeft s1 (s.mem x).left = .ok s2 ∧ Shape s2 T ∧
          s2.root = s.root ∧ ∀ a ∈ T.addrs, s2.mem a = s.mem a) := by
  obtain ⟨C, c, l, k, v, r, rfl⟩ := T.focus hx
  have hf := h.node_facts
  obtain ⟨-, -, -, -, -, -, hl, hr⟩ := hf
  constructor
  · intro hne
    cases r with
    | nil => exact absurd hr hne
    | node y c' b k' v' g =>
      simp only [Tree.ptr_node] at hr
      rw [hr]
      obtain ⟨s1, e1, h1, hs1, s2, e2, h2, hs2⟩ := rotateLeft_restore h
      have e : (plug C (.node y c' (.node x c l k v b) k' v' g)).nodesC =
          (plug C (.node x c l k v (.node y c' b k' v' g))).nodesC :=
        nodesC_plug_congr C (by simp [Tree.nodesC])
      obtain ⟨f1, f2, f3, f4⟩ := same_nodes_facts h h1 e
      refine ⟨s1, _, e1, h1, e, f1, f2, f3, f4, ?_, s2, e2, h2, ?_,
        Shape.mem_eq h h2 hs2.sentinel⟩
      · exact (Shape.node_facts (C := .L y c' k' v' g :: C) h1).2.2.2.2.2.1
      · rw [h2.rep.1, h.rep.1, hs2.sentinel]
  · intro hne
    cases l with
    | nil => exact absurd hl hne
    | node y c' a k' v' b =>
      simp only [Tree.ptr_node] at hl
      rw [hl]
      obtain ⟨s1, e1, h1, hs1, s2, e2, h2, hs2⟩ := rotateRight_restore h
      have e : (plug C (.node y c' a k' v' (.node x c b k v r))).nodesC =
          (plug C (.node x c (.node y c' a k' v' b) k v r)).nodesC :=
        nodesC_plug_congr C (by simp [Tree.nodesC])
      obtain ⟨f1, f2, f3, f4⟩ := same_nodes_facts h h1 e
      refine ⟨s1, _, e1, h1, e, f1, f2, f3, f4, ?_, s2, e2, h2, ?_,
        Shape.mem_eq h h2 hs2.sentinel⟩
      · exact (Shape.node_facts (C := .R y c' a k' v' :: C) h1).2.2.2.2.2.1
      · rw [h2.rep.1, h.rep.1, hs2.sentinel]

theorem Tree.depthOf_none {x : Nat} : ∀ {t : Tree K V}, x ∉ t.addrs → t.depthOf x = none
  | .nil, _ => rfl
  | .node a c l k v r, h => by
    simp only [Tree.flat_node, List.mem_append, List.mem_cons, not_or] at h
    simp only [Tree.depthOf, h.2.1, if_false, Tree.depthOf_none h.1, Tree.depthOf_none h.2.2,
      Option.map_none']

theorem Tree.depthOf_mem {x : Nat} {t : Tree K V} {d : Nat} (h : t.depthOf x = some d) :
    x ∈ t.addrs := by
  by_contra hn
  rw [Tree.depthOf_none hn] at h
  cases h

/-- The depth of a node below a path is its depth below the hole plus the length of the
path. -/
theorem depthOf_plug {x : Nat} : ∀ (C : List (Frame K V)) {t : Tree K V} {d : Nat},
    (plug C t).addrs.Nodup → t.depthOf x = some d →
    (plug C t).depthOf x = some (d + C.length)
  | [], _, _, _, h => by simpa using h
  | f :: rest, t, d, hnd, h => by
    have hx := Tree.depthOf_mem h
    have hnd' : (f.fill t).addrs.Nodup := ((nodup_plug rest (f.fill t)).1 hnd).1
    have hfill : (f.fill t).depthOf x = some (d + 1) := by
      cases f with
      | L a c k v r =>
        simp only [Frame.fill, Tree.flat_node] at hnd'
        have hne : x ≠ a := by
          rintro rfl
          exact (List.nodup_append.1 hnd').2.2 hx (List.mem_cons_self _ _)
        simp only [Frame.fill, Tree.depthOf, hne, if_false, h]
      | R a c l k v =>
        simp only [Frame.fill, Tree.flat_node] at hnd'
        have hd := (List.nodup_append.1 hnd').2.2
        have hnl : x ∉ l.addrs := fun hl => hd hl (List.mem_cons_of_mem _ hx)
        have hne : x ≠ a := by
          rintro rfl
          exact (List.nodup_cons.1 (List.nodup_append.1 hnd').2.1).1 hx
        simp only [Frame.fill, Tree.depthOf, hne, if_false, Tree.depthOf_none hnl, h,
          Option.map_some']
    have := depthOf_plug rest hnd hfill
    simp only [plug_cons, List.length_cons]
    rw [this]
    congr 1
    omega

/-- In a well-formed tree every node that is a child has its parent link back to the node
it hangs from, and the parent link of the root leads to the sentinel. -/
theorem Shape.child_parent {s : RBTreeMap K V} {T : Tree K V} (h : Shape s T) :
    (s.root ≠ s.sentinel → s.root ∈ T.addrs ∧ (s.mem s.root).parent = s.sentinel) ∧
    ∀ n ∈ T.addrs, n ≠ 0 ∧ n ≠ s.sentinel ∧
      ∀ c, (c = (s.mem n).left ∨ c = (s.mem n).right) → c ≠ s.sentinel →
        c ∈ T.addrs ∧ (s.mem c).parent = n := by
  constructor
  · intro hne
    cases T with
    | nil => exact absurd h.rep.1 hne
    | node a c l k v r =>
      have hr : s.root = a := h.rep.1
      rw [hr]
      exact ⟨by simp, (Shape.node_facts (C := []) h).2.2.2.2.2.1⟩
  · intro n hn
    obtain ⟨C, c, l, k, v, r, rfl⟩ := T.focus hn
    obtain ⟨h0, hs, -, -, -, -, hl, hr⟩ := h.node_facts
    refine ⟨h0, hs, fun ch hch hne => ?_⟩
    rcases hch with rfl | rfl
    · cases l with
      | nil => exact absurd hl hne
      | node a ca la ka va ra =>
        rw [hl]
        refine ⟨?_, (Shape.node_facts (C := .L n c k v r :: C) h).2.2.2.2.2.1⟩
        rw [mem_plug_addrs]
        left
        simp
    · cases r with
      | nil => exact absurd hr hne
      | node a ca la ka va ra =>
        rw [hr]
        refine ⟨?_, (Shape.node_facts (C := .R n c l k v :: C) h).2.2.2.2.2.1⟩
        rw [mem_plug_addrs]
        left
        simp

/-- In a well-formed tree the parent links of a node lead to the root in as many steps as
the node is deep. -/
theorem Shape.depth_eq {s : RBTreeMap K V} {T : Tree K V} (h : Shape s T) :
    ∀ n ∈ T.addrs, ∃ d, T.depthOf n = some d ∧ ∀ F, d < F → depth s F n = .ok d := by
  intro n hn
  obtain ⟨C, c, l, k, v, r, rfl⟩ := T.focus hn
  refine ⟨C.length, ?_, depth_of_shapeX C (ShapeX.of_node h)⟩
  have := depthOf_plug (x := n) C h.nodup
    (show (Tree.node n c l k v r).depthOf n = some 0 by simp [Tree.depthOf])
  simpa using this

/-- Counterexample to C22 as stated: in the fresh map `New()`, which is reachable by the
empty sequence of calls, the root is the sentinel and its parent link is nil, not the
sentinel. -/
theorem C22_counterexample :
    Reach less ([] : List (Op Int Bool)) New ∧
    (New : RBTreeMap Int Bool).root = (New : RBTreeMap Int Bool).sentinel ∧
    (New : RBTreeMap Int Bool).getParent (New : RBTreeMap Int Bool).root = .ok 0 ∧
    (New : RBTreeMap Int Bool).getParent (New : RBTreeMap Int Bool).root ≠
      .ok (New : RBTreeMap Int Bool).sentinel :=
  ⟨Reach.new, rfl, rfl, by decide⟩

/-- C22 (amended): on every reachable map, whatever the ordering predicate, with `T` the
tree read from the root along the child links: when the tree is not empty the root is a node
and its parent link leads to the sentinel (the tree is empty exactly when the root is the
sentinel); every node of `T` is neither nil nor the sentinel, and each child of it that is
not the sentinel is a node of `T` whose parent link leads back to it; and from every node of
`T` the parent links reach the root in as many steps as the node is deep in `T`. -/
theorem C22_parent_links_consistent [DecidableEq K] [Inhabited K] [Inhabited V]
    {cmp : K → K → Bool} {ops : List (Op K V)} {s : RBTreeMap K V}
    (hr : Reach cmp ops s) (fuel : Nat) (hf : s.next ≤ fuel) :
    (s.root ≠ s.sentinel →
      s.root ∈ (toTree s.mem s.sentinel fuel s.root).addrs ∧
      s.getParent s.root = .ok s.sentinel) ∧
    (s.root = s.sentinel ↔ toTree s.mem s.sentinel fuel s.root = .nil) ∧
    (∀ n ∈ (toTree s.mem s.sentinel fuel s.root).addrs, n ≠ 0 ∧ n ≠ s.sentinel ∧
      ∀ c, (s.getLeft n = .ok c ∨ s.getRight n = .ok c) → c ≠ s.sentinel →
        c ∈ (toTree s.mem s.sentinel fuel s.root).addrs ∧ s.getParent c = .ok n) ∧
    (∀ n ∈ (toTree s.mem s.sentinel fuel s.root).addrs,
      ∃ d, (toTree s.mem s.sentinel fuel s.root).depthOf n = some d ∧
        ∀ F, d < F → depth s F n = .ok d) := by
  have h := hr.shape_toTree fuel hf
  obtain ⟨h1, h2⟩ := h.child_parent
  refine ⟨fun hne => ?_, ?_, fun n hn => ?_, h.depth_eq⟩
  · obtain ⟨hm, hp⟩ := h1 hne
    have h0 := (h2 _ hm).1
    exact ⟨hm, by simp [RBTreeMap.getParent, h0, hp]⟩
  · constructor
    · intro e
      cases hT : toTree s.mem s.sentinel fuel s.root with
      | nil => rfl
      | node a c l k v r =>
        exfalso
        rw [hT] at h
        have hr' : s.root = a := h.rep.1
        exact (Shape.node_facts (C := []) h).2.1 (hr'.symm.trans e)
    · intro e
      have := h.rep.1
      rw [e] at this
      exact this
  · obtain ⟨h0, hs, hch⟩ := h2 n hn
    refine ⟨h0, hs, fun c hc hne => ?_⟩
    have hc' : c = (s.mem n).left ∨ c = (s.mem n).right := by
      rcases hc with hc | hc
      · left
        simpa [RBTreeMap.getLeft, h0] using hc.symm
      · right
        simpa [RBTreeMap.getRight, h0] using hc.symm
    obtain ⟨hm, hp⟩ := hch c hc' hne
    have hc0 := (h2 c hm).1
    exact ⟨hm, by simp [RBTreeMap.getParent, hc0, hp]⟩

/-- Witness of C21: the rotations at the root of the map of the bounds scenario, whose
children are both nodes. -/
theorem C21_witness :
    boundsMap.root ∈ boundsTree.addrs ∧
    (boundsMap.mem boundsMap.root).right ≠ boundsMap.sentinel ∧
    (boundsMap.mem boundsMap.root).left ≠ boundsMap.sentinel ∧
    ((boundsMap.mem boundsMap.root).right ≠ boundsMap.sentinel →
      ∃ s1 T1, rotateLeft boundsMap boundsMap.root = .ok s1 ∧ Shape s1 T1 ∧
        T1.nodesC = boundsTree.nodesC ∧ T1.toList = boundsTree.toList ∧
        T1.addrs = boundsTree.addrs ∧
        (∀ a ∈ boundsTree.addrs, (s1.mem a).color = (boundsMap.mem a).color ∧
          (s1.mem a).key = (boundsMap.mem a).key ∧
          (s1.mem a).value = (boundsMap.mem a).value) ∧
        (∀ cmp : Int → Int → Bool,
          (∀ a b c, cmp a b = true → cmp b c = true → cmp a c = true) →
          boundsTree.BST cmp → T1.BST cmp) ∧
        (s1.mem boundsMap.root).parent = (boundsMap.mem boundsMap.root).right ∧
        ∃ s2, rotateRight s1 (boundsMap.mem boundsMap.root).right = .ok s2 ∧
          Shape s2 boundsTree ∧ s2.root = boundsMap.root ∧
          ∀ a ∈ boundsTree.addrs, s2.mem a = boundsMap.mem a) ∧
    ((boundsMap.mem boundsMap.root).left ≠ boundsMap.sentinel →
      ∃ s1 T1, rotateRight boundsMap boundsMap.root = .ok s1 ∧ Shape s1 T1 ∧
        T1.nodesC = boundsTree.nodesC ∧ T1.toList = boundsTree.toList ∧
        T1.addrs = boundsTree.addrs ∧
        (∀ a ∈ boundsTree.addrs, (s1.mem a).color = (boundsMap.mem a).color ∧
          (s1.mem a).key = (boundsMap.mem a).key ∧
          (s1.mem a).value = (boundsMap.mem a).value) ∧
        (∀ cmp : Int → Int → Bool,
          (∀ a b c, cmp a b = true → cmp b c = true → cmp a c = true) →
          boundsTree.BST cmp → T1.BST cmp) ∧
        (s1.mem boundsMap.root).parent = (boundsMap.mem boundsMap.root).left ∧
        ∃ s2, rotateLeft s1 (boundsMap.mem boundsMap.root).left = .ok s2 ∧
          Shape s2 boundsTree ∧ s2.root = boundsMap.root ∧
          ∀ a ∈ boundsTree.addrs, s2.mem a = boundsMap.mem a) :=
  ⟨by decide!, by decide!, by decide!,
    C21_rotations_preserve_order_nodes_colours
      (boundsMap_reach.shape_toTree 16 boundsMap_next) boundsMap.root (by decide!)⟩

/-- Witness of C22 (amended) on the map of the bounds scenario. -/
theorem C22_witness :
    (boundsMap.root ≠ boundsMap.sentinel →
      boundsMap.root ∈ (toTree boundsMap.mem boundsMap.sentinel 16 boundsMap.root).addrs ∧
      boundsMap.getParent boundsMap.root = .ok boundsMap.sentinel) ∧
    (boundsMap.root = boundsMap.sentinel ↔
      toTree boundsMap.mem boundsMap.sentinel 16 boundsMap.root = .nil) ∧
    (∀ n ∈ (toTree boundsMap.mem boundsMap.sentinel 16 boundsMap.root).addrs,
      n ≠ 0 ∧ n ≠ boundsMap.sentinel ∧
      ∀ c, (boundsMap.getLeft n = .ok c ∨ boundsMap.getRight n = .ok c) →
        c ≠ boundsMap.sentinel →
        c ∈ (toTree boundsMap.mem boundsMap.sentinel 16 boundsMap.root).addrs ∧
        boundsMap.getParent c = .ok n) ∧
    (∀ n ∈ (toTree boundsMap.mem boundsMap.sentinel 16 boundsMap.root).addrs,
      ∃ d, (toTree boundsMap.mem boundsMap.sentinel 16 boundsMap.root).depthOf n = some d ∧
        ∀ F, d < F → depth boundsMap F n = .ok d) :=
  C22_parent_links_consistent boundsMap_reach 16 boundsMap_next

/-- A traced consumer whose first `false` is its `n`-th answer was handed the first `n` pairs
of the list and no other. -/
theorem feed_traced_stop {σ : Type} (yield : σ → K → V → σ × Bool) :
    ∀ (l : List (K × V)) (n : Nat) (a : σ) (acc : List (K × V)),
      answers yield a (l.take n) = List.replicate (n - 1) true ++ [false] →
      feed (traced yield) (a, acc) l = (feed yield a l, acc ++ l.take n)
  | [], n, a, acc, h => by
    rw [List.take_nil] at h
    have := congrArg List.length h
    simp [answers] at this
  | (k, v) :: rest, 0, a, acc, h => by
    have := congrArg List.length h
    simp [answers] at this
  | (k, v) :: rest, 1, a, acc, h => by
    simp only [List.take_succ_cons, List.take_zero, answers, Nat.sub_self, List.replicate_zero,
      List.nil_append, List.cons.injEq, and_true] at h
    simp only [feed, traced, h, Bool.false_eq_true, if_false, List.take_succ_cons,
      List.take_zero]
  | (k, v) :: rest, m + 2, a, acc, h => by
    have e : m + 2 - 1 = m + 1 := rfl
    simp only [List.take_succ_cons, answers] at h
    rw [e, List.replicate_succ, List.cons_append, List.cons.injEq] at h
    have h1 := h.1
    have h2 := h.2
    have ih := feed_traced_stop yield rest (m + 1) (yield a k v).1 (acc ++ [(k, v)])
      (by simpa using h2)
    simp only [feed, traced, h1, if_true, List.take_succ_cons]
    rw [ih]
    simp

/-- A traced consumer that never answers `false` was handed every pair of the list. -/
theorem feed_traced_all {σ : Type} (yield : σ → K → V → σ × Bool) :
    ∀ (l : List (K × V)) (a : σ) (acc : List (K × V)),
      (∀ b ∈ answers yield a l, b = true) →
      feed (traced yield) (a, acc) l = (feed yield a l, acc ++ l)
  | [], a, acc, _ => by simp [feed]
  | (k, v) :: rest, a, acc, h => by
    have h1 : (yield a k v).2 = true := h _ (by simp [answers])
    have ih := feed_traced_all yield rest (yield a k v).1 (acc ++ [(k, v)])
      (fun b hb => h b (by simp [answers, hb]))
    simp only [feed, traced, h1, if_true]
    rw [ih]
    simp

/-- C17: on every reachable map `InOrder` completes and hands its consumer the stored pairs,
that is the in-order listing `l` of the tree read from the heap (as many pairs as `Size`), one
after the other until the consumer answers `false`, and does not call it again: a consumer
whose first `false` is its `n`-th answer has been handed exactly the first `n` pairs of `l`,
one that never answers `false` all of `l`; the map is only read, so a traversal made after an
interrupted one starts again at the first pair; under a strict total order `l` is strictly
ascending, its keys are those of the reference set and exactly those `Get` finds, so the first
pair handed holds the smallest stored key; and on an empty map the consumer is never
called. -/
theorem C17_inorder_early_stop_and_restart [DecidableEq K] [Inhabited K] [Inhabited V]
    {cmp : K → K → Bool} {ops : List (Op K V)} {s : RBTreeMap K V}
    (hr : Reach cmp ops s) (fuel : Nat) (hf : s.next ≤ fuel) :
    ∃ l, l = (toTree s.mem s.sentinel fuel s.root).toList ∧
      InOrderAll fuel s = .ok l ∧ (l.length : Int) = Size s ∧
      (∀ (σ : Type) (yield : σ → K → V → σ × Bool) (init : σ),
        InOrder fuel s yield init = .ok (feed yield init l) ∧
        (∀ n, answers yield init (l.take n) = List.replicate (n - 1) true ++ [false] →
          InOrder fuel s (traced yield) (init, []) = .ok (feed yield init l, l.take n)) ∧
        ((∀ b ∈ answers yield init l, b = true) →
          InOrder fuel s (traced yield) (init, []) = .ok (feed yield init l, l))) ∧
      (∀ n, 1 ≤ n → InOrder fuel s (stopAfter n) [] = .ok (l.take n) ∧
        ∀ m, 1 ≤ m →
          (InOrder fuel s (stopAfter n) []).bind (fun _ => InOrder fuel s (stopAfter m) []) =
            .ok (l.take m)) ∧
      (StrictTotal cmp →
        (l.map Prod.fst).Pairwise (fun a b => cmp a b = true) ∧
        (∀ x, x ∈ l.map Prod.fst ↔ x ∈ refKeys ops) ∧
        (∀ k v, (k, v) ∈ l ↔ Get fuel k s = .ok (v, true)) ∧
        (∀ p rest, l = p :: rest →
          InOrder fuel s (stopAfter 1) [] = .ok [p] ∧
          ∀ k, ContainsKey fuel k s = .ok true → k ≠ p.1 → cmp p.1 k = true)) ∧
      (Size s = 0 → l = [] ∧ ∀ (σ : Type) (yield : σ → K → V → σ × Bool) (init : σ),
        InOrder fuel s yield init = .ok init) := by
  obtain ⟨T, hT, hc⟩ := hr.inv
  have hstop : ∀ n, 1 ≤ n → InOrder fuel s (stopAfter n) [] = .ok (T.toList.take n) := by
    intro n hn
    rw [InOrder_sim hT _ _ fuel hf, feed_stopAfter n _ [] (by simpa using hn)]
    simp
  have hlen : (T.toList.length : Int) = Size s := by
    have h1 := hT.size_eq
    have h2 := Tree.size_eq_length (fun _ k v => (k, v)) T
    rw [Size, h1, h2]
  refine ⟨T.toList, by rw [hT.read_back fuel hf], InOrderAll_sim hT fuel hf, hlen,
    fun σ yield init => ⟨InOrder_sim hT yield init fuel hf, fun n hn => ?_, fun hall => ?_⟩,
    fun n hn => ⟨hstop n hn, fun m hm => ?_⟩, fun hst => ?_, fun h0 => ?_⟩
  · rw [InOrder_sim hT _ _ fuel hf, feed_traced_stop yield _ n init [] hn, List.nil_append]
  · rw [InOrder_sim hT _ _ fuel hf, feed_traced_all yield _ init [] hall, List.nil_append]
  · rw [hstop n hn, hstop m hm]
    rfl
  · obtain ⟨T', hT', -, hsorted, hS⟩ := hr.model hst
    have e1 := hT.read_back fuel hf
    have e2 := hT'.read_back fuel hf
    have e : T' = T := e2.symm.trans e1
    subst e
    subst hc
    have hb : T'.BST s.compare :=
      Tree.bst_of_pairwise (by rw [Tree.keys_eq_map]; exact hsorted)
    have hnd := pairwise_nodup hst hsorted
    have hget : ∀ k, Get fuel k s = .ok (optOut (lookupL k T'.toList)) := fun k => by
      rw [Get_sim hT k fuel hf, getT_eq_lookup hst hb]
    have hcon : ∀ k, ContainsKey fuel k s = .ok (optOut (lookupL k T'.toList)).2 := fun k => by
      rw [ContainsKey_sim hT k fuel hf, getT_eq_lookup hst hb]
    refine ⟨hsorted, hS, fun k v => ⟨fun hv => ?_, fun hg => ?_⟩, fun p rest hl => ⟨?_, ?_⟩⟩
    · rw [hget, lookupL_of_mem hnd hv]
      rfl
    · rw [hget] at hg
      cases hl : lookupL k T'.toList with
      | none =>
        rw [hl] at hg
        simp [optOut] at hg
      | some w =>
        rw [hl] at hg
        simp only [optOut, Res.ok.injEq, Prod.mk.injEq, and_true] at hg
        subst hg
        exact lookupL_mem k w _ hl
    · rw [hstop 1 (Nat.le_refl _), hl]
      rfl
    · intro k hk hne
      rw [hcon] at hk
      have hmem : k ∈ T'.toList.map Prod.fst := by
        refine (lookupL_isSome k _).1 ?_
        cases hl2 : lookupL k T'.toList with
        | none =>
          rw [hl2] at hk
          simp [optOut] at hk
        | some w => rfl
      rw [hl] at hmem hsorted
      simp only [List.map_cons, List.mem_cons, List.pairwise_cons] at hmem hsorted
      rcases hmem with e | hm
      · exact absurd e hne
      · exact hsorted.1 k hm
  · have hnil : T.toList = [] := by
      rw [h0] at hlen
      exact List.length_eq_zero.1 (by exact_mod_cast hlen)
    refine ⟨hnil, fun σ yield init => ?_⟩
    rw [InOrder_sim hT yield init fuel hf, hnil]
    rfl

/-- Witness of C17 on the map of the combined scenario, which stores the ten keys 15, 20, 30,
40, 55, 60, 65, 70, 80 and 90: a consumer stopping at its third pair is handed 15, 20, 30. -/
theorem C17_witness :
    scenarioMap.next ≤ 32 ∧
    InOrder 32 scenarioMap (stopAfter 3) [] = .ok [(15, true), (20, true), (30, true)] ∧
    ∃ l, l = (toTree scenarioMap.mem scenarioMap.sentinel 32 scenarioMap.root).toList ∧
      InOrderAll 32 scenarioMap = .ok l ∧ (l.length : Int) = Size scenarioMap ∧
      (∀ (σ : Type) (yield : σ → Int → Bool → σ × Bool) (init : σ),
        InOrder 32 scenarioMap yield init = .ok (feed yield init l) ∧
        (∀ n, answers yield init (l.take n) = List.replicate (n - 1) true ++ [false] →
          InOrder 32 scenarioMap (traced yield) (init, []) =
            .ok (feed yield init l, l.take n)) ∧
        ((∀ b ∈ answers yield init l, b = true) →
          InOrder 32 scenarioMap (traced yield) (init, []) = .ok (feed yield init l, l))) ∧
      (∀ n, 1 ≤ n → InOrder 32 scenarioMap (stopAfter n) [] = .ok (l.take n) ∧
        ∀ m, 1 ≤ m →
          (InOrder 32 scenarioMap (stopAfter n) []).bind
              (fun _ => InOrder 32 scenarioMap (stopAfter m) []) =
            .ok (l.take m)) ∧
      (StrictTotal (less : Int → Int → Bool) →
        (l.map Prod.fst).Pairwise (fun a b => less a b = true) ∧
        (∀ x, x ∈ l.map Prod.fst ↔ x ∈ refKeys (scenarioInserts ++ scenarioRemoves)) ∧
        (∀ k v, (k, v) ∈ l ↔ Get 32 k scenarioMap = .ok (v, true)) ∧
        (∀ p rest, l = p :: rest →
          InOrder 32 scenarioMap (stopAfter 1) [] = .ok [p] ∧
          ∀ k, ContainsKey 32 k scenarioMap = .ok true → k ≠ p.1 → less p.1 k = true)) ∧
      (Size scenarioMap = 0 → l = [] ∧
        ∀ (σ : Type) (yield : σ → Int → Bool → σ × Bool) (init : σ),
          InOrder 32 scenarioMap yield init = .ok init) :=
  ⟨scenarioMap_next, by decide!,
    C17_inorder_early_stop_and_restart scenarioMap_reach 32 scenarioMap_next⟩

end RB
